import Mathlib

/-!
# The in-memory namespace table of the memfs sample (`fs_filenodes`)

A shallow embedding of `samples/dokan_memory/FileNodes.cpp`: the path map
`_filenodes`, the directory index `_directoryPaths`, the `fileindex` counter and
the operations `add`, `find`, `list_folder`, `remove`, `move` and
`get_stream_names`, followed by theorems about them.

Conventions of the embedding.

* A `std::wstring` is a `List Char`.
* A `std::shared_ptr<filenode>` is a `NodeId` (the address of the node object);
  the node objects live in the heap component `nodes` of the state, because the
  table and its callers share and mutate them in place.
* `std::set<std::shared_ptr<filenode>>` orders its elements by address: it is a
  strictly increasing list of `NodeId`s, iterated from the smallest address up.
* `std::unordered_map` lookups are partial functions from keys to values.
* The recursive operations `remove` and `move` take a fuel argument bounding the
  depth of the recursion; `none` means that the fuel did not suffice.
* `LONGLONG` values are natural numbers (the counter only ever grows by one per
  call, so it does not wrap within the lifetime of a process).
-/

namespace memfs

/-! ## Wide strings and `std::filesystem::path` (Windows flavour) -/

abbrev WString := List Char

/-- Directory separators of a Windows path: the backslash and the slash. -/
def is_slash (c : Char) : Bool := c == Char.ofNat 92 || c == '/'

/-- The preferred separator of a Windows path, the backslash. -/
def preferred_separator : Char := Char.ofNat 92

/-- A path starts with a drive letter when its first character is an ASCII
letter and its second one a colon. -/
def drive_letter_prefixed : WString → Bool
  | c :: d :: _ => c.isAlpha && d == ':'
  | _ => false

/-- Length of the root-name of a path: `X:`, `\\server`, or the three
characters of `\\?\`, `\\.\` and `\??\`; zero when there is none. -/
def find_root_name_end (s : WString) : Nat :=
  if s.length < 2 then 0
  else if drive_letter_prefixed s then 2
  else if !is_slash (s.getD 0 ' ') then 0
  else if decide (4 ≤ s.length) && is_slash (s.getD 3 ' ')
      && (s.length == 4 || !is_slash (s.getD 4 ' '))
      && ((is_slash (s.getD 1 ' ') && (s.getD 2 ' ' == '?' || s.getD 2 ' ' == '.'))
          || (s.getD 1 ' ' == '?' && s.getD 2 ' ' == '?')) then 3
  else if decide (3 ≤ s.length) && is_slash (s.getD 1 ' ') && !is_slash (s.getD 2 ' ') then
    3 + ((s.drop 3).takeWhile (fun c => !is_slash c)).length
  else 0

/-- Start of the relative-path part: after the root-name and the slashes of the
root-directory. -/
def find_relative_path (s : WString) : Nat :=
  let r := find_root_name_end s
  r + ((s.drop r).takeWhile is_slash).length

/-- The path without its final component: within the relative-path part the
trailing file name is dropped and then the trailing slashes
(`std::filesystem::path::parent_path`). -/
def parent_path (s : WString) : WString :=
  let r := find_relative_path s
  s.take r ++
    (((s.drop r).reverse.dropWhile (fun c => !is_slash c)).dropWhile is_slash).reverse

/-- The final component of a path: the characters after the last slash of the
relative-path part (`std::filesystem::path::filename`). -/
def filename (s : WString) : WString :=
  ((s.drop (find_relative_path s)).reverse.takeWhile (fun c => !is_slash c)).reverse

/-- Whether a path is absolute (`std::filesystem::path::is_absolute`). -/
def is_absolute (s : WString) : Bool :=
  if drive_letter_prefixed s then decide (3 ≤ s.length) && is_slash (s.getD 2 ' ')
  else find_root_name_end s != 0

/-- Appending a path to a path (`std::filesystem::path::append`). -/
def path_append (p o : WString) : WString :=
  if is_absolute o then o
  else
    let mr := find_root_name_end p
    let orn := find_root_name_end o
    if orn != 0 && p.take mr != o.take orn then o
    else
      let base : WString :=
        if decide (orn < o.length) && is_slash (o.getD orn ' ') then p.take mr
        else if mr == p.length then
          (if decide (3 ≤ mr) then p ++ [preferred_separator] else p)
        else if !is_slash (p.getLast?.getD ' ') then p ++ [preferred_separator]
        else p
      base ++ o.drop orn

/-- A relative-path part with every run of slashes replaced by one preferred
separator; `after_slash` tells that the character before was a slash. -/
def collapse_slashes (after_slash : Bool) : WString → WString
  | [] => []
  | c :: cs =>
    if is_slash c then
      (if after_slash then collapse_slashes true cs
       else preferred_separator :: collapse_slashes true cs)
    else c :: collapse_slashes false cs

/-- Element-wise comparison of two relative-path parts, a run of slashes
counting as one separator whichever slashes it is made of (the loop of
`std::filesystem::path::compare`). -/
def relative_eq (a b : WString) : Bool :=
  collapse_slashes false a == collapse_slashes false b

/-- Equality of two paths (`operator==` of `std::filesystem::path`): same
root-name, same presence of a root-directory, same relative-path elements. -/
def path_eq (a b : WString) : Bool :=
  let ra := find_root_name_end a
  let rb := find_root_name_end b
  a.take ra == b.take rb
    && (find_relative_path a != ra) == (find_relative_path b != rb)
    && relative_eq (a.drop (find_relative_path a)) (b.drop (find_relative_path b))

/-! ## Node objects and the table -/

/-- Address of a node object (`std::shared_ptr<filenode>`). -/
abbrev NodeId := Nat

/-- The status codes the table returns. -/
inductive NTSTATUS where
  | STATUS_SUCCESS
  | STATUS_OBJECT_PATH_NOT_FOUND
  | STATUS_OBJECT_NAME_NOT_FOUND
  | STATUS_OBJECT_NAME_COLLISION
  | STATUS_ACCESS_DENIED
deriving DecidableEq, Repr

open NTSTATUS

def FILE_ATTRIBUTE_READONLY : Nat := 1

def FILE_ATTRIBUTE_DIRECTORY : Nat := 16

/-- Modelled from the spec: the node entity of `filenode.h`, which is not part
of the sources at hand. The fields are the ones `FileNodes.cpp` reads and
writes: the path (`get_filename`/`set_filename`), `is_directory`, `attributes`,
`fileindex` (zero while unset), `main_stream`, and the alternate streams, kept
by `add_stream`/`remove_stream` under the stream's file name at the time of the
call and enumerated by `get_streams`. The security descriptor and the file
content are not touched by the table and are left out. -/
structure filenode where
  filename : WString
  is_directory : Bool
  attributes : Nat
  fileindex : Nat
  main_stream : Option NodeId
  streams : List (WString × NodeId)
deriving DecidableEq, Repr

/-- Modelled from the spec: a node as its constructor leaves it, with the given
path, kind and attributes, no file index, no main stream and no streams. -/
def filenode.create (name : WString) (is_directory : Bool) (attributes : Nat) : filenode :=
  { filename := name, is_directory := is_directory, attributes := attributes,
    fileindex := 0, main_stream := none, streams := [] }

/-- Modelled from the spec: `_streams[key] = stream` on the stream map of a node. -/
def streams_set (l : List (WString × NodeId)) (key : WString) (v : NodeId) :
    List (WString × NodeId) :=
  if l.any (fun kv => kv.1 == key) then
    l.map (fun kv => if kv.1 == key then (key, v) else kv)
  else l ++ [(key, v)]

/-- Modelled from the spec: `_streams.erase(key)` on the stream map of a node. -/
def streams_erase (l : List (WString × NodeId)) (key : WString) : List (WString × NodeId) :=
  l.filter (fun kv => kv.1 != key)

/-- Insertion into a `std::set` of node addresses (increasing, no duplicates). -/
def set_insert (x : NodeId) : List NodeId → List NodeId
  | [] => [x]
  | y :: ys => if x < y then x :: y :: ys else if x = y then y :: ys else y :: set_insert x ys

/-- Erasure from a `std::set` of node addresses. -/
def set_erase (x : NodeId) (l : List NodeId) : List NodeId := l.filter (fun y => y != x)

/-- The namespace table together with the heap of node objects it shares with
its callers. -/
structure fs_filenodes where
  nodes : NodeId → filenode
  _fs_fileindex_count : Nat
  _filenodes : WString → Option NodeId
  _directoryPaths : WString → Option (List NodeId)

/-- Overwrite one entry of a map or of the heap. -/
def upd {α β : Type} [DecidableEq α] (m : α → β) (k : α) (v : β) : α → β :=
  fun x => if x = k then v else m x

/-- The root path, a single backslash. -/
def root_path : WString := [preferred_separator]

/-- Modelled from the spec: the first value of the `fileindex` counter; its
declaration is in `filenodes.h`. Zero stands for an unset index, so the counter
starts at one. -/
def first_fileindex : Nat := 1

/-- The table as the constructor leaves it: the root directory node, made at
address `root`, is the only entry of the path map, and the directory index has
the root path with an empty child set. The other node objects of `heap` are the
ones callers will hand to `add`. -/
def bootstrap (root : NodeId) (heap : NodeId → filenode) : fs_filenodes :=
  { nodes := upd heap root (filenode.create root_path true FILE_ATTRIBUTE_DIRECTORY)
    _fs_fileindex_count := first_fileindex
    _filenodes := upd (fun _ => none) root_path (some root)
    _directoryPaths := upd (fun _ => none) root_path (some []) }

/-! ## The operations -/

def find (st : fs_filenodes) (name : WString) : Option NodeId := st._filenodes name

def list_folder (st : fs_filenodes) (name : WString) : List NodeId :=
  (st._directoryPaths name).getD []

/-- Splitting of the final path component at its first colon. -/
def get_stream_names (name : WString) : WString × WString :=
  let real_fileName := filename name
  let stream_pos := real_fileName.indexOf ':'
  if stream_pos = real_fileName.length then (real_fileName, [])
  else (real_fileName.take stream_pos, real_fileName.drop (stream_pos + 1))

/-- Lines 73-74 of `add`: a node without file index takes the counter's value. -/
def assign_fileindex (st : fs_filenodes) (f : NodeId) : fs_filenodes :=
  if (st.nodes f).fileindex = 0 then
    { st with
      nodes := upd st.nodes f { st.nodes f with fileindex := st._fs_fileindex_count }
      _fs_fileindex_count := st._fs_fileindex_count + 1 }
  else st

/-- Lines 93-95 of `add`: `f` becomes an alternate stream of `main_f`. -/
def link_stream (st : fs_filenodes) (main_f f : NodeId) : fs_filenodes :=
  let n1 := upd st.nodes main_f
    { st.nodes main_f with
      streams := streams_set (st.nodes main_f).streams (st.nodes f).filename f }
  let n2 := upd n1 f { n1 f with main_stream := some main_f }
  let n3 := upd n2 f { n2 f with fileindex := (n2 main_f).fileindex }
  { st with nodes := n3 }

/-- Lines 98-104 of `add`: registration in the directory index and the path map. -/
def insert_node (st : fs_filenodes) (f : NodeId) (name parent : WString) : fs_filenodes :=
  let dirs1 :=
    if (st.nodes f).is_directory && (st._directoryPaths name).isNone then
      upd st._directoryPaths name (some [])
    else st._directoryPaths
  { st with
    _filenodes := upd st._filenodes name (some f)
    _directoryPaths := upd dirs1 parent (some (set_insert f ((dirs1 parent).getD []))) }

def add (st : fs_filenodes) (f : NodeId) : fs_filenodes × NTSTATUS :=
  let st1 := assign_fileindex st f
  let name := (st1.nodes f).filename
  let parent := parent_path name
  if (st1._directoryPaths parent).isNone then (st1, STATUS_OBJECT_PATH_NOT_FOUND)
  else
    let stream_names := get_stream_names name
    if stream_names.2 ≠ [] then
      match find st1 (parent ++ stream_names.1) with
      | none => (st1, STATUS_OBJECT_PATH_NOT_FOUND)
      | some main_f => (insert_node (link_stream st1 main_f f) f name parent, STATUS_SUCCESS)
    else (insert_node st1 f name parent, STATUS_SUCCESS)

/-- Modelled from the spec: `main->remove_stream(f)`, which erases the entry kept
under the current file name of `f`. -/
def remove_stream (st : fs_filenodes) (main_f f : NodeId) : fs_filenodes :=
  { st with
    nodes := upd st.nodes main_f
      { st.nodes main_f with
        streams := streams_erase (st.nodes main_f).streams (st.nodes f).filename } }

/-- Lines 137-139 of `remove`: the node leaves the path map and the child set of
its parent path (`operator[]` makes that child set when it is missing). -/
def unlink_node (st : fs_filenodes) (f : NodeId) (name : WString) : fs_filenodes :=
  { st with
    _filenodes := upd st._filenodes name none
    _directoryPaths := upd st._directoryPaths (parent_path name)
      (some (set_erase f ((st._directoryPaths (parent_path name)).getD []))) }

/-- Line 224 of `move` and line 148 of `remove`: a key leaves the directory index. -/
def erase_directory (s : fs_filenodes) (name : WString) : fs_filenodes :=
  { s with _directoryPaths := upd s._directoryPaths name none }

/-- A loop over a container whose body may run out of fuel. -/
def for_each {α σ : Type} (body : σ → α → Option σ) : σ → List α → Option σ
  | s, [] => some s
  | s, x :: xs =>
    match body s x with
    | none => none
    | some s1 => for_each body s1 xs

/-- Body of `remove(const std::shared_ptr<filenode>&)` for a node that is not
null; `self` stands for the recursive calls. -/
def remove_body (self : fs_filenodes → Option NodeId → Option fs_filenodes)
    (st : fs_filenodes) (f : NodeId) : Option fs_filenodes :=
  let fileName := (st.nodes f).filename
  let st1 := unlink_node st f fileName
  let after_dir : Option fs_filenodes :=
    if (st1.nodes f).is_directory then
      match for_each (fun s file => self s (some file)) st1 (list_folder st1 fileName) with
      | none => none
      | some s => some (erase_directory s fileName)
    else some st1
  match after_dir with
  | none => none
  | some st2 =>
    match (st2.nodes f).main_stream with
    | some main_f => some (remove_stream st2 main_f f)
    | none => for_each (fun s stream => self s (find s stream.1)) st2 (st2.nodes f).streams

/-- The overload `remove(const std::shared_ptr<filenode>&)`; `none` as the
argument is the null pointer. -/
def remove : Nat → fs_filenodes → Option NodeId → Option fs_filenodes
  | _, st, none => some st
  | 0, _, some _ => none
  | fuel + 1, st, some f => remove_body (remove fuel) st f

/-- The overload `remove(const std::wstring&)`. -/
def remove_path (fuel : Nat) (st : fs_filenodes) (name : WString) : Option fs_filenodes :=
  remove fuel st (find st name)

/-- A loop whose body returns a status; the first status other than success
ends the loop and is handed back. -/
def for_each_status {α σ : Type} (body : σ → α → Option (σ × NTSTATUS)) :
    σ → List α → Option (σ × NTSTATUS)
  | s, [] => some (s, STATUS_SUCCESS)
  | s, x :: xs =>
    match body s x with
    | none => none
    | some (s1, n) => if n ≠ STATUS_SUCCESS then some (s1, n) else for_each_status body s1 xs

/-- Modelled from the spec: `f->set_filename(name)`, the path of a node object
is overwritten in place. -/
def set_filename (st : fs_filenodes) (f : NodeId) (name : WString) : fs_filenodes :=
  { st with nodes := upd st.nodes f { st.nodes f with filename := name } }

/-- Lines 197-201 of `move`: the node takes the new file name and is handed to
`add`, whose status is dropped. -/
def rename_and_add (st : fs_filenodes) (f : NodeId) (new_filename : WString) : fs_filenodes :=
  (add (set_filename st f new_filename) f).1

/-- Lines 227-230 of `move`: the old key leaves the path map, and the node leaves
the child set of its old parent path when that path differs from the new parent
path (a comparison of `std::filesystem::path` values). -/
def move_finish (s : fs_filenodes) (f : NodeId) (old_filename oldParentPath newParent_path : WString) :
    fs_filenodes :=
  let s1 : fs_filenodes := { s with _filenodes := upd s._filenodes old_filename none }
  if !path_eq oldParentPath newParent_path then
    { s1 with
      _directoryPaths := upd s1._directoryPaths oldParentPath
        (some (set_erase f ((s1._directoryPaths oldParentPath).getD []))) }
  else s1

/-- Body of `move`; `self` stands for the recursive calls and `rm` for the calls
of `remove`. -/
def move_body (self : fs_filenodes → WString → WString → Bool → Option (fs_filenodes × NTSTATUS))
    (rm : fs_filenodes → Option NodeId → Option fs_filenodes)
    (st : fs_filenodes) (old_filename new_filename : WString) (replace_if_existing : Bool) :
    Option (fs_filenodes × NTSTATUS) :=
  match find st old_filename with
  | none => some (st, STATUS_OBJECT_NAME_NOT_FOUND)
  | some f =>
    let new_f := find st new_filename
    if !replace_if_existing && new_f.isSome then some (st, STATUS_OBJECT_NAME_COLLISION)
    else if new_f.any (fun g => (st.nodes g).attributes &&& FILE_ATTRIBUTE_READONLY != 0) then
      some (st, STATUS_ACCESS_DENIED)
    else if new_f.any (fun g => (st.nodes f).is_directory || (st.nodes g).is_directory) then
      some (st, STATUS_ACCESS_DENIED)
    else
      let newParent_path := parent_path new_filename
      if (st._directoryPaths newParent_path).isNone then
        some (st, STATUS_OBJECT_PATH_NOT_FOUND)
      else
        match rm st new_f with
        | none => none
        | some st1 =>
          let oldParentPath := parent_path (st1.nodes f).filename
          let st3 := rename_and_add st1 f new_filename
          if (st3.nodes f).is_directory then
            match for_each_status
                (fun s file =>
                  self s (s.nodes file).filename
                    (path_append new_filename (filename (s.nodes file).filename))
                    replace_if_existing)
                st3 (list_folder st3 old_filename) with
            | none => none
            | some (s, n) =>
              if n ≠ STATUS_SUCCESS then some (s, n)
              else
                some (move_finish (erase_directory s old_filename) f old_filename
                  oldParentPath newParent_path, STATUS_SUCCESS)
          else some (move_finish st3 f old_filename oldParentPath newParent_path, STATUS_SUCCESS)

def move : Nat → fs_filenodes → WString → WString → Bool → Option (fs_filenodes × NTSTATUS)
  | 0, _, _, _, _ => none
  | fuel + 1, st, old_filename, new_filename, replace_if_existing =>
    move_body (move fuel) (remove fuel) st old_filename new_filename replace_if_existing

/-! ## Relations used to state the theorems -/

/-- The state after the directory part of `remove` (lines 142-149), as a
relation: for a directory the children are removed and the child set erased. -/
def after_directory_part (self : fs_filenodes → Option NodeId → Option fs_filenodes)
    (st : fs_filenodes) (f : NodeId) (st2 : fs_filenodes) : Prop :=
  ((st.nodes f).is_directory = true ∧
      ∃ s, for_each (fun s file => self s (some file)) (unlink_node st f (st.nodes f).filename)
          (list_folder (unlink_node st f (st.nodes f).filename) (st.nodes f).filename) = some s ∧
        st2 = erase_directory s (st.nodes f).filename) ∨
  ((st.nodes f).is_directory = false ∧ st2 = unlink_node st f (st.nodes f).filename)

/-- The result of the stream part of `remove` (lines 152-160), as a relation. -/
def after_stream_part (self : fs_filenodes → Option NodeId → Option fs_filenodes)
    (st2 : fs_filenodes) (f : NodeId) (r : fs_filenodes) : Prop :=
  (∃ m, (st2.nodes f).main_stream = some m ∧ r = remove_stream st2 m f) ∨
  ((st2.nodes f).main_stream = none ∧
      for_each (fun s stream => self s (find s stream.1)) st2 (st2.nodes f).streams = some r)

/-- The fields of a node that `remove` leaves alone. -/
def same_identity (a b : filenode) : Prop :=
  b.filename = a.filename ∧ b.is_directory = a.is_directory ∧ b.attributes = a.attributes ∧
  b.fileindex = a.fileindex ∧ b.main_stream = a.main_stream

/-- The destination is read-only. -/
def dest_readonly (st : fs_filenodes) (g : NodeId) : Prop :=
  ((st.nodes g).attributes &&& FILE_ATTRIBUTE_READONLY != 0) = true

/-- No existing destination stands in the way of the move: there is none, or
replacing was asked for and neither the destination is read-only nor the
destination or the source is a directory. -/
def dest_passes (st : fs_filenodes) (f : NodeId) (n : WString) (r : Bool) : Prop :=
  find st n = none ∨
  (r = true ∧ ∀ g, find st n = some g →
    ¬ dest_readonly st g ∧ (st.nodes g).is_directory = false ∧ (st.nodes f).is_directory = false)

/-- The state a move of a node that is no directory ends in, given the state
`st1` that the removal of the destination has left. -/
def moved_file_state (st1 : fs_filenodes) (f : NodeId) (o n : WString) : fs_filenodes :=
  move_finish (rename_and_add st1 f n) f o (parent_path (st1.nodes f).filename) (parent_path n)

/-- Every key of the path map is the file name of the node it holds. -/
def key_consistent (st : fs_filenodes) : Prop :=
  ∀ k n, st._filenodes k = some n → (st.nodes n).filename = k

/-- Every node the path map holds is in the child set of the parent path of its
key, the entries in `X` excepted. -/
def covered_off (X : WString → NodeId → Prop) (st : fs_filenodes) : Prop :=
  ∀ k n, st._filenodes k = some n → ¬ X k n →
    ∃ l, st._directoryPaths (parent_path k) = some l ∧ n ∈ l

/-- Every node the path map holds under a key other than the root path is in
the child set of the parent path of that key. -/
def children_covered (st : fs_filenodes) : Prop :=
  covered_off (fun k _ => k = root_path) st

/-- The parent path of every key of the path map other than the root path is a
key of the directory index. -/
def parent_exists (st : fs_filenodes) : Prop :=
  ∀ k, (st._filenodes k).isSome = true → k ≠ root_path →
    (st._directoryPaths (parent_path k)).isSome = true

/-- Key consistency with the keys in `E` excused: during a move the old key
still holds the node that already carries its new name. -/
def key_consistent_off (E : WString → Prop) (st : fs_filenodes) : Prop :=
  ∀ k n, st._filenodes k = some n → ¬ E k → (st.nodes n).filename = k

/-- Every member of a child set is held by the path map under its own file
name, is not the root node, and has the key of the child set as its parent
path. -/
def members_held (root : NodeId) (st : fs_filenodes) : Prop :=
  ∀ P l, st._directoryPaths P = some l → ∀ n, n ∈ l →
    st._filenodes (st.nodes n).filename = some n ∧ n ≠ root ∧
      parent_path (st.nodes n).filename = P

/-- The root node keeps the root path and stays a directory. -/
def root_fixed (root : NodeId) (st : fs_filenodes) : Prop :=
  (st.nodes root).filename = root_path ∧ (st.nodes root).is_directory = true

/-- The path map holds the node under its own file name, or holds nothing
there. -/
def settled (st : fs_filenodes) (c : NodeId) : Prop :=
  st._filenodes (st.nodes c).filename = some c ∨ st._filenodes (st.nodes c).filename = none

/-- The directory index is exact: for every key `P` of the index, the child set
of `P` holds exactly the nodes that the path map holds under their own file
name, that are not the root node, and whose parent path is `P`. -/
def directory_index_exact (root : NodeId) (st : fs_filenodes) : Prop :=
  ∀ P l, st._directoryPaths P = some l → ∀ n,
    n ∈ list_folder st P ↔
      (st._filenodes (st.nodes n).filename = some n ∧ n ≠ root ∧
        parent_path (st.nodes n).filename = P)

/-! ## Sequences of calls -/

/-- The calls a caller can make on the table. -/
inductive call where
  | add (n : NodeId)
  | remove (name : WString)
  | move (old_filename new_filename : WString) (replace_if_existing : Bool)

/-- The call `c`, made in the state `st`, returns and leaves the state `st2`. -/
def call_returns (st : fs_filenodes) (c : call) (st2 : fs_filenodes) : Prop :=
  match c with
  | call.add n => st2 = (add st n).1
  | call.remove name => ∃ fuel, remove_path fuel st name = some st2
  | call.move o n r => ∃ fuel status, move fuel st o n r = some (st2, status)

/-- The states reachable from `init` by a finite sequence of calls that return,
each of them allowed in the state it is made in. -/
inductive reachable_by (allowed : fs_filenodes → call → Prop) (init : fs_filenodes) :
    fs_filenodes → Prop where
  | start : reachable_by allowed init init
  | step (st : fs_filenodes) (c : call) (st2 : fs_filenodes) :
      reachable_by allowed init st → allowed st c → call_returns st c st2 →
      reachable_by allowed init st2

/-- Every call is allowed. -/
def any_call (_ : fs_filenodes) (_ : call) : Prop := True

/-- Every `add` and `remove` is allowed, and every `move` whose source is not a
directory. -/
def no_directory_move (st : fs_filenodes) (c : call) : Prop :=
  match c with
  | call.move o _ _ => ∀ f, find st o = some f → (st.nodes f).is_directory = false
  | _ => True

/-- The state a call leaves, or the state itself when the fuel does not
suffice. -/
def run_call (fuel : Nat) (st : fs_filenodes) (c : call) : fs_filenodes :=
  match c with
  | call.add n => (add st n).1
  | call.remove name => (remove_path fuel st name).getD st
  | call.move o n r => ((move fuel st o n r).map Prod.fst).getD st

/-- What the invariant proofs use of the recursive calls of `remove`: they keep
the two invariants, erase the node they are called on, and only shrink the
path map, file names untouched. -/
def removes_well (X : WString → NodeId → Prop)
    (self : fs_filenodes → Option NodeId → Option fs_filenodes) : Prop :=
  ∀ a c b, self a c = some b →
    (key_consistent a → covered_off X a →
      key_consistent b ∧ covered_off X b ∧
        ∀ c2, c = some c2 → b._filenodes (a.nodes c2).filename = none) ∧
    (∀ m, (b.nodes m).filename = (a.nodes m).filename) ∧
    (∀ k, b._filenodes k = none ∨ b._filenodes k = a._filenodes k)

/-- The calls that keep the directory index exact: an `add` of a node other than
the root whose path has no node yet; any `remove`; a `move` of a node that is
no directory to another path whose leaf name has no stream suffix, the two
parent paths being the same string or different paths. -/
def tidy_call (root : NodeId) (st : fs_filenodes) (c : call) : Prop :=
  match c with
  | call.add n => n ≠ root ∧ st._filenodes (st.nodes n).filename = none
  | call.remove _ => True
  | call.move o n _ =>
    (∀ f, find st o = some f → (st.nodes f).is_directory = false) ∧ o ≠ n ∧
    (get_stream_names n).2 = [] ∧
    (parent_path o = parent_path n ∨ path_eq (parent_path o) (parent_path n) = false)

/-- The invariant behind the exactness of the directory index. -/
def tidy (root : NodeId) (st : fs_filenodes) : Prop :=
  key_consistent st ∧ covered_off (fun _ n => n = root) st ∧ members_held root st ∧
  root_fixed root st

/-! ## Relations used for the cascade of `remove` -/

/-- The node has left the table for good: the path map has nothing at its file
name, a directory has lost its child set, and the path map has nothing at the
keys of the streams of a main node. -/
def gone (s : fs_filenodes) (c : NodeId) : Prop :=
  s._filenodes (s.nodes c).filename = none ∧
  ((s.nodes c).is_directory = true → s._directoryPaths (s.nodes c).filename = none) ∧
  ((s.nodes c).main_stream = none → ∀ kv, kv ∈ (s.nodes c).streams → s._filenodes kv.1 = none)

/-- What a cascade of removals does to a state: the identity of the nodes stays,
stream sets, path map and directory index only shrink, a child set that
disappears belonged to a key of the path map (or to a key in `D`), and a node
that leaves the path map is gone (or is a node in `E`). -/
def cascade_frame_off (E : NodeId → Prop) (D : WString → Prop) (a b : fs_filenodes) : Prop :=
  (∀ m, same_identity (a.nodes m) (b.nodes m)) ∧
  (∀ m kv, kv ∈ (b.nodes m).streams → kv ∈ (a.nodes m).streams) ∧
  (∀ k, b._filenodes k = none ∨ b._filenodes k = a._filenodes k) ∧
  (∀ q, a._directoryPaths q = none → b._directoryPaths q = none) ∧
  (∀ q, a._directoryPaths q ≠ none → b._directoryPaths q = none →
    D q ∨ a._filenodes q ≠ none) ∧
  (∀ k m, a._filenodes k = some m → b._filenodes k = none → E m ∨ gone b m)

/-- The frame of a complete cascade, without exceptions. -/
def cascade_frame (a b : fs_filenodes) : Prop :=
  cascade_frame_off (fun _ => False) (fun _ => False) a b

/-- The table is a tree: the invariants of the two indexes, the root in place,
and the lengths that bound the depth of a cascade (every key of the path map
has at most `B` characters, the key of a stream is longer than the file name
of its main node, the file name of a member of a child set is longer than the
key of the child set). -/
def tree_shaped (B : Nat) (root : NodeId) (st : fs_filenodes) : Prop :=
  key_consistent st ∧ covered_off (fun _ n => n = root) st ∧ members_held root st ∧
  root_fixed root st ∧
  ((st._filenodes root_path).isSome = true → (st._directoryPaths root_path).isSome = true) ∧
  (∀ k n, st._filenodes k = some n → k.length ≤ B) ∧
  (∀ x kv, kv ∈ (st.nodes x).streams → ((st.nodes x).filename).length < kv.1.length) ∧
  (∀ P l, st._directoryPaths P = some l → ∀ n, n ∈ l → P.length < ((st.nodes n).filename).length)

/-- What the cascade needs of a node handed to `remove` with the fuel `fuel`:
either the path map holds the node under its file name and the fuel covers
the longest key below, or the node is gone already, the child set of its
parent path is still there, and one unit of fuel is left. -/
def removable (B fuel : Nat) (st : fs_filenodes) (c : NodeId) : Prop :=
  (st._filenodes (st.nodes c).filename = some c ∧
    B + 1 ≤ fuel + ((st.nodes c).filename).length) ∨
  (gone st c ∧ st._directoryPaths (parent_path (st.nodes c).filename) ≠ none ∧ 1 ≤ fuel)

/-- The recursive calls of `remove` return on a tree and leave a tree, within
the frame of a cascade and with the removed node gone. -/
def cascades_well (B : Nat) (root : NodeId) (fuel : Nat)
    (self : fs_filenodes → Option NodeId → Option fs_filenodes) : Prop :=
  ∀ s x, tree_shaped B root s → (∀ c, x = some c → removable B fuel s c) →
    ∃ r, self s x = some r ∧ tree_shaped B root r ∧ cascade_frame s r ∧
      ∀ c, x = some c → gone r c

/-! ## Tables built by adding fresh nodes -/

/-- A node object as its constructor leaves it: no file index, no main stream,
no streams. -/
def is_fresh (nd : filenode) : Prop :=
  nd.fileindex = 0 ∧ nd.main_stream = none ∧ nd.streams = []

/-- The calls that build a tree: an `add` of a fresh node other than the root
whose path has no node yet, answering `STATUS_SUCCESS`. -/
def fresh_add (root : NodeId) (st : fs_filenodes) (c : call) : Prop :=
  match c with
  | call.add n =>
    n ≠ root ∧ is_fresh (st.nodes n) ∧ st._filenodes (st.nodes n).filename = none ∧
    (add st n).2 = STATUS_SUCCESS
  | _ => False

/-- The states built from the bootstrap state by successful `add` calls of fresh
nodes at pairwise distinct paths. -/
def built (root : NodeId) (heap : NodeId → filenode) (st : fs_filenodes) : Prop :=
  (∀ m, is_fresh (heap m)) ∧ reachable_by (fresh_add root) (bootstrap root heap) st

/-- The invariant of the built states: a tree with the root in the path map in
which every key of the directory index is the path of a directory node. -/
def built_inv (B : Nat) (root : NodeId) (st : fs_filenodes) : Prop :=
  tree_shaped B root st ∧ st._filenodes root_path = some root ∧
  (∀ q, st._directoryPaths q ≠ none →
    ∃ d, st._filenodes q = some d ∧ (st.nodes d).is_directory = true)

/-- The path `Q` lies below the path `P`: the parent path of `Q`, taken once or
several times, is `P`. -/
def below (P Q : WString) : Prop :=
  ∃ k, 0 < k ∧ Nat.iterate parent_path k Q = P

/-! ## Paths made of plain names -/

/-- A plain name: not empty, and without a separator, a colon or a question
mark. -/
def plain_name (l : WString) : Bool :=
  !l.isEmpty && l.all (fun c => !is_slash c && c != ':' && c != '?')

/-- Every name of the list is plain. -/
def plain_names (cs : List WString) : Bool := cs.all plain_name

/-- The names of a list, each one after a backslash: the relative suffix
`\x\y` for the names `x` and `y`. -/
def join_names : List WString → WString
  | [] => []
  | c :: cs => preferred_separator :: c ++ join_names cs

/-- The path with the given components: the root path for no component, else
the components each after a single backslash. -/
def path_of (cs : List WString) : WString :=
  if cs.isEmpty then root_path else join_names cs

/-- Every child set is strictly increasing, as a `std::set` is. -/
def buckets_sorted (s : fs_filenodes) : Prop :=
  ∀ k l, s._directoryPaths k = some l → l.Pairwise (fun a b => a < b)

/-- The key is the path with the components `p` or a path of plain names
below it. -/
def under (p : List WString) (k : WString) : Prop :=
  ∃ rs, plain_names rs = true ∧ k = path_of (p ++ rs)

/-- Neither of the two component lists starts with the other one. -/
def apart (p q : List WString) : Prop := ∀ a b, p ++ a ≠ q ++ b

/-- The node `c` sits at the path with the components `p` with a well-formed
subtree of depth less than the first argument below it: the path map holds `c`
there under its own file name, a node that is no directory has no children,
every node held below `p` lies below a member of the child set of `p`, and
every member of the child set is a child by name with a well-formed subtree. -/
def subtree_ok : Nat → fs_filenodes → List WString → NodeId → Prop
  | 0, _, _, _ => False
  | d + 1, s, p, c =>
    s._filenodes (path_of p) = some c ∧ (s.nodes c).filename = path_of p ∧
    ((s.nodes c).is_directory = false → list_folder s (path_of p) = []) ∧
    (∀ leaf rs m, plain_name leaf = true → plain_names rs = true →
      s._filenodes (path_of (p ++ leaf :: rs)) = some m →
      ∃ x, x ∈ list_folder s (path_of p) ∧ (s.nodes x).filename = path_of (p ++ [leaf])) ∧
    (∀ x, x ∈ list_folder s (path_of p) →
      ∃ leaf, plain_name leaf = true ∧ subtree_ok d s (p ++ [leaf]) x)

/-- What a move of the node `c` from the components `p` to the components `q`
has done between the states `s` and `r`, `pp` and `qp` being the two parent
paths: every key at or below `p` is empty, the key at or below `q` with the
same suffix holds what the key below `p` held, under its new name; the other
keys of the path map and of the directory index are as before, the child set
of `qp` has gained `c`, and for a directory the child set of `p` is gone and
the child set of `q` has the members the child set of `p` had. -/
structure relocated (s r : fs_filenodes) (p q : List WString) (pp qp : WString) (c : NodeId) :
    Prop where
  moved : ∀ rs, plain_names rs = true →
    r._filenodes (path_of (p ++ rs)) = none ∧
    r._filenodes (path_of (q ++ rs)) = s._filenodes (path_of (p ++ rs)) ∧
    ∀ m, s._filenodes (path_of (p ++ rs)) = some m → (r.nodes m).filename = path_of (q ++ rs)
  map_frame : ∀ k, ¬ under p k → ¬ under q k → r._filenodes k = s._filenodes k
  dirs_frame : ∀ k, ¬ under p k → ¬ under q k → k ≠ pp → k ≠ qp →
    r._directoryPaths k = s._directoryPaths k
  new_parent : r._directoryPaths qp ≠ none ∧
    ∀ m, m ∈ list_folder r qp ↔ m = c ∨ m ∈ list_folder s qp
  old_bucket : (s.nodes c).is_directory = true → r._directoryPaths (path_of p) = none
  new_bucket : (s.nodes c).is_directory = true →
    ∀ m, m ∈ list_folder r (path_of q) ↔ m ∈ list_folder s (path_of p)
  kinds : ∀ m, (r.nodes m).is_directory = (s.nodes m).is_directory
  names_frame : ∀ m, (∀ rs, plain_names rs = true → s._filenodes (path_of (p ++ rs)) ≠ some m) →
    (r.nodes m).filename = (s.nodes m).filename
  sorted : buckets_sorted r

/-- What the loop of `move` over the children `LL` (nodes with their leaf
names) of the directory at `p` has done between the states `a` and `r`: the
subtree of every child is relocated below `q`, the other keys are as before,
and the child set of `q` has gained the children. -/
structure children_relocated (a r : fs_filenodes) (p q : List WString)
    (LL : List (NodeId × WString)) : Prop where
  moved : ∀ xl, xl ∈ LL → ∀ rs, plain_names rs = true →
    r._filenodes (path_of (p ++ xl.2 :: rs)) = none ∧
    r._filenodes (path_of (q ++ xl.2 :: rs)) = a._filenodes (path_of (p ++ xl.2 :: rs)) ∧
    ∀ m, a._filenodes (path_of (p ++ xl.2 :: rs)) = some m →
      (r.nodes m).filename = path_of (q ++ xl.2 :: rs)
  map_frame : ∀ k, (∀ xl, xl ∈ LL → ¬ under (p ++ [xl.2]) k ∧ ¬ under (q ++ [xl.2]) k) →
    r._filenodes k = a._filenodes k
  dirs_frame : ∀ k, (∀ xl, xl ∈ LL → ¬ under (p ++ [xl.2]) k ∧ ¬ under (q ++ [xl.2]) k) →
    k ≠ path_of p → k ≠ path_of q → r._directoryPaths k = a._directoryPaths k
  new_parent : ∀ m, m ∈ list_folder r (path_of q) ↔
    (∃ xl, xl ∈ LL ∧ xl.1 = m) ∨ m ∈ list_folder a (path_of q)
  kinds : ∀ m, (r.nodes m).is_directory = (a.nodes m).is_directory
  names_frame : ∀ m, (∀ xl, xl ∈ LL → ∀ rs, plain_names rs = true →
      a._filenodes (path_of (p ++ xl.2 :: rs)) ≠ some m) →
    (r.nodes m).filename = (a.nodes m).filename
  sorted : buckets_sorted r

/-- With the fuel `d`, `move` relocates every well-formed subtree of depth less
than `d` to a free place whose parent path has a child set, whatever the
flag `replace_if_existing`. -/
def moves_subtrees (d : Nat) : Prop :=
  ∀ (s : fs_filenodes) (p0 q0 : List WString) (lp lq : WString) (c : NodeId) (flag : Bool),
    subtree_ok d s (p0 ++ [lp]) c → plain_names (p0 ++ [lp]) = true →
    plain_names (q0 ++ [lq]) = true → apart (p0 ++ [lp]) (q0 ++ [lq]) →
    (∀ k, under (q0 ++ [lq]) k → s._filenodes k = none ∧ s._directoryPaths k = none) →
    s._directoryPaths (path_of q0) ≠ none → buckets_sorted s →
    ∃ r, move d s (path_of (p0 ++ [lp])) (path_of (q0 ++ [lq])) flag = some (r, STATUS_SUCCESS) ∧
      relocated s r (p0 ++ [lp]) (q0 ++ [lq]) (path_of p0) (path_of q0) c

/-- The calls that build a tree of plain paths: an `add` that builds a tree and
whose node has a path made of plain names. -/
def plain_add (root : NodeId) (st : fs_filenodes) (c : call) : Prop :=
  fresh_add root st c ∧
  match c with
  | call.add n => ∃ cs, plain_names cs = true ∧ (st.nodes n).filename = path_of cs
  | _ => False

/-- The states built from the bootstrap state by successful `add` calls of fresh
nodes at pairwise distinct paths made of plain names. -/
def built_plain (root : NodeId) (heap : NodeId → filenode) (st : fs_filenodes) : Prop :=
  (∀ m, is_fresh (heap m)) ∧ reachable_by (plain_add root) (bootstrap root heap) st

/-- The invariant of the states built from plain paths: the invariant of the
built states, every key of the path map is made of plain names, every directory
the path map holds has a child set, and the child sets are increasing. -/
def plain_inv (B : Nat) (root : NodeId) (st : fs_filenodes) : Prop :=
  built_inv B root st ∧
  (∀ k n, st._filenodes k = some n → ∃ cs, plain_names cs = true ∧ k = path_of cs) ∧
  (∀ k n, st._filenodes k = some n → (st.nodes n).is_directory = true →
    st._directoryPaths k ≠ none) ∧
  buckets_sorted st


/-! ## Relations used for the permanence of the root -/

/-- The root is in place and out of reach of the cascades: the path map holds
the root directory under the root path, which is also its file name and a key
of the directory index; any other key of the path map holds a node with another
file name; no member of a child set and no key of a stream set carries the root
path. -/
def root_kept (root : NodeId) (st : fs_filenodes) : Prop :=
  st._filenodes root_path = some root ∧ (st.nodes root).is_directory = true ∧
  (st.nodes root).filename = root_path ∧ st._directoryPaths root_path ≠ none ∧
  (∀ k n, st._filenodes k = some n → k ≠ root_path → (st.nodes n).filename ≠ root_path) ∧
  (∀ q l m, st._directoryPaths q = some l → m ∈ l → (st.nodes m).filename ≠ root_path) ∧
  (∀ x kv, kv ∈ (st.nodes x).streams → kv.1 ≠ root_path)

/-- The calls that do not name the root: an `add` of a node whose path is not
the root path, a `remove` of another path, a `move` from another path. -/
def root_safe_call (st : fs_filenodes) (c : call) : Prop :=
  match c with
  | call.add n => (st.nodes n).filename ≠ root_path
  | call.remove name => name ≠ root_path
  | call.move o _ _ => o ≠ root_path

/-- No node has taken the root path as its file name between the two states. -/
def no_new_root_name (a b : fs_filenodes) : Prop :=
  ∀ m, (b.nodes m).filename = root_path → (a.nodes m).filename = root_path

/-! ## Relations used for the stream linkage -/

/-- The stream linkage of one node: its main stream is set exactly when the leaf
name of its path has a non-empty stream name after the first colon, and a node
with a main stream is in the stream set of that main node under its own path. -/
def linked (st : fs_filenodes) (n : NodeId) : Prop :=
  ((st.nodes n).main_stream ≠ none ↔ (get_stream_names (st.nodes n).filename).2 ≠ []) ∧
  ∀ g, (st.nodes n).main_stream = some g →
    ((st.nodes n).filename, n) ∈ (st.nodes g).streams

/-- Every node the path map holds has its stream linkage. -/
def stream_linkage (st : fs_filenodes) : Prop :=
  ∀ k n, st._filenodes k = some n → linked st n

/-- The calls that keep the stream linkage: an `add` of a node whose main stream
is unset; any `remove`; a `move` of a node that is no directory and whose main
stream is unset or whose new path has a stream name. -/
def linkage_call (st : fs_filenodes) (c : call) : Prop :=
  match c with
  | call.add n => (st.nodes n).main_stream = none
  | call.remove _ => True
  | call.move o n _ => ∀ f, find st o = some f →
      (st.nodes f).is_directory = false ∧
      ((st.nodes f).main_stream = none ∨ (get_stream_names n).2 ≠ [])

/-- An entry that leaves a stream set has a key the path map no longer holds. -/
def streams_kept (a b : fs_filenodes) : Prop :=
  ∀ m kv, kv ∈ (a.nodes m).streams → kv ∈ (b.nodes m).streams ∨ b._filenodes kv.1 = none

/-- What a cascade of removals keeps: the path map only shrinks, the file names
stay, and an entry that leaves a stream set has a key the path map no longer
holds. -/
def cascade_kept (a b : fs_filenodes) : Prop :=
  (∀ k, b._filenodes k = none ∨ b._filenodes k = a._filenodes k) ∧
  (∀ m, (b.nodes m).filename = (a.nodes m).filename) ∧ streams_kept a b

/-! ## Concrete tables used to evaluate the code -/

/-- A path written as a string literal. -/
def wpath (s : String) : WString := s.data

/-- Node objects for the scenarios: a directory `\a`, a file `\a\b.txt` and its
stream `\a\b.txt:s1`, a file `\f` with a stream `\f:s`, and more nodes below. -/
def scenario_heap : NodeId → filenode
  | 1 => filenode.create (wpath "\\a") true FILE_ATTRIBUTE_DIRECTORY
  | 2 => filenode.create (wpath "\\a\\b.txt") false 0
  | 3 => filenode.create (wpath "\\a\\b.txt:s1") false 0
  | 4 => filenode.create (wpath "\\f") false 0
  | 5 => filenode.create (wpath "\\f:s") false 0
  | 6 => filenode.create (wpath "\\f\\x") false 0
  | 7 => filenode.create (wpath "\\p") true FILE_ATTRIBUTE_DIRECTORY
  | 8 => filenode.create (wpath "\\p\\a") true FILE_ATTRIBUTE_DIRECTORY
  | 9 => filenode.create (wpath "\\p\\a\\x") false 0
  | 10 => filenode.create (wpath "\\a") false 0
  | 11 => filenode.create (wpath "\\g") false FILE_ATTRIBUTE_READONLY
  | _ => filenode.create [] false 0

/-- The bootstrap table with the root at address 0. -/
def table0 : fs_filenodes := bootstrap 0 scenario_heap

/-- Adding a list of nodes one after the other, statuses dropped. -/
def add_all (st : fs_filenodes) (l : List NodeId) : fs_filenodes :=
  l.foldl (fun s n => (add s n).1) st

/-- Root, directory `\a` and file `\a\b.txt`. -/
def table_ab : fs_filenodes := add_all table0 [1, 2]

/-- Root and file `\f`. -/
def table_f : fs_filenodes := add_all table0 [4]

/-- Root, the directories `\p` and `\p\a`, and the file `\p\a\x`. -/
def table_p : fs_filenodes := add_all table0 [7, 8, 9]

/-- The table `table_p` after `move("\p\a", "\b:s", false)`, which fails part-way,
and `remove("\p")`. -/
def table_orphan : fs_filenodes :=
  run_call 3 (run_call 3 table_p (call.move (wpath "\\p\\a") (wpath "\\b:s") false))
    (call.remove (wpath "\\p"))

/-- Root, the directory `\a` at node 1, and then the file node 10 added at the
same path `\a`. -/
def table_twice : fs_filenodes := add_all table0 [1, 10]

/-- The table with the file `\f` and its stream `\f:s` after `\f` has been
renamed to `\h`: the stream is still held at `\f:s`, its main node is at `\h`. -/
def table_stale : fs_filenodes :=
  run_call 1 (add_all table0 [4, 5]) (call.move (wpath "\\f") (wpath "\\h") false)

/-- The table with the directory `\a` alone. -/
def table_a : fs_filenodes := add_all table0 [1]

/-- Node objects for a second scenario: a directory `\a` and a file `\ab`. -/
def loop_heap : NodeId → filenode
  | 1 => filenode.create (wpath "\\a") true FILE_ATTRIBUTE_DIRECTORY
  | 2 => filenode.create (wpath "\\ab") false 0
  | _ => filenode.create [] false 0

/-- The table with the directory `\a` and the file `\ab` after
`move("\a", "\a\b:s", false)`, which returns `STATUS_OBJECT_PATH_NOT_FOUND`
part-way: the directory is held at `\a` and at `\a\b:s` and is a member of the
child set of `\a`. -/
def table_loop : fs_filenodes :=
  run_call 3 (add_all (bootstrap 0 loop_heap) [1, 2])
    (call.move (wpath "\\a") (wpath "\\a\\b:s") false)

/-- Node objects for a third scenario: a file whose leaf name ends with the
stream separator. -/
def colon_heap : NodeId → filenode
  | 1 => filenode.create (wpath "\\f:") false 0
  | _ => filenode.create [] false 0

/-- The table with the root and the file `\f:`. -/
def table_colon : fs_filenodes := add_all (bootstrap 0 colon_heap) [1]

/-- Node objects for a fourth scenario: a file `\m`, two nodes for its stream
`\m:p` (a directory and a file), a directory `\m:p\d`, two files named `x`, and
a file `\z`. -/
def cycle_heap : NodeId → filenode
  | 1 => filenode.create (wpath "\\m") false 0
  | 2 => filenode.create (wpath "\\m:p") true FILE_ATTRIBUTE_DIRECTORY
  | 3 => filenode.create (wpath "\\m:p\\d") true FILE_ATTRIBUTE_DIRECTORY
  | 4 => filenode.create (wpath "\\m:p\\d\\x") false 0
  | 5 => filenode.create (wpath "\\m:p\\x") false 0
  | 6 => filenode.create (wpath "\\m:p") false 0
  | 7 => filenode.create (wpath "\\z") false 0
  | _ => filenode.create [] false 0

/-- The seven nodes of `cycle_heap` added in turn. -/
def table_seven : fs_filenodes := add_all (bootstrap 0 cycle_heap) [1, 2, 3, 4, 5, 6, 7]

/-- The table `table_seven` after `remove("\m:p")`, which removes the file held
at `\m:p` and leaves the child set of `\m:p`. -/
def table_six : fs_filenodes := run_call 1 table_seven (call.remove (wpath "\\m:p"))

/-- The table `table_six` after `move("\m:p\d", "\m:p", false)`, which returns
`STATUS_OBJECT_NAME_COLLISION` part-way: the directory carries the path `\m:p`,
is a stream of `\m`, and is a member of the child set of `\m:p`. -/
def table_cycle : fs_filenodes :=
  run_call 2 table_six (call.move (wpath "\\m:p\\d") (wpath "\\m:p") false)

/-! ## Theorems -/

theorem add_status_cases (st : fs_filenodes) (n : NodeId) :
    (add st n).2 = STATUS_SUCCESS ∨ (add st n).2 = STATUS_OBJECT_PATH_NOT_FOUND := by
  unfold add
  simp only []
  split
  · right; rfl
  · split
    · split
      · right; rfl
      · left; rfl
    · left; rfl

theorem assign_fileindex_filename (st : fs_filenodes) (f m : NodeId) :
    ((assign_fileindex st f).nodes m).filename = (st.nodes m).filename := by
  unfold assign_fileindex
  split
  · simp only [upd]; split
    · subst_vars; rfl
    · rfl
  · rfl

theorem assign_fileindex_dirs (st : fs_filenodes) (f : NodeId) :
    (assign_fileindex st f)._directoryPaths = st._directoryPaths := by
  unfold assign_fileindex; split <;> rfl

theorem assign_fileindex_map (st : fs_filenodes) (f : NodeId) :
    (assign_fileindex st f)._filenodes = st._filenodes := by
  unfold assign_fileindex; split <;> rfl

/-- C7: for a node whose leaf name has no stream suffix, `add` succeeds exactly
when the parent path of the node is a key of the directory index and answers
`STATUS_OBJECT_PATH_NOT_FOUND` otherwise; a node at the parent path does not
help when the parent path has no child set. -/
theorem add_parent_precondition (st : fs_filenodes) (n : NodeId)
    (hs : (get_stream_names (st.nodes n).filename).2 = []) :
    ((add st n).2 = STATUS_SUCCESS ↔
        (st._directoryPaths (parent_path (st.nodes n).filename)).isSome = true) ∧
    ((st._directoryPaths (parent_path (st.nodes n).filename)).isSome = false →
        (add st n).2 = STATUS_OBJECT_PATH_NOT_FOUND) ∧
    (∀ m, find st (parent_path (st.nodes n).filename) = some m →
        st._directoryPaths (parent_path (st.nodes n).filename) = none →
        (add st n).2 = STATUS_OBJECT_PATH_NOT_FOUND) := by
  have key : (add st n).2 =
      if (st._directoryPaths (parent_path (st.nodes n).filename)).isSome = true
      then STATUS_SUCCESS else STATUS_OBJECT_PATH_NOT_FOUND := by
    unfold add
    simp only [assign_fileindex_filename, assign_fileindex_dirs, hs]
    cases h : st._directoryPaths (parent_path (st.nodes n).filename) <;> simp
  refine ⟨?_, ?_, ?_⟩
  · rw [key]; split <;> simp_all
  · intro h; rw [key]; simp [h]
  · intro m _ h; rw [key]; simp [h]

/-- C7 at a concrete table: in the bootstrap table the directory `\a` can be
added, its parent being the root. -/
theorem add_parent_precondition_witness :
    (get_stream_names (table0.nodes 1).filename).2 = [] ∧
    ((add table0 1).2 = STATUS_SUCCESS ↔
        (table0._directoryPaths (parent_path (table0.nodes 1).filename)).isSome = true) :=
  ⟨by decide, (add_parent_precondition table0 1 (by decide)).1⟩

theorem assign_fileindex_frame (st : fs_filenodes) (f m : NodeId) :
    ((assign_fileindex st f).nodes m).main_stream = (st.nodes m).main_stream ∧
    ((assign_fileindex st f).nodes m).streams = (st.nodes m).streams ∧
    ((assign_fileindex st f).nodes m).is_directory = (st.nodes m).is_directory ∧
    ((assign_fileindex st f).nodes m).attributes = (st.nodes m).attributes := by
  unfold assign_fileindex
  split
  · simp only [upd]; split
    · subst_vars; exact ⟨rfl, rfl, rfl, rfl⟩
    · exact ⟨rfl, rfl, rfl, rfl⟩
  · exact ⟨rfl, rfl, rfl, rfl⟩

theorem add_failure_state (st : fs_filenodes) (n : NodeId)
    (h : (add st n).2 = STATUS_OBJECT_PATH_NOT_FOUND) :
    (add st n).1 = assign_fileindex st n := by
  by_cases hd : ((assign_fileindex st n)._directoryPaths
      (parent_path ((assign_fileindex st n).nodes n).filename)).isNone = true
  · simp [add, hd]
  · by_cases hs : (get_stream_names ((assign_fileindex st n).nodes n).filename).2 = []
    · simp [add, hd, hs] at h
    · cases hm : find (assign_fileindex st n)
          (parent_path ((assign_fileindex st n).nodes n).filename ++
            (get_stream_names ((assign_fileindex st n).nodes n).filename).1)
      · simp [add, hd, hs, hm]
      · simp [add, hd, hs, hm] at h

/-- C8, as the code has it: when `add` answers `STATUS_OBJECT_PATH_NOT_FOUND`, the
path map, the directory index, and the main stream and stream set of every node
are as before; a node that already had a file index keeps it and the counter
stays, while a node without one has received the counter's value and the
counter has advanced by one. -/
theorem add_failure_frame (st : fs_filenodes) (n : NodeId)
    (h : (add st n).2 = STATUS_OBJECT_PATH_NOT_FOUND) :
    (add st n).1._filenodes = st._filenodes ∧
    (add st n).1._directoryPaths = st._directoryPaths ∧
    (∀ m, ((add st n).1.nodes m).main_stream = (st.nodes m).main_stream ∧
          ((add st n).1.nodes m).streams = (st.nodes m).streams ∧
          ((add st n).1.nodes m).filename = (st.nodes m).filename) ∧
    (∀ m, m ≠ n → (add st n).1.nodes m = st.nodes m) ∧
    ((st.nodes n).fileindex ≠ 0 →
        (add st n).1.nodes = st.nodes ∧
        (add st n).1._fs_fileindex_count = st._fs_fileindex_count) ∧
    ((st.nodes n).fileindex = 0 →
        ((add st n).1.nodes n).fileindex = st._fs_fileindex_count ∧
        (add st n).1._fs_fileindex_count = st._fs_fileindex_count + 1) := by
  rw [add_failure_state st n h]
  refine ⟨assign_fileindex_map st n, assign_fileindex_dirs st n, ?_, ?_, ?_, ?_⟩
  · intro m
    exact ⟨(assign_fileindex_frame st n m).1, (assign_fileindex_frame st n m).2.1,
      assign_fileindex_filename st n m⟩
  · intro m hm
    unfold assign_fileindex
    split
    · simp [upd, hm]
    · rfl
  · intro h0
    unfold assign_fileindex
    simp [h0]
  · intro h0
    unfold assign_fileindex
    simp [h0, upd]

/-- C8 at a concrete table: adding `\f\x` to the bootstrap table fails, the
parent `\f` being no directory, and the node had no file index. -/
theorem add_failure_frame_witness :
    (add table0 6).2 = STATUS_OBJECT_PATH_NOT_FOUND ∧
    (add table0 6).1._filenodes = table0._filenodes ∧
    (add table0 6).1._directoryPaths = table0._directoryPaths :=
  ⟨by decide, (add_failure_frame table0 6 (by decide)).1,
    (add_failure_frame table0 6 (by decide)).2.1⟩

/-- C8 as stated fails: adding `\f\x` to the bootstrap table answers
`STATUS_OBJECT_PATH_NOT_FOUND`, yet the counter has moved from 1 to 2 and the
node, whose file index was unset, now has file index 1. -/
theorem add_failure_not_atomic :
    (add table0 6).2 = STATUS_OBJECT_PATH_NOT_FOUND ∧
    table0._fs_fileindex_count = 1 ∧ (add table0 6).1._fs_fileindex_count = 2 ∧
    (table0.nodes 6).fileindex = 0 ∧ ((add table0 6).1.nodes 6).fileindex = 1 := by
  decide

/-- C1 at the failing input: in the table holding the root and the file `\f`,
`move("\f", "\g:s", false)` answers `STATUS_SUCCESS` (the status of the inner
`add`, which finds no main node `\g`, is dropped), and afterwards neither `\g:s`
nor `\f` has a node, although `\f` had node 4 before. -/
theorem move_success_loses_node :
    find table_f (wpath "\\f") = some 4 ∧
    (move 1 table_f (wpath "\\f") (wpath "\\g:s") false).map
        (fun r => (r.2, find r.1 (wpath "\\g:s"), find r.1 (wpath "\\f"))) =
      some (STATUS_SUCCESS, none, none) := by
  decide

/-- C4 at the failing input: with the directory `\a` and the file `\a\b.txt` in
the table, adding the stream `\a\b.txt:s1` answers
`STATUS_OBJECT_PATH_NOT_FOUND` and the stream has no node: the main node is
looked up at the parent path followed by the base name without a separator
between them, which is `\ab.txt`. At the root the same call works: the stream
`\f:s` of `\f` is linked to its main node and shares its file index. -/
theorem add_stream_in_subdirectory_fails :
    find table_ab (wpath "\\a\\b.txt") = some 2 ∧
    (table_ab._directoryPaths (wpath "\\a")).isSome = true ∧
    (add table_ab 3).2 = STATUS_OBJECT_PATH_NOT_FOUND ∧
    find (add table_ab 3).1 (wpath "\\a\\b.txt:s1") = none ∧
    ((add table_ab 3).1.nodes 3).main_stream = none ∧
    parent_path (wpath "\\a\\b.txt:s1") ++ (get_stream_names (wpath "\\a\\b.txt:s1")).1
      = wpath "\\ab.txt" ∧
    (add table_f 5).2 = STATUS_SUCCESS ∧
    ((add table_f 5).1.nodes 5).main_stream = some 4 ∧
    ((add table_f 5).1.nodes 5).fileindex = ((add table_f 5).1.nodes 4).fileindex := by
  decide

/-! ### Fuel: more fuel never changes a result -/

theorem for_each_mono {α σ : Type} (b1 b2 : σ → α → Option σ)
    (h : ∀ s x r, b1 s x = some r → b2 s x = some r) :
    ∀ (l : List α) (s r : σ), for_each b1 s l = some r → for_each b2 s l = some r := by
  intro l
  induction l with
  | nil => intro s r hr; simpa [for_each] using hr
  | cons x xs ih =>
    intro s r hr
    simp only [for_each] at hr ⊢
    cases hb : b1 s x with
    | none => simp [hb] at hr
    | some s1 =>
      simp only [hb] at hr
      simp only [h s x s1 hb]
      exact ih s1 r hr

theorem for_each_status_mono {α σ : Type} (b1 b2 : σ → α → Option (σ × NTSTATUS))
    (h : ∀ s x r, b1 s x = some r → b2 s x = some r) :
    ∀ (l : List α) (s : σ) (r : σ × NTSTATUS),
      for_each_status b1 s l = some r → for_each_status b2 s l = some r := by
  intro l
  induction l with
  | nil => intro s r hr; simpa [for_each_status] using hr
  | cons x xs ih =>
    intro s r hr
    simp only [for_each_status] at hr ⊢
    cases hb : b1 s x with
    | none => simp [hb] at hr
    | some p =>
      obtain ⟨s1, n⟩ := p
      simp only [hb] at hr
      simp only [h s x (s1, n) hb]
      by_cases hn : n = STATUS_SUCCESS
      · simp only [hn, ne_eq, not_true_eq_false, if_false] at hr ⊢
        exact ih s1 r hr
      · simp only [ne_eq, hn, not_false_eq_true, if_true] at hr ⊢
        exact hr

theorem remove_body_mono (r1 r2 : fs_filenodes → Option NodeId → Option fs_filenodes)
    (h : ∀ s x r, r1 s x = some r → r2 s x = some r) (st : fs_filenodes) (f : NodeId)
    (r : fs_filenodes) (hr : remove_body r1 st f = some r) : remove_body r2 st f = some r := by
  unfold remove_body at hr ⊢
  simp only [] at hr ⊢
  by_cases hd : ((unlink_node st f (st.nodes f).filename).nodes f).is_directory = true
  · simp only [hd, if_true] at hr ⊢
    cases hl : for_each (fun s file => r1 s (some file)) (unlink_node st f (st.nodes f).filename)
        (list_folder (unlink_node st f (st.nodes f).filename) (st.nodes f).filename) with
    | none => simp [hl] at hr
    | some s2 =>
      have hl2 := for_each_mono (fun s file => r1 s (some file)) (fun s file => r2 s (some file))
        (fun s x r hx => h s (some x) r hx) _ _ _ hl
      simp only [hl] at hr
      simp only [hl2]
      cases hm : ((erase_directory s2 (st.nodes f).filename).nodes f).main_stream with
      | none =>
        simp only [hm] at hr ⊢
        exact for_each_mono _ _ (fun s x r hx => h s _ r hx) _ _ _ hr
      | some m => simp only [hm] at hr ⊢; exact hr
  · simp only [hd, Bool.false_eq_true, if_false] at hr ⊢
    cases hm : ((unlink_node st f (st.nodes f).filename).nodes f).main_stream with
    | none =>
      simp only [hm] at hr ⊢
      exact for_each_mono _ _ (fun s x r hx => h s _ r hx) _ _ _ hr
    | some m => simp only [hm] at hr ⊢; exact hr

theorem remove_succ_of_some : ∀ (fuel : Nat) (st : fs_filenodes) (x : Option NodeId)
    (r : fs_filenodes), remove fuel st x = some r → remove (fuel + 1) st x = some r := by
  intro fuel
  induction fuel with
  | zero =>
    intro st x r hr
    cases x with
    | none => simpa [remove] using hr
    | some f => simp [remove] at hr
  | succ n ih =>
    intro st x r hr
    cases x with
    | none => simpa [remove] using hr
    | some f =>
      simp only [remove] at hr ⊢
      exact remove_body_mono _ _ ih st f r hr

theorem remove_fuel_le (fuel fuel2 : Nat) (hle : fuel ≤ fuel2) (st : fs_filenodes)
    (x : Option NodeId) (r : fs_filenodes) (hr : remove fuel st x = some r) :
    remove fuel2 st x = some r := by
  induction hle with
  | refl => exact hr
  | step _ ih => exact remove_succ_of_some _ st x r ih

/-! ### The shape of a `remove` call -/

@[simp] theorem unlink_node_nodes (st : fs_filenodes) (f : NodeId) (name : WString) :
    (unlink_node st f name).nodes = st.nodes := rfl

@[simp] theorem erase_directory_nodes (st : fs_filenodes) (name : WString) :
    (erase_directory st name).nodes = st.nodes := rfl

@[simp] theorem erase_directory_map (st : fs_filenodes) (name : WString) :
    (erase_directory st name)._filenodes = st._filenodes := rfl

theorem remove_body_iff (self : fs_filenodes → Option NodeId → Option fs_filenodes)
    (st : fs_filenodes) (f : NodeId) (r : fs_filenodes) :
    remove_body self st f = some r ↔
      ∃ st2, after_directory_part self st f st2 ∧ after_stream_part self st2 f r := by
  unfold remove_body after_directory_part after_stream_part
  simp only [unlink_node_nodes]
  by_cases hd : (st.nodes f).is_directory = true
  swap
  · have hd2 : (st.nodes f).is_directory = false := by simpa using hd
    simp only [hd2, Bool.false_eq_true, if_false, false_and, false_or, true_and, exists_eq_left]
    cases hm : (st.nodes f).main_stream <;> simp [hm, eq_comm]
  · simp only [hd, if_true, true_and, Bool.true_eq_false, false_and, or_false]
    cases hl : for_each (fun s file => self s (some file)) (unlink_node st f (st.nodes f).filename)
        (list_folder (unlink_node st f (st.nodes f).filename) (st.nodes f).filename) with
    | none => simp
    | some s =>
      constructor
      · intro h
        refine ⟨erase_directory s (st.nodes f).filename, ⟨s, rfl, rfl⟩, ?_⟩
        cases hm : ((erase_directory s (st.nodes f).filename).nodes f).main_stream with
        | none => simp only [hm] at h; right; exact ⟨rfl, h⟩
        | some m => simp only [hm, Option.some.injEq] at h; left; exact ⟨m, rfl, h.symm⟩
      · rintro ⟨st2, ⟨s', hs', rfl⟩, h⟩
        cases hs'
        rcases h with ⟨m, hm, rfl⟩ | ⟨hm, h⟩
        · simp only [hm]
        · simp only [hm]; exact h

theorem remove_some_succ (fuel : Nat) (st : fs_filenodes) (f : NodeId) :
    remove (fuel + 1) st (some f) = remove_body (remove fuel) st f := rfl

@[simp] theorem remove_none (fuel : Nat) (st : fs_filenodes) : remove fuel st none = some st := by
  cases fuel <;> rfl

theorem for_each_rel {α σ : Type} (R : σ → σ → Prop) (hrefl : ∀ s, R s s)
    (htrans : ∀ a b c, R a b → R b c → R a c) (body : σ → α → Option σ)
    (hb : ∀ s x r, body s x = some r → R s r) :
    ∀ (l : List α) (s r : σ), for_each body s l = some r → R s r := by
  intro l
  induction l with
  | nil => intro s r h; simp only [for_each, Option.some.injEq] at h; subst h; exact hrefl s
  | cons x xs ih =>
    intro s r h
    simp only [for_each] at h
    cases hx : body s x with
    | none => simp [hx] at h
    | some s1 =>
      simp only [hx] at h
      exact htrans _ _ _ (hb s x s1 hx) (ih s1 r h)

/-- A reflexive and transitive relation that every elementary step of `remove`
respects holds between the state before and the state after a `remove` call. -/
theorem remove_rel (R : fs_filenodes → fs_filenodes → Prop) (hrefl : ∀ s, R s s)
    (htrans : ∀ a b c, R a b → R b c → R a c)
    (h_unlink : ∀ st f, R st (unlink_node st f (st.nodes f).filename))
    (h_erase : ∀ s name, R s (erase_directory s name))
    (h_rs : ∀ s m f, R s (remove_stream s m f)) :
    ∀ (fuel : Nat) (st : fs_filenodes) (x : Option NodeId) (r : fs_filenodes),
      remove fuel st x = some r → R st r := by
  intro fuel
  induction fuel with
  | zero =>
    intro st x r h
    cases x with
    | none => simp only [remove_none, Option.some.injEq] at h; subst h; exact hrefl st
    | some f => simp [remove] at h
  | succ n ih =>
    intro st x r h
    cases x with
    | none => simp only [remove_none, Option.some.injEq] at h; subst h; exact hrefl st
    | some f =>
      rw [remove_some_succ, remove_body_iff] at h
      obtain ⟨st2, hdir, hstr⟩ := h
      have h12 : R st st2 := by
        rcases hdir with ⟨_, s, hs, rfl⟩ | ⟨_, rfl⟩
        · refine htrans _ _ _ (h_unlink st f) (htrans _ _ _ ?_ (h_erase s _))
          exact for_each_rel R hrefl htrans _ (fun s x r hx => ih s (some x) r hx) _ _ _ hs
        · exact h_unlink st f
      refine htrans _ _ _ h12 ?_
      rcases hstr with ⟨m, _, rfl⟩ | ⟨_, hs⟩
      · exact h_rs st2 m f
      · exact for_each_rel R hrefl htrans _ (fun s x r hx => ih s _ r hx) _ _ _ hs

/-! ### What `remove` and `add` never touch -/

theorem remove_frame (fuel : Nat) (st : fs_filenodes) (x : Option NodeId) (r : fs_filenodes)
    (h : remove fuel st x = some r) :
    (∀ m, same_identity (st.nodes m) (r.nodes m)) ∧
    r._fs_fileindex_count = st._fs_fileindex_count ∧
    (∀ k, r._filenodes k = none ∨ r._filenodes k = st._filenodes k) := by
  refine remove_rel
    (fun a b => (∀ m, same_identity (a.nodes m) (b.nodes m)) ∧
      b._fs_fileindex_count = a._fs_fileindex_count ∧
      (∀ k, b._filenodes k = none ∨ b._filenodes k = a._filenodes k))
    ?_ ?_ ?_ ?_ ?_ fuel st x r h
  · intro s
    exact ⟨fun m => ⟨rfl, rfl, rfl, rfl, rfl⟩, rfl, fun k => Or.inr rfl⟩
  · rintro a b c ⟨h1, h2, h3⟩ ⟨h4, h5, h6⟩
    refine ⟨fun m => ?_, h5.trans h2, fun k => ?_⟩
    · obtain ⟨a1, a2, a3, a4, a5⟩ := h1 m
      obtain ⟨b1, b2, b3, b4, b5⟩ := h4 m
      exact ⟨b1.trans a1, b2.trans a2, b3.trans a3, b4.trans a4, b5.trans a5⟩
    · rcases h6 k with h | h
      · exact Or.inl h
      · rw [h]; exact h3 k
  · intro s f
    refine ⟨fun m => ⟨rfl, rfl, rfl, rfl, rfl⟩, rfl, fun k => ?_⟩
    simp only [unlink_node, upd]
    split
    · exact Or.inl rfl
    · exact Or.inr rfl
  · intro s name
    exact ⟨fun m => ⟨rfl, rfl, rfl, rfl, rfl⟩, rfl, fun k => Or.inr rfl⟩
  · intro s m f
    refine ⟨fun k => ?_, rfl, fun k => Or.inr rfl⟩
    simp only [remove_stream, upd]
    split
    · subst_vars; exact ⟨rfl, rfl, rfl, rfl, rfl⟩
    · exact ⟨rfl, rfl, rfl, rfl, rfl⟩

theorem link_stream_kind (st : fs_filenodes) (main_f f m : NodeId) :
    ((link_stream st main_f f).nodes m).filename = (st.nodes m).filename ∧
    ((link_stream st main_f f).nodes m).is_directory = (st.nodes m).is_directory ∧
    ((link_stream st main_f f).nodes m).attributes = (st.nodes m).attributes := by
  simp only [link_stream, upd]
  by_cases h1 : m = f <;> by_cases h2 : m = main_f <;> by_cases h3 : f = main_f <;>
    simp_all

/-- The file name, the kind and the attributes of every node are the same
before and after `add`. -/
theorem add_kind (st : fs_filenodes) (f m : NodeId) :
    ((add st f).1.nodes m).filename = (st.nodes m).filename ∧
    ((add st f).1.nodes m).is_directory = (st.nodes m).is_directory ∧
    ((add st f).1.nodes m).attributes = (st.nodes m).attributes := by
  have h0 := assign_fileindex_frame st f m
  have h1 := assign_fileindex_filename st f m
  unfold add
  simp only []
  split
  · exact ⟨h1, h0.2.2.1, h0.2.2.2⟩
  · split
    · split
      · exact ⟨h1, h0.2.2.1, h0.2.2.2⟩
      · rename_i mf _
        have h2 := link_stream_kind (assign_fileindex st f) mf f m
        simp only [insert_node]
        exact ⟨h2.1.trans h1, h2.2.1.trans h0.2.2.1, h2.2.2.trans h0.2.2.2⟩
    · simp only [insert_node]
      exact ⟨h1, h0.2.2.1, h0.2.2.2⟩

theorem rename_and_add_is_directory (st : fs_filenodes) (f m : NodeId) (name : WString) :
    ((rename_and_add st f name).nodes m).is_directory = (st.nodes m).is_directory := by
  unfold rename_and_add
  rw [(add_kind _ f m).2.1]
  simp only [set_filename, upd]
  split
  · subst_vars; rfl
  · rfl

theorem move_succ (fuel : Nat) (st : fs_filenodes) (o n : WString) (r : Bool) :
    move (fuel + 1) st o n r = move_body (move fuel) (remove fuel) st o n r := rfl

/-! ### The precondition checks of `move` -/

theorem move_name_not_found (fuel : Nat) (st : fs_filenodes) (o n : WString) (r : Bool)
    (h : find st o = none) :
    move (fuel + 1) st o n r = some (st, STATUS_OBJECT_NAME_NOT_FOUND) := by
  simp [move_succ, move_body, h]

theorem move_name_collision (fuel : Nat) (st : fs_filenodes) (o n : WString) (f g : NodeId)
    (hf : find st o = some f) (hg : find st n = some g) :
    move (fuel + 1) st o n false = some (st, STATUS_OBJECT_NAME_COLLISION) := by
  simp [move_succ, move_body, hf, hg]

theorem move_access_denied (fuel : Nat) (st : fs_filenodes) (o n : WString) (f g : NodeId)
    (hf : find st o = some f) (hg : find st n = some g)
    (h : dest_readonly st g ∨ (st.nodes g).is_directory = true ∨ (st.nodes f).is_directory = true) :
    move (fuel + 1) st o n true = some (st, STATUS_ACCESS_DENIED) := by
  unfold dest_readonly at h
  simp only [move_succ, move_body, hf, hg, Bool.not_true, Bool.false_and, Bool.false_eq_true,
    if_false, Option.any_some]
  by_cases h1 : ((st.nodes g).attributes &&& FILE_ATTRIBUTE_READONLY != 0) = true
  · simp [h1]
  · have h2 : ((st.nodes f).is_directory || (st.nodes g).is_directory) = true := by
      rcases h with h | h | h
      · exact absurd h h1
      · simp [h]
      · simp [h]
    simp [h1, h2]

theorem move_checks_pass (self : fs_filenodes → WString → WString → Bool → Option (fs_filenodes × NTSTATUS))
    (rm : fs_filenodes → Option NodeId → Option fs_filenodes)
    (st : fs_filenodes) (o n : WString) (r : Bool) (f : NodeId)
    (hf : find st o = some f) (hp : dest_passes st f n r) :
    move_body self rm st o n r =
      if (st._directoryPaths (parent_path n)).isNone then
        some (st, STATUS_OBJECT_PATH_NOT_FOUND)
      else
        match rm st (find st n) with
        | none => none
        | some st1 =>
          if ((rename_and_add st1 f n).nodes f).is_directory then
            match for_each_status
                (fun s file =>
                  self s (s.nodes file).filename (path_append n (filename (s.nodes file).filename)) r)
                (rename_and_add st1 f n) (list_folder (rename_and_add st1 f n) o) with
            | none => none
            | some (s, c) =>
              if c ≠ STATUS_SUCCESS then some (s, c)
              else
                some (move_finish (erase_directory s o) f o
                  (parent_path (st1.nodes f).filename) (parent_path n), STATUS_SUCCESS)
          else
            some (move_finish (rename_and_add st1 f n) f o
              (parent_path (st1.nodes f).filename) (parent_path n), STATUS_SUCCESS) := by
  unfold dest_passes dest_readonly at hp
  unfold move_body
  simp only [hf]
  rcases hp with hn | ⟨hr, hg⟩
  · simp [hn]
  · cases hn : find st n with
    | none => simp
    | some g =>
      obtain ⟨h1, h2, h3⟩ := hg g hn
      simp [hr, h1, h2, h3]

theorem move_path_not_found (fuel : Nat) (st : fs_filenodes) (o n : WString) (r : Bool)
    (f : NodeId) (hf : find st o = some f) (hp : dest_passes st f n r)
    (hd : st._directoryPaths (parent_path n) = none) :
    move (fuel + 1) st o n r = some (st, STATUS_OBJECT_PATH_NOT_FOUND) := by
  rw [move_succ, move_checks_pass _ _ st o n r f hf hp]
  simp [hd]

theorem move_file_success (fuel : Nat) (st st1 : fs_filenodes) (o n : WString) (r : Bool)
    (f : NodeId) (hf : find st o = some f) (hp : dest_passes st f n r)
    (hd : (st._directoryPaths (parent_path n)).isSome = true)
    (hfile : (st.nodes f).is_directory = false)
    (hrm : remove fuel st (find st n) = some st1) :
    move (fuel + 1) st o n r = some (moved_file_state st1 f o n, STATUS_SUCCESS) := by
  rw [move_succ, move_checks_pass _ _ st o n r f hf hp]
  have h1 : (st._directoryPaths (parent_path n)).isNone = false := by
    cases h : st._directoryPaths (parent_path n) <;> simp_all
  have h2 : ((rename_and_add st1 f n).nodes f).is_directory = false := by
    rw [rename_and_add_is_directory, ((remove_frame fuel st _ st1 hrm).1 f).2.1, hfile]
  simp [h1, hrm, h2, moved_file_state]

theorem remove_plain_file (fuel : Nat) (st : fs_filenodes) (g : NodeId)
    (hfile : (st.nodes g).is_directory = false)
    (hs : (st.nodes g).main_stream.isSome = true ∨ (st.nodes g).streams = []) :
    ∃ st1, remove (fuel + 1) st (some g) = some st1 := by
  rw [remove_some_succ]
  cases hm : (st.nodes g).main_stream with
  | some m =>
    refine ⟨remove_stream (unlink_node st g (st.nodes g).filename) m g, ?_⟩
    rw [remove_body_iff]
    exact ⟨_, Or.inr ⟨hfile, rfl⟩, Or.inl ⟨m, hm, rfl⟩⟩
  | none =>
    have hs2 : (st.nodes g).streams = [] := by
      rcases hs with h | h
      · simp [hm] at h
      · exact h
    refine ⟨unlink_node st g (st.nodes g).filename, ?_⟩
    rw [remove_body_iff]
    refine ⟨_, Or.inr ⟨hfile, rfl⟩, Or.inr ⟨hm, ?_⟩⟩
    simp [hs2, for_each]

/-- C6: a move that one of the precondition checks rejects hands back the very
state it was given, so the path map, the directory index, the counter and
every field of every node are as before. That is so when both paths have a
node and the replace flag is off (`STATUS_OBJECT_NAME_COLLISION`), when the old
path has no node (`STATUS_OBJECT_NAME_NOT_FOUND`), when the existing destination
is read-only or a directory is involved (`STATUS_ACCESS_DENIED`), and when the
new parent path is no key of the directory index
(`STATUS_OBJECT_PATH_NOT_FOUND`). -/
theorem move_rejected_no_mutation (fuel : Nat) (st : fs_filenodes) (o n : WString) (r : Bool) :
    (∀ f g, find st o = some f → find st n = some g → r = false →
      move (fuel + 1) st o n r = some (st, STATUS_OBJECT_NAME_COLLISION)) ∧
    (find st o = none → move (fuel + 1) st o n r = some (st, STATUS_OBJECT_NAME_NOT_FOUND)) ∧
    (∀ f g, find st o = some f → find st n = some g → r = true →
      (dest_readonly st g ∨ (st.nodes g).is_directory = true ∨ (st.nodes f).is_directory = true) →
      move (fuel + 1) st o n r = some (st, STATUS_ACCESS_DENIED)) ∧
    (∀ f, find st o = some f → dest_passes st f n r →
      st._directoryPaths (parent_path n) = none →
      move (fuel + 1) st o n r = some (st, STATUS_OBJECT_PATH_NOT_FOUND)) := by
  refine ⟨?_, ?_, ?_, ?_⟩
  · intro f g hf hg hr
    subst hr
    exact move_name_collision fuel st o n f g hf hg
  · intro h
    exact move_name_not_found fuel st o n r h
  · intro f g hf hg hr h
    subst hr
    exact move_access_denied fuel st o n f g hf hg h
  · intro f hf hp hd
    exact move_path_not_found fuel st o n r f hf hp hd

/-- C6 at a concrete table (Scenario D): with the directory `\a` and the file
`\a\b.txt` in the table, `move("\a\b.txt", "\a", false)` answers
`STATUS_OBJECT_NAME_COLLISION` and hands back the table unchanged. -/
theorem move_rejected_no_mutation_witness :
    move 1 table_ab (wpath "\\a\\b.txt") (wpath "\\a") false =
      some (table_ab, STATUS_OBJECT_NAME_COLLISION) :=
  (move_rejected_no_mutation 0 table_ab (wpath "\\a\\b.txt") (wpath "\\a") false).1 2 1
    (by decide) (by decide) rfl

/-! ### Sets of node addresses -/

theorem mem_set_insert (x a : NodeId) (l : List NodeId) :
    a ∈ set_insert x l ↔ a = x ∨ a ∈ l := by
  induction l with
  | nil => simp [set_insert]
  | cons y ys ih =>
    simp only [set_insert]
    split
    · simp
    · split
      · subst_vars; simp
      · simp only [List.mem_cons, ih]
        constructor
        · rintro (h | h | h)
          · exact Or.inr (Or.inl h)
          · exact Or.inl h
          · exact Or.inr (Or.inr h)
        · rintro (h | h | h)
          · exact Or.inr (Or.inl h)
          · exact Or.inl h
          · exact Or.inr (Or.inr h)

theorem mem_set_erase (x a : NodeId) (l : List NodeId) :
    a ∈ set_erase x l ↔ a ∈ l ∧ a ≠ x := by
  simp [set_erase]

/-! ### Invariants of the two indexes -/

theorem parent_exists_of_covered (st : fs_filenodes) (h : children_covered st) :
    parent_exists st := by
  intro k hk hr
  cases hn : st._filenodes k with
  | none => simp [hn] at hk
  | some n =>
    obtain ⟨l, hl, _⟩ := h k n hn hr
    simp [hl]

theorem for_each_inv {α σ : Type} (I : σ → Prop) (Q : α → σ → Prop) (body : σ → α → Option σ)
    (hI : ∀ s x r, I s → body s x = some r → I r)
    (hQ : ∀ s x r, I s → body s x = some r → Q x r)
    (hstable : ∀ s x y r, I s → Q y s → body s x = some r → Q y r) :
    ∀ (l : List α) (s r : σ), I s → for_each body s l = some r → I r ∧ ∀ x ∈ l, Q x r := by
  intro l
  induction l with
  | nil =>
    intro s r hs h
    simp only [for_each, Option.some.injEq] at h
    subst h
    exact ⟨hs, by simp⟩
  | cons x xs ih =>
    intro s r hs h
    simp only [for_each] at h
    cases hx : body s x with
    | none => simp [hx] at h
    | some s1 =>
      simp only [hx] at h
      have hI1 := hI s x s1 hs hx
      have hQ1 := hQ s x s1 hs hx
      -- the property of the first element survives the rest of the loop
      have hkeep : ∀ (l2 : List α) (a b : σ), I a → Q x a → for_each body a l2 = some b → Q x b := by
        intro l2
        induction l2 with
        | nil =>
          intro a b _ hq hab
          simp only [for_each, Option.some.injEq] at hab
          subst hab; exact hq
        | cons y ys ih2 =>
          intro a b ha hq hab
          simp only [for_each] at hab
          cases hy : body a y with
          | none => simp [hy] at hab
          | some a1 =>
            simp only [hy] at hab
            exact ih2 a1 b (hI a y a1 ha hy) (hstable a y x a1 ha hq hy) hab
      obtain ⟨hIr, hQr⟩ := ih s1 r hI1 h
      refine ⟨hIr, ?_⟩
      intro y hy
      rcases List.mem_cons.mp hy with rfl | hy
      · exact hkeep xs s1 r hI1 hQ1 h
      · exact hQr y hy

theorem unlink_node_inv {X : WString → NodeId → Prop} (st : fs_filenodes) (f : NodeId)
    (hk : key_consistent st) (hc : covered_off X st) :
    key_consistent (unlink_node st f (st.nodes f).filename) ∧
    covered_off X (unlink_node st f (st.nodes f).filename) := by
  constructor
  · intro k n hkn
    simp only [unlink_node, upd] at hkn ⊢
    split at hkn
    · cases hkn
    · exact hk k n hkn
  · intro k n hkn hr
    simp only [unlink_node, upd] at hkn ⊢
    split at hkn
    · cases hkn
    · rename_i hne
      obtain ⟨l, hl, hn⟩ := hc k n hkn hr
      have hnf : n ≠ f := by
        intro h; subst h
        exact hne (hk k n hkn).symm
      split
      · rename_i hp
        refine ⟨_, rfl, ?_⟩
        rw [mem_set_erase, ← hp, hl]
        exact ⟨hn, hnf⟩
      · exact ⟨l, hl, hn⟩

theorem erase_directory_inv {X : WString → NodeId → Prop} (s : fs_filenodes) (name : WString)
    (hk : key_consistent s) (hc : covered_off X s)
    (hempty : ∀ k n, s._filenodes k = some n → ¬ X k n → parent_path k ≠ name) :
    key_consistent (erase_directory s name) ∧ covered_off X (erase_directory s name) := by
  refine ⟨hk, ?_⟩
  intro k n hkn hr
  obtain ⟨l, hl, hn⟩ := hc k n hkn hr
  refine ⟨l, ?_, hn⟩
  simp only [erase_directory, upd]
  rw [if_neg (hempty k n hkn hr)]
  exact hl

theorem remove_stream_inv {X : WString → NodeId → Prop} (s : fs_filenodes) (m f : NodeId)
    (hk : key_consistent s) (hc : covered_off X s) :
    key_consistent (remove_stream s m f) ∧ covered_off X (remove_stream s m f) := by
  refine ⟨?_, hc⟩
  intro k n hkn
  have h0 := hk k n hkn
  simp only [remove_stream, upd]
  split
  · rename_i hnm; rw [hnm] at h0; exact h0
  · exact h0

theorem directory_part_inv {X : WString → NodeId → Prop}
    (self : fs_filenodes → Option NodeId → Option fs_filenodes) (hself : removes_well X self)
    (st st2 : fs_filenodes) (f : NodeId)
    (hk : key_consistent st) (hc : covered_off X st)
    (hdir : after_directory_part self st f st2) :
    key_consistent st2 ∧ covered_off X st2 ∧ st2._filenodes (st.nodes f).filename = none := by
  obtain ⟨hk1, hc1⟩ := unlink_node_inv st f hk hc
  have hgone1 : (unlink_node st f (st.nodes f).filename)._filenodes (st.nodes f).filename = none := by
    simp [unlink_node, upd]
  rcases hdir with ⟨_, s, hs, rfl⟩ | ⟨_, rfl⟩
  · have hloop := for_each_inv
      (fun a => key_consistent a ∧ covered_off X a)
      (fun (c : NodeId) a => a._filenodes (a.nodes c).filename = none)
      (fun a file => self a (some file))
      (fun a c b ha hb =>
        ⟨((hself a _ b hb).1 ha.1 ha.2).1, ((hself a _ b hb).1 ha.1 ha.2).2.1⟩)
      (fun a c b ha hb => by
        have h0 := ((hself a _ b hb).1 ha.1 ha.2).2.2 c rfl
        show b._filenodes (b.nodes c).filename = none
        rw [(hself a _ b hb).2.1 c]; exact h0)
      (fun a c y b _ hq hb => by
        show b._filenodes (b.nodes y).filename = none
        rw [(hself a _ b hb).2.1 y]
        rcases (hself a _ b hb).2.2 (a.nodes y).filename with h0 | h0
        · exact h0
        · rw [h0]; exact hq)
      _ _ s ⟨hk1, hc1⟩ hs
    obtain ⟨⟨hks, hcs⟩, hq⟩ := hloop
    have hfs := for_each_rel
      (fun a b => ∀ k, b._filenodes k = none ∨ b._filenodes k = a._filenodes k)
      (fun a k => Or.inr rfl)
      (fun a b c hab hbc k => by
        rcases hbc k with h0 | h0
        · exact Or.inl h0
        · rw [h0]; exact hab k)
      (fun a file => self a (some file))
      (fun a c b hb => (hself a _ b hb).2.2) _ _ s hs
    have hempty : ∀ k m, s._filenodes k = some m → ¬ X k m →
        parent_path k ≠ (st.nodes f).filename := by
      intro k m hkm hr hp
      have h1 : (unlink_node st f (st.nodes f).filename)._filenodes k = some m := by
        rcases hfs k with h0 | h0
        · rw [h0] at hkm; cases hkm
        · rw [← h0]; exact hkm
      obtain ⟨l, hl, hm⟩ := hc1 k m h1 hr
      have hmem : m ∈ list_folder (unlink_node st f (st.nodes f).filename)
          (st.nodes f).filename := by
        rw [hp] at hl
        simp only [list_folder, hl, Option.getD_some]; exact hm
      have h9 : s._filenodes (s.nodes m).filename = none := hq m hmem
      rw [hks k m hkm, hkm] at h9
      cases h9
    obtain ⟨hke, hce⟩ := erase_directory_inv s _ hks hcs hempty
    refine ⟨hke, hce, ?_⟩
    rcases hfs (st.nodes f).filename with h0 | h0
    · exact h0
    · simp only [erase_directory_map]; rw [h0]; exact hgone1
  · exact ⟨hk1, hc1, hgone1⟩

/-- `remove` keeps the path map consistent with the file names and every held
node in the child set of its parent path, and the removed node is gone from
the path map. -/
theorem remove_inv {X : WString → NodeId → Prop} :
    ∀ (fuel : Nat) (st : fs_filenodes) (x : Option NodeId) (r : fs_filenodes),
    key_consistent st → covered_off X st → remove fuel st x = some r →
    key_consistent r ∧ covered_off X r ∧
      ∀ c, x = some c → r._filenodes (st.nodes c).filename = none := by
  intro fuel
  induction fuel with
  | zero =>
    intro st x r hk hc h
    cases x with
    | none =>
      simp only [remove_none, Option.some.injEq] at h; subst h
      exact ⟨hk, hc, by simp⟩
    | some f => simp [remove] at h
  | succ n ih =>
    intro st x r hk hc h
    cases x with
    | none =>
      simp only [remove_none, Option.some.injEq] at h; subst h
      exact ⟨hk, hc, by simp⟩
    | some f =>
      rw [remove_some_succ, remove_body_iff] at h
      obtain ⟨st2, hdir, hstr⟩ := h
      have hself : removes_well X (remove n) := fun a c b hb =>
        ⟨fun ha1 ha2 => ih a c b ha1 ha2 hb, fun m => ((remove_frame _ _ _ _ hb).1 m).1,
          (remove_frame _ _ _ _ hb).2.2⟩
      obtain ⟨hk2, hc2, hg2⟩ := directory_part_inv (remove n) hself st st2 f hk hc hdir
      -- the stream part
      rcases hstr with ⟨m, _, rfl⟩ | ⟨_, hs⟩
      · obtain ⟨a, b⟩ := remove_stream_inv st2 m f hk2 hc2
        refine ⟨a, b, ?_⟩
        intro c hc'
        cases hc'
        exact hg2
      · have hloop := for_each_rel
          (fun a b => key_consistent a → covered_off X a →
            (key_consistent b ∧ covered_off X b) ∧
              ∀ k, b._filenodes k = none ∨ b._filenodes k = a._filenodes k)
          (fun a ha hb => ⟨⟨ha, hb⟩, fun k => Or.inr rfl⟩)
          (fun a b c hab hbc ha1 ha2 => by
            obtain ⟨⟨hb1, hb2⟩, hb3⟩ := hab ha1 ha2
            obtain ⟨hc12, hc3⟩ := hbc hb1 hb2
            refine ⟨hc12, fun k => ?_⟩
            rcases hc3 k with h0 | h0
            · exact Or.inl h0
            · rw [h0]; exact hb3 k)
          (fun a (stream : WString × NodeId) => remove n a (find a stream.1))
          (fun a c b hb ha1 ha2 =>
            ⟨⟨(ih a _ b ha1 ha2 hb).1, (ih a _ b ha1 ha2 hb).2.1⟩, (remove_frame _ _ _ _ hb).2.2⟩)
          _ _ r hs
        obtain ⟨⟨hkr, hcr⟩, hsh⟩ := hloop hk2 hc2
        refine ⟨hkr, hcr, ?_⟩
        intro c hc'
        cases hc'
        rcases hsh (st.nodes f).filename with h0 | h0
        · exact h0
        · rw [h0]; exact hg2

theorem remove_removes_well (X : WString → NodeId → Prop) (n : Nat) :
    removes_well X (remove n) := fun a c b hb =>
  ⟨fun ha1 ha2 => remove_inv n a c b ha1 ha2 hb, fun m => ((remove_frame _ _ _ _ hb).1 m).1,
    (remove_frame _ _ _ _ hb).2.2⟩

theorem key_consistent_iff_off (st : fs_filenodes) :
    key_consistent st ↔ key_consistent_off (fun _ => False) st := by
  constructor
  · intro h k n hkn _; exact h k n hkn
  · intro h k n hkn; exact h k n hkn (fun x => x)

theorem insert_node_dirs (s : fs_filenodes) (f : NodeId) (name parent q : WString)
    (l : List NodeId) (hl : s._directoryPaths q = some l) :
    (insert_node s f name parent)._directoryPaths q =
      if q = parent then some (set_insert f l) else some l := by
  have hreg : (if ((s.nodes f).is_directory && (s._directoryPaths name).isNone) = true
      then upd s._directoryPaths name (some []) else s._directoryPaths) q = some l := by
    split
    · rename_i h
      simp only [Bool.and_eq_true, Option.isNone_iff_eq_none] at h
      have hq : q ≠ name := by
        intro hq; rw [hq, h.2] at hl; cases hl
      simp only [upd, if_neg hq]; exact hl
    · exact hl
  by_cases hp : q = parent
  · subst hp
    simp only [insert_node, upd, if_true]
    rw [hreg]; rfl
  · simp only [insert_node, if_neg hp]
    simp only [upd, if_neg hp] at hreg ⊢
    exact hreg

theorem insert_node_inv {X : WString → NodeId → Prop} (E : WString → Prop) (s : fs_filenodes) (f : NodeId)
    (hk : key_consistent_off E s) (hc : covered_off X s)
    (hp : (s._directoryPaths (parent_path (s.nodes f).filename)).isSome = true) :
    key_consistent_off E (insert_node s f (s.nodes f).filename (parent_path (s.nodes f).filename)) ∧
    covered_off X (insert_node s f (s.nodes f).filename (parent_path (s.nodes f).filename)) := by
  constructor
  · intro k n hkn hE
    simp only [insert_node, upd] at hkn ⊢
    split at hkn
    · rename_i hkk
      cases hkn
      exact hkk.symm
    · exact hk k n hkn hE
  · intro k n hkn hr
    have hmap : (insert_node s f (s.nodes f).filename
        (parent_path (s.nodes f).filename))._filenodes k =
          if k = (s.nodes f).filename then some f else s._filenodes k := rfl
    rw [hmap] at hkn
    split at hkn
    · rename_i hkk
      cases hkn
      obtain ⟨l, hl⟩ := Option.isSome_iff_exists.mp hp
      rw [hkk]
      refine ⟨set_insert f l, ?_, ?_⟩
      · rw [insert_node_dirs s f _ _ _ l hl, if_pos rfl]
      · rw [mem_set_insert]; exact Or.inl rfl
    · obtain ⟨l, hl, hn⟩ := hc k n hkn hr
      rw [insert_node_dirs s f _ _ _ l hl]
      split
      · exact ⟨_, rfl, by rw [mem_set_insert]; exact Or.inr hn⟩
      · exact ⟨_, rfl, hn⟩

theorem inv_transfer {X : WString → NodeId → Prop} (E : WString → Prop) (s t : fs_filenodes)
    (hm : t._filenodes = s._filenodes) (hd : t._directoryPaths = s._directoryPaths)
    (hf : ∀ m, (t.nodes m).filename = (s.nodes m).filename)
    (hk : key_consistent_off E s) (hc : covered_off X s) :
    key_consistent_off E t ∧ covered_off X t := by
  constructor
  · intro k n hkn hE
    rw [hm] at hkn
    rw [hf]; exact hk k n hkn hE
  · intro k n hkn hr
    rw [hm] at hkn
    rw [hd]; exact hc k n hkn hr

theorem add_inv_off {X : WString → NodeId → Prop} (E : WString → Prop) (st : fs_filenodes) (f : NodeId)
    (hk : key_consistent_off E st) (hc : covered_off X st) :
    key_consistent_off E (add st f).1 ∧ covered_off X (add st f).1 := by
  obtain ⟨hk1, hc1⟩ := inv_transfer E st (assign_fileindex st f) (assign_fileindex_map st f)
    (assign_fileindex_dirs st f) (assign_fileindex_filename st f) hk hc
  unfold add
  simp only []
  split
  · exact ⟨hk1, hc1⟩
  · rename_i hd
    have hd2 : ((assign_fileindex st f)._directoryPaths
        (parent_path ((assign_fileindex st f).nodes f).filename)).isSome = true := by
      cases h : (assign_fileindex st f)._directoryPaths
        (parent_path ((assign_fileindex st f).nodes f).filename) <;> simp_all
    split
    · split
      · exact ⟨hk1, hc1⟩
      · rename_i mf _
        obtain ⟨hk2, hc2⟩ := inv_transfer E (assign_fileindex st f)
          (link_stream (assign_fileindex st f) mf f) rfl rfl
          (fun m => (link_stream_kind _ mf f m).1) hk1 hc1
        have hname : ((link_stream (assign_fileindex st f) mf f).nodes f).filename =
            ((assign_fileindex st f).nodes f).filename := (link_stream_kind _ mf f f).1
        have := insert_node_inv E (link_stream (assign_fileindex st f) mf f) f hk2 hc2
          (by rw [hname]; exact hd2)
        rw [hname] at this
        exact this
    · exact insert_node_inv E (assign_fileindex st f) f hk1 hc1 hd2

theorem add_inv {X : WString → NodeId → Prop} (st : fs_filenodes) (f : NodeId)
    (hk : key_consistent st) (hc : covered_off X st) :
    key_consistent (add st f).1 ∧ covered_off X (add st f).1 := by
  rw [key_consistent_iff_off] at hk ⊢
  exact add_inv_off _ st f hk hc

/-! ### Comparison of paths -/

theorem path_eq_refl (a : WString) : path_eq a a = true := by
  simp [path_eq, relative_eq]

theorem ne_of_path_eq_false (a b : WString) (h : path_eq a b = false) : a ≠ b := by
  intro hab
  subst hab
  rw [path_eq_refl] at h
  cases h

/-! ### A move of a node that is no directory keeps the invariants -/

theorem rename_and_add_filename (st : fs_filenodes) (f : NodeId) (n : WString) :
    ((rename_and_add st f n).nodes f).filename = n := by
  unfold rename_and_add
  rw [(add_kind _ f f).1]
  simp [set_filename, upd]

theorem rename_and_add_inv {X : WString → NodeId → Prop} (st1 : fs_filenodes) (f : NodeId) (o n : WString)
    (hk : key_consistent st1) (hc : covered_off X st1)
    (hname : (st1.nodes f).filename = o) :
    key_consistent_off (fun k => k = o) (rename_and_add st1 f n) ∧
    covered_off X (rename_and_add st1 f n) := by
  unfold rename_and_add
  apply add_inv_off
  · intro k m hkm hko
    have h1 := hk k m hkm
    have hmf : m ≠ f := by
      intro h; subst h; exact hko (h1.symm.trans hname)
    simp only [set_filename, upd, if_neg hmf]
    exact h1
  · exact hc

theorem move_finish_inv {X : WString → NodeId → Prop} (s : fs_filenodes) (f : NodeId) (o op np : WString)
    (hk : key_consistent_off (fun k => k = o) s) (hc : covered_off X s)
    (hname : ∀ k, s._filenodes k = some f → k ≠ o → parent_path k = np) :
    key_consistent (move_finish s f o op np) ∧ covered_off X (move_finish s f o op np) := by
  have hk1 : ∀ k m, (upd s._filenodes o none) k = some m → (s.nodes m).filename = k := by
    intro k m hkm
    simp only [upd] at hkm
    split at hkm
    · cases hkm
    · rename_i hko
      exact hk k m hkm hko
  have hc1 : ∀ k m, (upd s._filenodes o none) k = some m → ¬ X k m →
      ∃ l, s._directoryPaths (parent_path k) = some l ∧ m ∈ l := by
    intro k m hkm hr
    simp only [upd] at hkm
    split at hkm
    · cases hkm
    · exact hc k m hkm hr
  unfold move_finish
  simp only []
  split
  · rename_i hne
    have hne2 : op ≠ np := by
      apply ne_of_path_eq_false
      simpa using hne
    refine ⟨hk1, ?_⟩
    intro k m hkm hr
    obtain ⟨l, hl, hm⟩ := hc1 k m hkm hr
    simp only [upd]
    split
    · rename_i hp
      refine ⟨_, rfl, ?_⟩
      rw [mem_set_erase, ← hp, hl]
      refine ⟨hm, ?_⟩
      intro hmf
      subst hmf
      have hko : k ≠ o := by
        intro h
        simp [upd, h] at hkm
      have hkm2 : s._filenodes k = some m := by
        simpa [upd, hko] using hkm
      exact hne2 (hp.symm.trans (hname k hkm2 hko))
    · exact ⟨l, hl, hm⟩
  · exact ⟨hk1, hc1⟩

theorem moved_file_state_inv {X : WString → NodeId → Prop} (st1 : fs_filenodes) (f : NodeId) (o n : WString)
    (hk : key_consistent st1) (hc : covered_off X st1)
    (hname : (st1.nodes f).filename = o) :
    key_consistent (moved_file_state st1 f o n) ∧ covered_off X (moved_file_state st1 f o n) := by
  obtain ⟨hk3, hc3⟩ := rename_and_add_inv st1 f o n hk hc hname
  unfold moved_file_state
  apply move_finish_inv _ _ _ _ _ hk3 hc3
  intro k hkf hko
  have := hk3 k f hkf hko
  rw [rename_and_add_filename] at this
  rw [← this]

theorem move_file_cases (fuel : Nat) (st st' : fs_filenodes) (o n : WString) (r : Bool)
    (f : NodeId) (c : NTSTATUS) (hf : find st o = some f)
    (hfile : (st.nodes f).is_directory = false)
    (h : move (fuel + 1) st o n r = some (st', c)) :
    (st' = st ∧ c ≠ STATUS_SUCCESS) ∨
    ∃ st1, remove fuel st (find st n) = some st1 ∧ st' = moved_file_state st1 f o n ∧
      c = STATUS_SUCCESS := by
  rw [move_succ] at h
  unfold move_body at h
  simp only [hf] at h
  split at h
  · simp only [Option.some.injEq, Prod.mk.injEq] at h
    exact Or.inl ⟨h.1.symm, by rw [← h.2]; decide⟩
  · split at h
    · simp only [Option.some.injEq, Prod.mk.injEq] at h
      exact Or.inl ⟨h.1.symm, by rw [← h.2]; decide⟩
    · split at h
      · simp only [Option.some.injEq, Prod.mk.injEq] at h
        exact Or.inl ⟨h.1.symm, by rw [← h.2]; decide⟩
      · split at h
        · simp only [Option.some.injEq, Prod.mk.injEq] at h
          exact Or.inl ⟨h.1.symm, by rw [← h.2]; decide⟩
        · cases hrm : remove fuel st (find st n) with
          | none => simp [hrm] at h
          | some st1 =>
            simp only [hrm] at h
            have h2 : ((rename_and_add st1 f n).nodes f).is_directory = false := by
              rw [rename_and_add_is_directory, ((remove_frame fuel st _ st1 hrm).1 f).2.1, hfile]
            simp only [h2, Bool.false_eq_true, if_false, Option.some.injEq, Prod.mk.injEq] at h
            exact Or.inr ⟨st1, rfl, h.1.symm, h.2.symm⟩

/-- A move whose source is no directory keeps the path map consistent with the
file names and every held node in the child set of its parent path. -/
theorem move_file_inv {X : WString → NodeId → Prop} (fuel : Nat) (st st' : fs_filenodes) (o n : WString) (r : Bool)
    (c : NTSTATUS) (hk : key_consistent st) (hc : covered_off X st)
    (hfile : ∀ f, find st o = some f → (st.nodes f).is_directory = false)
    (h : move fuel st o n r = some (st', c)) :
    key_consistent st' ∧ covered_off X st' := by
  cases fuel with
  | zero => simp [move] at h
  | succ fuel =>
    cases hf : find st o with
    | none =>
      rw [move_name_not_found fuel st o n r hf] at h
      simp only [Option.some.injEq, Prod.mk.injEq] at h
      rw [← h.1]; exact ⟨hk, hc⟩
    | some f =>
      rcases move_file_cases fuel st st' o n r f c hf (hfile f hf) h with ⟨h1, _⟩ | ⟨st1, hrm, h1, _⟩
      · rw [h1]; exact ⟨hk, hc⟩
      · obtain ⟨hk1, hc1, _⟩ := remove_inv fuel st _ st1 hk hc hrm
        rw [h1]
        apply moved_file_state_inv st1 f o n hk1 hc1
        rw [((remove_frame fuel st _ st1 hrm).1 f).1]
        exact hk o f hf

theorem bootstrap_inv (root : NodeId) (heap : NodeId → filenode) :
    key_consistent (bootstrap root heap) ∧ children_covered (bootstrap root heap) := by
  constructor
  · intro k n hkn
    simp only [bootstrap, upd] at hkn ⊢
    split at hkn
    · rename_i hk
      cases hkn
      simp [filenode.create, hk]
    · cases hkn
  · intro k n hkn hr
    simp only [bootstrap, upd] at hkn
    split at hkn
    · rename_i hk; exact absurd hk hr
    · cases hkn

/-! ### Reachable states -/

theorem reachable_run_call (init st : fs_filenodes) (fuel : Nat) (c : call)
    (h : reachable_by any_call init st) : reachable_by any_call init (run_call fuel st c) := by
  cases c with
  | add n => exact reachable_by.step st (call.add n) _ h trivial rfl
  | remove name =>
    simp only [run_call]
    cases hr : remove_path fuel st name with
    | none => simpa using h
    | some st2 => exact reachable_by.step st (call.remove name) _ h trivial ⟨fuel, hr⟩
  | move o n r =>
    simp only [run_call]
    cases hr : move fuel st o n r with
    | none => simpa using h
    | some p =>
      exact reachable_by.step st (call.move o n r) _ h trivial ⟨fuel, p.2, by simpa using hr⟩

theorem reachable_add_all (init st : fs_filenodes) (l : List NodeId)
    (h : reachable_by any_call init st) : reachable_by any_call init (add_all st l) := by
  induction l generalizing st with
  | nil => exact h
  | cons x xs ih =>
    exact ih _ (reachable_by.step st (call.add x) _ h trivial rfl)

/-- In the states reachable without moves of directories the path map is
consistent with the file names and every held node is in the child set of its
parent path. -/
theorem reachable_inv (root : NodeId) (heap : NodeId → filenode) (st : fs_filenodes)
    (h : reachable_by no_directory_move (bootstrap root heap) st) :
    key_consistent st ∧ children_covered st := by
  induction h with
  | start => exact bootstrap_inv root heap
  | step st c st2 _ hallowed hret ih =>
    obtain ⟨hk, hc⟩ := ih
    cases c with
    | add n =>
      simp only [call_returns] at hret
      rw [hret]
      exact add_inv st n hk hc
    | remove name =>
      obtain ⟨fuel, hr⟩ := hret
      obtain ⟨a, b, _⟩ := remove_inv fuel st _ st2 hk hc hr
      exact ⟨a, b⟩
    | move o n r =>
      obtain ⟨fuel, status, hr⟩ := hret
      exact move_file_inv fuel st st2 o n r status hk hc hallowed hr

/-- C10, for the calls that keep it: in every state reachable from the
bootstrap state by `add` calls, `remove` calls and `move` calls whose source is
not a directory, the parent path of every key of the path map other than the
root path is a key of the directory index. -/
theorem parent_exists_invariant (root : NodeId) (heap : NodeId → filenode) (st : fs_filenodes)
    (h : reachable_by no_directory_move (bootstrap root heap) st) : parent_exists st :=
  parent_exists_of_covered st (reachable_inv root heap st h).2

/-- C10 at a concrete table: the table with the directory `\a` and the file
`\a\b.txt` is reachable by two `add` calls. -/
theorem parent_exists_invariant_witness : parent_exists table_ab :=
  parent_exists_invariant 0 scenario_heap table_ab
    (reachable_by.step _ (call.add 2) _
      (reachable_by.step _ (call.add 1) _ reachable_by.start trivial rfl) trivial rfl)

/-- C10 as stated fails: after the directories `\p`, `\p\a` and the file `\p\a\x`
are added, `move("\p\a", "\b:s", false)` answers `STATUS_OBJECT_PATH_NOT_FOUND` from
the move of the child and leaves the key `\p\a` in the path map; `remove("\p")`
then erases the child set of `\p`, so the key `\p\a` has a parent path that is
no key of the directory index. -/
theorem parent_exists_broken :
    reachable_by any_call table0 table_orphan ∧
    (move 3 table_p (wpath "\\p\\a") (wpath "\\b:s") false).map Prod.snd =
      some STATUS_OBJECT_PATH_NOT_FOUND ∧
    table_orphan._filenodes (wpath "\\p\\a") = some 8 ∧
    wpath "\\p\\a" ≠ root_path ∧
    table_orphan._directoryPaths (parent_path (wpath "\\p\\a")) = none ∧
    ¬ parent_exists table_orphan := by
  have h3 : table_orphan._filenodes (wpath "\\p\\a") = some 8 := by decide
  have h4 : wpath "\\p\\a" ≠ root_path := by decide
  have h5 : table_orphan._directoryPaths (parent_path (wpath "\\p\\a")) = none := by decide
  refine ⟨?_, by decide, h3, h4, h5, ?_⟩
  · exact reachable_run_call _ _ _ _
      (reachable_run_call _ _ _ _ (reachable_add_all _ _ _ reachable_by.start))
  · intro hpe
    have := hpe (wpath "\\p\\a") (by rw [h3]; rfl) h4
    rw [h5] at this
    cases this

/-! ### Exactness of the child sets under `remove` -/

theorem for_each_preserves {α σ : Type} (I : σ → Prop) (body : σ → α → Option σ) :
    ∀ (l : List α), (∀ s x r, x ∈ l → I s → body s x = some r → I r) →
      ∀ (s r : σ), I s → for_each body s l = some r → I r := by
  intro l
  induction l with
  | nil =>
    intro _ s r hs h
    simp only [for_each, Option.some.injEq] at h
    subst h; exact hs
  | cons x xs ih =>
    intro hI s r hs h
    simp only [for_each] at h
    cases hx : body s x with
    | none => simp [hx] at h
    | some s1 =>
      simp only [hx] at h
      exact ih (fun a y b hy => hI a y b (List.mem_cons_of_mem _ hy)) s1 r
        (hI s x s1 (List.mem_cons_self _ _) hs hx) h

theorem unlink_node_members (root : NodeId) (st : fs_filenodes) (f : NodeId)
    (hm : members_held root st) (hs : settled st f) :
    members_held root (unlink_node st f (st.nodes f).filename) := by
  intro P l hl n hn
  simp only [unlink_node_nodes]
  -- `n` was a member of the child set of `P` before, and is not `f` if `P` is the parent
  have hold : ∃ l0, st._directoryPaths P = some l0 ∧ n ∈ l0 ∧
      (P = parent_path (st.nodes f).filename → n ≠ f) := by
    simp only [unlink_node, upd] at hl
    split at hl
    · rename_i hP
      simp only [Option.some.injEq] at hl
      subst hl
      rw [mem_set_erase] at hn
      cases hb : st._directoryPaths (parent_path (st.nodes f).filename) with
      | none => simp [hb] at hn
      | some l0 =>
        simp only [hb, Option.getD_some] at hn
        exact ⟨l0, by rw [hP, hb], hn.1, fun _ => hn.2⟩
    · rename_i hP
      exact ⟨l, hl, hn, fun h => absurd h hP⟩
  obtain ⟨l0, hl0, hn0, hnf⟩ := hold
  obtain ⟨h1, h2, h3⟩ := hm P l0 hl0 n hn0
  refine ⟨?_, h2, h3⟩
  have hne : (st.nodes n).filename ≠ (st.nodes f).filename := by
    intro heq
    have hnf2 : n ≠ f := by
      intro h
      subst h
      exact hnf h3.symm rfl
    rw [heq] at h1
    rcases hs with h | h
    · rw [h] at h1; exact hnf2 (Option.some.inj h1).symm
    · rw [h] at h1; cases h1
  simp only [unlink_node, upd, if_neg hne]
  exact h1

theorem erase_directory_members (root : NodeId) (s : fs_filenodes) (name : WString)
    (hm : members_held root s) : members_held root (erase_directory s name) := by
  intro P l hl n hn
  simp only [erase_directory, upd] at hl
  split at hl
  · cases hl
  · exact hm P l hl n hn

theorem members_transfer (root : NodeId) (s t : fs_filenodes)
    (hmap : t._filenodes = s._filenodes) (hd : t._directoryPaths = s._directoryPaths)
    (hf : ∀ m, (t.nodes m).filename = (s.nodes m).filename)
    (hm : members_held root s) : members_held root t := by
  intro P l hl n hn
  rw [hd] at hl
  rw [hmap, hf]
  exact hm P l hl n hn

theorem remove_stream_filename (s : fs_filenodes) (m f k : NodeId) :
    ((remove_stream s m f).nodes k).filename = (s.nodes k).filename := by
  simp only [remove_stream, upd]
  split
  · rename_i h; rw [h]
  · rfl

theorem settled_of_shrink (a b : fs_filenodes) (c : NodeId)
    (hf : (b.nodes c).filename = (a.nodes c).filename)
    (hsh : ∀ k, b._filenodes k = none ∨ b._filenodes k = a._filenodes k)
    (h : settled a c) : settled b c := by
  unfold settled at h ⊢
  rw [hf]
  rcases hsh (a.nodes c).filename with h0 | h0
  · exact Or.inr h0
  · rw [h0]; exact h

/-- `remove` keeps the child sets exact from the side of the members: called on a
node that the path map holds under its own name (or on one it no longer
holds), it leaves every member of every child set held by the path map, with
the key of the child set as parent path. -/
theorem remove_members {X : WString → NodeId → Prop} (root : NodeId) :
    ∀ (fuel : Nat) (st : fs_filenodes) (x : Option NodeId) (r : fs_filenodes),
    key_consistent st → covered_off X st → members_held root st →
    (∀ c, x = some c → settled st c) → remove fuel st x = some r →
    members_held root r := by
  intro fuel
  induction fuel with
  | zero =>
    intro st x r _ _ hm _ h
    cases x with
    | none => simp only [remove_none, Option.some.injEq] at h; subst h; exact hm
    | some f => simp [remove] at h
  | succ n ih =>
    intro st x r hk hc hm hset h
    cases x with
    | none => simp only [remove_none, Option.some.injEq] at h; subst h; exact hm
    | some f =>
      rw [remove_some_succ, remove_body_iff] at h
      obtain ⟨st2, hdir, hstr⟩ := h
      obtain ⟨hk2, hc2, _⟩ :=
        directory_part_inv (remove n) (remove_removes_well X n) st st2 f hk hc hdir
      obtain ⟨hk1, hc1⟩ := unlink_node_inv st f hk hc
      have hm1 := unlink_node_members root st f hm (hset f rfl)
      have hm2 : members_held root st2 := by
        rcases hdir with ⟨_, s, hs, rfl⟩ | ⟨_, rfl⟩
        · apply erase_directory_members
          have hloop := for_each_preserves
            (fun a => key_consistent a ∧ covered_off X a ∧ members_held root a ∧
              ∀ c, c ∈ list_folder (unlink_node st f (st.nodes f).filename) (st.nodes f).filename →
                settled a c)
            (fun a file => remove n a (some file))
            (list_folder (unlink_node st f (st.nodes f).filename) (st.nodes f).filename)
            (fun a c b hcl ha hb => by
              obtain ⟨ha1, ha2, ha3, ha4⟩ := ha
              obtain ⟨hb1, hb2, _⟩ := remove_inv n a _ b ha1 ha2 hb
              refine ⟨hb1, hb2, ?_, ?_⟩
              · exact ih a _ b ha1 ha2 ha3 (fun c2 hc2 => by cases hc2; exact ha4 c hcl) hb
              · intro c2 hc2
                have hf := remove_frame _ _ _ _ hb
                exact settled_of_shrink a b c2 (hf.1 c2).1 hf.2.2 (ha4 c2 hc2))
            _ s ⟨hk1, hc1, hm1, ?_⟩ hs
          · exact hloop.2.2.1
          · intro c hcl
            simp only [list_folder] at hcl
            cases hb : (unlink_node st f (st.nodes f).filename)._directoryPaths
                (st.nodes f).filename with
            | none => simp [hb] at hcl
            | some l =>
              simp only [hb, Option.getD_some] at hcl
              exact Or.inl (hm1 _ l hb c hcl).1
        · exact hm1
      rcases hstr with ⟨m, _, rfl⟩ | ⟨_, hs⟩
      · exact members_transfer root st2 _ rfl rfl (remove_stream_filename st2 m f) hm2
      · have hloop := for_each_preserves
          (fun a => key_consistent a ∧ covered_off X a ∧ members_held root a)
          (fun a (stream : WString × NodeId) => remove n a (find a stream.1))
          (st2.nodes f).streams
          (fun a kv b _ ha hb => by
            obtain ⟨ha1, ha2, ha3⟩ := ha
            obtain ⟨hb1, hb2, _⟩ := remove_inv n a _ b ha1 ha2 hb
            refine ⟨hb1, hb2, ?_⟩
            refine ih a _ b ha1 ha2 ha3 ?_ hb
            intro c hcf
            left
            have := ha1 kv.1 c hcf
            rw [this]; exact hcf)
          _ r ⟨hk2, hc2, hm2⟩ hs
        exact hloop.2.2

/-! ### Exactness of the child sets under `add` -/

theorem insert_node_dirs_new (s : fs_filenodes) (f : NodeId) (name parent q : WString)
    (l2 : List NodeId) (hq : s._directoryPaths q = none)
    (hp : (s._directoryPaths parent).isSome = true)
    (h : (insert_node s f name parent)._directoryPaths q = some l2) : l2 = [] := by
  have hqp : q ≠ parent := by
    intro h0; rw [h0] at hq; rw [hq] at hp; cases hp
  simp only [insert_node, upd, if_neg hqp] at h
  split at h
  · simp only [upd] at h
    split at h
    · exact (Option.some.inj h).symm
    · rw [hq] at h; cases h
  · rw [hq] at h; cases h

theorem insert_node_members (root : NodeId) (s : fs_filenodes) (f : NodeId)
    (hm : members_held root s) (hroot : f ≠ root)
    (hfree : s._filenodes (s.nodes f).filename = none)
    (hp : (s._directoryPaths (parent_path (s.nodes f).filename)).isSome = true) :
    members_held root
      (insert_node s f (s.nodes f).filename (parent_path (s.nodes f).filename)) := by
  intro P l2 hl2 m hmem
  have hmap : ∀ k, (insert_node s f (s.nodes f).filename
      (parent_path (s.nodes f).filename))._filenodes k =
        if k = (s.nodes f).filename then some f else s._filenodes k := fun _ => rfl
  have hnodes : (insert_node s f (s.nodes f).filename
      (parent_path (s.nodes f).filename)).nodes = s.nodes := rfl
  rw [hnodes, hmap]
  have hold : ∀ l, s._directoryPaths P = some l → m ∈ l →
      (if (s.nodes m).filename = (s.nodes f).filename then some f
        else s._filenodes (s.nodes m).filename) = some m ∧ m ≠ root ∧
        parent_path (s.nodes m).filename = P := by
    intro l hl hml
    obtain ⟨h1, h2, h3⟩ := hm P l hl m hml
    have hne : (s.nodes m).filename ≠ (s.nodes f).filename := by
      intro heq; rw [heq, hfree] at h1; cases h1
    rw [if_neg hne]
    exact ⟨h1, h2, h3⟩
  cases hb : s._directoryPaths P with
  | none =>
    have := insert_node_dirs_new s f _ _ P l2 hb hp hl2
    subst this
    cases hmem
  | some l =>
    rw [insert_node_dirs s f _ _ P l hb] at hl2
    split at hl2
    · rename_i hPp
      simp only [Option.some.injEq] at hl2
      subst hl2
      rw [mem_set_insert] at hmem
      rcases hmem with rfl | hmem
      · rw [if_pos rfl]
        exact ⟨rfl, hroot, hPp.symm⟩
      · exact hold l hb hmem
    · simp only [Option.some.injEq] at hl2
      subst hl2
      exact hold l hb hmem

/-- The three outcomes of `add`: nothing but the file index, or the insertion,
after the linking of a stream or without it. -/
theorem add_outcomes (st : fs_filenodes) (f : NodeId) :
    (add st f).1 = assign_fileindex st f ∨
    ((assign_fileindex st f)._directoryPaths
        (parent_path ((assign_fileindex st f).nodes f).filename)).isSome = true ∧
      ((add st f).1 = insert_node (assign_fileindex st f) f
          ((assign_fileindex st f).nodes f).filename
          (parent_path ((assign_fileindex st f).nodes f).filename) ∨
       ∃ mf, (add st f).1 = insert_node (link_stream (assign_fileindex st f) mf f) f
          ((assign_fileindex st f).nodes f).filename
          (parent_path ((assign_fileindex st f).nodes f).filename)) := by
  unfold add
  simp only []
  split
  · left; rfl
  · rename_i hd
    have hd2 : ((assign_fileindex st f)._directoryPaths
        (parent_path ((assign_fileindex st f).nodes f).filename)).isSome = true := by
      cases h : (assign_fileindex st f)._directoryPaths
        (parent_path ((assign_fileindex st f).nodes f).filename) <;> simp_all
    split
    · split
      · left; rfl
      · rename_i mf _
        right; exact ⟨hd2, Or.inr ⟨mf, rfl⟩⟩
    · right; exact ⟨hd2, Or.inl rfl⟩

theorem add_members (root : NodeId) (st : fs_filenodes) (f : NodeId)
    (hm : members_held root st) (hroot : f ≠ root)
    (hfree : st._filenodes (st.nodes f).filename = none) :
    members_held root (add st f).1 := by
  have hm1 : members_held root (assign_fileindex st f) :=
    members_transfer root st _ (assign_fileindex_map st f) (assign_fileindex_dirs st f)
      (assign_fileindex_filename st f) hm
  have hfree1 : (assign_fileindex st f)._filenodes ((assign_fileindex st f).nodes f).filename
      = none := by
    rw [assign_fileindex_map, assign_fileindex_filename]; exact hfree
  rcases add_outcomes st f with h | ⟨hp, h | ⟨mf, h⟩⟩
  · rw [h]; exact hm1
  · rw [h]; exact insert_node_members root _ f hm1 hroot hfree1 hp
  · rw [h]
    have hname : ((link_stream (assign_fileindex st f) mf f).nodes f).filename =
        ((assign_fileindex st f).nodes f).filename := (link_stream_kind _ mf f f).1
    have hm2 : members_held root (link_stream (assign_fileindex st f) mf f) :=
      members_transfer root (assign_fileindex st f) (link_stream (assign_fileindex st f) mf f)
        rfl rfl (fun m => (link_stream_kind _ mf f m).1) hm1
    have := insert_node_members root (link_stream (assign_fileindex st f) mf f) f hm2 hroot
      (by rw [hname]; exact hfree1) (by rw [hname]; exact hp)
    rw [hname] at this
    exact this

/-! ### Exactness of the child sets under a move of a file -/

theorem add_no_suffix (st : fs_filenodes) (f : NodeId)
    (hs : (get_stream_names (st.nodes f).filename).2 = []) :
    (add st f).1 =
      if (st._directoryPaths (parent_path (st.nodes f).filename)).isSome = true then
        insert_node (assign_fileindex st f) f (st.nodes f).filename
          (parent_path (st.nodes f).filename)
      else assign_fileindex st f := by
  unfold add
  simp only [assign_fileindex_filename, assign_fileindex_dirs, hs]
  cases h : st._directoryPaths (parent_path (st.nodes f).filename) <;> simp

theorem move_finish_dirs (s : fs_filenodes) (f : NodeId) (o op np q : WString)
    (l : List NodeId) (h : (move_finish s f o op np)._directoryPaths q = some l) :
    (path_eq op np = false ∧ q = op ∧
        l = set_erase f ((s._directoryPaths op).getD [])) ∨
    ((path_eq op np = true ∨ q ≠ op) ∧ s._directoryPaths q = some l) := by
  unfold move_finish at h
  simp only [] at h
  cases hpe : path_eq op np with
  | true =>
    simp only [hpe, Bool.not_true, Bool.false_eq_true, if_false] at h
    exact Or.inr ⟨Or.inl rfl, h⟩
  | false =>
    simp only [hpe, Bool.not_false, if_true, upd] at h
    split at h
    · rename_i hq
      left
      exact ⟨rfl, hq, (Option.some.inj h).symm⟩
    · rename_i hq
      exact Or.inr ⟨Or.inr hq, h⟩

theorem move_finish_map (s : fs_filenodes) (f : NodeId) (o op np k : WString) :
    (move_finish s f o op np)._filenodes k = if k = o then none else s._filenodes k := by
  unfold move_finish
  simp only []
  split <;> rfl

theorem move_finish_nodes (s : fs_filenodes) (f : NodeId) (o op np : WString) :
    (move_finish s f o op np).nodes = s.nodes := by
  unfold move_finish
  simp only []
  split <;> rfl

theorem rename_and_add_names (st1 : fs_filenodes) (f m : NodeId) (n : WString) :
    ((rename_and_add st1 f n).nodes m).filename =
      if m = f then n else (st1.nodes m).filename := by
  unfold rename_and_add
  rw [(add_kind _ f m).1]
  simp only [set_filename, upd]
  split <;> rfl

/-- The path map and the child sets after the renaming and the `add` of a move
whose new leaf name has no stream suffix: either the parent path has a child
set and the node is inserted, or nothing is inserted. -/
theorem rename_and_add_shape (st1 : fs_filenodes) (f : NodeId) (n : WString)
    (hs : (get_stream_names n).2 = []) :
    ((st1._directoryPaths (parent_path n)).isSome = true ∧
      (∀ k, (rename_and_add st1 f n)._filenodes k = if k = n then some f else st1._filenodes k) ∧
      (∀ q l3 m, (rename_and_add st1 f n)._directoryPaths q = some l3 → m ∈ l3 →
        (q = parent_path n ∧ m = f) ∨ ∃ l1, st1._directoryPaths q = some l1 ∧ m ∈ l1)) ∨
    ((st1._directoryPaths (parent_path n)).isSome = false ∧
      (rename_and_add st1 f n)._filenodes = st1._filenodes ∧
      (rename_and_add st1 f n)._directoryPaths = st1._directoryPaths) := by
  have hname : ((set_filename st1 f n).nodes f).filename = n := by simp [set_filename, upd]
  have hshape := add_no_suffix (set_filename st1 f n) f (by rw [hname]; exact hs)
  rw [hname] at hshape
  have hdf : (set_filename st1 f n)._directoryPaths = st1._directoryPaths := rfl
  have hmf : (set_filename st1 f n)._filenodes = st1._filenodes := rfl
  rw [hdf] at hshape
  unfold rename_and_add
  rw [hshape]
  cases hb : (st1._directoryPaths (parent_path n)).isSome with
  | false =>
    right
    simp only [Bool.false_eq_true, if_false]
    exact ⟨trivial, (assign_fileindex_map _ f).trans hmf, (assign_fileindex_dirs _ f).trans hdf⟩
  | true =>
    left
    simp only [if_true]
    refine ⟨trivial, ?_, ?_⟩
    · intro k
      simp only [insert_node, upd, assign_fileindex_map, hmf]
    · intro q l3 m hq hm
      have hd : (assign_fileindex (set_filename st1 f n) f)._directoryPaths
            = st1._directoryPaths := assign_fileindex_dirs _ f
      cases hq1 : st1._directoryPaths q with
      | none =>
        have := insert_node_dirs_new _ f n (parent_path n) q l3 (by rw [hd]; exact hq1)
          (by rw [hd]; exact hb) hq
        subst this
        cases hm
      | some l1 =>
        rw [insert_node_dirs _ f n (parent_path n) q l1 (by rw [hd]; exact hq1)] at hq
        split at hq
        · rename_i hqp
          simp only [Option.some.injEq] at hq
          subst hq
          rw [mem_set_insert] at hm
          rcases hm with rfl | hm
          · exact Or.inl ⟨hqp, rfl⟩
          · exact Or.inr ⟨l1, rfl, hm⟩
        · simp only [Option.some.injEq] at hq
          subst hq
          exact Or.inr ⟨l1, rfl, hm⟩

/-- A move of a file to another path, the new leaf name without stream suffix
and the two parent paths either the same string or different paths, keeps
every member of every child set held by the path map. -/
theorem moved_file_members (root : NodeId) (st1 : fs_filenodes) (f : NodeId) (o n : WString)
    (hm : members_held root st1)
    (hname : (st1.nodes f).filename = o)
    (hdest : st1._filenodes n = none)
    (hsrc : ∀ m, st1._filenodes o = some m → m = f)
    (hon : o ≠ n) (hsuf : (get_stream_names n).2 = [])
    (hpar : parent_path o = parent_path n ∨ path_eq (parent_path o) (parent_path n) = false)
    (hroot : f ≠ root) :
    members_held root (moved_file_state st1 f o n) := by
  intro P l hl m hml
  unfold moved_file_state at hl ⊢
  rw [hname] at hl ⊢
  rw [move_finish_nodes, move_finish_map, rename_and_add_names]
  -- membership after the renaming and the `add`
  have hin : ∃ l3, (rename_and_add st1 f n)._directoryPaths P = some l3 ∧ m ∈ l3 ∧
      (path_eq (parent_path o) (parent_path n) = false → P = parent_path o → m ≠ f) := by
    rcases move_finish_dirs _ f o _ _ P l hl with ⟨hpe, hP, hle⟩ | ⟨_, hq⟩
    · subst hle
      rw [mem_set_erase] at hml
      cases hb : (rename_and_add st1 f n)._directoryPaths (parent_path o) with
      | none => simp [hb] at hml
      | some l3 =>
        simp only [hb, Option.getD_some] at hml
        exact ⟨l3, by rw [hP, hb], hml.1, fun _ _ => hml.2⟩
    · refine ⟨l, hq, hml, ?_⟩
      intro hpe hP
      rcases move_finish_dirs _ f o _ _ P l hl with ⟨_, _, hle⟩ | ⟨h1, _⟩
      · subst hle
        rw [mem_set_erase] at hml
        exact hml.2
      · rcases h1 with h1 | h1
        · rw [hpe] at h1; cases h1
        · exact absurd hP h1
  obtain ⟨l3, hl3, hm3, hnotf⟩ := hin
  -- a member other than `f` is where it was
  have hother : m ≠ f → ∀ l1, st1._directoryPaths P = some l1 → m ∈ l1 →
      (∀ k, (rename_and_add st1 f n)._filenodes k = st1._filenodes k ∨
        (k = n ∧ (rename_and_add st1 f n)._filenodes k = some f)) →
      (if (if m = f then n else (st1.nodes m).filename) = o then none
        else (rename_and_add st1 f n)._filenodes (if m = f then n else (st1.nodes m).filename))
        = some m ∧ m ≠ root ∧ parent_path (if m = f then n else (st1.nodes m).filename) = P := by
    intro hmf l1 hl1 hml1 hmap
    obtain ⟨h1, h2, h3⟩ := hm P l1 hl1 m hml1
    rw [if_neg hmf]
    have hno : (st1.nodes m).filename ≠ o := by
      intro h0
      rw [h0] at h1
      exact hmf (hsrc m h1)
    have hnn : (st1.nodes m).filename ≠ n := by
      intro h0
      rw [h0, hdest] at h1
      cases h1
    rw [if_neg hno]
    refine ⟨?_, h2, h3⟩
    rcases hmap (st1.nodes m).filename with h0 | ⟨h0, _⟩
    · rw [h0]; exact h1
    · exact absurd h0 hnn
  rcases rename_and_add_shape st1 f n hsuf with ⟨hb, hmap, hdirs⟩ | ⟨hb, hmap, hdirs⟩
  · -- the node was inserted under its new name
    have hmap2 : ∀ k, (rename_and_add st1 f n)._filenodes k = st1._filenodes k ∨
        (k = n ∧ (rename_and_add st1 f n)._filenodes k = some f) := by
      intro k
      rw [hmap k]
      by_cases hk : k = n
      · right; rw [if_pos hk]; exact ⟨hk, rfl⟩
      · left; rw [if_neg hk]
    have hfin : P = parent_path n → m = f →
        (if (if m = f then n else (st1.nodes m).filename) = o then none
          else (rename_and_add st1 f n)._filenodes (if m = f then n else (st1.nodes m).filename))
          = some m ∧ m ≠ root ∧ parent_path (if m = f then n else (st1.nodes m).filename) = P := by
      intro hP hmf
      subst hmf
      rw [if_pos rfl, if_neg (Ne.symm hon), hmap n, if_pos rfl]
      exact ⟨rfl, hroot, hP.symm⟩
    rcases hdirs P l3 m hl3 hm3 with ⟨hP, hmf⟩ | ⟨l1, hl1, hml1⟩
    · exact hfin hP hmf
    · by_cases hmf : m = f
      · -- `f` is still in the child set of its old parent path
        have hold := hm P l1 hl1 m hml1
        rw [hmf, hname] at hold
        have hPo : P = parent_path o := hold.2.2.symm
        rcases hpar with hpar | hpar
        · exact hfin (hPo.trans hpar) hmf
        · exact absurd hmf (hnotf hpar hPo)
      · exact hother hmf l1 hl1 hml1 hmap2
  · -- the new parent path has no child set: nothing was inserted
    rw [hdirs] at hl3
    by_cases hmf : m = f
    · have hold := hm P l3 hl3 m hm3
      rw [hmf, hname] at hold
      have hPo : P = parent_path o := hold.2.2.symm
      rcases hpar with hpar | hpar
      · rw [hPo, hpar] at hl3
        rw [hl3] at hb
        cases hb
      · exact absurd hmf (hnotf hpar hPo)
    · exact hother hmf l3 hl3 hm3 (fun k => Or.inl (by rw [hmap]))

/-! ### The directory index is exact in the states reached by tidy calls -/

theorem bootstrap_tidy (root : NodeId) (heap : NodeId → filenode) :
    tidy root (bootstrap root heap) := by
  refine ⟨(bootstrap_inv root heap).1, ?_, ?_, ?_⟩
  · intro k n hkn hr
    simp only [bootstrap, upd] at hkn
    split at hkn
    · exact absurd (Option.some.inj hkn).symm hr
    · cases hkn
  · intro P l hl n hn
    simp only [bootstrap, upd] at hl
    split at hl
    · cases hl; cases hn
    · cases hl
  · simp [root_fixed, bootstrap, upd, filenode.create]

theorem tidy_step (root : NodeId) (st st2 : fs_filenodes) (c : call)
    (ht : tidy root st) (hallowed : tidy_call root st c) (hret : call_returns st c st2) :
    tidy root st2 := by
  obtain ⟨hk, hc, hm, hrf⟩ := ht
  cases c with
  | add n =>
    simp only [call_returns] at hret
    subst hret
    obtain ⟨hk2, hc2⟩ := add_inv st n hk hc
    refine ⟨hk2, hc2, add_members root st n hm hallowed.1 hallowed.2, ?_⟩
    unfold root_fixed
    rw [(add_kind st n root).1, (add_kind st n root).2.1]
    exact hrf
  | remove name =>
    obtain ⟨fuel, hr⟩ := hret
    unfold remove_path at hr
    obtain ⟨hk2, hc2, _⟩ := remove_inv fuel st _ st2 hk hc hr
    refine ⟨hk2, hc2, ?_, ?_⟩
    · apply remove_members root fuel st _ st2 hk hc hm _ hr
      intro c hcf
      left
      rw [hk name c hcf]; exact hcf
    · have hf := (remove_frame fuel st _ st2 hr).1 root
      unfold root_fixed
      rw [hf.1, hf.2.1]
      exact hrf
  | move o n r =>
    obtain ⟨fuel, status, hr⟩ := hret
    obtain ⟨hfile, hon, hsuf, hpar⟩ := hallowed
    cases fuel with
    | zero => simp [move] at hr
    | succ fuel =>
      cases hf : find st o with
      | none =>
        rw [move_name_not_found fuel st o n r hf] at hr
        simp only [Option.some.injEq, Prod.mk.injEq] at hr
        rw [← hr.1]; exact ⟨hk, hc, hm, hrf⟩
      | some f =>
        rcases move_file_cases fuel st st2 o n r f status hf (hfile f hf) hr with
          ⟨h1, _⟩ | ⟨st1, hrm, h1, _⟩
        · rw [h1]; exact ⟨hk, hc, hm, hrf⟩
        · obtain ⟨hk1, hc1, hgone⟩ := remove_inv fuel st _ st1 hk hc hrm
          have hfr := remove_frame fuel st _ st1 hrm
          have hname : (st1.nodes f).filename = o := by
            rw [(hfr.1 f).1]; exact hk o f hf
          have hfroot : f ≠ root := by
            intro h0
            have := hfile f hf
            rw [h0, hrf.2] at this
            cases this
          have hm1 : members_held root st1 := by
            apply remove_members root fuel st _ st1 hk hc hm _ hrm
            intro c hcf
            left
            rw [hk n c hcf]; exact hcf
          have hdest : st1._filenodes n = none := by
            cases hg : find st n with
            | none =>
              rw [hg, remove_none] at hrm
              cases hrm
              exact hg
            | some g =>
              have := hgone g hg
              rw [hk n g hg] at this
              exact this
          have hsrc : ∀ m, st1._filenodes o = some m → m = f := by
            intro m hmo
            rcases hfr.2.2 o with h0 | h0
            · rw [h0] at hmo; cases hmo
            · rw [h0] at hmo
              exact Option.some.inj (hmo.symm.trans hf)
          obtain ⟨hk2, hc2⟩ := moved_file_state_inv st1 f o n hk1 hc1 hname
          rw [h1]
          refine ⟨hk2, hc2,
            moved_file_members root st1 f o n hm1 hname hdest hsrc hon hsuf hpar hfroot, ?_⟩
          unfold root_fixed moved_file_state
          rw [move_finish_nodes, rename_and_add_names, rename_and_add_is_directory,
            if_neg (Ne.symm hfroot), (hfr.1 root).1, (hfr.1 root).2.1]
          exact hrf

theorem reachable_tidy (root : NodeId) (heap : NodeId → filenode) (st : fs_filenodes)
    (h : reachable_by (tidy_call root) (bootstrap root heap) st) : tidy root st := by
  induction h with
  | start => exact bootstrap_tidy root heap
  | step st c st2 _ hallowed hret ih => exact tidy_step root st st2 c ih hallowed hret

theorem exact_of_tidy (root : NodeId) (st : fs_filenodes) (h : tidy root st) :
    directory_index_exact root st := by
  obtain ⟨_, hc, hm, _⟩ := h
  intro P l hl n
  simp only [list_folder, hl, Option.getD_some]
  constructor
  · intro hn
    exact hm P l hl n hn
  · rintro ⟨h1, h2, h3⟩
    obtain ⟨l2, hl2, hn2⟩ := hc _ n h1 h2
    rw [h3, hl] at hl2
    cases hl2
    exact hn2

/-- C9, for the calls that keep it: in every state reachable from the bootstrap
state by `add` calls of nodes other than the root at paths that have no node
yet, by `remove` calls, and by `move` calls that take a node that is no
directory to another path whose leaf name has no stream suffix (the two parent
paths being the same string or different paths), the child set of every key
`P` of the directory index holds exactly the nodes that the path map holds
under their own path, that are not the root, and whose parent path is `P`. -/
theorem directory_index_exact_invariant (root : NodeId) (heap : NodeId → filenode)
    (st : fs_filenodes) (h : reachable_by (tidy_call root) (bootstrap root heap) st) :
    directory_index_exact root st :=
  exact_of_tidy root st (reachable_tidy root heap st h)

/-- C9 at a concrete table (Scenario A): the table with the directory `\a` and
the file `\a\b.txt` is reached by two tidy `add` calls, and its directory index
is exact. -/
theorem directory_index_exact_invariant_witness : directory_index_exact 0 table_ab :=
  directory_index_exact_invariant 0 scenario_heap table_ab
    (reachable_by.step _ (call.add 2) _
      (reachable_by.step _ (call.add 1) _ reachable_by.start ⟨by decide, by decide⟩ rfl)
      ⟨by decide, by decide⟩ rfl)

/-- C9 as stated fails: `add` does not look whether the path is taken. After
the directory node 1 is added at `\a` and then the file node 10 at the same
path `\a`, the child set of the root holds both nodes, but the path map holds
node 10 at `\a`, so node 1 is a member that the path map does not hold. -/
theorem directory_index_not_exact :
    reachable_by any_call table0 table_twice ∧
    table_twice._directoryPaths root_path = some [1, 10] ∧
    (table_twice.nodes 1).filename = wpath "\\a" ∧
    table_twice._filenodes (wpath "\\a") = some 10 ∧
    ¬ directory_index_exact 0 table_twice := by
  have h2 : table_twice._directoryPaths root_path = some [1, 10] := by decide
  have h3 : (table_twice.nodes 1).filename = wpath "\\a" := by decide
  have h4 : table_twice._filenodes (wpath "\\a") = some 10 := by decide
  refine ⟨reachable_add_all _ _ _ reachable_by.start, h2, h3, h4, ?_⟩
  intro hex
  have := (hex root_path [1, 10] h2 1).mp (by simp [list_folder, h2])
  rw [h3, h4] at this
  exact absurd this.1 (by decide)

/-! ### The cascade of `remove` on a tree -/

theorem gone_stable {E : NodeId → Prop} {D : WString → Prop} (a b : fs_filenodes) (m : NodeId)
    (hf : cascade_frame_off E D a b) (hg : gone a m) : gone b m := by
  obtain ⟨hid, hstr, hsh, hnc, _, _⟩ := hf
  obtain ⟨g1, g2, g3⟩ := hg
  obtain ⟨i1, i2, _, _, i5⟩ := hid m
  unfold gone
  rw [i1, i2, i5]
  refine ⟨?_, ?_, ?_⟩
  · rcases hsh (a.nodes m).filename with h | h
    · exact h
    · rw [h]; exact g1
  · intro hd
    exact hnc _ (g2 hd)
  · intro hm kv hkv
    rcases hsh kv.1 with h | h
    · exact h
    · rw [h]; exact g3 hm kv (hstr m kv hkv)

theorem cascade_frame_refl (E : NodeId → Prop) (D : WString → Prop) (a : fs_filenodes) :
    cascade_frame_off E D a a :=
  ⟨fun _ => ⟨rfl, rfl, rfl, rfl, rfl⟩, fun _ _ h => h, fun _ => Or.inr rfl, fun _ h => h,
    fun _ h1 h2 => absurd h2 h1, fun k m h1 h2 => by rw [h1] at h2; cases h2⟩

theorem cascade_frame_trans {E : NodeId → Prop} {D : WString → Prop} (a b c : fs_filenodes)
    (hab : cascade_frame_off E D a b) (hbc : cascade_frame_off E D b c) :
    cascade_frame_off E D a c := by
  have hbc' := hbc
  obtain ⟨a1, a2, a3, a4, a5, a6⟩ := hab
  obtain ⟨b1, b2, b3, b4, b5, b6⟩ := hbc
  refine ⟨?_, ?_, ?_, ?_, ?_, ?_⟩
  · intro m
    obtain ⟨x1, x2, x3, x4, x5⟩ := a1 m
    obtain ⟨y1, y2, y3, y4, y5⟩ := b1 m
    exact ⟨y1.trans x1, y2.trans x2, y3.trans x3, y4.trans x4, y5.trans x5⟩
  · intro m kv h
    exact a2 m kv (b2 m kv h)
  · intro k
    rcases b3 k with h | h
    · exact Or.inl h
    · rw [h]; exact a3 k
  · intro q h
    exact b4 q (a4 q h)
  · intro q h1 h2
    by_cases hb : b._directoryPaths q = none
    · exact a5 q h1 hb
    · rcases b5 q hb h2 with h | h
      · exact Or.inl h
      · right
        rcases a3 q with h0 | h0
        · exact absurd h0 h
        · rw [← h0]; exact h
  · intro k m h1 h2
    rcases a3 k with h | h
    · rcases a6 k m h1 h with h0 | h0
      · exact Or.inl h0
      · exact Or.inr (gone_stable b c m hbc' h0)
    · rw [h1] at h
      exact b6 k m h h2

theorem cascade_frame_weaken {E E2 : NodeId → Prop} {D D2 : WString → Prop} (a b : fs_filenodes)
    (hE : ∀ m, E m → E2 m) (hD : ∀ q, D q → D2 q) (h : cascade_frame_off E D a b) :
    cascade_frame_off E2 D2 a b := by
  obtain ⟨a1, a2, a3, a4, a5, a6⟩ := h
  refine ⟨a1, a2, a3, a4, ?_, ?_⟩
  · intro q h1 h2
    rcases a5 q h1 h2 with h | h
    · exact Or.inl (hD q h)
    · exact Or.inr h
  · intro k m h1 h2
    rcases a6 k m h1 h2 with h | h
    · exact Or.inl (hE m h)
    · exact Or.inr h

theorem parent_path_root : parent_path root_path = root_path := by decide

theorem for_each_exists_inv {α σ : Type} (I : σ → Prop) (Q : α → σ → Prop)
    (body : σ → α → Option σ) :
    ∀ (l : List α),
      (∀ s x, x ∈ l → I s → ∃ r, body s x = some r ∧ I r ∧ Q x r) →
      (∀ s x y r, x ∈ l → I s → Q y s → body s x = some r → Q y r) →
      ∀ s, I s → ∃ r, for_each body s l = some r ∧ I r ∧ ∀ x, x ∈ l → Q x r := by
  intro l
  induction l with
  | nil =>
    intro _ _ s hs
    exact ⟨s, rfl, hs, fun x hx => by cases hx⟩
  | cons x xs ih =>
    intro hstep hstable s hs
    obtain ⟨s1, hb, hI1, hQ1⟩ := hstep s x (List.mem_cons_self _ _) hs
    obtain ⟨r, hr, hIr, hQr⟩ :=
      ih (fun a y hy ha => hstep a y (List.mem_cons_of_mem _ hy) ha)
        (fun a y z b hy => hstable a y z b (List.mem_cons_of_mem _ hy)) s1 hI1
    refine ⟨r, by simp only [for_each, hb]; exact hr, hIr, ?_⟩
    -- the property of the first element survives the rest of the loop
    have hkeep : ∀ (l2 : List α), (∀ y, y ∈ l2 → y ∈ xs) → ∀ (a b : σ), I a → Q x a →
        for_each body a l2 = some b → Q x b := by
      intro l2
      induction l2 with
      | nil =>
        intro _ a b _ hq hab
        simp only [for_each, Option.some.injEq] at hab
        subst hab; exact hq
      | cons y ys ih2 =>
        intro hsub a b ha hq hab
        simp only [for_each] at hab
        have hy : y ∈ x :: xs := List.mem_cons_of_mem _ (hsub y (List.mem_cons_self _ _))
        obtain ⟨a1, hy1, hI2, _⟩ := hstep a y hy ha
        rw [hy1] at hab
        exact ih2 (fun z hz => hsub z (List.mem_cons_of_mem _ hz)) a1 b hI2
          (hstable a y x a1 hy ha hq hy1) hab
    intro y hy
    rcases List.mem_cons.mp hy with rfl | hy
    · exact hkeep xs (fun _ h => h) s1 r hI1 hQ1 hr
    · exact hQr y hy

theorem for_each_noop {α σ : Type} (body : σ → α → Option σ) (s : σ) :
    ∀ (l : List α), (∀ x, x ∈ l → body s x = some s) → for_each body s l = some s := by
  intro l
  induction l with
  | nil => intro _; rfl
  | cons x xs ih =>
    intro h
    simp only [for_each, h x (List.mem_cons_self _ _)]
    exact ih (fun y hy => h y (List.mem_cons_of_mem _ hy))

theorem upd_same {α β : Type} [DecidableEq α] (m : α → β) (k : α) (v : β) (h : m k = v) :
    upd m k v = m := by
  funext x
  simp only [upd]
  split
  · rename_i hx; rw [hx, h]
  · rfl

theorem set_erase_not_mem (x : NodeId) (l : List NodeId) (h : x ∉ l) : set_erase x l = l := by
  unfold set_erase
  rw [List.filter_eq_self]
  intro a ha
  simp only [bne_iff_ne, ne_eq]
  intro hax
  exact h (hax ▸ ha)

/-- Removing again a node that is gone changes nothing in the path map and the
directory index, as long as the child set of its parent path is there. -/
theorem unlink_node_gone (root : NodeId) (st : fs_filenodes) (f : NodeId)
    (hm : members_held root st) (hg : st._filenodes (st.nodes f).filename = none)
    (hp : st._directoryPaths (parent_path (st.nodes f).filename) ≠ none) :
    unlink_node st f (st.nodes f).filename = st := by
  obtain ⟨l, hl⟩ := Option.ne_none_iff_exists'.mp hp
  have hnot : f ∉ l := by
    intro hf
    have := (hm _ l hl f hf).1
    rw [hg] at this
    cases this
  unfold unlink_node
  rw [upd_same st._filenodes _ none hg, hl, Option.getD_some, set_erase_not_mem f l hnot,
    upd_same st._directoryPaths _ (some l) hl]

theorem erase_directory_absent (st : fs_filenodes) (name : WString)
    (h : st._directoryPaths name = none) : erase_directory st name = st := by
  unfold erase_directory
  rw [upd_same st._directoryPaths _ none h]

theorem unlink_node_tree (B : Nat) (root : NodeId) (st : fs_filenodes) (f : NodeId)
    (ht : tree_shaped B root st) (hin : st._filenodes (st.nodes f).filename = some f) :
    tree_shaped B root (unlink_node st f (st.nodes f).filename) ∧
    cascade_frame_off (fun m => m = f) (fun _ => False) st
      (unlink_node st f (st.nodes f).filename) ∧
    (unlink_node st f (st.nodes f).filename)._filenodes (st.nodes f).filename = none := by
  obtain ⟨hk, hc, hm, hrf, hrb, hB, hsl, hcl⟩ := ht
  obtain ⟨hk1, hc1⟩ := unlink_node_inv st f hk hc
  have hm1 := unlink_node_members root st f hm (Or.inl hin)
  -- the child set of the parent path is there
  have hpar : st._directoryPaths (parent_path (st.nodes f).filename) ≠ none := by
    by_cases hfr : f = root
    · rw [hfr, hrf.1, parent_path_root]
      have := hrb (by rw [← hrf.1, ← hfr, hin]; rfl)
      intro h0; rw [h0] at this; cases this
    · obtain ⟨l, hl, _⟩ := hc _ f hin hfr
      rw [hl]; exact Option.some_ne_none l
  have hdirs : ∀ q, (unlink_node st f (st.nodes f).filename)._directoryPaths q = none ↔
      st._directoryPaths q = none := by
    intro q
    simp only [unlink_node, upd]
    split
    · rename_i hq
      rw [hq]
      constructor
      · intro h; cases h
      · intro h; exact absurd h hpar
    · exact Iff.rfl
  have hmap : ∀ k, (unlink_node st f (st.nodes f).filename)._filenodes k =
      if k = (st.nodes f).filename then none else st._filenodes k := fun _ => rfl
  refine ⟨⟨hk1, hc1, hm1, hrf, ?_, ?_, hsl, ?_⟩, ⟨?_, ?_, ?_, ?_, ?_, ?_⟩, ?_⟩
  · intro h
    rw [hmap] at h
    split at h
    · cases h
    · have := hrb h
      cases hd : (unlink_node st f (st.nodes f).filename)._directoryPaths root_path with
      | none => rw [(hdirs root_path).mp hd] at this; cases this
      | some l => rfl
  · intro k n hkn
    rw [hmap] at hkn
    split at hkn
    · cases hkn
    · exact hB k n hkn
  · intro P l hl n hn
    simp only [unlink_node, upd] at hl
    split at hl
    · rename_i hP
      simp only [Option.some.injEq] at hl
      subst hl
      rw [mem_set_erase] at hn
      cases hb : st._directoryPaths (parent_path (st.nodes f).filename) with
      | none => simp [hb] at hn
      | some l0 =>
        simp only [hb, Option.getD_some] at hn
        exact hcl P l0 (by rw [hP, hb]) n hn.1
    · exact hcl P l hl n hn
  · intro m; exact ⟨rfl, rfl, rfl, rfl, rfl⟩
  · intro m kv h; exact h
  · intro k
    rw [hmap]
    split
    · exact Or.inl rfl
    · exact Or.inr rfl
  · intro q h; exact (hdirs q).mpr h
  · intro q h1 h2; exact absurd ((hdirs q).mp h2) h1
  · intro k m h1 h2
    rw [hmap] at h2
    split at h2
    · rename_i hkk
      left
      rw [hkk, hin] at h1
      exact (Option.some.inj h1).symm
    · rw [h1] at h2; cases h2
  · rw [hmap, if_pos rfl]

theorem streams_erase_subset (l : List (WString × NodeId)) (key : WString)
    (kv : WString × NodeId) (h : kv ∈ streams_erase l key) : kv ∈ l := by
  unfold streams_erase at h
  exact (List.mem_filter.mp h).1

theorem remove_stream_tree (B : Nat) (root : NodeId) (s : fs_filenodes) (m f : NodeId)
    (E : NodeId → Prop) (D : WString → Prop) (ht : tree_shaped B root s) :
    tree_shaped B root (remove_stream s m f) ∧ cascade_frame_off E D s (remove_stream s m f) := by
  obtain ⟨hk, hc, hm, hrf, hrb, hB, hsl, hcl⟩ := ht
  have hfn := remove_stream_filename s m f
  have hstr : ∀ x kv, kv ∈ ((remove_stream s m f).nodes x).streams → kv ∈ (s.nodes x).streams := by
    intro x kv h
    simp only [remove_stream, upd] at h
    split at h
    · rename_i hx
      rw [hx]
      exact streams_erase_subset _ _ kv h
    · exact h
  have hid : ∀ x, same_identity (s.nodes x) ((remove_stream s m f).nodes x) := by
    intro x
    simp only [remove_stream, upd]
    split
    · rename_i hx; rw [hx]; exact ⟨rfl, rfl, rfl, rfl, rfl⟩
    · exact ⟨rfl, rfl, rfl, rfl, rfl⟩
  obtain ⟨hk2, hc2⟩ := remove_stream_inv s m f hk hc
  refine ⟨⟨hk2, hc2, members_transfer root s _ rfl rfl hfn hm, ?_, hrb, hB, ?_, ?_⟩,
    ⟨hid, hstr, fun _ => Or.inr rfl, fun _ h => h, fun _ h1 h2 => absurd h2 h1, ?_⟩⟩
  · unfold root_fixed
    rw [(hid root).1, (hid root).2.1]; exact hrf
  · intro x kv h
    rw [hfn]
    exact hsl x kv (hstr x kv h)
  · intro P l hl n hn
    rw [hfn]
    exact hcl P l hl n hn
  · intro k x h1 h2
    have h3 : (remove_stream s m f)._filenodes k = s._filenodes k := rfl
    rw [h3, h1] at h2
    cases h2

/-- The loop over the children of a directory that has just left the path map:
every child is removed, and the child set of the directory survives the loop. -/
theorem children_loop (B : Nat) (root : NodeId) (n : Nat)
    (self : fs_filenodes → Option NodeId → Option fs_filenodes)
    (hself : cascades_well B root n self) (st1 : fs_filenodes) (name : WString)
    (ht : tree_shaped B root st1) (hgone : st1._filenodes name = none)
    (hfuel : ∀ c, c ∈ list_folder st1 name →
      B + 1 ≤ n + ((st1.nodes c).filename).length ∧ 1 ≤ n) :
    ∃ s, for_each (fun s file => self s (some file)) st1 (list_folder st1 name) = some s ∧
      tree_shaped B root s ∧ cascade_frame st1 s ∧
      ∀ c, c ∈ list_folder st1 name → gone s c := by
  have hmem : ∀ c, c ∈ list_folder st1 name →
      st1._filenodes (st1.nodes c).filename = some c ∧
      parent_path (st1.nodes c).filename = name ∧ st1._directoryPaths name ≠ none := by
    intro c hc
    simp only [list_folder] at hc
    cases hb : st1._directoryPaths name with
    | none => simp [hb] at hc
    | some l =>
      simp only [hb, Option.getD_some] at hc
      obtain ⟨h1, _, h3⟩ := ht.2.2.1 name l hb c hc
      exact ⟨h1, h3, Option.some_ne_none l⟩
  have hloop := for_each_exists_inv
    (fun s => tree_shaped B root s ∧ cascade_frame st1 s ∧
      ∀ c, c ∈ list_folder st1 name →
        s._directoryPaths name ≠ none ∧
        (s._filenodes (s.nodes c).filename = some c ∨ gone s c))
    (fun (c : NodeId) s => gone s c)
    (fun s file => self s (some file))
    (list_folder st1 name)
    (fun s c hc hI => by
      obtain ⟨hts, hfs, hcs⟩ := hI
      have hfn : (s.nodes c).filename = (st1.nodes c).filename := (hfs.1 c).1
      have hpre : ∀ c2, some c = some c2 → removable B n s c2 := by
        intro c2 hc2
        cases hc2
        rcases (hcs c hc).2 with h | h
        · left
          rw [hfn] at h ⊢
          exact ⟨h, (hfuel c hc).1⟩
        · right
          refine ⟨h, ?_, (hfuel c hc).2⟩
          rw [hfn, (hmem c hc).2.1]
          exact (hcs c hc).1
      obtain ⟨b, hb, htb, hfb, hgb⟩ := hself s (some c) hts hpre
      have hsn : s._filenodes name = none := by
        rcases hfs.2.2.1 name with h | h
        · exact h
        · rw [h]; exact hgone
      refine ⟨b, hb, ⟨htb, cascade_frame_trans st1 s b hfs hfb, ?_⟩, hgb c rfl⟩
      intro c2 hc2
      refine ⟨?_, ?_⟩
      · intro h0
        rcases hfb.2.2.2.2.1 name (hcs c2 hc2).1 h0 with h | h
        · exact h
        · exact h hsn
      · rcases (hcs c2 hc2).2 with h | h
        · rw [(hfb.1 c2).1]
          rcases hfb.2.2.1 (s.nodes c2).filename with h0 | h0
          · right
            rcases hfb.2.2.2.2.2 _ c2 h h0 with h1 | h1
            · exact absurd h1 (fun x => x)
            · exact h1
          · left; rw [h0]; exact h
        · exact Or.inr (gone_stable s b c2 hfb h))
    (fun s c y b hc hI hq hb => by
      obtain ⟨hts, hfs, hcs⟩ := hI
      have hfn : (s.nodes c).filename = (st1.nodes c).filename := (hfs.1 c).1
      have hpre : ∀ c2, some c = some c2 → removable B n s c2 := by
        intro c2 hc2
        cases hc2
        rcases (hcs c hc).2 with h | h
        · left
          rw [hfn] at h ⊢
          exact ⟨h, (hfuel c hc).1⟩
        · right
          refine ⟨h, ?_, (hfuel c hc).2⟩
          rw [hfn, (hmem c hc).2.1]
          exact (hcs c hc).1
      obtain ⟨b2, hb2, _, hfb, _⟩ := hself s (some c) hts hpre
      have : b2 = b := Option.some.inj (hb2.symm.trans hb)
      subst this
      exact gone_stable s b2 y hfb hq)
    st1 ⟨ht, cascade_frame_refl _ _ st1, fun c hc => ⟨(hmem c hc).2.2, Or.inl (hmem c hc).1⟩⟩
  obtain ⟨s, hs, ⟨hts, hfs, _⟩, hq⟩ := hloop
  exact ⟨s, hs, hts, hfs, hq⟩

/-- The loop over the streams of a main node: whatever the path map holds at the
key of a stream is removed. -/
theorem streams_loop (B : Nat) (root : NodeId) (n : Nat)
    (self : fs_filenodes → Option NodeId → Option fs_filenodes)
    (hself : cascades_well B root n self) (st2 : fs_filenodes)
    (streams : List (WString × NodeId)) (ht : tree_shaped B root st2)
    (hfuel : ∀ kv, kv ∈ streams → B + 1 ≤ n + kv.1.length) :
    ∃ r, for_each (fun s (stream : WString × NodeId) => self s (find s stream.1)) st2 streams
        = some r ∧
      tree_shaped B root r ∧ cascade_frame st2 r ∧
      ∀ kv, kv ∈ streams → r._filenodes kv.1 = none := by
  have hpre : ∀ s kv, kv ∈ streams → tree_shaped B root s →
      ∀ c, find s kv.1 = some c → removable B n s c := by
    intro s kv hkv hts c hc
    left
    have := hts.1 kv.1 c hc
    rw [this]
    exact ⟨hc, hfuel kv hkv⟩
  have hloop := for_each_exists_inv
    (fun s => tree_shaped B root s ∧ cascade_frame st2 s)
    (fun (kv : WString × NodeId) s => s._filenodes kv.1 = none)
    (fun s (stream : WString × NodeId) => self s (find s stream.1))
    streams
    (fun s kv hkv hI => by
      obtain ⟨hts, hfs⟩ := hI
      obtain ⟨b, hb, htb, hfb, hgb⟩ := hself s (find s kv.1) hts (hpre s kv hkv hts)
      refine ⟨b, hb, ⟨htb, cascade_frame_trans st2 s b hfs hfb⟩, ?_⟩
      show b._filenodes kv.1 = none
      cases hc : find s kv.1 with
      | none =>
        rcases hfb.2.2.1 kv.1 with h | h
        · exact h
        · rw [h]; exact hc
      | some c =>
        have h1 := (hgb c hc).1
        rw [(hfb.1 c).1, hts.1 kv.1 c hc] at h1
        exact h1)
    (fun s kv y b hkv hI hq hb => by
      obtain ⟨hts, _⟩ := hI
      obtain ⟨b2, hb2, _, hfb, _⟩ := hself s (find s kv.1) hts (hpre s kv hkv hts)
      have : b2 = b := Option.some.inj (hb2.symm.trans hb)
      subst this
      show b2._filenodes y.1 = none
      rcases hfb.2.2.1 y.1 with h | h
      · exact h
      · rw [h]; exact hq)
    st2 ⟨ht, cascade_frame_refl _ _ st2⟩
  obtain ⟨r, hr, ⟨htr, hfr⟩, hq⟩ := hloop
  exact ⟨r, hr, htr, hfr, hq⟩

theorem erase_directory_tree (B : Nat) (root : NodeId) (s : fs_filenodes) (name : WString)
    (ht : tree_shaped B root s) (hgone : s._filenodes name = none)
    (hk : key_consistent (erase_directory s name))
    (hc : covered_off (fun _ n => n = root) (erase_directory s name)) :
    tree_shaped B root (erase_directory s name) ∧
    cascade_frame_off (fun _ => False) (fun q => q = name) s (erase_directory s name) := by
  obtain ⟨_, _, hm, hrf, hrb, hB, hsl, hcl⟩ := ht
  have hdirs : ∀ q, (erase_directory s name)._directoryPaths q =
      if q = name then none else s._directoryPaths q := fun _ => rfl
  refine ⟨⟨hk, hc, erase_directory_members root s name hm, hrf, ?_, hB, hsl, ?_⟩,
    ⟨fun _ => ⟨rfl, rfl, rfl, rfl, rfl⟩, fun _ _ h => h, fun _ => Or.inr rfl, ?_, ?_, ?_⟩⟩
  · intro h
    have h1 := hrb h
    rw [hdirs]
    split
    · rename_i hq
      rw [erase_directory_map, hq, hgone] at h
      cases h
    · exact h1
  · intro P l hl n hn
    rw [hdirs] at hl
    split at hl
    · cases hl
    · exact hcl P l hl n hn
  · intro q h
    rw [hdirs]
    split
    · rfl
    · exact h
  · intro q h1 h2
    rw [hdirs] at h2
    split at h2
    · rename_i hq; exact Or.inl hq
    · exact absurd h2 h1
  · intro k m h1 h2
    rw [erase_directory_map, h1] at h2
    cases h2

theorem cascade_frame_close (E : NodeId → Prop) (D : WString → Prop) (a b : fs_filenodes)
    (h : cascade_frame_off E D a b) (hD : ∀ q, D q → a._filenodes q ≠ none)
    (hE : ∀ m, E m → gone b m) : cascade_frame a b := by
  obtain ⟨a1, a2, a3, a4, a5, a6⟩ := h
  refine ⟨a1, a2, a3, a4, ?_, ?_⟩
  · intro q h1 h2
    rcases a5 q h1 h2 with h | h
    · exact Or.inr (hD q h)
    · exact Or.inr h
  · intro k m h1 h2
    rcases a6 k m h1 h2 with h | h
    · exact Or.inr (hE m h)
    · exact Or.inr h

/-- On a tree `remove` returns as soon as the fuel covers the longest key:
the state it leaves is a tree again, nothing was created, and the node it was
called on is gone. -/
theorem remove_cascade (B : Nat) (root : NodeId) :
    ∀ fuel, cascades_well B root fuel (remove fuel) := by
  intro fuel
  induction fuel with
  | zero =>
    intro st x ht hpre
    cases x with
    | none => exact ⟨st, remove_none _ _, ht, cascade_frame_refl _ _ st, fun c hc => by cases hc⟩
    | some f =>
      rcases hpre f rfl with ⟨hin, hfuel⟩ | ⟨_, _, h1⟩
      · have := ht.2.2.2.2.2.1 _ f hin
        omega
      · omega
  | succ n ih =>
    intro st x ht hpre
    cases x with
    | none => exact ⟨st, remove_none _ _, ht, cascade_frame_refl _ _ st, fun c hc => by cases hc⟩
    | some f =>
      rcases hpre f rfl with ⟨hin, hfuel⟩ | ⟨hg, hp, _⟩
      · -- the path map holds the node
        obtain ⟨ht1, hf1, hg1⟩ := unlink_node_tree B root st f ht hin
        have hdir : ∃ st2, after_directory_part (remove n) st f st2 ∧ tree_shaped B root st2 ∧
            cascade_frame_off (fun m => m = f) (fun q => q = (st.nodes f).filename) st st2 ∧
            st2._filenodes (st.nodes f).filename = none ∧
            ((st.nodes f).is_directory = true →
              st2._directoryPaths (st.nodes f).filename = none) := by
          by_cases hd : (st.nodes f).is_directory = true
          · have hcf : ∀ c, c ∈ list_folder (unlink_node st f (st.nodes f).filename)
                (st.nodes f).filename →
                B + 1 ≤ n + (((unlink_node st f (st.nodes f).filename).nodes c).filename).length
                  ∧ 1 ≤ n := by
              intro c hc
              simp only [list_folder] at hc
              cases hb : (unlink_node st f (st.nodes f).filename)._directoryPaths
                  (st.nodes f).filename with
              | none => simp [hb] at hc
              | some l =>
                simp only [hb, Option.getD_some] at hc
                have h1 := ht1.2.2.2.2.2.2.2 _ l hb c hc
                have h2 := ht1.2.2.2.2.2.1 _ c (ht1.2.2.1 _ l hb c hc).1
                constructor <;> omega
            obtain ⟨s, hs, hts, hfs, _⟩ := children_loop B root n (remove n) ih _ _ ht1 hg1 hcf
            have hpart : after_directory_part (remove n) st f
                (erase_directory s (st.nodes f).filename) := Or.inl ⟨hd, s, hs, rfl⟩
            obtain ⟨hk2, hc2, hg2⟩ := directory_part_inv (remove n)
              (remove_removes_well _ n) st _ f ht.1 ht.2.1 hpart
            have hsn : s._filenodes (st.nodes f).filename = none := by
              rcases hfs.2.2.1 (st.nodes f).filename with h | h
              · exact h
              · rw [h]; exact hg1
            obtain ⟨hte, hfe⟩ := erase_directory_tree B root s _ hts hsn hk2 hc2
            refine ⟨_, hpart, hte, ?_, hg2, fun _ => ?_⟩
            · exact cascade_frame_trans _ _ _
                (cascade_frame_weaken _ _ (fun _ h => h) (fun _ h => absurd h (fun x => x)) hf1)
                (cascade_frame_trans _ _ _
                  (cascade_frame_weaken _ _ (fun _ h => absurd h (fun x => x))
                    (fun _ h => absurd h (fun x => x)) hfs)
                  (cascade_frame_weaken _ _ (fun _ h => absurd h (fun x => x)) (fun _ h => h) hfe))
            · simp [erase_directory, upd]
          · have hd2 : (st.nodes f).is_directory = false := by simpa using hd
            exact ⟨_, Or.inr ⟨hd2, rfl⟩, ht1,
              cascade_frame_weaken _ _ (fun _ h => h) (fun _ h => absurd h (fun x => x)) hf1,
              hg1, fun h => absurd h hd⟩
        obtain ⟨st2, hpart, ht2, hf2, hg2, hd2⟩ := hdir
        have hfn2 : (st2.nodes f).filename = (st.nodes f).filename := (hf2.1 f).1
        have hdir2 : (st2.nodes f).is_directory = (st.nodes f).is_directory := (hf2.1 f).2.1
        have hresult : ∃ r, after_stream_part (remove n) st2 f r ∧ tree_shaped B root r ∧
            cascade_frame_off (fun m => m = f) (fun q => q = (st.nodes f).filename) st2 r ∧
            gone r f := by
          cases hm : (st2.nodes f).main_stream with
          | some m =>
            obtain ⟨htr, hfr⟩ := remove_stream_tree B root st2 m f (fun m => m = f)
              (fun q => q = (st.nodes f).filename) ht2
            refine ⟨_, Or.inl ⟨m, hm, rfl⟩, htr, hfr, ?_, ?_, ?_⟩
            · rw [(hfr.1 f).1, hfn2]; exact hg2
            · intro hd
              rw [(hfr.1 f).2.1, hdir2] at hd
              rw [(hfr.1 f).1, hfn2]
              exact hd2 hd
            · intro h0
              rw [(hfr.1 f).2.2.2.2, hm] at h0
              cases h0
          | none =>
            have hsf : ∀ kv, kv ∈ (st2.nodes f).streams → B + 1 ≤ n + kv.1.length := by
              intro kv hkv
              have := ht2.2.2.2.2.2.2.1 f kv hkv
              rw [hfn2] at this
              omega
            obtain ⟨r, hr, htr, hfr, hq⟩ := streams_loop B root n (remove n) ih st2 _ ht2 hsf
            refine ⟨r, Or.inr ⟨hm, hr⟩, htr,
              cascade_frame_weaken _ _ (fun _ h => absurd h (fun x => x))
                (fun _ h => absurd h (fun x => x)) hfr, ?_, ?_, ?_⟩
            · rw [(hfr.1 f).1, hfn2]
              rcases hfr.2.2.1 (st.nodes f).filename with h | h
              · exact h
              · rw [h]; exact hg2
            · intro hd
              rw [(hfr.1 f).2.1, hdir2] at hd
              rw [(hfr.1 f).1, hfn2]
              exact hfr.2.2.2.1 _ (hd2 hd)
            · intro _ kv hkv
              exact hq kv (hfr.2.1 f kv hkv)
        obtain ⟨r, hspart, htr, hfr, hgr⟩ := hresult
        refine ⟨r, ?_, htr, ?_, fun c hc => by cases hc; exact hgr⟩
        · rw [remove_some_succ, remove_body_iff]
          exact ⟨st2, hpart, hspart⟩
        · apply cascade_frame_close _ _ st r (cascade_frame_trans _ _ _ hf2 hfr)
          · intro q hq
            rw [hq, hin]
            exact Option.some_ne_none f
          · intro m hm
            rw [hm]; exact hgr
      · -- the node is gone already
        have hu := unlink_node_gone root st f ht.2.2.1 hg.1 hp
        have hpart : after_directory_part (remove n) st f st := by
          by_cases hd : (st.nodes f).is_directory = true
          · refine Or.inl ⟨hd, st, ?_, (erase_directory_absent st _ (hg.2.1 hd)).symm⟩
            rw [hu]
            simp [list_folder, hg.2.1 hd, for_each]
          · have hd2 : (st.nodes f).is_directory = false := by simpa using hd
            exact Or.inr ⟨hd2, hu.symm⟩
        cases hm : (st.nodes f).main_stream with
        | some m =>
          obtain ⟨htr, hfr⟩ := remove_stream_tree B root st m f (fun _ => False)
            (fun _ => False) ht
          refine ⟨_, ?_, htr, hfr, fun c hc => by cases hc; exact gone_stable _ _ f hfr hg⟩
          rw [remove_some_succ, remove_body_iff]
          exact ⟨st, hpart, Or.inl ⟨m, hm, rfl⟩⟩
        | none =>
          refine ⟨st, ?_, ht, cascade_frame_refl _ _ st, fun c hc => by cases hc; exact hg⟩
          rw [remove_some_succ, remove_body_iff]
          refine ⟨st, hpart, Or.inr ⟨hm, ?_⟩⟩
          apply for_each_noop
          intro kv hkv
          show remove n st (find st kv.1) = some st
          have : find st kv.1 = none := hg.2.2 hm kv hkv
          rw [this]
          exact remove_none _ _

/-! ### Lengths of paths -/

/-- A path is its parent path followed by a rest that is at least as long as
its final component. -/
theorem parent_path_split (s : WString) :
    ∃ u, s = parent_path s ++ u ∧ (filename s).length ≤ u.length := by
  have h1 := List.takeWhile_append_dropWhile (fun c => !is_slash c)
    (s.drop (find_relative_path s)).reverse
  have h2 := List.takeWhile_append_dropWhile is_slash
    (((s.drop (find_relative_path s)).reverse).dropWhile (fun c => !is_slash c))
  refine ⟨((((s.drop (find_relative_path s)).reverse).dropWhile
      (fun c => !is_slash c)).takeWhile is_slash).reverse ++
    (((s.drop (find_relative_path s)).reverse).takeWhile (fun c => !is_slash c)).reverse, ?_, ?_⟩
  · unfold parent_path
    simp only []
    rw [List.append_assoc, ← List.append_assoc (List.reverse _), ← List.reverse_append, h2,
      ← List.reverse_append, h1, List.reverse_reverse, List.take_append_drop]
  · unfold filename
    simp

theorem parent_path_length_le (s : WString) : (parent_path s).length ≤ s.length := by
  obtain ⟨u, hu, _⟩ := parent_path_split s
  have := congrArg List.length hu
  simp only [List.length_append] at this
  omega

theorem parent_path_length_lt (s : WString) (h : parent_path s ≠ s) :
    (parent_path s).length < s.length := by
  obtain ⟨u, hu, _⟩ := parent_path_split s
  have hl := congrArg List.length hu
  simp only [List.length_append] at hl
  cases u with
  | nil => simp at hu; exact absurd hu.symm h
  | cons a t => simp at hl; omega

/-- The key under which the main node of a stream is looked up is shorter than
the path of the stream. -/
theorem main_key_shorter (s : WString) (h : (get_stream_names s).2 ≠ []) :
    (parent_path s ++ (get_stream_names s).1).length < s.length := by
  obtain ⟨u, hu, hfu⟩ := parent_path_split s
  have hl := congrArg List.length hu
  simp only [List.length_append] at hl ⊢
  unfold get_stream_names at h ⊢
  simp only [] at h ⊢
  split at h
  · exact absurd rfl h
  · rename_i hpos
    rw [if_neg hpos]
    have hle : List.indexOf ':' (filename s) ≤ (filename s).length := List.indexOf_le_length
    simp only [List.length_take]
    omega

/-! ### A successful `add` on a tree -/

theorem mem_streams_set (l : List (WString × NodeId)) (key : WString) (v : NodeId)
    (kv : WString × NodeId) (h : kv ∈ streams_set l key v) : kv ∈ l ∨ kv = (key, v) := by
  unfold streams_set at h
  split at h
  · rw [List.mem_map] at h
    obtain ⟨a, ha, hkv⟩ := h
    split at hkv
    · exact Or.inr hkv.symm
    · exact Or.inl (hkv ▸ ha)
  · rw [List.mem_append] at h
    rcases h with h | h
    · exact Or.inl h
    · right; simpa using h

theorem link_stream_streams (s : fs_filenodes) (mf f x : NodeId) :
    ((link_stream s mf f).nodes x).streams =
      if x = mf then streams_set (s.nodes mf).streams (s.nodes f).filename f
      else (s.nodes x).streams := by
  simp only [link_stream, upd]
  by_cases h1 : x = f <;> by_cases h2 : x = mf <;> by_cases h3 : f = mf <;> simp_all

theorem insert_node_dirs_new_key (s : fs_filenodes) (f : NodeId) (name parent q : WString)
    (l2 : List NodeId) (hq : s._directoryPaths q = none)
    (hp : (s._directoryPaths parent).isSome = true)
    (h : (insert_node s f name parent)._directoryPaths q = some l2) :
    q = name ∧ (s.nodes f).is_directory = true := by
  have hqp : q ≠ parent := by
    intro h0; rw [h0] at hq; rw [hq] at hp; cases hp
  simp only [insert_node, upd, if_neg hqp] at h
  split at h
  · rename_i hreg
    simp only [upd] at h
    split at h
    · rename_i hqn
      simp only [Bool.and_eq_true] at hreg
      exact ⟨hqn, hreg.1⟩
    · rw [hq] at h; cases h
  · rw [hq] at h; cases h

/-- The outcome of an `add` that answers `STATUS_SUCCESS`, in terms of the state
before: the parent path had a child set, and the node was inserted after the
assignment of the file index and, for a stream, the linking to the main node
found at the parent path followed by the base name. -/
theorem add_success_cases (st : fs_filenodes) (f : NodeId)
    (h : (add st f).2 = STATUS_SUCCESS) :
    (st._directoryPaths (parent_path (st.nodes f).filename)).isSome = true ∧
    (((get_stream_names (st.nodes f).filename).2 = [] ∧
        (add st f).1 = insert_node (assign_fileindex st f) f (st.nodes f).filename
          (parent_path (st.nodes f).filename)) ∨
     ((get_stream_names (st.nodes f).filename).2 ≠ [] ∧
        ∃ mf, find st (parent_path (st.nodes f).filename ++
            (get_stream_names (st.nodes f).filename).1) = some mf ∧
          (add st f).1 = insert_node (link_stream (assign_fileindex st f) mf f) f
            (st.nodes f).filename (parent_path (st.nodes f).filename))) := by
  unfold add at h ⊢
  simp only [assign_fileindex_filename, assign_fileindex_dirs, find, assign_fileindex_map] at h ⊢
  cases hd : st._directoryPaths (parent_path (st.nodes f).filename) with
  | none => simp [hd] at h
  | some l =>
    simp only [hd, Option.isNone_some, Bool.false_eq_true, if_false, Option.isSome_some,
      true_and] at h ⊢
    by_cases hs : (get_stream_names (st.nodes f).filename).2 = []
    · left
      simp [hs]
    · right
      simp only [hs, ne_eq, not_false_eq_true, if_true, true_and] at h ⊢
      cases hm : st._filenodes (parent_path (st.nodes f).filename ++
          (get_stream_names (st.nodes f).filename).1) with
      | none => simp [hm] at h
      | some mf => exact ⟨mf, rfl, rfl⟩

theorem tree_shaped_mono (B B2 : Nat) (root : NodeId) (st : fs_filenodes) (h : B ≤ B2)
    (ht : tree_shaped B root st) : tree_shaped B2 root st := by
  obtain ⟨a1, a2, a3, a4, a5, a6, a7, a8⟩ := ht
  exact ⟨a1, a2, a3, a4, a5, fun k n hkn => le_trans (a6 k n hkn) h, a7, a8⟩

theorem bootstrap_built (root : NodeId) (heap : NodeId → filenode)
    (hfresh : ∀ m, is_fresh (heap m)) :
    built_inv 1 root (bootstrap root heap) := by
  obtain ⟨t1, t2, t3, t4⟩ := bootstrap_tidy root heap
  refine ⟨⟨t1, t2, t3, t4, ?_, ?_, ?_, ?_⟩, ?_, ?_⟩
  · intro _; simp [bootstrap, upd]
  · intro k n hkn
    simp only [bootstrap, upd] at hkn
    split at hkn
    · rename_i hk; rw [hk]; decide
    · cases hkn
  · intro x kv hkv
    simp only [bootstrap, upd] at hkv
    split at hkv
    · simp [filenode.create] at hkv
    · rw [(hfresh x).2.2] at hkv; cases hkv
  · intro P l hl n hn
    simp only [bootstrap, upd] at hl
    split at hl
    · cases hl; cases hn
    · cases hl
  · simp [bootstrap, upd]
  · intro q hq
    simp only [bootstrap, upd] at hq ⊢
    split at hq
    · rename_i h0
      refine ⟨root, by simp [h0], by simp [filenode.create]⟩
    · exact absurd rfl hq

/-- The path map, the directory index and the stream sets after a successful
`add`, in terms of the state before. -/
theorem add_success_shape (st : fs_filenodes) (f : NodeId)
    (hk : key_consistent st) (h : (add st f).2 = STATUS_SUCCESS) :
    (st._directoryPaths (parent_path (st.nodes f).filename)).isSome = true ∧
    (∀ k, (add st f).1._filenodes k =
      if k = (st.nodes f).filename then some f else st._filenodes k) ∧
    (∀ q l, st._directoryPaths q = some l → (add st f).1._directoryPaths q =
      if q = parent_path (st.nodes f).filename then some (set_insert f l) else some l) ∧
    (∀ q l2, st._directoryPaths q = none → (add st f).1._directoryPaths q = some l2 →
      l2 = [] ∧ q = (st.nodes f).filename ∧ (st.nodes f).is_directory = true) ∧
    (∀ x kv, kv ∈ ((add st f).1.nodes x).streams →
      kv ∈ (st.nodes x).streams ∨
      (kv.1 = (st.nodes f).filename ∧
        ((st.nodes x).filename).length < ((st.nodes f).filename).length)) := by
  obtain ⟨hp, hcase⟩ := add_success_cases st f h
  have hA := assign_fileindex_frame st f
  have hAd := assign_fileindex_dirs st f
  have hAm := assign_fileindex_map st f
  have hAf := assign_fileindex_filename st f
  refine ⟨hp, ?_⟩
  rcases hcase with ⟨_, hR⟩ | ⟨hs, mf, hmf, hR⟩
  · rw [hR]
    refine ⟨?_, ?_, ?_, ?_⟩
    · intro k; simp only [insert_node, upd, hAm]
    · intro q l hl
      exact insert_node_dirs _ f _ _ q l (by rw [hAd]; exact hl)
    · intro q l2 hq hl2
      have h1 := insert_node_dirs_new _ f _ _ q l2 (by rw [hAd]; exact hq)
        (by rw [hAd]; exact hp) hl2
      have h2 := insert_node_dirs_new_key _ f _ _ q l2 (by rw [hAd]; exact hq)
        (by rw [hAd]; exact hp) hl2
      rw [(hA f).2.2.1] at h2
      exact ⟨h1, h2⟩
    · intro x kv hkv
      left
      have : (insert_node (assign_fileindex st f) f (st.nodes f).filename
          (parent_path (st.nodes f).filename)).nodes = (assign_fileindex st f).nodes := rfl
      rw [this, (hA x).2.1] at hkv
      exact hkv
  · rw [hR]
    have hLd : (link_stream (assign_fileindex st f) mf f)._directoryPaths
        = st._directoryPaths := hAd
    have hLm : (link_stream (assign_fileindex st f) mf f)._filenodes = st._filenodes := hAm
    refine ⟨?_, ?_, ?_, ?_⟩
    · intro k; simp only [insert_node, upd, hLm]
    · intro q l hl
      exact insert_node_dirs _ f _ _ q l (by rw [hLd]; exact hl)
    · intro q l2 hq hl2
      have h1 := insert_node_dirs_new _ f _ _ q l2 (by rw [hLd]; exact hq)
        (by rw [hLd]; exact hp) hl2
      have h2 := insert_node_dirs_new_key _ f _ _ q l2 (by rw [hLd]; exact hq)
        (by rw [hLd]; exact hp) hl2
      rw [(link_stream_kind _ mf f f).2.1, (hA f).2.2.1] at h2
      exact ⟨h1, h2⟩
    · intro x kv hkv
      have : (insert_node (link_stream (assign_fileindex st f) mf f) f (st.nodes f).filename
          (parent_path (st.nodes f).filename)).nodes =
            (link_stream (assign_fileindex st f) mf f).nodes := rfl
      rw [this, link_stream_streams] at hkv
      split at hkv
      · rename_i hx
        rw [(hA mf).2.1, hAf] at hkv
        rcases mem_streams_set _ _ _ kv hkv with h0 | h0
        · left; rw [hx]; exact h0
        · right
          refine ⟨by rw [h0], ?_⟩
          rw [hx, hk _ mf hmf]
          exact main_key_shorter _ hs
      · left
        rw [(hA x).2.1] at hkv
        exact hkv

/-- A successful `add` of a fresh node at a free path keeps the invariant of the
built states. -/
theorem add_built (B : Nat) (root : NodeId) (st : fs_filenodes) (n : NodeId)
    (hb : built_inv B root st) (hn : fresh_add root st (call.add n)) :
    built_inv (max B ((st.nodes n).filename).length) root (add st n).1 := by
  obtain ⟨⟨hk, hc, hm, hrf, hrb, hB, hsl, hcl⟩, hroot, hD⟩ := hb
  obtain ⟨hnr, _, hfree, hsucc⟩ := hn
  obtain ⟨hp, hmap, hdo, hdn, hstr⟩ := add_success_shape st n hk hsucc
  have htidy : tidy root (add st n).1 :=
    tidy_step root st _ (call.add n) ⟨hk, hc, hm, hrf⟩ ⟨hnr, hfree⟩ rfl
  obtain ⟨t1, t2, t3, t4⟩ := htidy
  have hfn : ∀ x, ((add st n).1.nodes x).filename = (st.nodes x).filename :=
    fun x => (add_kind st n x).1
  have hne : root_path ≠ (st.nodes n).filename := by
    intro h0; rw [← h0, hroot] at hfree; cases hfree
  have hroot2 : (add st n).1._filenodes root_path = some root := by
    rw [hmap, if_neg hne]; exact hroot
  have hgrow : ∀ q, st._directoryPaths q ≠ none → (add st n).1._directoryPaths q ≠ none := by
    intro q hq
    obtain ⟨l, hl⟩ := Option.ne_none_iff_exists'.mp hq
    rw [hdo q l hl]
    split <;> exact Option.some_ne_none _
  refine ⟨⟨t1, t2, t3, t4, ?_, ?_, ?_, ?_⟩, hroot2, ?_⟩
  · intro _
    have h1 := hrb (by rw [hroot]; rfl)
    have h2 := hgrow root_path (by intro h0; rw [h0] at h1; cases h1)
    cases hq : (add st n).1._directoryPaths root_path with
    | none => exact absurd hq h2
    | some l => rfl
  · intro k x hkx
    rw [hmap] at hkx
    split at hkx
    · rename_i h0; rw [h0]; exact le_max_right _ _
    · exact le_trans (hB k x hkx) (le_max_left _ _)
  · intro x kv hkv
    rw [hfn]
    rcases hstr x kv hkv with h0 | ⟨h0, h1⟩
    · exact hsl x kv h0
    · rw [h0]; exact h1
  · intro P l hl x hx
    rw [hfn]
    cases hq : st._directoryPaths P with
    | none =>
      have := (hdn P l hq hl).1
      subst this
      cases hx
    | some l0 =>
      rw [hdo P l0 hq] at hl
      split at hl
      · rename_i hP
        simp only [Option.some.injEq] at hl
        subst hl
        rw [mem_set_insert] at hx
        rcases hx with rfl | hx
        · rw [hP]
          apply parent_path_length_lt
          intro h0
          rw [h0] at hp
          have hex : st._directoryPaths (st.nodes x).filename ≠ none := by
            intro h1; rw [h1] at hp; cases hp
          obtain ⟨d, hd, _⟩ := hD _ hex
          rw [hd] at hfree; cases hfree
        · exact hcl P l0 hq x hx
      · simp only [Option.some.injEq] at hl
        subst hl
        exact hcl P l0 hq x hx
  · intro q hq
    cases hq0 : st._directoryPaths q with
    | none =>
      obtain ⟨l2, hl2⟩ := Option.ne_none_iff_exists'.mp hq
      obtain ⟨_, h2, h3⟩ := hdn q l2 hq0 hl2
      refine ⟨n, by rw [hmap, if_pos h2], ?_⟩
      rw [(add_kind st n n).2.1]; exact h3
    | some l0 =>
      obtain ⟨d, hd, hdd⟩ := hD q (by rw [hq0]; exact Option.some_ne_none _)
      have hqn : q ≠ (st.nodes n).filename := by
        intro h0; rw [h0, hfree] at hd; cases hd
      refine ⟨d, by rw [hmap, if_neg hqn]; exact hd, ?_⟩
      rw [(add_kind st n d).2.1]; exact hdd

theorem built_has_inv (root : NodeId) (heap : NodeId → filenode) (st : fs_filenodes)
    (h : built root heap st) : ∃ B, built_inv B root st := by
  obtain ⟨hfresh, hr⟩ := h
  induction hr with
  | start => exact ⟨1, bootstrap_built root heap hfresh⟩
  | step s c s2 _ hallowed hret ih =>
    obtain ⟨B, hB⟩ := ih
    cases c with
    | add n =>
      simp only [call_returns] at hret
      subst hret
      exact ⟨_, add_built B root s n hB hallowed⟩
    | remove name => exact absurd hallowed (fun x => x)
    | move o n r => exact absurd hallowed (fun x => x)

/-! ### Removing a directory of a built table -/

theorem scenario_heap_fresh : ∀ m, is_fresh (scenario_heap m) := by
  intro m
  unfold scenario_heap
  split <;> exact ⟨rfl, rfl, rfl⟩

theorem table_p_built : built 0 scenario_heap table_p :=
  ⟨scenario_heap_fresh,
    reachable_by.step _ (call.add 9) _
      (reachable_by.step _ (call.add 8) _
        (reachable_by.step _ (call.add 7) _ reachable_by.start
          ⟨by decide, ⟨rfl, rfl, rfl⟩, by decide, by decide⟩ rfl)
        ⟨by decide, ⟨by decide, by decide, by decide⟩, by decide, by decide⟩ rfl)
      ⟨by decide, ⟨by decide, by decide, by decide⟩, by decide, by decide⟩ rfl⟩

/-- Below a path that has lost its node and its child set nothing is left. -/
theorem nothing_below (B : Nat) (root : NodeId) (st r : fs_filenodes)
    (hst : built_inv B root st) (htr : tree_shaped B root r) (hfr : cascade_frame st r)
    (P Q : WString) (hP : r._filenodes P = none ∧ r._directoryPaths P = none)
    (hQ : parent_path Q = P) :
    r._filenodes Q = none ∧ r._directoryPaths Q = none := by
  have hmap : r._filenodes Q = none := by
    cases hq : r._filenodes Q with
    | none => rfl
    | some n =>
      by_cases hn : n = root
      · have h1 := htr.1 Q n hq
        rw [hn, htr.2.2.2.1.1] at h1
        rw [← h1, parent_path_root] at hQ
        rw [← h1, hQ, hP.1] at hq
        cases hq
      · obtain ⟨l, hl, _⟩ := htr.2.1 Q n hq hn
        rw [hQ, hP.2] at hl
        cases hl
  refine ⟨hmap, ?_⟩
  by_cases hd : st._directoryPaths Q = none
  · exact hfr.2.2.2.1 Q hd
  · obtain ⟨d, hd1, hd2⟩ := hst.2.2 Q hd
    rcases hfr.2.2.2.2.2 Q d hd1 hmap with h | h
    · exact absurd h (fun x => x)
    · have h3 := h.2.1
      rw [(hfr.1 d).2.1, (hfr.1 d).1, hst.1.1 Q d hd1] at h3
      exact h3 hd2

/-- C3: in a state built from the bootstrap state by successful `add` calls of
fresh nodes at pairwise distinct paths, `remove` of a path `P` that holds a
directory returns (with any fuel from some bound on), and afterwards `P` has
no node, no path below `P` at any depth has a node, and neither `P` nor any
path below `P` is a key of the directory index, so that `list_folder` is empty
for each of them. -/
theorem remove_directory_cascade (root : NodeId) (heap : NodeId → filenode)
    (st : fs_filenodes) (P : WString) (d : NodeId)
    (hb : built root heap st) (hP : find st P = some d)
    (hd : (st.nodes d).is_directory = true) :
    ∃ N, ∀ fuel, N ≤ fuel → ∃ r, remove_path fuel st P = some r ∧
      find r P = none ∧ (∀ Q, below P Q → find r Q = none) ∧
      (∀ D, D = P ∨ below P D → r._directoryPaths D = none ∧ list_folder r D = []) := by
  obtain ⟨B, hinv⟩ := built_has_inv root heap st hb
  refine ⟨B + 1, fun fuel hfuel => ?_⟩
  have hname : (st.nodes d).filename = P := hinv.1.1 P d hP
  obtain ⟨r, hr, htr, hfr, hg⟩ := remove_cascade B root fuel st (some d) hinv.1
    (fun c hc => by
      cases hc
      left
      rw [hname]
      exact ⟨hP, by omega⟩)
  have hgd := hg d rfl
  have hPgone : r._filenodes P = none ∧ r._directoryPaths P = none := by
    obtain ⟨g1, g2, _⟩ := hgd
    rw [(hfr.1 d).1, hname] at g1 g2
    rw [(hfr.1 d).2.1] at g2
    exact ⟨g1, g2 hd⟩
  have hall : ∀ k Q, Nat.iterate parent_path (k + 1) Q = P →
      r._filenodes Q = none ∧ r._directoryPaths Q = none := by
    intro k
    induction k with
    | zero =>
      intro Q hQ
      exact nothing_below B root st r hinv htr hfr P Q hPgone hQ
    | succ k ih =>
      intro Q hQ
      rw [Function.iterate_succ_apply] at hQ
      exact nothing_below B root st r hinv htr hfr _ Q (ih (parent_path Q) hQ) rfl
  have hbelow : ∀ Q, below P Q → r._filenodes Q = none ∧ r._directoryPaths Q = none := by
    rintro Q ⟨k, hk, hQ⟩
    obtain ⟨k2, rfl⟩ := Nat.exists_eq_succ_of_ne_zero (Nat.pos_iff_ne_zero.mp hk)
    exact hall k2 Q hQ
  refine ⟨r, by unfold remove_path; rw [hP]; exact hr, hPgone.1, fun Q hQ => (hbelow Q hQ).1, ?_⟩
  intro D hD
  have : r._directoryPaths D = none := by
    rcases hD with rfl | hD
    · exact hPgone.2
    · exact (hbelow D hD).2
  exact ⟨this, by simp [list_folder, this]⟩

/-- C3 at a concrete table (Scenario E): the table with the directories `\p` and
`\p\a` and the file `\p\a\x` is built by three `add` calls, and `\p` holds a
directory. -/
theorem remove_directory_cascade_witness :
    ∃ N, ∀ fuel, N ≤ fuel → ∃ r, remove_path fuel table_p (wpath "\\p") = some r ∧
      find r (wpath "\\p") = none ∧ (∀ Q, below (wpath "\\p") Q → find r Q = none) ∧
      (∀ D, D = wpath "\\p" ∨ below (wpath "\\p") D →
        r._directoryPaths D = none ∧ list_folder r D = []) :=
  remove_directory_cascade 0 scenario_heap table_p (wpath "\\p") 7 table_p_built
    (by decide) (by decide)

/-! ### A move of a directory to a free place relocates its subtree -/

theorem dropWhile_append_stop (p : Char → Bool) (l r : List Char) (x : Char)
    (hl : ∀ c ∈ l, p c = true) (hx : p x = false) :
    (l ++ x :: r).dropWhile p = x :: r := by
  induction l with
  | nil => simp [List.dropWhile, hx]
  | cons a t ih =>
    have ha : p a = true := hl a (List.mem_cons_self _ _)
    simp only [List.cons_append, List.dropWhile, ha]
    exact ih (fun c hc => hl c (List.mem_cons_of_mem _ hc))

theorem takeWhile_append_stop (p : Char → Bool) (l r : List Char) (x : Char)
    (hl : ∀ c ∈ l, p c = true) (hx : p x = false) :
    (l ++ x :: r).takeWhile p = l := by
  induction l with
  | nil => simp [List.takeWhile, hx]
  | cons a t ih =>
    have ha : p a = true := hl a (List.mem_cons_self _ _)
    simp only [List.cons_append, List.takeWhile, ha]
    exact congrArg (List.cons a) (ih (fun c hc => hl c (List.mem_cons_of_mem _ hc)))

theorem takeWhile_all (p : Char → Bool) (l : List Char) (hl : ∀ c ∈ l, p c = true) :
    l.takeWhile p = l := by
  induction l with
  | nil => rfl
  | cons a t ih =>
    have ha : p a = true := hl a (List.mem_cons_self _ _)
    simp only [List.takeWhile, ha]
    exact congrArg (List.cons a) (ih (fun c hc => hl c (List.mem_cons_of_mem _ hc)))

theorem dropWhile_all (p : Char → Bool) (l : List Char) (hl : ∀ c ∈ l, p c = true) :
    l.dropWhile p = [] := by
  induction l with
  | nil => rfl
  | cons a t ih =>
    have ha : p a = true := hl a (List.mem_cons_self _ _)
    simp only [List.dropWhile, ha]
    exact ih (fun c hc => hl c (List.mem_cons_of_mem _ hc))

theorem is_slash_separator : is_slash preferred_separator = true := by decide

theorem plain_name_chars (l : WString) (h : plain_name l = true) :
    l ≠ [] ∧ ∀ c ∈ l, is_slash c = false ∧ c ≠ ':' ∧ c ≠ '?' := by
  unfold plain_name at h
  simp only [Bool.and_eq_true, Bool.not_eq_true', List.all_eq_true, bne_iff_ne, ne_eq] at h
  refine ⟨?_, fun c hc => ?_⟩
  · intro he
    rw [he] at h
    simp at h
  · have := h.2 c hc
    exact ⟨this.1.1, this.1.2, this.2⟩

theorem plain_names_cons (c : WString) (cs : List WString) :
    plain_names (c :: cs) = true ↔ plain_name c = true ∧ plain_names cs = true := by
  simp [plain_names]

theorem plain_names_append (a b : List WString) :
    plain_names (a ++ b) = true ↔ plain_names a = true ∧ plain_names b = true := by
  simp [plain_names]

theorem join_names_append (a b : List WString) :
    join_names (a ++ b) = join_names a ++ join_names b := by
  induction a with
  | nil => rfl
  | cons c cs ih => simp [join_names, ih]

/-- Shape of the joined components: a separator, a character that is no slash
and no question mark, and at the end a character that is no slash. -/
theorem join_names_shape (cs : List WString) (hp : plain_names cs = true) (hne : cs ≠ []) :
    ∃ c0 t, join_names cs = preferred_separator :: c0 :: t ∧ is_slash c0 = false ∧ c0 ≠ '?' ∧
      ∃ cl u, (c0 :: t).reverse = cl :: u ∧ is_slash cl = false := by
  induction cs with
  | nil => exact absurd rfl hne
  | cons c cs ih =>
    obtain ⟨hc, hcs⟩ := (plain_names_cons c cs).1 hp
    obtain ⟨hcne, hch⟩ := plain_name_chars c hc
    obtain ⟨c0, t0, rfl⟩ := List.exists_cons_of_ne_nil hcne
    have h0 := hch c0 (List.mem_cons_self _ _)
    by_cases hcs0 : cs = []
    · subst hcs0
      refine ⟨c0, t0, by simp [join_names], h0.1, h0.2.2, ?_⟩
      have hr : (c0 :: t0).reverse ≠ [] := by simp
      obtain ⟨cl, u, hu⟩ := List.exists_cons_of_ne_nil hr
      refine ⟨cl, u, hu, ?_⟩
      have : cl ∈ (c0 :: t0).reverse := by rw [hu]; exact List.mem_cons_self _ _
      exact (hch cl (List.mem_reverse.1 this)).1
    · obtain ⟨d0, t, hj, _, _, cl, u, hu, hcl⟩ := ih hcs hcs0
      refine ⟨c0, t0 ++ join_names cs, by simp [join_names], h0.1, h0.2.2, cl, ?_⟩
      rw [hj]
      refine ⟨u ++ [preferred_separator] ++ (c0 :: t0).reverse, ?_, hcl⟩
      have : c0 :: (t0 ++ preferred_separator :: d0 :: t) =
          (c0 :: t0) ++ [preferred_separator] ++ (d0 :: t) := by simp
      rw [this, List.reverse_append, List.reverse_append, hu]
      simp

theorem find_root_name_end_plain (c0 : Char) (t : WString)
    (h0 : is_slash c0 = false) (hq : c0 ≠ '?') :
    find_root_name_end (preferred_separator :: c0 :: t) = 0 := by
  unfold find_root_name_end
  have h1 : ¬ (preferred_separator :: c0 :: t).length < 2 := by simp
  have h2 : drive_letter_prefixed (preferred_separator :: c0 :: t) = false := by
    simp [drive_letter_prefixed]
    intro h
    exact absurd h (by decide)
  simp [h1, h2, is_slash_separator, h0, hq]

theorem find_relative_path_plain (c0 : Char) (t : WString)
    (h0 : is_slash c0 = false) (hq : c0 ≠ '?') :
    find_relative_path (preferred_separator :: c0 :: t) = 1 := by
  unfold find_relative_path
  rw [find_root_name_end_plain c0 t h0 hq]
  simp [List.takeWhile, is_slash_separator, h0]

theorem path_of_nil : path_of [] = root_path := rfl

theorem path_of_ne_nil (cs : List WString) (h : cs ≠ []) : path_of cs = join_names cs := by
  unfold path_of
  cases cs with
  | nil => exact absurd rfl h
  | cons c t => rfl

theorem path_of_child (cs : List WString) (leaf : WString) :
    path_of (cs ++ [leaf]) = join_names cs ++ preferred_separator :: leaf := by
  rw [path_of_ne_nil _ (by simp), join_names_append]
  simp [join_names]

theorem no_slash_reverse (leaf : WString) (h : plain_name leaf = true) :
    ∀ c ∈ leaf.reverse, (fun c => !is_slash c) c = true := by
  intro c hc
  simp [(plain_name_chars leaf h).2 c (List.mem_reverse.1 hc)]

theorem find_relative_path_child (cs : List WString) (leaf : WString)
    (hp : plain_names cs = true) (hl : plain_name leaf = true) :
    find_relative_path (path_of (cs ++ [leaf])) = 1 := by
  have hpl : plain_names (cs ++ [leaf]) = true :=
    (plain_names_append _ _).2 ⟨hp, by simp [plain_names, hl]⟩
  obtain ⟨c0, t, hj, h0, hq, _⟩ := join_names_shape (cs ++ [leaf]) hpl (by simp)
  rw [path_of_ne_nil _ (by simp), hj]
  exact find_relative_path_plain c0 t h0 hq

theorem parent_path_child (cs : List WString) (leaf : WString)
    (hp : plain_names cs = true) (hl : plain_name leaf = true) :
    parent_path (path_of (cs ++ [leaf])) = path_of cs := by
  unfold parent_path
  rw [find_relative_path_child cs leaf hp hl, path_of_child]
  by_cases hcs : cs = []
  · subst hcs
    simp only [join_names, List.nil_append, List.take, List.drop]
    rw [dropWhile_all _ _ (no_slash_reverse leaf hl)]
    rfl
  · obtain ⟨c0, t, hj, h0, hq, cl, u, hu, hcl⟩ := join_names_shape cs hp hcs
    rw [path_of_ne_nil _ hcs, hj]
    have e1 : List.take 1 (preferred_separator :: c0 :: t ++ preferred_separator :: leaf) =
        [preferred_separator] := rfl
    have e2 : List.drop 1 (preferred_separator :: c0 :: t ++ preferred_separator :: leaf) =
        (c0 :: t) ++ preferred_separator :: leaf := rfl
    have hrev : ((c0 :: t) ++ preferred_separator :: leaf).reverse =
        leaf.reverse ++ preferred_separator :: (c0 :: t).reverse := by simp
    dsimp only
    rw [e1, e2, hrev, dropWhile_append_stop _ _ _ _ (no_slash_reverse leaf hl)
      (by simp [is_slash_separator])]
    rw [hu]
    simp [List.dropWhile, is_slash_separator, hcl]
    have := congrArg List.reverse hu
    simpa using this.symm

theorem filename_child (cs : List WString) (leaf : WString)
    (hp : plain_names cs = true) (hl : plain_name leaf = true) :
    filename (path_of (cs ++ [leaf])) = leaf := by
  unfold filename
  rw [find_relative_path_child cs leaf hp hl, path_of_child]
  by_cases hcs : cs = []
  · subst hcs
    simp only [join_names, List.nil_append, List.drop]
    rw [takeWhile_all _ _ (no_slash_reverse leaf hl)]
    simp
  · obtain ⟨c0, t, hj, h0, hq, cl, u, hu, hcl⟩ := join_names_shape cs hp hcs
    rw [hj]
    have e2 : List.drop 1 (preferred_separator :: c0 :: t ++ preferred_separator :: leaf) =
        (c0 :: t) ++ preferred_separator :: leaf := rfl
    have hrev : ((c0 :: t) ++ preferred_separator :: leaf).reverse =
        leaf.reverse ++ preferred_separator :: (c0 :: t).reverse := by simp
    rw [e2, hrev, takeWhile_append_stop _ _ _ _ (no_slash_reverse leaf hl)
      (by simp [is_slash_separator])]
    simp

theorem get_stream_names_child (cs : List WString) (leaf : WString)
    (hp : plain_names cs = true) (hl : plain_name leaf = true) :
    (get_stream_names (path_of (cs ++ [leaf]))).2 = [] := by
  unfold get_stream_names
  rw [filename_child cs leaf hp hl]
  have : List.indexOf ':' leaf = leaf.length := by
    apply List.indexOf_eq_length.2
    intro hm
    exact ((plain_name_chars leaf hl).2 ':' hm).2.1 rfl
  simp [this]

theorem root_name_end_leaf (leaf : WString) (hl : plain_name leaf = true) :
    find_root_name_end leaf = 0 ∧ drive_letter_prefixed leaf = false ∧
      (decide (0 < leaf.length) && is_slash (leaf.getD 0 ' ')) = false := by
  obtain ⟨hne, hch⟩ := plain_name_chars leaf hl
  obtain ⟨c, t, rfl⟩ := List.exists_cons_of_ne_nil hne
  have hc := hch c (List.mem_cons_self _ _)
  have hd : drive_letter_prefixed (c :: t) = false := by
    cases t with
    | nil => rfl
    | cons d u =>
      have hdd := (hch d (by simp)).2.1
      simp [drive_letter_prefixed, hdd]
  refine ⟨?_, hd, by simp [hc.1]⟩
  unfold find_root_name_end
  by_cases h2 : (c :: t).length < 2
  · rw [if_pos h2]
  · rw [if_neg h2]
    simp [hd, hc.1]

theorem path_append_child (q : List WString) (leaf : WString)
    (hq : plain_names q = true) (hl : plain_name leaf = true) :
    path_append (path_of q) leaf = path_of (q ++ [leaf]) := by
  obtain ⟨hr, hd, hs⟩ := root_name_end_leaf leaf hl
  have habs : is_absolute leaf = false := by simp [is_absolute, hd, hr]
  unfold path_append
  rw [path_of_child]
  simp only [habs, hr, hs]
  by_cases hq0 : q = []
  · subst hq0
    have h1 : find_root_name_end [preferred_separator] = 0 := by decide
    simp [h1, path_of_nil, root_path, join_names, is_slash_separator]
  · obtain ⟨c0, t, hj, h0, hqm, cl, u, hu, hcl⟩ := join_names_shape q hq hq0
    rw [path_of_ne_nil _ hq0, hj, find_root_name_end_plain c0 t h0 hqm]
    have hlast : (preferred_separator :: c0 :: t).getLast? = some cl := by
      rw [← List.head?_reverse]
      have : (preferred_separator :: c0 :: t).reverse = cl :: (u ++ [preferred_separator]) := by
        rw [List.reverse_cons, hu]
        rfl
      rw [this]
      rfl
    simp [hlast, hcl]

theorem split_at_separator :
    ∀ (l1 l2 t1 t2 : WString), (∀ c ∈ l1, is_slash c = false) → (∀ c ∈ l2, is_slash c = false) →
      (t1 = [] ∨ ∃ u, t1 = preferred_separator :: u) →
      (t2 = [] ∨ ∃ u, t2 = preferred_separator :: u) →
      l1 ++ t1 = l2 ++ t2 → l1 = l2 ∧ t1 = t2 := by
  intro l1
  induction l1 with
  | nil =>
    intro l2 t1 t2 _ h2 ht1 ht2 h
    cases l2 with
    | nil => exact ⟨rfl, h⟩
    | cons d l2 =>
      exfalso
      have hd := h2 d (List.mem_cons_self _ _)
      rcases ht1 with rfl | ⟨u, rfl⟩
      · simp at h
      · simp only [List.nil_append, List.cons_append] at h
        rw [← (List.cons.inj h).1, is_slash_separator] at hd
        exact Bool.noConfusion hd
  | cons c l1 ih =>
    intro l2 t1 t2 h1 h2 ht1 ht2 h
    cases l2 with
    | nil =>
      exfalso
      have hc := h1 c (List.mem_cons_self _ _)
      rcases ht2 with rfl | ⟨u, rfl⟩
      · simp at h
      · simp only [List.nil_append, List.cons_append] at h
        rw [(List.cons.inj h).1, is_slash_separator] at hc
        exact Bool.noConfusion hc
    | cons d l2 =>
      simp only [List.cons_append] at h
      obtain ⟨e1, e2⟩ := List.cons.inj h
      obtain ⟨r1, r2⟩ := ih l2 t1 t2 (fun x hx => h1 x (List.mem_cons_of_mem _ hx))
        (fun x hx => h2 x (List.mem_cons_of_mem _ hx)) ht1 ht2 e2
      exact ⟨by rw [e1, r1], r2⟩

theorem join_names_head (cs : List WString) :
    join_names cs = [] ∨ ∃ u, join_names cs = preferred_separator :: u := by
  cases cs with
  | nil => exact Or.inl rfl
  | cons c cs => exact Or.inr ⟨_, rfl⟩

theorem join_names_inj :
    ∀ (cs ds : List WString), plain_names cs = true → plain_names ds = true →
      join_names cs = join_names ds → cs = ds := by
  intro cs
  induction cs with
  | nil =>
    intro ds _ _ h
    cases ds with
    | nil => rfl
    | cons d ds => simp [join_names] at h
  | cons c cs ih =>
    intro ds hc hd h
    cases ds with
    | nil => simp [join_names] at h
    | cons d ds =>
      obtain ⟨hc1, hc2⟩ := (plain_names_cons c cs).1 hc
      obtain ⟨hd1, hd2⟩ := (plain_names_cons d ds).1 hd
      have h2 : c ++ join_names cs = d ++ join_names ds := (List.cons.inj h).2
      obtain ⟨e1, e2⟩ := split_at_separator c d _ _
        (fun x hx => ((plain_name_chars c hc1).2 x hx).1)
        (fun x hx => ((plain_name_chars d hd1).2 x hx).1)
        (join_names_head cs) (join_names_head ds) h2
      rw [e1, ih ds hc2 hd2 e2]

theorem path_of_inj (cs ds : List WString) (hc : plain_names cs = true)
    (hd : plain_names ds = true) (h : path_of cs = path_of ds) : cs = ds := by
  by_cases c0 : cs = []
  · by_cases d0 : ds = []
    · rw [c0, d0]
    · exfalso
      obtain ⟨x, t, hj, _⟩ := join_names_shape ds hd d0
      rw [c0, path_of_nil, path_of_ne_nil _ d0, hj] at h
      simp [root_path] at h
  · by_cases d0 : ds = []
    · exfalso
      obtain ⟨x, t, hj, _⟩ := join_names_shape cs hc c0
      rw [d0, path_of_nil, path_of_ne_nil _ c0, hj] at h
      simp [root_path] at h
    · rw [path_of_ne_nil _ c0, path_of_ne_nil _ d0] at h
      exact join_names_inj cs ds hc hd h

theorem move_body_mono
    (self1 self2 : fs_filenodes → WString → WString → Bool → Option (fs_filenodes × NTSTATUS))
    (rm1 rm2 : fs_filenodes → Option NodeId → Option fs_filenodes)
    (hself : ∀ s o n r res, self1 s o n r = some res → self2 s o n r = some res)
    (hrm : ∀ s x res, rm1 s x = some res → rm2 s x = some res)
    (st : fs_filenodes) (o n : WString) (r : Bool) (res : fs_filenodes × NTSTATUS)
    (h : move_body self1 rm1 st o n r = some res) :
    move_body self2 rm2 st o n r = some res := by
  unfold move_body at h ⊢
  cases hf : find st o with
  | none => simpa [hf] using h
  | some f =>
    simp only [hf] at h ⊢
    split
    · rename_i h1; simpa [h1] using h
    · rename_i h1
      rw [if_neg h1] at h
      split
      · rename_i h2; simpa [h2] using h
      · rename_i h2
        rw [if_neg h2] at h
        split
        · rename_i h3; simpa [h3] using h
        · rename_i h3
          rw [if_neg h3] at h
          split
          · rename_i h4; simpa [h4] using h
          · rename_i h4
            rw [if_neg h4] at h
            cases h5 : rm1 st (find st n) with
            | none => simp [h5] at h
            | some st1 =>
              rw [hrm _ _ _ h5]
              simp only [h5] at h ⊢
              split
              · rename_i h6
                rw [if_pos h6] at h
                cases h7 : for_each_status
                    (fun s file => self1 s (s.nodes file).filename
                      (path_append n (filename (s.nodes file).filename)) r)
                    (rename_and_add st1 f n) (list_folder (rename_and_add st1 f n) o) with
                | none => simp [h7] at h
                | some sn =>
                  have h8 := for_each_status_mono _
                    (fun s file => self2 s (s.nodes file).filename
                      (path_append n (filename (s.nodes file).filename)) r)
                    (fun s x res hh => hself _ _ _ _ _ hh) _ _ _ h7
                  rw [h8]
                  simpa [h7] using h
              · rename_i h6
                rw [if_neg h6] at h
                exact h

theorem move_fuel_le : ∀ (fuel fuel2 : Nat) (st : fs_filenodes) (o n : WString) (r : Bool)
    (res : fs_filenodes × NTSTATUS), fuel ≤ fuel2 → move fuel st o n r = some res →
    move fuel2 st o n r = some res := by
  intro fuel
  induction fuel with
  | zero => intro fuel2 st o n r res _ h; simp [move] at h
  | succ k ih =>
    intro fuel2 st o n r res hle h
    obtain ⟨j, rfl⟩ : ∃ j, fuel2 = j + 1 := ⟨fuel2 - 1, by omega⟩
    rw [move_succ] at h ⊢
    exact move_body_mono _ _ _ _ (fun s o n r res hh => ih j s o n r res (by omega) hh)
      (fun s x res hh => remove_fuel_le k j (by omega) s x res hh) st o n r res h

theorem set_insert_sorted (x : NodeId) (l : List NodeId)
    (h : l.Pairwise (fun a b => a < b)) : (set_insert x l).Pairwise (fun a b => a < b) := by
  induction l with
  | nil => simp [set_insert]
  | cons y ys ih =>
    unfold set_insert
    obtain ⟨hy, hys⟩ := List.pairwise_cons.1 h
    by_cases h1 : x < y
    · rw [if_pos h1]
      refine List.pairwise_cons.2 ⟨?_, h⟩
      intro a ha
      rcases List.mem_cons.1 ha with rfl | ha
      · exact h1
      · exact Nat.lt_trans h1 (hy a ha)
    · rw [if_neg h1]
      by_cases h2 : x = y
      · rw [if_pos h2]; exact h
      · rw [if_neg h2]
        refine List.pairwise_cons.2 ⟨?_, ih hys⟩
        intro a ha
        rcases (mem_set_insert x a ys).1 ha with rfl | ha
        · exact Nat.lt_of_le_of_ne (Nat.le_of_not_lt h1) (Ne.symm h2)
        · exact hy a ha

theorem set_erase_sorted (x : NodeId) (l : List NodeId)
    (h : l.Pairwise (fun a b => a < b)) : (set_erase x l).Pairwise (fun a b => a < b) :=
  List.Pairwise.filter _ h

/-- The child sets after the renaming and the `add` of a move whose new leaf name
has no stream suffix and whose new path has no child set yet. -/
theorem rename_and_add_dirs (s : fs_filenodes) (c : NodeId) (n : WString) (lq : List NodeId)
    (hs : (get_stream_names n).2 = []) (hp : s._directoryPaths (parent_path n) = some lq)
    (hn : s._directoryPaths n = none) (k : WString) :
    (rename_and_add s c n)._directoryPaths k =
      if k = parent_path n then some (set_insert c lq)
      else if k = n then (if (s.nodes c).is_directory then some [] else none)
      else s._directoryPaths k := by
  have hname : ((set_filename s c n).nodes c).filename = n := by simp [set_filename, upd]
  have hshape := add_no_suffix (set_filename s c n) c (by rw [hname]; exact hs)
  rw [hname] at hshape
  have hdf : (set_filename s c n)._directoryPaths = s._directoryPaths := rfl
  rw [hdf, hp] at hshape
  simp only [Option.isSome_some, if_true] at hshape
  unfold rename_and_add
  rw [hshape]
  have hd : (assign_fileindex (set_filename s c n) c)._directoryPaths = s._directoryPaths :=
    assign_fileindex_dirs _ c
  have hk : ((assign_fileindex (set_filename s c n) c).nodes c).is_directory =
      (s.nodes c).is_directory := by
    rw [(assign_fileindex_frame _ c c).2.2.1]
    simp [set_filename, upd]
  have hne : n ≠ parent_path n := by
    intro e
    rw [← e, hn] at hp
    cases hp
  unfold insert_node
  simp only [hd, hk, hn, Option.isNone_none, Bool.and_true, upd]
  by_cases h1 : k = parent_path n
  · subst h1
    simp only [if_true]
    cases hdir : (s.nodes c).is_directory
    · simp [hp]
    · simp [hp, Ne.symm hne, upd]
  · simp only [if_neg h1]
    cases hdir : (s.nodes c).is_directory
    · by_cases h2 : k = n
      · simp [h2, hn]
      · simp [h2]
    · by_cases h2 : k = n
      · simp [h2, upd]
      · simp [h2, upd]

theorem rename_and_add_map (s : fs_filenodes) (c : NodeId) (n : WString) (lq : List NodeId)
    (hs : (get_stream_names n).2 = []) (hp : s._directoryPaths (parent_path n) = some lq)
    (k : WString) :
    (rename_and_add s c n)._filenodes k = if k = n then some c else s._filenodes k := by
  rcases rename_and_add_shape s c n hs with ⟨_, h, _⟩ | ⟨h, _⟩
  · exact h k
  · rw [hp] at h
    cases h

/-- A move to a path that holds no node, in terms of the loop over the children. -/
theorem move_to_free_path (fuel : Nat) (st : fs_filenodes) (o n : WString) (r : Bool)
    (f : NodeId) (hf : find st o = some f) (hn : find st n = none)
    (hd : st._directoryPaths (parent_path n) ≠ none) :
    move (fuel + 1) st o n r =
      if (st.nodes f).is_directory then
        match for_each_status
            (fun s file =>
              move fuel s (s.nodes file).filename
                (path_append n (filename (s.nodes file).filename)) r)
            (rename_and_add st f n) (list_folder (rename_and_add st f n) o) with
        | none => none
        | some (s, c) =>
          if c ≠ STATUS_SUCCESS then some (s, c)
          else
            some (move_finish (erase_directory s o) f o
              (parent_path (st.nodes f).filename) (parent_path n), STATUS_SUCCESS)
      else
        some (move_finish (rename_and_add st f n) f o
          (parent_path (st.nodes f).filename) (parent_path n), STATUS_SUCCESS) := by
  rw [move_succ, move_checks_pass _ _ st o n r f hf (Or.inl hn), hn]
  have h1 : (st._directoryPaths (parent_path n)).isNone = false := by
    cases h : st._directoryPaths (parent_path n) with
    | none => exact absurd h hd
    | some l => rfl
  have h2 : remove fuel st none = some st := by
    cases fuel <;> rfl
  simp only [h1, h2, rename_and_add_is_directory, Bool.false_eq_true, if_false]

theorem plain_names_single (leaf : WString) (h : plain_name leaf = true) :
    plain_names [leaf] = true := by simp [plain_names, h]

theorem plain_names_child (p : List WString) (leaf : WString) (hp : plain_names p = true)
    (h : plain_name leaf = true) : plain_names (p ++ [leaf]) = true :=
  (plain_names_append _ _).2 ⟨hp, plain_names_single leaf h⟩

theorem under_self (p : List WString) : under p (path_of p) :=
  ⟨[], rfl, by simp⟩

theorem under_child (p : List WString) (leaf k : WString) (hl : plain_name leaf = true)
    (h : under (p ++ [leaf]) k) : under p k := by
  obtain ⟨rs, hrs, rfl⟩ := h
  exact ⟨leaf :: rs, (plain_names_cons _ _).2 ⟨hl, hrs⟩, by simp⟩

theorem under_apart (p q : List WString) (k : WString) (hp : plain_names p = true)
    (hq : plain_names q = true) (ha : apart p q) (h1 : under p k) (h2 : under q k) : False := by
  obtain ⟨r1, hr1, rfl⟩ := h1
  obtain ⟨r2, hr2, e⟩ := h2
  exact ha r1 r2 (path_of_inj _ _ ((plain_names_append _ _).2 ⟨hp, hr1⟩)
    ((plain_names_append _ _).2 ⟨hq, hr2⟩) e)

theorem under_siblings (p : List WString) (l1 l2 k : WString) (hp : plain_names p = true)
    (h1 : plain_name l1 = true) (h2 : plain_name l2 = true)
    (u1 : under (p ++ [l1]) k) (u2 : under (p ++ [l2]) k) : l1 = l2 := by
  obtain ⟨r1, hr1, rfl⟩ := u1
  obtain ⟨r2, hr2, e⟩ := u2
  have := path_of_inj _ _ ((plain_names_append _ _).2 ⟨plain_names_child p l1 hp h1, hr1⟩)
    ((plain_names_append _ _).2 ⟨plain_names_child p l2 hp h2, hr2⟩) e
  simp only [List.append_assoc, List.singleton_append] at this
  exact (List.cons.inj (List.append_cancel_left this)).1

theorem apart_child (p q : List WString) (l1 l2 : WString) (h : apart p q) :
    apart (p ++ [l1]) (q ++ [l2]) := by
  intro a b e
  simp only [List.append_assoc] at e
  exact h _ _ e

theorem apart_symm (p q : List WString) (h : apart p q) : apart q p :=
  fun a b e => h b a e.symm

theorem subtree_ok_top (d : Nat) (s : fs_filenodes) (p : List WString) (c : NodeId)
    (h : subtree_ok d s p c) :
    s._filenodes (path_of p) = some c ∧ (s.nodes c).filename = path_of p := by
  cases d with
  | zero => exact absurd h id
  | succ d => exact ⟨h.1, h.2.1⟩

theorem subtree_entry_name : ∀ (d : Nat) (s : fs_filenodes) (p : List WString) (c : NodeId),
    subtree_ok d s p c → plain_names p = true → ∀ rs m, plain_names rs = true →
    s._filenodes (path_of (p ++ rs)) = some m → (s.nodes m).filename = path_of (p ++ rs) := by
  intro d
  induction d with
  | zero => intro s p c h; exact absurd h id
  | succ d ih =>
    intro s p c h hp rs m hrs hm
    obtain ⟨h1, h2, _, h4, h5⟩ := h
    cases rs with
    | nil =>
      simp only [List.append_nil] at hm ⊢
      rw [h1] at hm
      rw [← Option.some.inj hm]
      exact h2
    | cons leaf rs2 =>
      obtain ⟨hl, hrs2⟩ := (plain_names_cons _ _).1 hrs
      obtain ⟨x, hx, hxn⟩ := h4 leaf rs2 m hl hrs2 hm
      obtain ⟨leaf2, hl2, hsub⟩ := h5 x hx
      have e := (subtree_ok_top d s _ x hsub).2
      rw [hxn] at e
      have e2 := path_of_inj _ _ (plain_names_child p leaf hp hl)
        (plain_names_child p leaf2 hp hl2) e
      have e3 : leaf = leaf2 := by
        have := List.append_cancel_left e2
        exact (List.cons.inj this).1
      subst e3
      have := ih s (p ++ [leaf]) x hsub (plain_names_child p leaf hp hl) rs2 m hrs2
        (by simpa using hm)
      simpa using this

theorem subtree_frame : ∀ (d : Nat) (s t : fs_filenodes) (p : List WString) (c : NodeId),
    subtree_ok d s p c → plain_names p = true →
    (∀ k, under p k → t._filenodes k = s._filenodes k ∧ t._directoryPaths k = s._directoryPaths k) →
    (∀ rs m, plain_names rs = true → s._filenodes (path_of (p ++ rs)) = some m →
      (t.nodes m).filename = (s.nodes m).filename) →
    (∀ m, (t.nodes m).is_directory = (s.nodes m).is_directory) →
    subtree_ok d t p c := by
  intro d
  induction d with
  | zero => intro s t p c h; exact absurd h id
  | succ d ih =>
    intro s t p c h hp hk hn hd
    obtain ⟨h1, h2, h3, h4, h5⟩ := h
    have hl : list_folder t (path_of p) = list_folder s (path_of p) := by
      unfold list_folder
      rw [(hk _ (under_self p)).2]
    refine ⟨?_, ?_, ?_, ?_, ?_⟩
    · rw [(hk _ (under_self p)).1]; exact h1
    · rw [hn [] c rfl (by simpa using h1)]; exact h2
    · intro hf
      rw [hl]
      exact h3 (by rw [← hd]; exact hf)
    · intro leaf rs m hleaf hrs hm
      have hu : under p (path_of (p ++ leaf :: rs)) :=
        ⟨leaf :: rs, (plain_names_cons _ _).2 ⟨hleaf, hrs⟩, rfl⟩
      rw [(hk _ hu).1] at hm
      obtain ⟨x, hx, hxn⟩ := h4 leaf rs m hleaf hrs hm
      refine ⟨x, by rw [hl]; exact hx, ?_⟩
      obtain ⟨leaf2, hl2, hsub⟩ := h5 x hx
      rw [hn [leaf2] x (plain_names_single _ hl2) (subtree_ok_top d s _ x hsub).1]
      exact hxn
    · intro x hx
      rw [hl] at hx
      obtain ⟨leaf2, hl2, hsub⟩ := h5 x hx
      refine ⟨leaf2, hl2, ih s t (p ++ [leaf2]) x hsub (plain_names_child p leaf2 hp hl2) ?_ ?_ hd⟩
      · intro k hku
        exact hk k (under_child p leaf2 k hl2 hku)
      · intro rs m hrs hm
        exact hn (leaf2 :: rs) m ((plain_names_cons _ _).2 ⟨hl2, hrs⟩) (by simpa using hm)

theorem under_child_key (p : List WString) (leaf : WString) (rs : List WString)
    (hrs : plain_names rs = true) : under (p ++ [leaf]) (path_of (p ++ leaf :: rs)) :=
  ⟨rs, hrs, by simp⟩

theorem under_ne_parent (p : List WString) (leaf k : WString) (hp : plain_names p = true)
    (hl : plain_name leaf = true) (h : under (p ++ [leaf]) k) : k ≠ path_of p := by
  obtain ⟨rs, hrs, rfl⟩ := h
  intro e
  have := path_of_inj _ _ ((plain_names_append _ _).2 ⟨plain_names_child p leaf hp hl, hrs⟩) hp e
  have hlen := congrArg List.length this
  simp at hlen

theorem under_ne_other (p q : List WString) (leaf k : WString) (hp : plain_names p = true)
    (hq : plain_names q = true) (ha : apart p q) (hl : plain_name leaf = true)
    (h : under (p ++ [leaf]) k) : k ≠ path_of q := by
  intro e
  exact under_apart p q k hp hq ha (under_child p leaf k hl h) (e ▸ under_self q)

/-- A move of one child leaves the keys below its siblings alone. -/
theorem relocated_sibling_frame (a a1 : fs_filenodes) (p q : List WString) (leaf l2 : WString)
    (x : NodeId) (hp : plain_names p = true) (hq : plain_names q = true) (ha : apart p q)
    (hl : plain_name leaf = true) (hl2 : plain_name l2 = true) (hne : leaf ≠ l2)
    (hrel : relocated a a1 (p ++ [leaf]) (q ++ [leaf]) (path_of p) (path_of q) x)
    (k : WString) (hk : under (p ++ [l2]) k ∨ under (q ++ [l2]) k) :
    a1._filenodes k = a._filenodes k ∧ a1._directoryPaths k = a._directoryPaths k := by
  have n1 : ¬ under (p ++ [leaf]) k := by
    intro hu
    rcases hk with h | h
    · exact hne (under_siblings p leaf l2 k hp hl hl2 hu h)
    · exact under_apart p q k hp hq ha (under_child p leaf k hl hu) (under_child q l2 k hl2 h)
  have n2 : ¬ under (q ++ [leaf]) k := by
    intro hu
    rcases hk with h | h
    · exact under_apart p q k hp hq ha (under_child p l2 k hl2 h) (under_child q leaf k hl hu)
    · exact hne (under_siblings q leaf l2 k hq hl hl2 hu h)
  have n3 : k ≠ path_of p := by
    rcases hk with h | h
    · exact under_ne_parent p l2 k hp hl2 h
    · exact under_ne_other q p l2 k hq hp (apart_symm p q ha) hl2 h
  have n4 : k ≠ path_of q := by
    rcases hk with h | h
    · exact under_ne_other p q l2 k hp hq ha hl2 h
    · exact under_ne_parent q l2 k hq hl2 h
  exact ⟨hrel.map_frame k n1 n2, hrel.dirs_frame k n1 n2 n3 n4⟩

/-- A node held below one child is not held below a sibling. -/
theorem entries_apart (d : Nat) (a : fs_filenodes) (p : List WString) (l1 l2 : WString)
    (x1 x2 m : NodeId) (r1 r2 : List WString) (hp : plain_names p = true)
    (h1 : plain_name l1 = true) (h2 : plain_name l2 = true)
    (hr1 : plain_names r1 = true) (hr2 : plain_names r2 = true)
    (s1 : subtree_ok d a (p ++ [l1]) x1) (s2 : subtree_ok d a (p ++ [l2]) x2)
    (e1 : a._filenodes (path_of (p ++ l1 :: r1)) = some m)
    (e2 : a._filenodes (path_of (p ++ l2 :: r2)) = some m) : l1 = l2 := by
  have n1 := subtree_entry_name d a _ x1 s1 (plain_names_child p l1 hp h1) r1 m hr1
    (by simpa using e1)
  have n2 := subtree_entry_name d a _ x2 s2 (plain_names_child p l2 hp h2) r2 m hr2
    (by simpa using e2)
  rw [n1] at n2
  exact under_siblings p l1 l2 _ hp h1 h2 ⟨r1, hr1, rfl⟩ ⟨r2, hr2, n2⟩

/-- The loop of `move` over the children of a directory relocates every child
with what is below it, the moves of single subtrees granted. -/
theorem move_children (d : Nat) (ih : moves_subtrees d) (p q : List WString)
    (hp : plain_names p = true) (hq : plain_names q = true) (ha : apart p q) (flag : Bool) :
    ∀ (LL : List (NodeId × WString)) (a : fs_filenodes),
      (LL.map Prod.snd).Nodup →
      (∀ xl, xl ∈ LL → plain_name xl.2 = true ∧ subtree_ok d a (p ++ [xl.2]) xl.1) →
      (∀ xl, xl ∈ LL → ∀ k, under (q ++ [xl.2]) k →
        a._filenodes k = none ∧ a._directoryPaths k = none) →
      a._directoryPaths (path_of q) ≠ none → buckets_sorted a →
      ∃ r, for_each_status
          (fun s file => move d s (s.nodes file).filename
            (path_append (path_of q) (filename (s.nodes file).filename)) flag)
          a (LL.map Prod.fst) = some (r, STATUS_SUCCESS) ∧
        children_relocated a r p q LL := by
  intro LL
  induction LL with
  | nil =>
    intro a _ _ _ hqd hs
    refine ⟨a, rfl, ?_⟩
    exact {
      moved := fun xl hxl => absurd hxl (List.not_mem_nil _)
      map_frame := fun _ _ => rfl
      dirs_frame := fun _ _ _ _ => rfl
      new_parent := fun m => by simp
      kinds := fun _ => rfl
      names_frame := fun _ _ => rfl
      sorted := hs }
  | cons xl0 LL ihl =>
    intro a hnd hsub hfresh hqd hs
    obtain ⟨x, leaf⟩ := xl0
    obtain ⟨hl, hsx⟩ := hsub (x, leaf) (List.mem_cons_self _ _)
    have hname : (a.nodes x).filename = path_of (p ++ [leaf]) := (subtree_ok_top d a _ x hsx).2
    obtain ⟨a1, hmv, hrel⟩ := ih a p q leaf leaf x flag hsx (plain_names_child p leaf hp hl)
      (plain_names_child q leaf hq hl) (apart_child p q leaf leaf ha)
      (hfresh (x, leaf) (List.mem_cons_self _ _)) hqd hs
    have hnd2 : leaf ∉ LL.map Prod.snd ∧ (LL.map Prod.snd).Nodup := by
      simpa using hnd
    have hne : ∀ xl, xl ∈ LL → leaf ≠ xl.2 := by
      intro xl hxl e
      exact hnd2.1 (e ▸ List.mem_map_of_mem Prod.snd hxl)
    have hsf : ∀ xl, xl ∈ LL → ∀ k, under (p ++ [xl.2]) k ∨ under (q ++ [xl.2]) k →
        a1._filenodes k = a._filenodes k ∧ a1._directoryPaths k = a._directoryPaths k := by
      intro xl hxl k hk
      exact relocated_sibling_frame a a1 p q leaf xl.2 x hp hq ha hl
        (hsub xl (List.mem_cons_of_mem _ hxl)).1 (hne xl hxl) hrel k hk
    have hsub1 : ∀ xl, xl ∈ LL → plain_name xl.2 = true ∧ subtree_ok d a1 (p ++ [xl.2]) xl.1 := by
      intro xl hxl
      obtain ⟨hl2, hs2⟩ := hsub xl (List.mem_cons_of_mem _ hxl)
      refine ⟨hl2, subtree_frame d a a1 _ xl.1 hs2 (plain_names_child p xl.2 hp hl2) ?_ ?_
        hrel.kinds⟩
      · intro k hk
        exact hsf xl hxl k (Or.inl hk)
      · intro rs m hrs hm
        apply hrel.names_frame
        intro rs1 hrs1 hm1
        exact hne xl hxl (entries_apart d a p leaf xl.2 x xl.1 m rs1 rs hp hl hl2 hrs1 hrs hsx hs2
          (by simpa using hm1) (by simpa using hm))
    have hfresh1 : ∀ xl, xl ∈ LL → ∀ k, under (q ++ [xl.2]) k →
        a1._filenodes k = none ∧ a1._directoryPaths k = none := by
      intro xl hxl k hk
      obtain ⟨f1, f2⟩ := hfresh xl (List.mem_cons_of_mem _ hxl) k hk
      obtain ⟨g1, g2⟩ := hsf xl hxl k (Or.inr hk)
      exact ⟨g1.trans f1, g2.trans f2⟩
    obtain ⟨r, hloop, hch⟩ := ihl a1 hnd2.2 hsub1 hfresh1 hrel.new_parent.1 hrel.sorted
    have hbody : move d a (a.nodes x).filename
        (path_append (path_of q) (filename (a.nodes x).filename)) flag =
          some (a1, STATUS_SUCCESS) := by
      rw [hname, filename_child p leaf hp hl, path_append_child q leaf hq hl]
      exact hmv
    refine ⟨r, ?_, ?_⟩
    · simp only [List.map_cons, for_each_status, hbody]
      simpa using hloop
    · have hrest : ∀ rs, plain_names rs = true →
          ∀ xl, xl ∈ LL → ¬ under (p ++ [xl.2]) (path_of (p ++ leaf :: rs)) ∧
            ¬ under (q ++ [xl.2]) (path_of (p ++ leaf :: rs)) := by
        intro rs hrs xl hxl
        have hl2 := (hsub xl (List.mem_cons_of_mem _ hxl)).1
        refine ⟨fun hu => ?_, fun hu => ?_⟩
        · exact hne xl hxl (under_siblings p leaf xl.2 _ hp hl hl2 (under_child_key p leaf rs hrs) hu)
        · exact under_apart p q _ hp hq ha (under_child p leaf _ hl (under_child_key p leaf rs hrs))
            (under_child q xl.2 _ hl2 hu)
      have hrestq : ∀ rs, plain_names rs = true →
          ∀ xl, xl ∈ LL → ¬ under (p ++ [xl.2]) (path_of (q ++ leaf :: rs)) ∧
            ¬ under (q ++ [xl.2]) (path_of (q ++ leaf :: rs)) := by
        intro rs hrs xl hxl
        have hl2 := (hsub xl (List.mem_cons_of_mem _ hxl)).1
        refine ⟨fun hu => ?_, fun hu => ?_⟩
        · exact under_apart p q _ hp hq ha (under_child p xl.2 _ hl2 hu)
            (under_child q leaf _ hl (under_child_key q leaf rs hrs))
        · exact hne xl hxl (under_siblings q leaf xl.2 _ hq hl hl2 (under_child_key q leaf rs hrs) hu)
      exact {
        moved := by
          intro xl hxl rs hrs
          rcases List.mem_cons.1 hxl with e | hxl
          · subst e
            obtain ⟨m1, m2, m3⟩ := hrel.moved rs hrs
            simp only [List.append_assoc, List.singleton_append] at m1 m2 m3
            refine ⟨?_, ?_, ?_⟩
            · rw [hch.map_frame _ (hrest rs hrs)]; exact m1
            · rw [hch.map_frame _ (hrestq rs hrs)]; exact m2
            · intro m hm
              rw [hch.names_frame m ?_]
              · exact m3 m hm
              · intro xl hxl rs2 hrs2 hm2
                obtain ⟨hl2, hs2⟩ := hsub xl (List.mem_cons_of_mem _ hxl)
                rw [(hsf xl hxl _ (Or.inl (under_child_key p xl.2 rs2 hrs2))).1] at hm2
                exact hne xl hxl (entries_apart d a p leaf xl.2 x xl.1 m rs rs2 hp hl hl2 hrs hrs2
                  hsx hs2 hm hm2)
          · obtain ⟨m1, m2, m3⟩ := hch.moved xl hxl rs hrs
            have e := (hsf xl hxl _ (Or.inl (under_child_key p xl.2 rs hrs))).1
            refine ⟨m1, m2.trans e, ?_⟩
            intro m hm
            exact m3 m (e.trans hm)
        map_frame := by
          intro k hk
          rw [hch.map_frame k (fun xl hxl => hk xl (List.mem_cons_of_mem _ hxl))]
          exact hrel.map_frame k (hk (x, leaf) (List.mem_cons_self _ _)).1
            (hk (x, leaf) (List.mem_cons_self _ _)).2
        dirs_frame := by
          intro k hk k1 k2
          rw [hch.dirs_frame k (fun xl hxl => hk xl (List.mem_cons_of_mem _ hxl)) k1 k2]
          exact hrel.dirs_frame k (hk (x, leaf) (List.mem_cons_self _ _)).1
            (hk (x, leaf) (List.mem_cons_self _ _)).2 k1 k2
        new_parent := by
          intro m
          rw [hch.new_parent m, hrel.new_parent.2 m]
          constructor
          · rintro (⟨xl, hxl, e⟩ | rfl | h)
            · exact Or.inl ⟨xl, List.mem_cons_of_mem _ hxl, e⟩
            · exact Or.inl ⟨(m, leaf), List.mem_cons_self _ _, rfl⟩
            · exact Or.inr h
          · rintro (⟨xl, hxl, e⟩ | h)
            · rcases List.mem_cons.1 hxl with e2 | hxl
              · subst e2
                exact Or.inr (Or.inl e.symm)
              · exact Or.inl ⟨xl, hxl, e⟩
            · exact Or.inr (Or.inr h)
        kinds := fun m => (hch.kinds m).trans (hrel.kinds m)
        names_frame := by
          intro m hm
          rw [hch.names_frame m ?_]
          · apply hrel.names_frame
            intro rs hrs h1
            exact hm (x, leaf) (List.mem_cons_self _ _) rs hrs (by simpa using h1)
          · intro xl hxl rs hrs h1
            rw [(hsf xl hxl _ (Or.inl (under_child_key p xl.2 rs hrs))).1] at h1
            exact hm xl (List.mem_cons_of_mem _ hxl) rs hrs h1
        sorted := hch.sorted }

theorem move_finish_dirs_other (s : fs_filenodes) (f : NodeId) (o op np k : WString)
    (h : k ≠ op ∨ path_eq op np = true) :
    (move_finish s f o op np)._directoryPaths k = s._directoryPaths k := by
  unfold move_finish
  simp only []
  cases hpe : path_eq op np with
  | true => simp
  | false =>
    rcases h with h | h
    · simp [upd, h]
    · rw [hpe] at h; cases h

theorem move_finish_sorted (s : fs_filenodes) (f : NodeId) (o op np : WString)
    (h : buckets_sorted s) : buckets_sorted (move_finish s f o op np) := by
  intro k l hl
  rcases move_finish_dirs s f o op np k l hl with ⟨_, _, e⟩ | ⟨_, e⟩
  · rw [e]
    apply set_erase_sorted
    cases hs : s._directoryPaths op with
    | none => exact List.Pairwise.nil
    | some l2 => exact h op l2 hs
  · exact h k l e

theorem erase_directory_sorted (s : fs_filenodes) (o : WString) (h : buckets_sorted s) :
    buckets_sorted (erase_directory s o) := by
  intro k l hl
  unfold erase_directory at hl
  simp only [upd] at hl
  split at hl
  · cases hl
  · exact h k l hl

/-- The keys next to a source `p0 ++ [lp]` and a destination `q0 ++ [lq]` that
lie apart. -/
theorem parent_keys_apart (p0 q0 : List WString) (lp lq : WString)
    (hp : plain_names (p0 ++ [lp]) = true) (hq : plain_names (q0 ++ [lq]) = true)
    (ha : apart (p0 ++ [lp]) (q0 ++ [lq])) :
    ¬ under (p0 ++ [lp]) (path_of q0) ∧ ¬ under (q0 ++ [lq]) (path_of q0) ∧
    path_of (p0 ++ [lp]) ≠ path_of p0 ∧ path_of (q0 ++ [lq]) ≠ path_of p0 ∧
    path_of (p0 ++ [lp]) ≠ path_of (q0 ++ [lq]) := by
  obtain ⟨hp0, hlp⟩ := (plain_names_append _ _).1 hp
  obtain ⟨hq0, hlq⟩ := (plain_names_append _ _).1 hq
  refine ⟨?_, ?_, ?_, ?_, ?_⟩
  · rintro ⟨rs, hrs, e⟩
    have := path_of_inj _ _ hq0 ((plain_names_append _ _).2 ⟨hp, hrs⟩) e
    apply ha (rs ++ [lq]) []
    rw [this]
    simp
  · rintro ⟨rs, hrs, e⟩
    have := path_of_inj _ _ hq0 ((plain_names_append _ _).2 ⟨hq, hrs⟩) e
    have hlen := congrArg List.length this
    simp at hlen
  · intro e
    have := path_of_inj _ _ hp hp0 e
    have hlen := congrArg List.length this
    simp at hlen
  · intro e
    have := path_of_inj _ _ hq hp0 e
    apply ha [] [lp]
    rw [← this]
    simp
  · intro e
    have := path_of_inj _ _ hp hq e
    apply ha [] []
    simpa using this

/-- The state after the renaming and the `add` of a move to a free path. -/
theorem rename_and_add_free (s : fs_filenodes) (c : NodeId) (q0 : List WString) (lq : WString)
    (l0 : List NodeId) (hq : plain_names (q0 ++ [lq]) = true)
    (hdn : s._directoryPaths (path_of (q0 ++ [lq])) = none)
    (hqd : s._directoryPaths (path_of q0) = some l0) :
    (∀ k, (rename_and_add s c (path_of (q0 ++ [lq])))._filenodes k =
      if k = path_of (q0 ++ [lq]) then some c else s._filenodes k) ∧
    (∀ k, (rename_and_add s c (path_of (q0 ++ [lq])))._directoryPaths k =
      if k = path_of q0 then some (set_insert c l0)
      else if k = path_of (q0 ++ [lq]) then (if (s.nodes c).is_directory then some [] else none)
      else s._directoryPaths k) := by
  obtain ⟨hq0, hlq⟩ := (plain_names_append _ _).1 hq
  have hlq1 : plain_name lq = true := by simpa [plain_names] using hlq
  have hpar := parent_path_child q0 lq hq0 hlq1
  have hsuf := get_stream_names_child q0 lq hq0 hlq1
  refine ⟨fun k => ?_, fun k => ?_⟩
  · exact rename_and_add_map s c _ l0 hsuf (by rw [hpar]; exact hqd) k
  · have := rename_and_add_dirs s c _ l0 hsuf (by rw [hpar]; exact hqd) hdn k
    rw [hpar] at this
    exact this

theorem rename_and_add_sorted (s : fs_filenodes) (c : NodeId) (q0 : List WString) (lq : WString)
    (l0 : List NodeId) (hq : plain_names (q0 ++ [lq]) = true)
    (hdn : s._directoryPaths (path_of (q0 ++ [lq])) = none)
    (hqd : s._directoryPaths (path_of q0) = some l0) (hs : buckets_sorted s) :
    buckets_sorted (rename_and_add s c (path_of (q0 ++ [lq]))) := by
  intro k l hl
  rw [(rename_and_add_free s c q0 lq l0 hq hdn hqd).2 k] at hl
  split at hl
  · rw [← Option.some.inj hl]
    exact set_insert_sorted c l0 (hs _ l0 hqd)
  · split at hl
    · split at hl
      · rw [← Option.some.inj hl]
        exact List.Pairwise.nil
      · cases hl
    · exact hs k l hl

/-- The last lines of `move` after the loop over the children: the subtree is
relocated, given what the renaming and the loop have done. -/
theorem finish_relocated (d : Nat) (s s3 a a2 : fs_filenodes) (p q : List WString)
    (pp qp : WString) (c : NodeId) (l0 : List NodeId) (LL : List (NodeId × WString))
    (hsub : subtree_ok (d + 1) s p c)
    (hp : plain_names p = true) (hq : plain_names q = true) (ha : apart p q)
    (hfresh : ∀ k, under q k → s._filenodes k = none ∧ s._directoryPaths k = none)
    (hqd : s._directoryPaths qp = some l0)
    (k1 : ¬ under p qp) (k2 : ¬ under q qp) (k3 : path_of p ≠ pp) (k4 : path_of q ≠ pp)
    (s3map : ∀ k, s3._filenodes k = if k = path_of q then some c else s._filenodes k)
    (s3dirs : ∀ k, s3._directoryPaths k =
      if k = qp then some (set_insert c l0)
      else if k = path_of q then (if (s.nodes c).is_directory then some [] else none)
      else s._directoryPaths k)
    (s3names : ∀ m, (s3.nodes m).filename = if m = c then path_of q else (s.nodes m).filename)
    (s3kinds : ∀ m, (s3.nodes m).is_directory = (s.nodes m).is_directory)
    (hLL1 : LL.map Prod.fst = list_folder s (path_of p))
    (hLL2 : ∀ xl, xl ∈ LL → plain_name xl.2 = true ∧ subtree_ok d s (p ++ [xl.2]) xl.1)
    (hch : children_relocated s3 a p q LL)
    (h2map : a2._filenodes = a._filenodes) (h2nodes : a2.nodes = a.nodes)
    (h2dirs : ∀ k, k ≠ path_of p → a2._directoryPaths k = a._directoryPaths k)
    (h2o : (s.nodes c).is_directory = true → a2._directoryPaths (path_of p) = none)
    (h2s : buckets_sorted a2) :
    relocated s (move_finish a2 c (path_of p) pp qp) p q pp qp c := by
  obtain ⟨h1, h2, h3, h4, h5⟩ := hsub
  have hon : path_of p ≠ path_of q := fun e =>
    under_apart p q _ hp hq ha (under_self p) (e ▸ under_self q)
  have rmap : ∀ k, (move_finish a2 c (path_of p) pp qp)._filenodes k =
      if k = path_of p then none else a._filenodes k := by
    intro k
    rw [move_finish_map, h2map]
  have rnodes : (move_finish a2 c (path_of p) pp qp).nodes = a.nodes := by
    rw [move_finish_nodes, h2nodes]
  -- keys outside the subtrees of the children
  have hout : ∀ k, (¬ under p k ∨ k = path_of p) → (¬ under q k ∨ k = path_of q) →
      ∀ xl, xl ∈ LL → ¬ under (p ++ [xl.2]) k ∧ ¬ under (q ++ [xl.2]) k := by
    intro k hk1 hk2 xl hxl
    have hl := (hLL2 xl hxl).1
    refine ⟨fun hu => ?_, fun hu => ?_⟩
    · rcases hk1 with h | h
      · exact h (under_child p xl.2 k hl hu)
      · exact under_ne_parent p xl.2 k hp hl hu h
    · rcases hk2 with h | h
      · exact h (under_child q xl.2 k hl hu)
      · exact under_ne_parent q xl.2 k hq hl hu h
  have hnq : ¬ under q (path_of p) := fun h => under_apart p q _ hp hq ha (under_self p) h
  have hnp : ¬ under p (path_of q) := fun h => under_apart p q _ hp hq ha h (under_self q)
  -- the path map of the renamed state below a child
  have s3child : ∀ leaf rs, plain_name leaf = true → plain_names rs = true →
      s3._filenodes (path_of (p ++ leaf :: rs)) = s._filenodes (path_of (p ++ leaf :: rs)) := by
    intro leaf rs hl hrs
    rw [s3map, if_neg]
    exact under_ne_other p q leaf _ hp hq ha hl (under_child_key p leaf rs hrs)
  have hcnot : ∀ xl, xl ∈ LL → ∀ rs, plain_names rs = true →
      s3._filenodes (path_of (p ++ xl.2 :: rs)) ≠ some c := by
    intro xl hxl rs hrs hm
    obtain ⟨hl, hs2⟩ := hLL2 xl hxl
    rw [s3child xl.2 rs hl hrs] at hm
    have := subtree_entry_name d s _ xl.1 hs2 (plain_names_child p xl.2 hp hl) rs c hrs
      (by simpa using hm)
    rw [h2] at this
    exact under_ne_parent p xl.2 _ hp hl ⟨rs, hrs, rfl⟩ this.symm
  exact {
    moved := by
      intro rs hrs
      cases rs with
      | nil =>
        simp only [List.append_nil]
        refine ⟨by rw [rmap, if_pos rfl], ?_, ?_⟩
        · rw [rmap, if_neg (Ne.symm hon),
            hch.map_frame _ (hout _ (Or.inl hnp) (Or.inr rfl)), s3map, if_pos rfl, h1]
        · intro m hm
          rw [h1] at hm
          rw [← Option.some.inj hm, rnodes, hch.names_frame c hcnot, s3names, if_pos rfl]
      | cons leaf rs2 =>
        obtain ⟨hl, hrs2⟩ := (plain_names_cons _ _).1 hrs
        have up : under (p ++ [leaf]) (path_of (p ++ leaf :: rs2)) := under_child_key p leaf rs2 hrs2
        have uq : under (q ++ [leaf]) (path_of (q ++ leaf :: rs2)) := under_child_key q leaf rs2 hrs2
        have e1 : path_of (p ++ leaf :: rs2) ≠ path_of p := under_ne_parent p leaf _ hp hl up
        have e2 : path_of (q ++ leaf :: rs2) ≠ path_of p :=
          under_ne_other q p leaf _ hq hp (apart_symm p q ha) hl uq
        have e3 : path_of (q ++ leaf :: rs2) ≠ path_of q := under_ne_parent q leaf _ hq hl uq
        rw [rmap, rmap, if_neg e1, if_neg e2, rnodes]
        by_cases hin : ∃ xl, xl ∈ LL ∧ xl.2 = leaf
        · obtain ⟨xl, hxl, rfl⟩ := hin
          obtain ⟨m1, m2, m3⟩ := hch.moved xl hxl rs2 hrs2
          rw [s3child xl.2 rs2 hl hrs2] at m2 m3
          exact ⟨m1, m2, m3⟩
        · have hnone : s._filenodes (path_of (p ++ leaf :: rs2)) = none := by
            cases hm : s._filenodes (path_of (p ++ leaf :: rs2)) with
            | none => rfl
            | some m =>
              exfalso
              obtain ⟨x, hx, hxn⟩ := h4 leaf rs2 m hl hrs2 hm
              rw [← hLL1] at hx
              obtain ⟨xl, hxl, rfl⟩ := List.mem_map.1 hx
              obtain ⟨hl2, hs2⟩ := hLL2 xl hxl
              have := (subtree_ok_top d s _ xl.1 hs2).2
              rw [hxn] at this
              have e := path_of_inj _ _ (plain_names_child p leaf hp hl)
                (plain_names_child p xl.2 hp hl2) this
              exact hin ⟨xl, hxl, ((List.cons.inj (List.append_cancel_left e)).1).symm⟩
          have f1 : ∀ xl, xl ∈ LL → ¬ under (p ++ [xl.2]) (path_of (p ++ leaf :: rs2)) ∧
              ¬ under (q ++ [xl.2]) (path_of (p ++ leaf :: rs2)) := by
            intro xl hxl
            have hl2 := (hLL2 xl hxl).1
            refine ⟨fun hu => ?_, fun hu => ?_⟩
            · exact hin ⟨xl, hxl, under_siblings p xl.2 leaf _ hp hl2 hl hu up⟩
            · exact under_apart p q _ hp hq ha (under_child p leaf _ hl up)
                (under_child q xl.2 _ hl2 hu)
          have f2 : ∀ xl, xl ∈ LL → ¬ under (p ++ [xl.2]) (path_of (q ++ leaf :: rs2)) ∧
              ¬ under (q ++ [xl.2]) (path_of (q ++ leaf :: rs2)) := by
            intro xl hxl
            have hl2 := (hLL2 xl hxl).1
            refine ⟨fun hu => ?_, fun hu => ?_⟩
            · exact under_apart p q _ hp hq ha (under_child p xl.2 _ hl2 hu)
                (under_child q leaf _ hl uq)
            · exact hin ⟨xl, hxl, under_siblings q xl.2 leaf _ hq hl2 hl hu uq⟩
          rw [hch.map_frame _ f1, hch.map_frame _ f2, s3child leaf rs2 hl hrs2, s3map,
            if_neg e3, (hfresh _ (under_child q leaf _ hl uq)).1, hnone]
          exact ⟨rfl, rfl, fun m hm => by cases hm⟩
    map_frame := by
      intro k n1 n2
      have e1 : k ≠ path_of p := fun e => n1 (e ▸ under_self p)
      have e2 : k ≠ path_of q := fun e => n2 (e ▸ under_self q)
      rw [rmap, if_neg e1, hch.map_frame k (hout k (Or.inl n1) (Or.inl n2)), s3map, if_neg e2]
    dirs_frame := by
      intro k n1 n2 n3 n4
      have e1 : k ≠ path_of p := fun e => n1 (e ▸ under_self p)
      have e2 : k ≠ path_of q := fun e => n2 (e ▸ under_self q)
      rw [move_finish_dirs_other _ _ _ _ _ _ (Or.inl n3), h2dirs k e1,
        hch.dirs_frame k (hout k (Or.inl n1) (Or.inl n2)) e1 e2, s3dirs, if_neg n4, if_neg e2]
    new_parent := by
      have e1 : qp ≠ path_of p := fun e => k1 (e ▸ under_self p)
      have e2 : qp ≠ path_of q := fun e => k2 (e ▸ under_self q)
      have hd : (move_finish a2 c (path_of p) pp qp)._directoryPaths qp =
          some (set_insert c l0) := by
        have hor : qp ≠ pp ∨ path_eq pp qp = true := by
          by_cases e : qp = pp
          · right; rw [e]; exact path_eq_refl pp
          · exact Or.inl e
        rw [move_finish_dirs_other _ _ _ _ _ _ hor, h2dirs qp e1,
          hch.dirs_frame qp (hout qp (Or.inl k1) (Or.inl k2)) e1 e2, s3dirs, if_pos rfl]
      refine ⟨by rw [hd]; simp, fun m => ?_⟩
      unfold list_folder
      rw [hd, hqd]
      simp only [Option.getD_some]
      exact mem_set_insert c m l0
    old_bucket := by
      intro hdir
      rw [move_finish_dirs_other _ _ _ _ _ _ (Or.inl k3)]
      exact h2o hdir
    new_bucket := by
      intro hdir m
      have e2 : path_of q ≠ qp := fun e => k2 (e ▸ under_self q)
      have hd : (move_finish a2 c (path_of p) pp qp)._directoryPaths (path_of q) =
          a._directoryPaths (path_of q) := by
        rw [move_finish_dirs_other _ _ _ _ _ _ (Or.inl k4), h2dirs _ (Ne.symm hon)]
      have h3q : list_folder s3 (path_of q) = [] := by
        unfold list_folder
        rw [s3dirs, if_neg e2, if_pos rfl, hdir]
        rfl
      have hlf : list_folder (move_finish a2 c (path_of p) pp qp) (path_of q) =
          list_folder a (path_of q) := by
        unfold list_folder
        rw [hd]
      rw [hlf, hch.new_parent m, h3q, ← hLL1]
      constructor
      · rintro (⟨xl, hxl, e⟩ | h)
        · exact e ▸ List.mem_map_of_mem Prod.fst hxl
        · cases h
      · intro h
        obtain ⟨xl, hxl, e⟩ := List.mem_map.1 h
        exact Or.inl ⟨xl, hxl, e⟩
    kinds := by
      intro m
      rw [rnodes, hch.kinds m, s3kinds m]
    names_frame := by
      intro m hm
      have hmc : m ≠ c := by
        intro e
        exact hm [] rfl (by simpa [e] using h1)
      rw [rnodes, hch.names_frame m ?_, s3names, if_neg hmc]
      intro xl hxl rs hrs h
      obtain ⟨hl, _⟩ := hLL2 xl hxl
      rw [s3child xl.2 rs hl hrs] at h
      exact hm (xl.2 :: rs) ((plain_names_cons _ _).2 ⟨hl, hrs⟩) h
    sorted := move_finish_sorted a2 c _ _ _ h2s }

theorem exists_pairing {P : NodeId → WString → Prop} :
    ∀ (L : List NodeId), (∀ x, x ∈ L → ∃ leaf, P x leaf) →
      ∃ LL : List (NodeId × WString), LL.map Prod.fst = L ∧ ∀ xl, xl ∈ LL → P xl.1 xl.2 := by
  intro L
  induction L with
  | nil => intro _; exact ⟨[], rfl, fun xl h => absurd h (List.not_mem_nil _)⟩
  | cons x L ih =>
    intro h
    obtain ⟨leaf, hl⟩ := h x (List.mem_cons_self _ _)
    obtain ⟨LL, e, hLL⟩ := ih (fun y hy => h y (List.mem_cons_of_mem _ hy))
    refine ⟨(x, leaf) :: LL, by simp [e], ?_⟩
    intro xl hxl
    rcases List.mem_cons.1 hxl with rfl | hxl
    · exact hl
    · exact hLL xl hxl

theorem list_folder_nodup (s : fs_filenodes) (k : WString) (hs : buckets_sorted s) :
    (list_folder s k).Nodup := by
  unfold list_folder
  cases h : s._directoryPaths k with
  | none => exact List.nodup_nil
  | some l =>
    have := hs k l h
    exact this.imp (fun hab => Nat.ne_of_lt hab)

/-- A move of a subtree to a free place relocates the subtree. -/
theorem move_subtree : ∀ d, moves_subtrees d := by
  intro d
  induction d with
  | zero => intro s p0 q0 lp lq c flag h; exact absurd h id
  | succ d ih =>
    intro s p0 q0 lp lq c flag hsub hp hq ha hfresh hqd hs
    have hsub0 := hsub
    obtain ⟨h1, h2, h3, h4, h5⟩ := hsub
    obtain ⟨hp0, hlp⟩ := (plain_names_append _ _).1 hp
    obtain ⟨hq0, hlq⟩ := (plain_names_append _ _).1 hq
    have hlp1 : plain_name lp = true := by simpa [plain_names] using hlp
    have hlq1 : plain_name lq = true := by simpa [plain_names] using hlq
    obtain ⟨l0, hl0⟩ : ∃ l0, s._directoryPaths (path_of q0) = some l0 :=
      Option.ne_none_iff_exists'.1 hqd
    obtain ⟨k1, k2, k3, k4, k5⟩ := parent_keys_apart p0 q0 lp lq hp hq ha
    have hfn : find s (path_of (q0 ++ [lq])) = none := (hfresh _ (under_self _)).1
    have hdn := (hfresh _ (under_self (q0 ++ [lq]))).2
    obtain ⟨s3map, s3dirs⟩ := rename_and_add_free s c q0 lq l0 hq hdn hl0
    have s3names := fun m => rename_and_add_names s c m (path_of (q0 ++ [lq]))
    have s3kinds := fun m => rename_and_add_is_directory s c m (path_of (q0 ++ [lq]))
    have s3sorted := rename_and_add_sorted s c q0 lq l0 hq hdn hl0 hs
    have hparn : parent_path (path_of (q0 ++ [lq])) = path_of q0 :=
      parent_path_child q0 lq hq0 hlq1
    have hparo : parent_path (s.nodes c).filename = path_of p0 := by
      rw [h2]; exact parent_path_child p0 lp hp0 hlp1
    have e1 : path_of (p0 ++ [lp]) ≠ path_of q0 := fun e => k1 (by rw [← e]; exact under_self _)
    have e2 : path_of (q0 ++ [lq]) ≠ path_of q0 := fun e => k2 (by rw [← e]; exact under_self _)
    have hlf3 : list_folder (rename_and_add s c (path_of (q0 ++ [lq]))) (path_of (p0 ++ [lp])) =
        list_folder s (path_of (p0 ++ [lp])) := by
      unfold list_folder
      rw [s3dirs, if_neg e1, if_neg k5]
    obtain ⟨LL, hLL1, hLL2⟩ := exists_pairing (list_folder s (path_of (p0 ++ [lp]))) h5
    rw [move_to_free_path d s _ _ flag c h1 hfn (by rw [hparn]; exact hqd), hparn, hparo]
    cases hdir : (s.nodes c).is_directory with
    | false =>
      have hnil : LL = [] := by
        rw [h3 hdir] at hLL1
        exact List.map_eq_nil_iff.1 hLL1
      subst hnil
      refine ⟨move_finish (rename_and_add s c (path_of (q0 ++ [lq]))) c (path_of (p0 ++ [lp]))
        (path_of p0) (path_of q0), by simp, ?_⟩
      refine finish_relocated d s _ _ _ _ _ _ _ c l0 [] hsub0 hp hq ha hfresh hl0 k1 k2 k3 k4
        s3map s3dirs s3names s3kinds hLL1 hLL2 ?_ rfl rfl (fun _ _ => rfl)
        (fun h => by rw [hdir] at h; cases h) s3sorted
      exact {
        moved := fun xl hxl => absurd hxl (List.not_mem_nil _)
        map_frame := fun _ _ => rfl
        dirs_frame := fun _ _ _ _ => rfl
        new_parent := fun m => by simp
        kinds := fun _ => rfl
        names_frame := fun _ _ => rfl
        sorted := s3sorted }
    | true =>
      have hnd : (LL.map Prod.snd).Nodup := by
        have hn1 : (LL.map Prod.fst).Nodup := by
          rw [hLL1]; exact list_folder_nodup s _ hs
        refine List.Nodup.map_on ?_ (List.Nodup.of_map _ hn1)
        intro xl hxl yl hyl e
        have a1 := (subtree_ok_top d s _ xl.1 (hLL2 xl hxl).2).1
        have a2 := (subtree_ok_top d s _ yl.1 (hLL2 yl hyl).2).1
        rw [e, a2] at a1
        exact Prod.ext (Option.some.inj a1).symm e
      have hsub3 : ∀ xl, xl ∈ LL → plain_name xl.2 = true ∧
          subtree_ok d (rename_and_add s c (path_of (q0 ++ [lq]))) (p0 ++ [lp] ++ [xl.2]) xl.1 := by
        intro xl hxl
        obtain ⟨hl, hs2⟩ := hLL2 xl hxl
        refine ⟨hl, subtree_frame d s _ _ xl.1 hs2 (plain_names_child _ xl.2 hp hl) ?_ ?_ s3kinds⟩
        · intro k hk
          have n1 : k ≠ path_of (q0 ++ [lq]) := under_ne_other _ _ xl.2 k hp hq ha hl hk
          have n2 : k ≠ path_of q0 := fun e => k1 (e ▸ under_child _ xl.2 k hl hk)
          rw [s3map, s3dirs, if_neg n1, if_neg n2, if_neg n1]
          exact ⟨rfl, rfl⟩
        · intro rs m hrs hm
          rw [s3names, if_neg]
          intro e
          have := subtree_entry_name d s _ xl.1 hs2 (plain_names_child _ xl.2 hp hl) rs m hrs hm
          rw [e, h2] at this
          exact under_ne_parent _ xl.2 _ hp hl ⟨rs, hrs, rfl⟩ this.symm
      have hfresh3 : ∀ xl, xl ∈ LL → ∀ k, under (q0 ++ [lq] ++ [xl.2]) k →
          (rename_and_add s c (path_of (q0 ++ [lq])))._filenodes k = none ∧
            (rename_and_add s c (path_of (q0 ++ [lq])))._directoryPaths k = none := by
        intro xl hxl k hk
        have hl := (hLL2 xl hxl).1
        have n1 : k ≠ path_of (q0 ++ [lq]) := under_ne_parent _ xl.2 k hq hl hk
        have n2 : k ≠ path_of q0 := fun e => k2 (e ▸ under_child _ xl.2 k hl hk)
        rw [s3map, s3dirs, if_neg n1, if_neg n2, if_neg n1]
        exact hfresh k (under_child _ xl.2 k hl hk)
      have hq3 : (rename_and_add s c (path_of (q0 ++ [lq])))._directoryPaths
          (path_of (q0 ++ [lq])) ≠ none := by
        rw [s3dirs, if_neg e2, if_pos rfl, hdir]
        simp
      obtain ⟨a, hloop, hch⟩ := move_children d ih _ _ hp hq ha flag LL _ hnd hsub3 hfresh3 hq3 s3sorted
      rw [hlf3, ← hLL1, hloop]
      refine ⟨move_finish (erase_directory a (path_of (p0 ++ [lp]))) c (path_of (p0 ++ [lp]))
        (path_of p0) (path_of q0), by simp, ?_⟩
      refine finish_relocated d s _ a _ _ _ _ _ c l0 LL hsub0 hp hq ha hfresh hl0 k1 k2 k3 k4
        s3map s3dirs s3names s3kinds hLL1 hLL2 hch rfl rfl ?_ ?_
        (erase_directory_sorted a _ hch.sorted)
      · intro k hk
        simp [erase_directory, upd, hk]
      · intro _
        simp [erase_directory, upd]

theorem bootstrap_plain (root : NodeId) (heap : NodeId → filenode)
    (hfresh : ∀ m, is_fresh (heap m)) : plain_inv 1 root (bootstrap root heap) := by
  refine ⟨bootstrap_built root heap hfresh, ?_, ?_, ?_⟩
  · intro k n h
    simp only [bootstrap, upd] at h
    split at h
    · rename_i hk
      exact ⟨[], rfl, hk⟩
    · cases h
  · intro k n h _
    simp only [bootstrap, upd] at h ⊢
    split at h
    · rename_i hk
      simp [hk]
    · cases h
  · intro k l h
    simp only [bootstrap, upd] at h
    split at h
    · rw [← Option.some.inj h]
      exact List.Pairwise.nil
    · cases h

theorem add_registers (st : fs_filenodes) (n : NodeId)
    (hs : (get_stream_names (st.nodes n).filename).2 = [])
    (hp : (st._directoryPaths (parent_path (st.nodes n).filename)).isSome = true)
    (hd : (st.nodes n).is_directory = true) :
    (add st n).1._directoryPaths (st.nodes n).filename ≠ none := by
  rw [add_no_suffix st n hs, if_pos hp]
  have hk : ((assign_fileindex st n).nodes n).is_directory = true := by
    rw [(assign_fileindex_frame st n n).2.2.1]; exact hd
  unfold insert_node
  simp only [hk, assign_fileindex_dirs, Bool.true_and, upd]
  split
  · simp
  · split
    · simp [upd]
    · rename_i h
      intro e
      rw [e] at h
      exact h rfl

theorem add_plain (B : Nat) (root : NodeId) (st : fs_filenodes) (n : NodeId)
    (hb : plain_inv B root st) (hn : plain_add root st (call.add n)) :
    plain_inv (max B ((st.nodes n).filename).length) root (add st n).1 := by
  obtain ⟨hbi, hpl, hreg, hso⟩ := hb
  obtain ⟨hfa, cs, hcs, hname⟩ := hn
  have hsucc : (add st n).2 = STATUS_SUCCESS := hfa.2.2.2
  obtain ⟨hpar, hmap, hdold, hdnew, _⟩ := add_success_shape st n hbi.1.1 hsucc
  refine ⟨add_built B root st n hbi hfa, ?_, ?_, ?_⟩
  · intro k m h
    rw [hmap] at h
    split at h
    · rename_i hk
      exact ⟨cs, hcs, hk.trans hname⟩
    · exact hpl k m h
  · intro k m h hd
    rw [(add_kind st n m).2.1] at hd
    rw [hmap] at h
    split at h
    · rename_i hk
      have e : m = n := (Option.some.inj h).symm
      subst e
      subst hk
      have hcs0 : cs ≠ [] := by
        intro e0
        have : st._filenodes (st.nodes m).filename = none := hfa.2.2.1
        rw [hname, e0, path_of_nil, hbi.2.1] at this
        cases this
      obtain ⟨c0, leaf, e1⟩ : ∃ c0 leaf, cs = c0 ++ [leaf] := by
        rcases List.eq_nil_or_concat cs with e | ⟨L, b, e⟩
        · exact absurd e hcs0
        · exact ⟨L, b, by simpa using e⟩
      subst e1
      obtain ⟨h0, h1⟩ := (plain_names_append _ _).1 hcs
      have h2 : plain_name leaf = true := by simpa [plain_names] using h1
      exact add_registers st m (by rw [hname]; exact get_stream_names_child c0 leaf h0 h2) hpar hd
    · have := hreg k m h hd
      obtain ⟨l, hl⟩ := Option.ne_none_iff_exists'.1 this
      rw [hdold k l hl]
      split <;> simp
  · intro k l h
    cases hk : st._directoryPaths k with
    | none =>
      rw [(hdnew k l hk h).1]
      exact List.Pairwise.nil
    | some l1 =>
      rw [hdold k l1 hk] at h
      split at h
      · rw [← Option.some.inj h]
        exact set_insert_sorted n l1 (hso k l1 hk)
      · rw [← Option.some.inj h]
        exact hso k l1 hk

theorem built_plain_inv (root : NodeId) (heap : NodeId → filenode) (st : fs_filenodes)
    (h : built_plain root heap st) : ∃ B, plain_inv B root st := by
  obtain ⟨hfresh, hr⟩ := h
  induction hr with
  | start => exact ⟨1, bootstrap_plain root heap hfresh⟩
  | step s c s2 _ hallowed hret ih =>
    obtain ⟨B, hB⟩ := ih
    cases c with
    | add n =>
      simp only [call_returns] at hret
      subst hret
      exact ⟨_, add_plain B root s n hB hallowed⟩
    | remove name => exact absurd hallowed.1 (fun x => x)
    | move o n r => exact absurd hallowed.1 (fun x => x)

theorem held_not_root (B : Nat) (root : NodeId) (st : fs_filenodes) (hinv : plain_inv B root st)
    (cs : List WString) (leaf : WString) (hcs : plain_names (cs ++ [leaf]) = true) (x : NodeId)
    (hx : st._filenodes (path_of (cs ++ [leaf])) = some x) : x ≠ root := by
  obtain ⟨⟨⟨hK, _, _, hRoot, _⟩, _, _⟩, _, _, _⟩ := hinv
  intro e
  have h1 := hK _ x hx
  rw [e, hRoot.1] at h1
  have := path_of_inj [] _ rfl hcs h1
  simp at this

/-- In a table built from plain paths the path above a held path is held. -/
theorem ancestors_held (B : Nat) (root : NodeId) (st : fs_filenodes)
    (hinv : plain_inv B root st) (q : List WString) (hq : plain_names q = true) :
    ∀ rs, plain_names rs = true → ∀ m, st._filenodes (path_of (q ++ rs)) = some m →
      st._filenodes (path_of q) ≠ none := by
  intro rs
  induction rs using List.reverseRecOn with
  | nil =>
    intro _ m hm
    simp only [List.append_nil] at hm
    rw [hm]; simp
  | append_singleton rs l ih =>
    intro hrs m hm
    obtain ⟨hrs1, hl⟩ := (plain_names_append _ _).1 hrs
    have hl1 : plain_name l = true := by simpa [plain_names] using hl
    rw [← List.append_assoc] at hm
    have hqrs : plain_names (q ++ rs) = true := (plain_names_append _ _).2 ⟨hq, hrs1⟩
    have hnr := held_not_root B root st hinv (q ++ rs) l (plain_names_child _ l hqrs hl1) m hm
    obtain ⟨⟨⟨_, hCov, _⟩, _, hD⟩, _, _, _⟩ := hinv
    obtain ⟨lst, hlst, _⟩ := hCov _ m hm hnr
    rw [parent_path_child (q ++ rs) l hqrs hl1] at hlst
    obtain ⟨d, hd, _⟩ := hD (path_of (q ++ rs)) (by rw [hlst]; simp)
    exact ih hrs1 d hd

theorem subtree_of_plain (B : Nat) (root : NodeId) (st : fs_filenodes)
    (hinv : plain_inv B root st) :
    ∀ (d : Nat) (p : List WString) (c : NodeId), plain_names p = true →
      st._filenodes (path_of p) = some c → B + 1 ≤ d + (path_of p).length →
      subtree_ok d st p c := by
  have hinv0 := hinv
  obtain ⟨⟨⟨hK, hCov, hMem, hRoot, _, hLen, _, hMl⟩, hRm, hD⟩, hPl, _, _⟩ := hinv
  intro d
  induction d with
  | zero =>
    intro p c _ hc hlen
    have := hLen _ c hc
    omega
  | succ d ih =>
    intro p c hp hc hlen
    refine ⟨hc, hK _ c hc, ?_, ?_, ?_⟩
    · intro hfile
      unfold list_folder
      cases hdp : st._directoryPaths (path_of p) with
      | none => rfl
      | some l =>
        exfalso
        obtain ⟨d2, hd2, hdir⟩ := hD (path_of p) (by rw [hdp]; simp)
        rw [hc] at hd2
        rw [← Option.some.inj hd2, hfile] at hdir
        cases hdir
    · intro leaf rs m hl hrs hm
      have hpl : plain_names (p ++ [leaf]) = true := plain_names_child p leaf hp hl
      have hne := ancestors_held B root st hinv0 (p ++ [leaf]) hpl rs hrs m (by simpa using hm)
      obtain ⟨x, hx⟩ := Option.ne_none_iff_exists'.1 hne
      have hxr := held_not_root B root st hinv0 p leaf hpl x hx
      obtain ⟨lst, hlst, hmem⟩ := hCov _ x hx hxr
      rw [parent_path_child p leaf hp hl] at hlst
      refine ⟨x, ?_, hK _ x hx⟩
      unfold list_folder
      rw [hlst]
      exact hmem
    · intro x hx
      unfold list_folder at hx
      cases hdp : st._directoryPaths (path_of p) with
      | none => rw [hdp] at hx; cases hx
      | some l =>
        rw [hdp] at hx
        simp only [Option.getD_some] at hx
        obtain ⟨m1, m2, m3⟩ := hMem _ l hdp x hx
        obtain ⟨cs, hcs, hname⟩ := hPl _ x m1
        have hcs0 : cs ≠ [] := by
          intro e0
          rw [hname, e0, path_of_nil, hRm] at m1
          exact m2 (Option.some.inj m1).symm
        obtain ⟨c0, leaf, e1⟩ : ∃ c0 leaf, cs = c0 ++ [leaf] := by
          rcases List.eq_nil_or_concat cs with e | ⟨L, b, e⟩
          · exact absurd e hcs0
          · exact ⟨L, b, by simpa using e⟩
        subst e1
        obtain ⟨h0, h1⟩ := (plain_names_append _ _).1 hcs
        have h2 : plain_name leaf = true := by simpa [plain_names] using h1
        rw [hname, parent_path_child c0 leaf h0 h2] at m3
        have e2 := path_of_inj _ _ h0 hp m3
        subst e2
        rw [hname] at m1
        refine ⟨leaf, h2, ih (c0 ++ [leaf]) x hcs m1 ?_⟩
        have := hMl _ l hdp x hx
        rw [hname] at this
        omega

theorem free_below (B : Nat) (root : NodeId) (st : fs_filenodes) (hinv : plain_inv B root st)
    (q : List WString) (hq : plain_names q = true) (hQ : st._filenodes (path_of q) = none)
    (k : WString) (hk : under q k) :
    st._filenodes k = none ∧ st._directoryPaths k = none := by
  obtain ⟨rs, hrs, rfl⟩ := hk
  have hmap : st._filenodes (path_of (q ++ rs)) = none := by
    cases h : st._filenodes (path_of (q ++ rs)) with
    | none => rfl
    | some m => exact absurd hQ (ancestors_held B root st hinv q hq rs hrs m h)
  refine ⟨hmap, ?_⟩
  cases h : st._directoryPaths (path_of (q ++ rs)) with
  | none => rfl
  | some l =>
    obtain ⟨d, hd, _⟩ := hinv.1.2.2 (path_of (q ++ rs)) (by rw [h]; simp)
    rw [hmap] at hd
    cases hd

theorem iterate_parent_path (p : List WString) (hp : plain_names p = true) :
    ∀ rs, plain_names rs = true →
      Nat.iterate parent_path rs.length (path_of (p ++ rs)) = path_of p := by
  intro rs
  induction rs using List.reverseRecOn with
  | nil => intro _; simp
  | append_singleton rs l ih =>
    intro hrs
    obtain ⟨hrs1, hl⟩ := (plain_names_append _ _).1 hrs
    have hl1 : plain_name l = true := by simpa [plain_names] using hl
    rw [List.length_append, List.length_singleton, Function.iterate_succ_apply,
      ← List.append_assoc,
      parent_path_child (p ++ rs) l ((plain_names_append _ _).2 ⟨hp, hrs1⟩) hl1]
    exact ih hrs1

theorem apart_of_not_below (B : Nat) (root : NodeId) (st : fs_filenodes)
    (hinv : plain_inv B root st) (p q : List WString) (hp : plain_names p = true)
    (hq : plain_names q = true) (c : NodeId) (hP : st._filenodes (path_of p) = some c)
    (hQ : st._filenodes (path_of q) = none) (hne : path_of q ≠ path_of p)
    (hb : ¬ below (path_of p) (path_of q)) : apart p q := by
  intro a b e
  rcases List.append_eq_append_iff.1 e with ⟨a2, e1, _⟩ | ⟨c2, e1, _⟩
  · subst e1
    obtain ⟨_, ha2⟩ := (plain_names_append _ _).1 hq
    cases a2 with
    | nil => exact hne (by simp)
    | cons x xs =>
      apply hb
      exact ⟨(x :: xs).length, by simp, iterate_parent_path p hp (x :: xs) ha2⟩
  · subst e1
    obtain ⟨_, hc2⟩ := (plain_names_append _ _).1 hp
    exact ancestors_held B root st hinv q hq c2 hc2 c hP hQ

theorem path_of_append (p rs : List WString) (hp : p ≠ []) :
    path_of (p ++ rs) = path_of p ++ join_names rs := by
  rw [path_of_ne_nil _ (by simp [hp]), path_of_ne_nil _ hp, join_names_append]

theorem not_below_of_top (P Q : WString) (hQ : parent_path Q = root_path) (hP : P ≠ root_path) :
    ¬ below P Q := by
  have hall : ∀ k, Nat.iterate parent_path (k + 1) Q = root_path := by
    intro k
    induction k with
    | zero => exact hQ
    | succ k ih => rw [Function.iterate_succ_apply', ih, parent_path_root]
  rintro ⟨k, hk, e⟩
  obtain ⟨j, rfl⟩ : ∃ j, k = j + 1 := ⟨k - 1, by omega⟩
  rw [hall j] at e
  exact hP e.symm

theorem table_ab_built_plain : built_plain 0 scenario_heap table_ab :=
  ⟨scenario_heap_fresh,
    reachable_by.step _ (call.add 2) _
      (reachable_by.step _ (call.add 1) _ reachable_by.start
        ⟨⟨by decide, ⟨rfl, rfl, rfl⟩, by decide, by decide⟩,
          [wpath "a"], by decide, by decide⟩ rfl)
      ⟨⟨by decide, ⟨by decide, by decide, by decide⟩, by decide, by decide⟩,
        [wpath "a", wpath "b.txt"], by decide, by decide⟩ rfl⟩

/-- C2 (amended): in a state built from the bootstrap state by successful `add`
calls of fresh nodes whose paths are made of plain names (non-empty, without
separator, colon or question mark) joined by single backslashes, let `P` be such
a path that holds a directory and is not the root, and `Q` such a path that
holds no node, whose parent path is a key of the directory index, and that is
neither `P` nor below `P`. Then `move(P, Q, false)` returns `STATUS_SUCCESS`
(with any fuel from some bound on); afterwards `P` holds no node and
`list_folder(P)` is empty; for every suffix `r` of plain names such that `P + r`
held a node before, `Q + r` holds that node, whose file name is `Q + r`, and
`P + r` holds no node; and `list_folder(Q)` has exactly the members that
`list_folder(P)` had before. -/
theorem move_directory_relocates (root : NodeId) (heap : NodeId → filenode) (st : fs_filenodes)
    (p q : List WString) (d : NodeId)
    (hb : built_plain root heap st)
    (hp : plain_names p = true) (hq : plain_names q = true)
    (hP : find st (path_of p) = some d) (hdir : (st.nodes d).is_directory = true)
    (hroot : path_of p ≠ root_path)
    (hQ : find st (path_of q) = none)
    (hpar : st._directoryPaths (parent_path (path_of q)) ≠ none)
    (hne : path_of q ≠ path_of p) (hbelow : ¬ below (path_of p) (path_of q)) :
    ∃ N, ∀ fuel, N ≤ fuel → ∃ r,
      move fuel st (path_of p) (path_of q) false = some (r, STATUS_SUCCESS) ∧
      find r (path_of p) = none ∧ list_folder r (path_of p) = [] ∧
      (∀ rs n, plain_names rs = true → find st (path_of p ++ join_names rs) = some n →
        find r (path_of q ++ join_names rs) = some n ∧
        (r.nodes n).filename = path_of q ++ join_names rs ∧
        find r (path_of p ++ join_names rs) = none) ∧
      (∀ m, m ∈ list_folder r (path_of q) ↔ m ∈ list_folder st (path_of p)) := by
  obtain ⟨B, hinv⟩ := built_plain_inv root heap st hb
  have hp0 : p ≠ [] := by
    intro e
    exact hroot (by rw [e]; rfl)
  have hq0 : q ≠ [] := by
    intro e
    have : find st root_path = none := by rw [e] at hQ; exact hQ
    unfold find at this
    rw [hinv.1.2.1] at this
    cases this
  obtain ⟨p1, lp, rfl⟩ : ∃ p1 lp, p = p1 ++ [lp] := by
    rcases List.eq_nil_or_concat p with e | ⟨L, b, e⟩
    · exact absurd e hp0
    · exact ⟨L, b, by simpa using e⟩
  obtain ⟨q1, lq, rfl⟩ : ∃ q1 lq, q = q1 ++ [lq] := by
    rcases List.eq_nil_or_concat q with e | ⟨L, b, e⟩
    · exact absurd e hq0
    · exact ⟨L, b, by simpa using e⟩
  obtain ⟨hq1, hlq⟩ := (plain_names_append _ _).1 hq
  have hlq1 : plain_name lq = true := by simpa [plain_names] using hlq
  rw [parent_path_child q1 lq hq1 hlq1] at hpar
  have hsub := subtree_of_plain B root st hinv (B + 1) (p1 ++ [lp]) d hp hP (by omega)
  have hap := apart_of_not_below B root st hinv _ _ hp hq d hP hQ hne hbelow
  obtain ⟨r, hmv, hrel⟩ := move_subtree (B + 1) st p1 q1 lp lq d false hsub hp hq hap
    (free_below B root st hinv _ hq hQ) hpar hinv.2.2.2
  refine ⟨B + 1, fun fuel hfuel => ⟨r, move_fuel_le _ _ st _ _ false _ hfuel hmv, ?_, ?_, ?_, ?_⟩⟩
  · have := (hrel.moved [] rfl).1
    simpa using this
  · unfold list_folder
    rw [hrel.old_bucket hdir]
    rfl
  · intro rs n hrs hn
    rw [← path_of_append _ rs hp0] at hn ⊢
    rw [← path_of_append _ rs hq0]
    obtain ⟨m1, m2, m3⟩ := hrel.moved rs hrs
    exact ⟨m2.trans hn, m3 n hn, m1⟩
  · exact hrel.new_bucket hdir

/-- C2 (amended) at a concrete table (Scenario C): the directory `\a` with the
file `\a\b.txt` is moved to `\c`. -/
theorem move_directory_relocates_witness :
    ∃ N, ∀ fuel, N ≤ fuel → ∃ r,
      move fuel table_ab (wpath "\\a") (wpath "\\c") false = some (r, STATUS_SUCCESS) ∧
      find r (wpath "\\a") = none ∧ list_folder r (wpath "\\a") = [] ∧
      (∀ rs n, plain_names rs = true → find table_ab (wpath "\\a" ++ join_names rs) = some n →
        find r (wpath "\\c" ++ join_names rs) = some n ∧
        (r.nodes n).filename = wpath "\\c" ++ join_names rs ∧
        find r (wpath "\\a" ++ join_names rs) = none) ∧
      (∀ m, m ∈ list_folder r (wpath "\\c") ↔ m ∈ list_folder table_ab (wpath "\\a")) :=
  move_directory_relocates 0 scenario_heap table_ab [wpath "a"] [wpath "c"] 1
    table_ab_built_plain (by decide) (by decide) (by decide) (by decide) (by decide)
    (by decide) (by decide) (by decide)
    (not_below_of_top _ _ (by decide) (by decide))

/-- C2 as stated fails: the table with the directory `\a` and the file
`\a\b.txt` is built by two `add` calls of fresh nodes at distinct paths without
a colon; `\a` holds a directory other than the root; the path `\c:s` holds no
node, its parent path `\` is a key of the directory index, and it is neither
`\a` nor below `\a`. Yet `move("\a", "\c:s", false)` answers
`STATUS_OBJECT_PATH_NOT_FOUND` whenever it returns, and it returns: the inner
`add` finds no main node `\c`, and the move of the child then finds no child set
at `\c:s`. -/
theorem move_directory_to_stream_name :
    built 0 scenario_heap table_ab ∧
    ':' ∉ (table_ab.nodes 1).filename ∧ ':' ∉ (table_ab.nodes 2).filename ∧
    find table_ab (wpath "\\a") = some 1 ∧ (table_ab.nodes 1).is_directory = true ∧
    wpath "\\a" ≠ root_path ∧
    find table_ab (wpath "\\c:s") = none ∧
    (table_ab._directoryPaths (parent_path (wpath "\\c:s"))).isSome = true ∧
    wpath "\\c:s" ≠ wpath "\\a" ∧ ¬ below (wpath "\\a") (wpath "\\c:s") ∧
    (move 2 table_ab (wpath "\\a") (wpath "\\c:s") false).map Prod.snd =
      some STATUS_OBJECT_PATH_NOT_FOUND ∧
    ∀ fuel res, move fuel table_ab (wpath "\\a") (wpath "\\c:s") false = some res →
      res.2 = STATUS_OBJECT_PATH_NOT_FOUND := by
  have h2 : (move 2 table_ab (wpath "\\a") (wpath "\\c:s") false).map Prod.snd =
      some STATUS_OBJECT_PATH_NOT_FOUND := by decide
  refine ⟨⟨scenario_heap_fresh,
      reachable_by.step _ (call.add 2) _
        (reachable_by.step _ (call.add 1) _ reachable_by.start
          ⟨by decide, ⟨rfl, rfl, rfl⟩, by decide, by decide⟩ rfl)
        ⟨by decide, ⟨by decide, by decide, by decide⟩, by decide, by decide⟩ rfl⟩,
    by decide, by decide, by decide, by decide, by decide, by decide, by decide, by decide,
    not_below_of_top _ _ (by decide) (by decide), h2, ?_⟩
  intro fuel res hres
  cases h : move 2 table_ab (wpath "\\a") (wpath "\\c:s") false with
  | none => rw [h] at h2; cases h2
  | some res2 =>
    rw [h] at h2
    have e2 : res2.2 = STATUS_OBJECT_PATH_NOT_FOUND := Option.some.inj h2
    have a1 := move_fuel_le fuel (max fuel 2) _ _ _ _ res (Nat.le_max_left _ _) hres
    have a2 := move_fuel_le 2 (max fuel 2) _ _ _ _ res2 (Nat.le_max_right _ _) h
    rw [a1] at a2
    rw [Option.some.inj a2]
    exact e2

/-! ### The effect of `add`, and `find` after it -/

theorem insert_node_effect (s : fs_filenodes) (f : NodeId) (name parent : WString)
    (hp : (s._directoryPaths parent).isSome = true) :
    (insert_node s f name parent)._directoryPaths parent =
      some (set_insert f ((s._directoryPaths parent).getD [])) ∧
    ((s.nodes f).is_directory = true → s._directoryPaths name = none →
      (insert_node s f name parent)._directoryPaths name = some []) ∧
    (∀ P, P ≠ parent →
      ((s.nodes f).is_directory = true ∧ s._directoryPaths name = none → P ≠ name) →
      (insert_node s f name parent)._directoryPaths P = s._directoryPaths P) ∧
    (∀ q, (insert_node s f name parent)._filenodes q =
      if q = name then some f else s._filenodes q) := by
  have hne : s._directoryPaths name = none → name ≠ parent := by
    intro h e
    rw [← e, h] at hp
    cases hp
  unfold insert_node
  refine ⟨?_, ?_, ?_, ?_⟩
  · simp only [upd, if_true]
    split
    · rename_i h
      simp only [Bool.and_eq_true, Option.isNone_iff_eq_none] at h
      simp only [upd, if_neg (Ne.symm (hne h.2))]
    · rfl
  · intro hd hn
    simp only [upd, hd, hn, Option.isNone_none, Bool.and_self, if_true, if_neg (hne hn)]
  · intro P hP hx
    simp only [upd, if_neg hP]
    split
    · rename_i h
      simp only [Bool.and_eq_true, Option.isNone_iff_eq_none] at h
      simp only [upd, if_neg (hx h)]
    · rfl
  · intro q
    rfl

/-- C14: when `add(n)` answers `STATUS_SUCCESS`, the child set of the parent
path of `n` is its former value with `n` inserted (whether or not `n` is an
alternate stream); if `n` is a directory whose path was no key of the directory
index, its path is a key now, with the empty child set; every other key of the
directory index has the child set it had, and no key is added or lost; and
`find` is unchanged at every path other than the path of `n`. This holds also
when the path of `n` was a key of the path map already. -/
theorem add_directory_index_effect (st : fs_filenodes) (n : NodeId)
    (h : (add st n).2 = STATUS_SUCCESS) :
    list_folder (add st n).1 (parent_path (st.nodes n).filename) =
      set_insert n (list_folder st (parent_path (st.nodes n).filename)) ∧
    ((st.nodes n).is_directory = true → st._directoryPaths (st.nodes n).filename = none →
      (add st n).1._directoryPaths (st.nodes n).filename = some [] ∧
      list_folder (add st n).1 (st.nodes n).filename = []) ∧
    (∀ P, P ≠ parent_path (st.nodes n).filename →
      ((st.nodes n).is_directory = true ∧ st._directoryPaths (st.nodes n).filename = none →
        P ≠ (st.nodes n).filename) →
      (add st n).1._directoryPaths P = st._directoryPaths P ∧
      list_folder (add st n).1 P = list_folder st P) ∧
    (∀ q, q ≠ (st.nodes n).filename → find (add st n).1 q = find st q) := by
  obtain ⟨hpar, hcase⟩ := add_success_cases st n h
  obtain ⟨X, hX, hXd, hXm, hXk⟩ : ∃ X : fs_filenodes,
      (add st n).1 = insert_node X n (st.nodes n).filename (parent_path (st.nodes n).filename) ∧
      X._directoryPaths = st._directoryPaths ∧ X._filenodes = st._filenodes ∧
      (X.nodes n).is_directory = (st.nodes n).is_directory := by
    rcases hcase with ⟨_, e⟩ | ⟨_, mf, _, e⟩
    · exact ⟨_, e, assign_fileindex_dirs st n, assign_fileindex_map st n,
        (assign_fileindex_frame st n n).2.2.1⟩
    · refine ⟨_, e, assign_fileindex_dirs st n, assign_fileindex_map st n, ?_⟩
      rw [(link_stream_kind _ mf n n).2.1]
      exact (assign_fileindex_frame st n n).2.2.1
  obtain ⟨e1, e2, e3, e4⟩ := insert_node_effect X n (st.nodes n).filename
    (parent_path (st.nodes n).filename) (by rw [hXd]; exact hpar)
  rw [hXd] at e1 e2 e3
  rw [hXk] at e2 e3
  rw [hXm] at e4
  rw [hX]
  refine ⟨?_, ?_, ?_, ?_⟩
  · unfold list_folder
    rw [e1]
    rfl
  · intro hd hn
    have := e2 hd hn
    exact ⟨this, by unfold list_folder; rw [this]; rfl⟩
  · intro P hP hx
    have := e3 P hP hx
    exact ⟨this, by unfold list_folder; rw [this]⟩
  · intro q hq
    unfold find
    rw [e4, if_neg hq]

/-- C14 at Scenario A: after the directory `\a`, the file `\a\b.txt` is added,
and the child set of `\a` is the one node. -/
theorem add_directory_index_effect_witness :
    list_folder (add (add table0 1).1 2).1 (wpath "\\a") = [2] ∧
    list_folder (add (add table0 1).1 2).1 (wpath "\\") = [1] ∧
    find (add (add table0 1).1 2).1 (wpath "\\a") = some 1 :=
  have h := add_directory_index_effect (add table0 1).1 2 (by decide)
  ⟨h.1.trans (by decide), (h.2.2.1 (wpath "\\") (by decide) (by decide)).2.trans (by decide),
    (h.2.2.2 (wpath "\\a") (by decide)).trans (by decide)⟩

/-- C15: when `add(n)` answers `STATUS_SUCCESS`, `find` at the path of `n`
returns `n` itself, and the node object still has the path, the kind and the
attributes it was handed over with (its file index is the one `add` has left on
it, since `find` hands back the node object itself). `find` is a lookup in the
path map and returns nothing but the node, so it cannot change the table. -/
theorem add_find_round_trip (st : fs_filenodes) (n : NodeId)
    (h : (add st n).2 = STATUS_SUCCESS) :
    find (add st n).1 (st.nodes n).filename = some n ∧
    ((add st n).1.nodes n).filename = (st.nodes n).filename ∧
    ((add st n).1.nodes n).attributes = (st.nodes n).attributes ∧
    ((add st n).1.nodes n).is_directory = (st.nodes n).is_directory := by
  obtain ⟨_, hcase⟩ := add_success_cases st n h
  refine ⟨?_, (add_kind st n n).1, (add_kind st n n).2.2, (add_kind st n n).2.1⟩
  rcases hcase with ⟨_, e⟩ | ⟨_, mf, _, e⟩ <;>
    · rw [e]
      simp [find, insert_node, upd]

/-- C15 at a concrete node: the file `\f` added to the bootstrap table. -/
theorem add_find_round_trip_witness :
    find (add table0 4).1 (wpath "\\f") = some 4 ∧
    ((add table0 4).1.nodes 4).filename = wpath "\\f" ∧
    ((add table0 4).1.nodes 4).attributes = 0 ∧
    ((add table0 4).1.nodes 4).fileindex = 1 :=
  have h := add_find_round_trip table0 4 (by decide)
  ⟨h.1, h.2.1, h.2.2.1.trans (by decide), by decide⟩

/-! ### `remove` of a missing path, and the split of a leaf name -/

/-- C16: `remove` of a path that is no key of the path map returns, whatever the
fuel, and hands back the state it was given: path map, directory index with its
set of keys, counter and node objects are the same, since the overload for a
node returns at once on the null pointer that `find` gives. Consequently, when
a first `remove(p)` has left no node at `p`, a second `remove(p)` returns and
leaves the state of the first. -/
theorem remove_missing_noop (st : fs_filenodes) (p : WString) :
    (find st p = none → ∀ fuel, remove_path fuel st p = some st) ∧
    (∀ fuel r, remove_path fuel st p = some r → find r p = none →
      ∀ fuel2, remove_path fuel2 r p = some r) := by
  refine ⟨fun h fuel => ?_, fun fuel r _ h fuel2 => ?_⟩
  · unfold remove_path
    rw [h]
    exact remove_none fuel st
  · unfold remove_path
    rw [h]
    exact remove_none fuel2 r

/-- C16 at concrete tables: `\zz` is no key of the table with `\a` and
`\a\b.txt`, and removing `\f` twice from the table with the file `\f` is the
same as removing it once. -/
theorem remove_missing_noop_witness :
    (∀ fuel, remove_path fuel table_ab (wpath "\\zz") = some table_ab) ∧
    (∀ r, remove_path 1 table_f (wpath "\\f") = some r → ∀ fuel2,
      remove_path fuel2 r (wpath "\\f") = some r) :=
  ⟨(remove_missing_noop table_ab (wpath "\\zz")).1 (by decide),
    fun r h fuel2 => (remove_missing_noop table_f (wpath "\\f")).2 1 r h
      (by
        have e : (remove_path 1 table_f (wpath "\\f")).map (fun s => find s (wpath "\\f")) =
            some none := by decide
        rw [h] at e
        exact Option.some.inj e) fuel2⟩

theorem split_at_colon (l : WString) (h : ':' ∈ l) :
    ':' ∉ l.take (l.indexOf ':') ∧
      l.take (l.indexOf ':') ++ ':' :: l.drop (l.indexOf ':' + 1) = l ∧
      l.indexOf ':' ≠ l.length := by
  induction l with
  | nil => cases h
  | cons c t ih =>
    by_cases hc : c = ':'
    · subst hc
      simp [List.indexOf_cons]
    · have ht : ':' ∈ t := by
        rcases List.mem_cons.1 h with e | e
        · exact absurd e.symm hc
        · exact e
      obtain ⟨i1, i2, i3⟩ := ih ht
      have hi : (c :: t).indexOf ':' = t.indexOf ':' + 1 :=
        List.indexOf_cons_ne _ hc
      rw [hi]
      refine ⟨?_, ?_, ?_⟩
      · simp only [List.take_succ_cons, List.mem_cons, not_or]
        exact ⟨fun e => hc e.symm, i1⟩
      · simp only [List.take_succ_cons, List.drop_succ_cons, List.cons_append]
        rw [i2]
      · simpa using i3

/-- C18: `get_stream_names` works on the final path component `L` alone (the
`filename()` of the path): without a colon in `L` the result is `(L, "")`; with
a colon the result is `(b, s)` where `b` has no colon and `b ++ ":" ++ s = L`,
so the split is at the first colon; two paths with the same final component
have the same result; and `add` treats the node as an alternate stream exactly
when the second part is not empty: with an empty second part `add` leaves
`main_stream` and every stream set alone, with a non-empty one a successful
`add` has set `main_stream`. -/
theorem get_stream_names_spec (name : WString) :
    (':' ∉ filename name → get_stream_names name = (filename name, [])) ∧
    (':' ∈ filename name →
      ':' ∉ (get_stream_names name).1 ∧
      (get_stream_names name).1 ++ ':' :: (get_stream_names name).2 = filename name) ∧
    (∀ name2, filename name2 = filename name → get_stream_names name2 = get_stream_names name) ∧
    (∀ (st : fs_filenodes) (f : NodeId), (st.nodes f).filename = name →
      ((get_stream_names name).2 = [] →
        ∀ m, ((add st f).1.nodes m).main_stream = (st.nodes m).main_stream ∧
          ((add st f).1.nodes m).streams = (st.nodes m).streams) ∧
      ((get_stream_names name).2 ≠ [] → (add st f).2 = STATUS_SUCCESS →
        ∃ mf, ((add st f).1.nodes f).main_stream = some mf)) := by
  refine ⟨?_, ?_, ?_, ?_⟩
  · intro h
    unfold get_stream_names
    simp only [List.indexOf_eq_length.2 h, if_true]
  · intro h
    obtain ⟨i1, i2, i3⟩ := split_at_colon (filename name) h
    unfold get_stream_names
    simp only [if_neg i3]
    exact ⟨i1, i2⟩
  · intro name2 h
    unfold get_stream_names
    simp only [h]
  · intro st f hname
    refine ⟨fun hs m => ?_, fun hs hok => ?_⟩
    · have e := add_no_suffix st f (by rw [hname]; exact hs)
      rw [e]
      have h1 := assign_fileindex_frame st f m
      split
      · exact ⟨h1.1, h1.2.1⟩
      · exact ⟨h1.1, h1.2.1⟩
    · obtain ⟨_, hcase⟩ := add_success_cases st f hok
      rcases hcase with ⟨h0, _⟩ | ⟨_, mf, _, e⟩
      · rw [hname] at h0
        exact absurd h0 hs
      · refine ⟨mf, ?_⟩
        rw [e]
        simp [insert_node, link_stream, upd]

/-- C18 at concrete paths: a path without a colon in its final component, and a
path whose final component has two colons. -/
theorem get_stream_names_spec_witness :
    get_stream_names (wpath "\\a\\b.txt") = (wpath "b.txt", []) ∧
    get_stream_names (wpath "\\a\\b.txt:s1:t") = (wpath "b.txt", wpath "s1:t") :=
  ⟨((get_stream_names_spec (wpath "\\a\\b.txt")).1 (by decide)).trans (by decide), by decide⟩


/-! ### The counter of file indexes -/

theorem for_each_status_rel {α σ : Type} (R : σ → σ → Prop) (hrefl : ∀ s, R s s)
    (htrans : ∀ a b c, R a b → R b c → R a c) (body : σ → α → Option (σ × NTSTATUS))
    (hb : ∀ s x r, body s x = some r → R s r.1) :
    ∀ (l : List α) (s : σ) (r : σ × NTSTATUS), for_each_status body s l = some r → R s r.1 := by
  intro l
  induction l with
  | nil =>
    intro s r h
    simp only [for_each_status, Option.some.injEq] at h
    rw [← h]
    exact hrefl s
  | cons x xs ih =>
    intro s r h
    simp only [for_each_status] at h
    cases hx : body s x with
    | none => simp [hx] at h
    | some p =>
      obtain ⟨s1, n⟩ := p
      simp only [hx] at h
      have h1 : R s s1 := hb s x (s1, n) hx
      by_cases hn : n = STATUS_SUCCESS
      · simp only [hn, ne_eq, not_true_eq_false, if_false] at h
        exact htrans _ _ _ h1 (ih s1 r h)
      · simp only [ne_eq, hn, not_false_eq_true, if_true, Option.some.injEq] at h
        rw [← h]
        exact h1

/-- A relation between states that holds across every step of `move` holds
across a whole call, whatever its status. -/
theorem move_rel (R : fs_filenodes → fs_filenodes → Prop) (hrefl : ∀ s, R s s)
    (htrans : ∀ a b c, R a b → R b c → R a c)
    (h_remove : ∀ fuel s x r, remove fuel s x = some r → R s r)
    (h_rename : ∀ s f n, R s (rename_and_add s f n))
    (h_erase : ∀ s name, R s (erase_directory s name))
    (h_finish : ∀ s f o op np, R s (move_finish s f o op np)) :
    ∀ (fuel : Nat) (st : fs_filenodes) (o n : WString) (r : Bool) (res : fs_filenodes × NTSTATUS),
      move fuel st o n r = some res → R st res.1 := by
  intro fuel
  induction fuel with
  | zero => intro st o n r res h; simp [move] at h
  | succ k ih =>
    intro st o n r res h
    obtain ⟨ra, rb⟩ := res
    show R st ra
    rw [move_succ] at h
    unfold move_body at h
    cases hf : find st o with
    | none =>
      simp only [hf, Option.some.injEq, Prod.mk.injEq] at h
      rw [← h.1]; exact hrefl st
    | some f =>
      simp only [hf] at h
      split at h
      · simp only [Option.some.injEq, Prod.mk.injEq] at h; rw [← h.1]; exact hrefl st
      · split at h
        · simp only [Option.some.injEq, Prod.mk.injEq] at h; rw [← h.1]; exact hrefl st
        · split at h
          · simp only [Option.some.injEq, Prod.mk.injEq] at h; rw [← h.1]; exact hrefl st
          · split at h
            · simp only [Option.some.injEq, Prod.mk.injEq] at h; rw [← h.1]; exact hrefl st
            · cases h5 : remove k st (find st n) with
              | none => simp [h5] at h
              | some st1 =>
                simp only [h5] at h
                have r1 : R st st1 := h_remove k st _ st1 h5
                have r2 : R st (rename_and_add st1 f n) := htrans _ _ _ r1 (h_rename st1 f n)
                split at h
                · cases h7 : for_each_status
                      (fun s file => move k s (s.nodes file).filename
                        (path_append n (filename (s.nodes file).filename)) r)
                      (rename_and_add st1 f n) (list_folder (rename_and_add st1 f n) o) with
                  | none => simp [h7] at h
                  | some sn =>
                    obtain ⟨s, c⟩ := sn
                    simp only [h7] at h
                    have r3 : R (rename_and_add st1 f n) s :=
                      for_each_status_rel R hrefl htrans _
                        (fun s x res hh => ih _ _ _ _ _ hh) _ _ _ h7
                    split at h
                    · simp only [Option.some.injEq, Prod.mk.injEq] at h
                      rw [← h.1]
                      exact htrans _ _ _ r2 r3
                    · simp only [Option.some.injEq, Prod.mk.injEq] at h
                      have r4 : R (rename_and_add st1 f n) (erase_directory s o) :=
                        htrans _ _ _ r3 (h_erase s o)
                      rw [← h.1]
                      exact htrans _ _ _ (htrans _ _ _ r2 r4) (h_finish _ _ _ _ _)
                · simp only [Option.some.injEq, Prod.mk.injEq] at h
                  rw [← h.1]
                  exact htrans _ _ _ r2 (h_finish _ _ _ _ _)

theorem add_counter (st : fs_filenodes) (f : NodeId) :
    (add st f).1._fs_fileindex_count =
      if (st.nodes f).fileindex = 0 then st._fs_fileindex_count + 1
      else st._fs_fileindex_count := by
  have h0 : (assign_fileindex st f)._fs_fileindex_count =
      if (st.nodes f).fileindex = 0 then st._fs_fileindex_count + 1
      else st._fs_fileindex_count := by
    unfold assign_fileindex
    split <;> rfl
  rcases add_outcomes st f with e | ⟨_, e | ⟨mf, e⟩⟩
  · rw [e, h0]
  · rw [e]; exact h0
  · rw [e]; exact h0

theorem move_counter (fuel : Nat) (st : fs_filenodes) (o n : WString) (r : Bool)
    (res : fs_filenodes × NTSTATUS) (h : move fuel st o n r = some res) :
    st._fs_fileindex_count ≤ res.1._fs_fileindex_count := by
  refine move_rel (fun a b => a._fs_fileindex_count ≤ b._fs_fileindex_count)
    (fun _ => Nat.le_refl _) (fun _ _ _ h1 h2 => Nat.le_trans h1 h2) ?_ ?_ ?_ ?_ fuel st o n r res h
  · intro fuel s x r hr
    rw [(remove_frame fuel s x r hr).2.1]
  · intro s f n
    unfold rename_and_add
    rw [add_counter]
    have : (set_filename s f n)._fs_fileindex_count = s._fs_fileindex_count := rfl
    rw [this]
    split <;> omega
  · intro s name
    exact Nat.le_refl _
  · intro s f o op np
    unfold move_finish
    simp only []
    split <;> exact Nat.le_refl _

theorem reachable_counter (init st : fs_filenodes) (h : reachable_by any_call init st) :
    init._fs_fileindex_count ≤ st._fs_fileindex_count := by
  induction h with
  | start => exact Nat.le_refl _
  | step s c s2 _ _ hret ih =>
    refine Nat.le_trans ih ?_
    cases c with
    | add n =>
      simp only [call_returns] at hret
      rw [hret, add_counter]
      split <;> omega
    | remove name =>
      obtain ⟨fuel, hr⟩ := hret
      rw [(remove_frame fuel s _ s2 hr).2.1]
    | move o n r =>
      obtain ⟨fuel, status, hr⟩ := hret
      exact move_counter fuel s o n r _ hr

theorem add_plain_index (st : fs_filenodes) (n : NodeId) (h0 : (st.nodes n).fileindex = 0)
    (hs : (get_stream_names (st.nodes n).filename).2 = []) :
    ((add st n).1.nodes n).fileindex = st._fs_fileindex_count := by
  rw [add_no_suffix st n hs]
  have : ((assign_fileindex st n).nodes n).fileindex = st._fs_fileindex_count := by
    unfold assign_fileindex
    simp [h0, upd]
  split
  · exact this
  · exact this

/-- C17: over any finite sequence of `add`, `remove` and `move` calls the
counter never decreases; an `add` on a node without file index gives the node
the current value of the counter (lines 73-74, before the stream branch may
overwrite it with the index of the main node) and raises the counter by exactly
one; hence when two `add` calls, the second one anywhere later in the sequence,
each give an index from the counter to a node whose leaf name has no stream
suffix, the later index is strictly greater, whatever was removed or moved in
between. The counter is a natural number here. -/
theorem fileindex_never_reused (init : fs_filenodes) :
    (∀ st, reachable_by any_call init st →
      init._fs_fileindex_count ≤ st._fs_fileindex_count) ∧
    (∀ n, (init.nodes n).fileindex = 0 →
      ((assign_fileindex init n).nodes n).fileindex = init._fs_fileindex_count ∧
      (add init n).1._fs_fileindex_count = init._fs_fileindex_count + 1 ∧
      ((get_stream_names (init.nodes n).filename).2 = [] →
        ((add init n).1.nodes n).fileindex = init._fs_fileindex_count)) ∧
    (∀ n1 st2 n2, (init.nodes n1).fileindex = 0 →
      (get_stream_names (init.nodes n1).filename).2 = [] →
      reachable_by any_call (add init n1).1 st2 →
      (st2.nodes n2).fileindex = 0 → (get_stream_names (st2.nodes n2).filename).2 = [] →
      ((add init n1).1.nodes n1).fileindex < ((add st2 n2).1.nodes n2).fileindex) := by
  refine ⟨fun st h => reachable_counter init st h, fun n h0 => ⟨?_, ?_, ?_⟩, ?_⟩
  · unfold assign_fileindex
    simp [h0, upd]
  · rw [add_counter, if_pos h0]
  · exact add_plain_index init n h0
  · intro n1 st2 n2 h1 s1 hr h2 s2
    rw [add_plain_index init n1 h1 s1, add_plain_index st2 n2 h2 s2]
    have := reachable_counter _ _ hr
    rw [add_counter, if_pos h1] at this
    omega

/-- C17 at a concrete sequence: the file `\f` is added to the bootstrap table
and removed again, then the file `\g` is added; `\g` gets a greater index than
`\f` had. -/
theorem fileindex_never_reused_witness :
    ((add table0 4).1.nodes 4).fileindex <
      ((add (run_call 1 (add table0 4).1 (call.remove (wpath "\\f"))) 11).1.nodes 11).fileindex :=
  (fileindex_never_reused table0).2.2 4 (run_call 1 (add table0 4).1 (call.remove (wpath "\\f")))
    11 (by decide) (by decide) (reachable_run_call _ _ 1 _ reachable_by.start)
    (by decide) (by decide)

/-! ### The file index of a moved node -/

/-- What `add` does to the identity of the nodes: a node that is no alternate
stream afterwards was none before, and keeps a file index it had. -/
theorem add_identity (st : fs_filenodes) (f m : NodeId)
    (h : ((add st f).1.nodes m).main_stream = none) :
    (st.nodes m).main_stream = none ∧
    ((st.nodes m).fileindex ≠ 0 → ((add st f).1.nodes m).fileindex = (st.nodes m).fileindex) := by
  have ha : ((assign_fileindex st f).nodes m).main_stream = (st.nodes m).main_stream :=
    (assign_fileindex_frame st f m).1
  have hb : (st.nodes m).fileindex ≠ 0 →
      ((assign_fileindex st f).nodes m).fileindex = (st.nodes m).fileindex := by
    intro h0
    unfold assign_fileindex
    split
    · rename_i hf
      simp only [upd]
      split
      · rename_i e
        subst e
        exact absurd hf h0
      · rfl
    · rfl
  rcases add_outcomes st f with e | ⟨_, e | ⟨mf, e⟩⟩
  · rw [e] at h ⊢
    exact ⟨ha ▸ h, hb⟩
  · rw [e] at h ⊢
    exact ⟨ha ▸ h, hb⟩
  · rw [e] at h ⊢
    by_cases hmf : m = f
    · subst hmf
      simp [insert_node, link_stream, upd] at h
    · have e1 : ((insert_node (link_stream (assign_fileindex st f) mf f) f
          ((assign_fileindex st f).nodes f).filename
          (parent_path ((assign_fileindex st f).nodes f).filename)).nodes m).main_stream =
          ((assign_fileindex st f).nodes m).main_stream := by
        simp only [insert_node, link_stream, upd, if_neg hmf]
        split
        · rename_i e; subst e; rfl
        · rfl
      have e2 : ((insert_node (link_stream (assign_fileindex st f) mf f) f
          ((assign_fileindex st f).nodes f).filename
          (parent_path ((assign_fileindex st f).nodes f).filename)).nodes m).fileindex =
          ((assign_fileindex st f).nodes m).fileindex := by
        simp only [insert_node, link_stream, upd, if_neg hmf]
        split
        · rename_i e; subst e; rfl
        · rfl
      rw [e1] at h
      rw [e2]
      exact ⟨ha ▸ h, hb⟩

theorem move_identity (fuel : Nat) (st : fs_filenodes) (o n : WString) (r : Bool)
    (res : fs_filenodes × NTSTATUS) (h : move fuel st o n r = some res) :
    (∀ m, (res.1.nodes m).main_stream = none → (st.nodes m).main_stream = none) ∧
    (∀ m, (res.1.nodes m).main_stream = none → (st.nodes m).fileindex ≠ 0 →
      (res.1.nodes m).fileindex = (st.nodes m).fileindex) := by
  refine move_rel (fun a b =>
      (∀ m, (b.nodes m).main_stream = none → (a.nodes m).main_stream = none) ∧
      (∀ m, (b.nodes m).main_stream = none → (a.nodes m).fileindex ≠ 0 →
        (b.nodes m).fileindex = (a.nodes m).fileindex))
    (fun _ => ⟨fun _ h => h, fun _ _ _ => rfl⟩) ?_ ?_ ?_ ?_ ?_ fuel st o n r res h
  · intro a b c ⟨h1, h2⟩ ⟨h3, h4⟩
    refine ⟨fun m hm => h1 m (h3 m hm), fun m hm h0 => ?_⟩
    have e1 := h2 m (h3 m hm) h0
    rw [h4 m hm (by rw [e1]; exact h0), e1]
  · intro fuel s x r hr
    have hid := (remove_frame fuel s x r hr).1
    exact ⟨fun m hm => by rw [← (hid m).2.2.2.2]; exact hm, fun m _ _ => (hid m).2.2.2.1⟩
  · intro s f n
    refine ⟨fun m hm => ?_, fun m hm h0 => ?_⟩
    · have := (add_identity (set_filename s f n) f m hm).1
      simp only [set_filename, upd] at this
      split at this <;> first | exact this | (rename_i e; subst e; exact this)
    · have h1 : ((set_filename s f n).nodes m).fileindex = (s.nodes m).fileindex := by
        simp only [set_filename, upd]
        split
        · rename_i e; subst e; rfl
        · rfl
      have := (add_identity (set_filename s f n) f m hm).2 (by rw [h1]; exact h0)
      rw [h1] at this
      exact this
  · intro s name
    exact ⟨fun _ h => h, fun _ _ _ => rfl⟩
  · intro s f o op np
    rw [move_finish_nodes]
    exact ⟨fun _ h => h, fun _ _ _ => rfl⟩

theorem assign_fileindex_set (s : fs_filenodes) (f : NodeId) (h : (s.nodes f).fileindex ≠ 0) :
    assign_fileindex s f = s := by
  unfold assign_fileindex
  rw [if_neg h]

theorem rename_and_add_plain_index (s : fs_filenodes) (f : NodeId) (n : WString)
    (hs : (get_stream_names n).2 = []) (h0 : (s.nodes f).fileindex ≠ 0) :
    ((rename_and_add s f n).nodes f).fileindex = (s.nodes f).fileindex := by
  have hname : ((set_filename s f n).nodes f).filename = n := by simp [set_filename, upd]
  have hfi : ((set_filename s f n).nodes f).fileindex = (s.nodes f).fileindex := by
    simp [set_filename, upd]
  unfold rename_and_add
  rw [add_no_suffix _ f (by rw [hname]; exact hs),
    assign_fileindex_set _ f (by rw [hfi]; exact h0)]
  split
  · exact hfi
  · exact hfi

theorem rename_and_add_stream_index (s : fs_filenodes) (f g : NodeId) (n : WString)
    (hs : (get_stream_names n).2 ≠ []) (h0 : (s.nodes f).fileindex ≠ 0)
    (hp : (s._directoryPaths (parent_path n)).isSome = true)
    (hg : find s (parent_path n ++ (get_stream_names n).1) = some g) :
    ((rename_and_add s f n).nodes f).fileindex = (s.nodes g).fileindex := by
  have hname : ((set_filename s f n).nodes f).filename = n := by simp [set_filename, upd]
  have hfi : ((set_filename s f n).nodes f).fileindex = (s.nodes f).fileindex := by
    simp [set_filename, upd]
  have hgi : ((set_filename s f n).nodes g).fileindex = (s.nodes g).fileindex := by
    simp only [set_filename, upd]
    split
    · rename_i e; subst e; rfl
    · rfl
  have hdir : (set_filename s f n)._directoryPaths = s._directoryPaths := rfl
  have hfind : find (set_filename s f n) (parent_path n ++ (get_stream_names n).1) = some g := hg
  unfold rename_and_add add
  simp only [assign_fileindex_set _ f (by rw [hfi]; exact h0), hname, hdir]
  have hpn : (s._directoryPaths (parent_path n)).isNone = false := by
    cases h : s._directoryPaths (parent_path n) with
    | none => rw [h] at hp; cases hp
    | some l => rfl
  simp only [hpn, Bool.false_eq_true, if_false, hs, ne_eq, not_false_eq_true, if_true, hfind]
  simp only [insert_node, link_stream, upd, if_true]
  by_cases e : g = f
  · subst e
    simp only [if_true]
    exact hgi
  · simp only [if_neg e]
    exact hgi

/-- C11 (amended): let `move` return, with any status. Every node that had a
file index before and is no alternate stream afterwards (`main_stream` unset)
has the file index it had; a node that is no directory and is moved to a path
whose leaf name has no stream suffix keeps its file index also when its
`main_stream` is set; when the new path has no node, its leaf name carries a
stream suffix and a main node `g` is found at the parent path followed by the
base name, a node that is no directory has the file index of `g` after a
successful move. -/
theorem fileindex_survives_move (fuel : Nat) (st : fs_filenodes) (o n : WString) (r : Bool)
    (res : fs_filenodes × NTSTATUS) (h : move fuel st o n r = some res) :
    (∀ m, (st.nodes m).fileindex ≠ 0 → (res.1.nodes m).main_stream = none →
      (res.1.nodes m).fileindex = (st.nodes m).fileindex) ∧
    (∀ f, find st o = some f → (st.nodes f).is_directory = false →
      (st.nodes f).fileindex ≠ 0 → (get_stream_names n).2 = [] →
      (res.1.nodes f).fileindex = (st.nodes f).fileindex) ∧
    (∀ f g, find st o = some f → (st.nodes f).is_directory = false →
      (st.nodes f).fileindex ≠ 0 → find st n = none → (get_stream_names n).2 ≠ [] →
      find st (parent_path n ++ (get_stream_names n).1) = some g →
      res.2 = STATUS_SUCCESS → (res.1.nodes f).fileindex = (st.nodes g).fileindex) := by
  refine ⟨fun m h0 hm => (move_identity fuel st o n r res h).2 m hm h0, ?_, ?_⟩
  · intro f hf hfile h0 hs
    cases fuel with
    | zero => simp [move] at h
    | succ k =>
      obtain ⟨ra, rb⟩ := res
      rcases move_file_cases k st ra o n r f rb hf hfile h with ⟨e, _⟩ | ⟨st1, hrm, e, _⟩
      · show (ra.nodes f).fileindex = _
        rw [e]
      · show (ra.nodes f).fileindex = _
        have hid := ((remove_frame k st _ st1 hrm).1 f).2.2.2.1
        rw [e]
        unfold moved_file_state
        rw [move_finish_nodes, rename_and_add_plain_index st1 f n hs (by rw [hid]; exact h0), hid]
  · intro f g hf hfile h0 hn hs hg hok
    cases fuel with
    | zero => simp [move] at h
    | succ k =>
      obtain ⟨ra, rb⟩ := res
      have hp : (st._directoryPaths (parent_path n)).isSome = true := by
        cases hd : st._directoryPaths (parent_path n) with
        | some l => rfl
        | none =>
          rw [move_path_not_found k st o n r f hf (Or.inl hn) hd] at h
          simp only [Option.some.injEq, Prod.mk.injEq] at h
          rw [← h.2] at hok
          cases hok
      rcases move_file_cases k st ra o n r f rb hf hfile h with ⟨_, e⟩ | ⟨st1, hrm, e, _⟩
      · exact absurd hok e
      · rw [hn, remove_none] at hrm
        have e1 : st1 = st := (Option.some.inj hrm).symm
        subst e1
        show (ra.nodes f).fileindex = _
        rw [e]
        unfold moved_file_state
        rw [move_finish_nodes]
        exact rename_and_add_stream_index st1 f g n hs h0 hp hg

/-- C11 (amended) at a concrete table: with the files `\f` and `\a` in the
table, `\a` is renamed to `\h` and keeps its file index 2. -/
theorem fileindex_survives_move_witness :
    ∃ res, move 1 (add_all table0 [4, 10]) (wpath "\\a") (wpath "\\h") false = some res ∧
      (res.1.nodes 10).fileindex = 2 :=
  ⟨(move 1 (add_all table0 [4, 10]) (wpath "\\a") (wpath "\\h") false).getD
      (table0, STATUS_SUCCESS), rfl,
    ((fileindex_survives_move 1 (add_all table0 [4, 10]) (wpath "\\a") (wpath "\\h") false
      _ rfl).2.1 10 (by decide) (by decide) (by decide) (by decide)).trans (by decide)⟩

/-- C11 as stated fails: with the files `\f` (file index 1) and `\a` (file
index 2) in the table, `move("\a", "\f:t", false)` answers `STATUS_SUCCESS`
and the moved node, found at `\f:t`, has the file index 1 of its new main node
`\f`. -/
theorem move_to_stream_takes_main_index :
    find (add_all table0 [4, 10]) (wpath "\\a") = some 10 ∧
    ((add_all table0 [4, 10]).nodes 10).fileindex = 2 ∧
    ((add_all table0 [4, 10]).nodes 4).fileindex = 1 ∧
    (move 1 (add_all table0 [4, 10]) (wpath "\\a") (wpath "\\f:t") false).map
        (fun res => (res.2, find res.1 (wpath "\\f:t"), (res.1.nodes 10).fileindex,
          (res.1.nodes 10).main_stream)) =
      some (STATUS_SUCCESS, some 10, 1, some 4) := by
  decide

/-! ### The root stays in place -/

theorem root_kept_unlink (root : NodeId) (s : fs_filenodes) (f : NodeId)
    (h : root_kept root s) (hf : (s.nodes f).filename ≠ root_path) :
    root_kept root (unlink_node s f (s.nodes f).filename) := by
  obtain ⟨h1, h2, h3, h4, h5, h6, h7⟩ := h
  refine ⟨?_, h2, h3, ?_, ?_, ?_, h7⟩
  · simp only [unlink_node, upd, if_neg (Ne.symm hf)]
    exact h1
  · simp only [unlink_node, upd]
    split
    · simp
    · exact h4
  · intro k n hk hne
    simp only [unlink_node, upd] at hk
    split at hk
    · cases hk
    · exact h5 k n hk hne
  · intro q l m hq hm
    simp only [unlink_node, upd] at hq
    split at hq
    · rw [← Option.some.inj hq] at hm
      have hm2 := ((mem_set_erase f m _).1 hm)
      cases hd : s._directoryPaths (parent_path (s.nodes f).filename) with
      | none => rw [hd] at hm2; simp at hm2
      | some l0 =>
        rw [hd] at hm2
        exact h6 _ l0 m hd (by simpa using hm2.1)
    · exact h6 q l m hq hm

theorem root_kept_erase (root : NodeId) (s : fs_filenodes) (name : WString)
    (h : root_kept root s) (hn : name ≠ root_path) :
    root_kept root (erase_directory s name) := by
  obtain ⟨h1, h2, h3, h4, h5, h6, h7⟩ := h
  refine ⟨h1, h2, h3, ?_, h5, ?_, h7⟩
  · simp only [erase_directory, upd, if_neg (Ne.symm hn)]
    exact h4
  · intro q l m hq hm
    simp only [erase_directory, upd] at hq
    split at hq
    · cases hq
    · exact h6 q l m hq hm

theorem root_kept_remove_stream (root : NodeId) (s : fs_filenodes) (m f : NodeId)
    (h : root_kept root s) : root_kept root (remove_stream s m f) := by
  obtain ⟨h1, h2, h3, h4, h5, h6, h7⟩ := h
  have hn : ∀ x, ((remove_stream s m f).nodes x).filename = (s.nodes x).filename ∧
      ((remove_stream s m f).nodes x).is_directory = (s.nodes x).is_directory := by
    intro x
    simp only [remove_stream, upd]
    split
    · rename_i e; subst e; exact ⟨rfl, rfl⟩
    · exact ⟨rfl, rfl⟩
  refine ⟨h1, by rw [(hn root).2]; exact h2, by rw [(hn root).1]; exact h3, h4, ?_, ?_, ?_⟩
  · intro k n hk hne
    rw [(hn n).1]
    exact h5 k n hk hne
  · intro q l x hq hx
    rw [(hn x).1]
    exact h6 q l x hq hx
  · intro x kv hkv
    simp only [remove_stream, upd] at hkv
    split at hkv
    · rename_i e
      subst e
      exact h7 _ kv (streams_erase_subset _ _ kv hkv)
    · exact h7 x kv hkv

theorem root_kept_set_filename (root : NodeId) (s : fs_filenodes) (f : NodeId) (n : WString)
    (h : root_kept root s) (hf : f ≠ root) (hn : n ≠ root_path) :
    root_kept root (set_filename s f n) := by
  obtain ⟨h1, h2, h3, h4, h5, h6, h7⟩ := h
  have hname : ∀ x, (s.nodes x).filename ≠ root_path →
      ((set_filename s f n).nodes x).filename ≠ root_path := by
    intro x hx
    simp only [set_filename, upd]
    split
    · exact hn
    · exact hx
  have hroot : (set_filename s f n).nodes root = s.nodes root := by
    simp only [set_filename, upd, if_neg (Ne.symm hf)]
  refine ⟨h1, by rw [hroot]; exact h2, by rw [hroot]; exact h3, h4, ?_, ?_, ?_⟩
  · intro k x hk hne
    exact hname x (h5 k x hk hne)
  · intro q l x hq hx
    exact hname x (h6 q l x hq hx)
  · intro x kv hkv
    simp only [set_filename, upd] at hkv
    split at hkv
    · rename_i e; subst e; exact h7 _ kv hkv
    · exact h7 x kv hkv

theorem root_kept_assign (root : NodeId) (s : fs_filenodes) (f : NodeId)
    (h : root_kept root s) : root_kept root (assign_fileindex s f) := by
  obtain ⟨h1, h2, h3, h4, h5, h6, h7⟩ := h
  refine ⟨by rw [assign_fileindex_map]; exact h1,
    by rw [(assign_fileindex_frame s f root).2.2.1]; exact h2,
    by rw [assign_fileindex_filename]; exact h3,
    by rw [assign_fileindex_dirs]; exact h4, ?_, ?_, ?_⟩
  · intro k n hk hne
    rw [assign_fileindex_map] at hk
    rw [assign_fileindex_filename]
    exact h5 k n hk hne
  · intro q l m hq hm
    rw [assign_fileindex_dirs] at hq
    rw [assign_fileindex_filename]
    exact h6 q l m hq hm
  · intro x kv hkv
    rw [(assign_fileindex_frame s f x).2.1] at hkv
    exact h7 x kv hkv

theorem root_kept_link (root : NodeId) (s : fs_filenodes) (mf f : NodeId)
    (h : root_kept root s) (hf : (s.nodes f).filename ≠ root_path) :
    root_kept root (link_stream s mf f) := by
  obtain ⟨h1, h2, h3, h4, h5, h6, h7⟩ := h
  refine ⟨h1, by rw [(link_stream_kind s mf f root).2.1]; exact h2,
    by rw [(link_stream_kind s mf f root).1]; exact h3, h4, ?_, ?_, ?_⟩
  · intro k n hk hne
    rw [(link_stream_kind s mf f n).1]
    exact h5 k n hk hne
  · intro q l m hq hm
    rw [(link_stream_kind s mf f m).1]
    exact h6 q l m hq hm
  · intro x kv hkv
    rw [link_stream_streams] at hkv
    split at hkv
    · rcases mem_streams_set _ _ _ kv hkv with h | h
      · exact h7 mf kv h
      · rw [h]; exact hf
    · exact h7 x kv hkv

theorem root_kept_insert (root : NodeId) (s : fs_filenodes) (f : NodeId) (name parent : WString)
    (h : root_kept root s) (hn : name ≠ root_path) (hf : (s.nodes f).filename ≠ root_path) :
    root_kept root (insert_node s f name parent) := by
  obtain ⟨h1, h2, h3, h4, h5, h6, h7⟩ := h
  refine ⟨?_, h2, h3, ?_, ?_, ?_, h7⟩
  · simp only [insert_node, upd, if_neg (Ne.symm hn)]
    exact h1
  · simp only [insert_node, upd]
    split
    · simp
    · split
      · simp only [upd, if_neg (Ne.symm hn)]; exact h4
      · exact h4
  · intro k n hk hne
    simp only [insert_node, upd] at hk
    split at hk
    · rw [← Option.some.inj hk]; exact hf
    · exact h5 k n hk hne
  · intro q l m hq hm
    cases hq0 : s._directoryPaths q with
    | some l0 =>
      rw [insert_node_dirs s f name parent q l0 hq0] at hq
      split at hq
      · rw [← Option.some.inj hq] at hm
        rcases (mem_set_insert f m l0).1 hm with e | e
        · rw [e]; exact hf
        · exact h6 q l0 m hq0 e
      · rw [← Option.some.inj hq] at hm
        exact h6 q l0 m hq0 hm
    | none =>
      simp only [insert_node, upd] at hq
      split at hq
      · rename_i e
        rw [← Option.some.inj hq] at hm
        rcases (mem_set_insert f m _).1 hm with e2 | e2
        · rw [e2]; exact hf
        · split at e2
          · simp only [upd] at e2
            split at e2
            · simp at e2
            · cases hp : s._directoryPaths parent with
              | none => rw [hp] at e2; simp at e2
              | some lp => rw [hp] at e2; exact h6 _ lp m hp (by simpa using e2)
          · cases hp : s._directoryPaths parent with
            | none => rw [hp] at e2; simp at e2
            | some lp => rw [hp] at e2; exact h6 _ lp m hp (by simpa using e2)
      · split at hq
        · simp only [upd] at hq
          split at hq
          · rw [← Option.some.inj hq] at hm; cases hm
          · rw [hq0] at hq; cases hq
        · rw [hq0] at hq; cases hq

theorem root_kept_add (root : NodeId) (s : fs_filenodes) (f : NodeId)
    (h : root_kept root s) (hf : (s.nodes f).filename ≠ root_path) :
    root_kept root (add s f).1 := by
  have ha := root_kept_assign root s f h
  have hn : ((assign_fileindex s f).nodes f).filename ≠ root_path := by
    rw [assign_fileindex_filename]; exact hf
  rcases add_outcomes s f with e | ⟨_, e | ⟨mf, e⟩⟩
  · rw [e]; exact ha
  · rw [e]; exact root_kept_insert root _ f _ _ ha hn hn
  · rw [e]
    exact root_kept_insert root _ f _ _ (root_kept_link root _ mf f ha hn) hn
      (by rw [(link_stream_kind _ mf f f).1]; exact hn)

theorem root_kept_finish (root : NodeId) (s : fs_filenodes) (f : NodeId) (o op np : WString)
    (h : root_kept root s) (ho : o ≠ root_path) :
    root_kept root (move_finish s f o op np) := by
  obtain ⟨h1, h2, h3, h4, h5, h6, h7⟩ := h
  have hnodes := move_finish_nodes s f o op np
  refine ⟨by rw [move_finish_map, if_neg (Ne.symm ho)]; exact h1,
    by rw [hnodes]; exact h2, by rw [hnodes]; exact h3, ?_, ?_, ?_, by rw [hnodes]; exact h7⟩
  · unfold move_finish
    simp only []
    split
    · simp only [upd]
      split
      · simp
      · exact h4
    · exact h4
  · intro k n hk hne
    rw [move_finish_map] at hk
    rw [hnodes]
    split at hk
    · cases hk
    · exact h5 k n hk hne
  · intro q l m hq hm
    rw [hnodes]
    rcases move_finish_dirs s f o op np q l hq with ⟨_, _, e⟩ | ⟨_, e⟩
    · rw [e] at hm
      have hm2 := (mem_set_erase f m _).1 hm
      cases hd : s._directoryPaths op with
      | none => rw [hd] at hm2; simp at hm2
      | some l0 => rw [hd] at hm2; exact h6 _ l0 m hd (by simpa using hm2.1)
    · exact h6 q l m e hm

theorem remove_root_kept (root : NodeId) :
    ∀ (fuel : Nat) (s : fs_filenodes) (x : Option NodeId) (r : fs_filenodes),
      root_kept root s → (∀ c, x = some c → (s.nodes c).filename ≠ root_path) →
      remove fuel s x = some r → root_kept root r := by
  intro fuel
  induction fuel with
  | zero =>
    intro s x r hs _ h
    cases x with
    | none => simp only [remove_none, Option.some.injEq] at h; subst h; exact hs
    | some f => simp [remove] at h
  | succ k ih =>
    intro s x r hs hx h
    cases x with
    | none => simp only [remove_none, Option.some.injEq] at h; subst h; exact hs
    | some f =>
      rw [remove_some_succ] at h
      obtain ⟨st2, hdir, hstr⟩ := (remove_body_iff _ s f r).1 h
      have hf := hx f rfl
      have h1 := root_kept_unlink root s f hs hf
      have h2 : root_kept root st2 := by
        rcases hdir with ⟨_, s1, hloop, e⟩ | ⟨_, e⟩
        · rw [e]
          refine root_kept_erase root s1 _ ?_ hf
          have := for_each_preserves
            (fun t => root_kept root t ∧
              ∀ m, (t.nodes m).filename = ((unlink_node s f (s.nodes f).filename).nodes m).filename)
            (fun t file => remove k t (some file))
            (list_folder (unlink_node s f (s.nodes f).filename) (s.nodes f).filename) ?_ _ s1
            ⟨h1, fun _ => rfl⟩ hloop
          · exact this.1
          · intro t y t2 hy ht hr
            refine ⟨ih t (some y) t2 ht.1 ?_ hr, fun m => ?_⟩
            · intro c hc
              rw [← Option.some.inj hc, ht.2 y]
              unfold list_folder at hy
              cases hd : (unlink_node s f (s.nodes f).filename)._directoryPaths (s.nodes f).filename with
              | none => rw [hd] at hy; cases hy
              | some l =>
                rw [hd] at hy
                exact h1.2.2.2.2.2.1 _ l y hd hy
            · rw [((remove_frame k t _ t2 hr).1 m).1, ht.2 m]
        · rw [e]; exact h1
      rcases hstr with ⟨m, _, e⟩ | ⟨_, hloop⟩
      · rw [e]; exact root_kept_remove_stream root st2 m f h2
      · refine for_each_preserves (root_kept root)
          (fun t stream => remove k t (find t stream.1)) (st2.nodes f).streams ?_ st2 r h2 hloop
        intro t kv t2 hkv ht hr
        refine ih t _ t2 ht ?_ hr
        intro c hc
        exact ht.2.2.2.2.1 kv.1 c hc (h2.2.2.2.2.2.2 f kv hkv)

theorem for_each_status_preserves {α σ : Type} (I : σ → Prop)
    (body : σ → α → Option (σ × NTSTATUS)) :
    ∀ (l : List α), (∀ s x r, x ∈ l → I s → body s x = some r → I r.1) →
      ∀ (s : σ) (r : σ × NTSTATUS), I s → for_each_status body s l = some r → I r.1 := by
  intro l
  induction l with
  | nil =>
    intro _ s r hs h
    simp only [for_each_status, Option.some.injEq] at h
    rw [← h]; exact hs
  | cons x xs ih =>
    intro hb s r hs h
    simp only [for_each_status] at h
    cases hx : body s x with
    | none => simp [hx] at h
    | some p =>
      obtain ⟨s1, n⟩ := p
      simp only [hx] at h
      have h1 : I s1 := hb s x (s1, n) (List.mem_cons_self _ _) hs hx
      by_cases hn : n = STATUS_SUCCESS
      · simp only [hn, ne_eq, not_true_eq_false, if_false] at h
        exact ih (fun s y r hy => hb s y r (List.mem_cons_of_mem _ hy)) s1 r h1 h
      · simp only [ne_eq, hn, not_false_eq_true, if_true, Option.some.injEq] at h
        rw [← h]; exact h1

theorem no_new_root_name_rename (s : fs_filenodes) (f : NodeId) (n : WString)
    (hn : n ≠ root_path) : no_new_root_name s (rename_and_add s f n) := by
  intro m hm
  rw [rename_and_add_names] at hm
  split at hm
  · exact absurd hm hn
  · exact hm

theorem no_new_root_name_trans (a b c : fs_filenodes) (h1 : no_new_root_name a b)
    (h2 : no_new_root_name b c) : no_new_root_name a c :=
  fun m hm => h1 m (h2 m hm)

/-- A `move` from another path than the root path keeps the root in place. -/
theorem move_root_kept (root : NodeId) :
    ∀ (fuel : Nat) (s : fs_filenodes) (o n : WString) (r : Bool) (res : fs_filenodes × NTSTATUS),
      root_kept root s → o ≠ root_path → move fuel s o n r = some res →
      root_kept root res.1 ∧ no_new_root_name s res.1 := by
  intro fuel
  induction fuel with
  | zero => intro s o n r res _ _ h; simp [move] at h
  | succ k ih =>
    intro s o n r res hs ho h
    obtain ⟨ra, rb⟩ := res
    show root_kept root ra ∧ no_new_root_name s ra
    have hsame : ∀ t : fs_filenodes, t = s → root_kept root t ∧ no_new_root_name s t := by
      intro t e
      rw [e]
      exact ⟨hs, fun _ hm => hm⟩
    cases hf : find s o with
    | none =>
      rw [move_name_not_found k s o n r hf] at h
      simp only [Option.some.injEq, Prod.mk.injEq] at h
      exact hsame ra h.1.symm
    | some f =>
      by_cases hn : n = root_path
      · subst hn
        cases r with
        | false =>
          rw [move_name_collision k s o root_path f root hf hs.1] at h
          simp only [Option.some.injEq, Prod.mk.injEq] at h
          exact hsame ra h.1.symm
        | true =>
          rw [move_access_denied k s o root_path f root hf hs.1 (Or.inr (Or.inl hs.2.1))] at h
          simp only [Option.some.injEq, Prod.mk.injEq] at h
          exact hsame ra h.1.symm
      · have hfname : (s.nodes f).filename ≠ root_path := hs.2.2.2.2.1 o f hf ho
        have hfroot : f ≠ root := by
          intro e
          rw [e] at hfname
          exact hfname hs.2.2.1
        rw [move_succ] at h
        unfold move_body at h
        simp only [hf] at h
        split at h
        · simp only [Option.some.injEq, Prod.mk.injEq] at h; exact hsame ra h.1.symm
        · split at h
          · simp only [Option.some.injEq, Prod.mk.injEq] at h; exact hsame ra h.1.symm
          · split at h
            · simp only [Option.some.injEq, Prod.mk.injEq] at h; exact hsame ra h.1.symm
            · split at h
              · simp only [Option.some.injEq, Prod.mk.injEq] at h; exact hsame ra h.1.symm
              · cases h5 : remove k s (find s n) with
                | none => simp [h5] at h
                | some st1 =>
                  simp only [h5] at h
                  have k1 : root_kept root st1 :=
                    remove_root_kept root k s _ st1 hs
                      (fun c hc => hs.2.2.2.2.1 n c hc hn) h5
                  have n1 : ∀ m, (st1.nodes m).filename = (s.nodes m).filename :=
                    fun m => ((remove_frame k s _ st1 h5).1 m).1
                  have k3 : root_kept root (rename_and_add st1 f n) :=
                    root_kept_add root _ f (root_kept_set_filename root st1 f n k1 hfroot hn)
                      (by simp [set_filename, upd, hn])
                  have n3 : no_new_root_name s (rename_and_add st1 f n) := by
                    intro m hm
                    rw [← n1 m]
                    exact no_new_root_name_rename st1 f n hn m hm
                  split at h
                  · cases h7 : for_each_status
                        (fun s file => move k s (s.nodes file).filename
                          (path_append n (filename (s.nodes file).filename)) r)
                        (rename_and_add st1 f n) (list_folder (rename_and_add st1 f n) o) with
                    | none => simp [h7] at h
                    | some sn =>
                      obtain ⟨s2, c⟩ := sn
                      simp only [h7] at h
                      have hloop := for_each_status_preserves
                        (fun t => root_kept root t ∧ no_new_root_name (rename_and_add st1 f n) t)
                        _ (list_folder (rename_and_add st1 f n) o) ?_ _ _
                        ⟨k3, fun _ hm => hm⟩ h7
                      · have k4 : root_kept root s2 := hloop.1
                        have n4 : no_new_root_name s s2 :=
                          no_new_root_name_trans _ _ _ n3 hloop.2
                        split at h
                        · simp only [Option.some.injEq, Prod.mk.injEq] at h
                          rw [← h.1]
                          exact ⟨k4, n4⟩
                        · simp only [Option.some.injEq, Prod.mk.injEq] at h
                          rw [← h.1]
                          refine ⟨root_kept_finish root _ f o _ _
                            (root_kept_erase root s2 o k4 ho) ho, ?_⟩
                          intro m hm
                          rw [move_finish_nodes] at hm
                          exact n4 m hm
                      · intro t y t2 hy ht hr
                        have hyname : (t.nodes y).filename ≠ root_path := by
                          intro e
                          have e3 := ht.2 y e
                          unfold list_folder at hy
                          cases hd : (rename_and_add st1 f n)._directoryPaths o with
                          | none => rw [hd] at hy; cases hy
                          | some l =>
                            rw [hd] at hy
                            exact k3.2.2.2.2.2.1 _ l y hd hy e3
                        obtain ⟨a1, a2⟩ := ih t _ _ r t2 ht.1 hyname hr
                        exact ⟨a1, no_new_root_name_trans _ _ _ ht.2 a2⟩
                  · simp only [Option.some.injEq, Prod.mk.injEq] at h
                    rw [← h.1]
                    refine ⟨root_kept_finish root _ f o _ _ k3 ho, ?_⟩
                    intro m hm
                    rw [move_finish_nodes] at hm
                    exact n3 m hm

theorem bootstrap_root_kept (root : NodeId) (heap : NodeId → filenode)
    (hfresh : ∀ m, is_fresh (heap m)) : root_kept root (bootstrap root heap) := by
  refine ⟨by simp [bootstrap, upd], by simp [bootstrap, upd, filenode.create],
    by simp [bootstrap, upd, filenode.create], by simp [bootstrap, upd], ?_, ?_, ?_⟩
  · intro k n hk hne
    simp only [bootstrap, upd, if_neg hne] at hk
    cases hk
  · intro q l m hq hm
    simp only [bootstrap, upd] at hq
    split at hq
    · rw [← Option.some.inj hq] at hm; cases hm
    · cases hq
  · intro x kv hkv
    simp only [bootstrap, upd] at hkv
    split at hkv
    · simp [filenode.create] at hkv
    · rw [(hfresh x).2.2] at hkv
      cases hkv

theorem reachable_root_kept (root : NodeId) (heap : NodeId → filenode) (st : fs_filenodes)
    (hfresh : ∀ m, is_fresh (heap m))
    (h : reachable_by root_safe_call (bootstrap root heap) st) : root_kept root st := by
  induction h with
  | start => exact bootstrap_root_kept root heap hfresh
  | step s c s2 _ hallowed hret ih =>
    cases c with
    | add n =>
      simp only [call_returns] at hret
      rw [hret]
      exact root_kept_add root s n ih hallowed
    | remove name =>
      obtain ⟨fuel, hr⟩ := hret
      exact remove_root_kept root fuel s _ s2 ih
        (fun c hc => ih.2.2.2.2.1 name c hc hallowed) hr
    | move o n r =>
      obtain ⟨fuel, status, hr⟩ := hret
      exact (move_root_kept root fuel s o n r _ ih hallowed hr).1

/-- C13 (amended): in the bootstrap state, and in every state reached from it
by `add` calls of nodes whose path is not the root path, `remove` calls on
other paths than the root path and `move` calls from other paths than the root
path (to any path, the root path included), `find` at the root path returns the
root node, which is a directory, and the root path is a key of the directory
index. The node objects handed to `add` are as their constructor leaves them. -/
theorem root_permanent (root : NodeId) (heap : NodeId → filenode) (st : fs_filenodes)
    (hfresh : ∀ m, is_fresh (heap m))
    (h : reachable_by root_safe_call (bootstrap root heap) st) :
    find st root_path = some root ∧ (st.nodes root).is_directory = true ∧
    (st._directoryPaths root_path).isSome = true := by
  have hk := reachable_root_kept root heap st hfresh h
  refine ⟨hk.1, hk.2.1, ?_⟩
  cases hd : st._directoryPaths root_path with
  | none => exact absurd hd hk.2.2.2.1
  | some l => rfl

/-- C13 (amended) at a concrete sequence: the directory `\a` and the file
`\a\b.txt` are added and `\a` is removed again. -/
theorem root_permanent_witness :
    find ((remove_path 2 table_ab (wpath "\\a")).getD table_ab) root_path = some 0 ∧
    (((remove_path 2 table_ab (wpath "\\a")).getD table_ab).nodes 0).is_directory = true ∧
    (((remove_path 2 table_ab (wpath "\\a")).getD table_ab)._directoryPaths root_path).isSome
      = true :=
  root_permanent 0 scenario_heap _ scenario_heap_fresh
    (reachable_by.step table_ab (call.remove (wpath "\\a")) _
      (reachable_by.step _ (call.add 2) _
        (reachable_by.step _ (call.add 1) _ reachable_by.start
          (by unfold root_safe_call; decide) rfl)
        (by unfold root_safe_call; decide) rfl)
      (by unfold root_safe_call; decide) ⟨2, rfl⟩)

/-- C13 as stated fails: `remove` of the root path on the bootstrap table
returns, and afterwards the root path has no node and is no key of the
directory index. -/
theorem root_removed :
    find table0 root_path = some 0 ∧
    (remove_path 1 table0 root_path).map (fun r => (find r root_path, r._directoryPaths root_path))
      = some (none, none) := by
  decide

/-! ### A replacing move of a file onto its own path -/

/-- The state after `remove` of a node that is no directory and that is an
alternate stream or has no streams: the node has left the path map and the
child set of its parent path, which is a key of the directory index now. -/
theorem remove_file_state (fuel : Nat) (st : fs_filenodes) (g : NodeId)
    (hfile : (st.nodes g).is_directory = false)
    (hs : (st.nodes g).main_stream.isSome = true ∨ (st.nodes g).streams = []) :
    ∃ st1, remove (fuel + 1) st (some g) = some st1 ∧
      st1._directoryPaths = (unlink_node st g (st.nodes g).filename)._directoryPaths ∧
      st1._filenodes = (unlink_node st g (st.nodes g).filename)._filenodes ∧
      ∀ m, (st1.nodes m).filename = (st.nodes m).filename ∧
        (st1.nodes m).fileindex = (st.nodes m).fileindex := by
  obtain ⟨st1, h1⟩ := remove_plain_file fuel st g hfile hs
  refine ⟨st1, h1, ?_, ?_, fun m => ?_⟩
  · rw [remove_some_succ] at h1
    obtain ⟨st2, hdir, hstr⟩ := (remove_body_iff _ st g st1).1 h1
    rcases hdir with ⟨hd, _⟩ | ⟨_, e⟩
    · rw [hfile] at hd; cases hd
    · subst e
      rcases hstr with ⟨m, _, e⟩ | ⟨hm, hloop⟩
      · rw [e]; rfl
      · have hm0 : (st.nodes g).main_stream = none := hm
        rw [hm0] at hs
        rcases hs with h | h
        · cases h
        · have : ((unlink_node st g (st.nodes g).filename).nodes g).streams = [] := h
          rw [this] at hloop
          simp only [for_each, Option.some.injEq] at hloop
          rw [← hloop]
  · rw [remove_some_succ] at h1
    obtain ⟨st2, hdir, hstr⟩ := (remove_body_iff _ st g st1).1 h1
    rcases hdir with ⟨hd, _⟩ | ⟨_, e⟩
    · rw [hfile] at hd; cases hd
    · subst e
      rcases hstr with ⟨m, _, e⟩ | ⟨hm, hloop⟩
      · rw [e]; rfl
      · have hm0 : (st.nodes g).main_stream = none := hm
        rw [hm0] at hs
        rcases hs with h | h
        · cases h
        · have : ((unlink_node st g (st.nodes g).filename).nodes g).streams = [] := h
          rw [this] at hloop
          simp only [for_each, Option.some.injEq] at hloop
          rw [← hloop]
  · have := (remove_frame (fuel + 1) st _ st1 h1).1 m
    exact ⟨this.1, this.2.2.2.1⟩

/-- C20 (amended): let the keys of the path map be the file names of the nodes
they hold and let every key other than the root path have its parent path in
the directory index. Let `p`, not the root path, hold a node `n` that is no
directory and not read-only, that is an alternate stream or has no streams of
its own, and let the leaf name of `p` have no stream suffix. Then
`move(p, p, true)` returns `STATUS_SUCCESS` (with any fuel from two on), and
afterwards `p` holds no node while `n` is a member of the child set of the
parent path of `p`. -/
theorem move_onto_itself (fuel : Nat) (st : fs_filenodes) (p : WString) (n : NodeId)
    (hk : key_consistent st) (hpe : parent_exists st) (hp : p ≠ root_path)
    (hn : find st p = some n) (hfile : (st.nodes n).is_directory = false)
    (hro : ¬ dest_readonly st n) (hs : (get_stream_names p).2 = [])
    (hstr : (st.nodes n).main_stream.isSome = true ∨ (st.nodes n).streams = []) :
    ∃ res, move (fuel + 2) st p p true = some (res, STATUS_SUCCESS) ∧
      find res p = none ∧ n ∈ list_folder res (parent_path p) := by
  have hname : (st.nodes n).filename = p := hk p n hn
  obtain ⟨st1, hrm, hd1, _, hn1⟩ := remove_file_state fuel st n hfile hstr
  have hpass : dest_passes st n p true := by
    refine Or.inr ⟨rfl, fun g hg => ?_⟩
    rw [hn] at hg
    rw [← Option.some.inj hg]
    exact ⟨hro, hfile, hfile⟩
  have hd : (st._directoryPaths (parent_path p)).isSome = true :=
    hpe p (by unfold find at hn; rw [hn]; rfl) hp
  have hmv := move_file_success (fuel + 1) st st1 p p true n hn hpass hd hfile
    (by rw [hn]; exact hrm)
  refine ⟨_, hmv, ?_, ?_⟩
  · unfold moved_file_state find
    rw [move_finish_map, if_pos rfl]
  · have hpar1 : (st1._directoryPaths (parent_path p)).isSome = true := by
      rw [hd1, hname]
      simp [unlink_node, upd]
    have hsn : ((set_filename st1 n p).nodes n).filename = p := by simp [set_filename, upd]
    have hadd : rename_and_add st1 n p =
        insert_node (assign_fileindex (set_filename st1 n p) n) n p (parent_path p) := by
      unfold rename_and_add
      rw [add_no_suffix _ n (by rw [hsn]; exact hs), hsn]
      have : (set_filename st1 n p)._directoryPaths = st1._directoryPaths := rfl
      rw [this, if_pos hpar1]
    have hins := (insert_node_effect (assign_fileindex (set_filename st1 n p) n) n p
      (parent_path p) (by rw [assign_fileindex_dirs]; exact hpar1)).1
    unfold moved_file_state list_folder
    rw [(hn1 n).1, hname,
      move_finish_dirs_other _ _ _ _ _ _ (Or.inr (path_eq_refl (parent_path p))), hadd, hins]
    simp only [Option.getD_some]
    exact (mem_set_insert n n _).2 (Or.inl rfl)

/-- C20 (amended) at a concrete table: the file `\f` is moved onto itself. -/
theorem move_onto_itself_witness :
    ∃ res, move 2 table_f (wpath "\\f") (wpath "\\f") true = some (res, STATUS_SUCCESS) ∧
      find res (wpath "\\f") = none ∧ 4 ∈ list_folder res (parent_path (wpath "\\f")) :=
  have hr : reachable_by no_directory_move (bootstrap 0 scenario_heap) table_f :=
    reachable_by.step _ (call.add 4) _ reachable_by.start trivial rfl
  move_onto_itself 0 table_f (wpath "\\f") 4 (reachable_inv 0 scenario_heap _ hr).1
    (parent_exists_of_covered _ (reachable_inv 0 scenario_heap _ hr).2)
    (by decide) (by decide) (by decide) (by unfold dest_readonly; decide) (by decide)
    (by decide)

theorem table_stale_reachable :
    reachable_by (tidy_call 0) (bootstrap 0 scenario_heap) table_stale :=
  reachable_by.step (add_all table0 [4, 5]) (call.move (wpath "\\f") (wpath "\\h") false) _
    (reachable_by.step _ (call.add 5) _
      (reachable_by.step _ (call.add 4) _ reachable_by.start
        (by unfold tidy_call; decide) rfl)
      (by unfold tidy_call; decide) rfl)
    (by unfold tidy_call; decide) ⟨1, STATUS_SUCCESS, rfl⟩

/-- C20 as stated fails: the table with the file `\f` and its stream `\f:s`,
after `\f` has been renamed to `\h`, has an exact directory index and the
parent path of every key in it; `\f:s` holds the stream node 5, which is no
directory and not read-only. Yet after `move("\f:s", "\f:s", true)`, which
answers `STATUS_SUCCESS`, node 5 is in no child set: the inner `add` finds no
main node `\f` and inserts nothing. -/
theorem move_onto_itself_loses_stream :
    directory_index_exact 0 table_stale ∧ parent_exists table_stale ∧
    key_consistent table_stale ∧
    find table_stale (wpath "\\f:s") = some 5 ∧
    (table_stale.nodes 5).is_directory = false ∧
    ((table_stale.nodes 5).attributes &&& FILE_ATTRIBUTE_READONLY) = 0 ∧
    list_folder table_stale (parent_path (wpath "\\f:s")) = [4, 5] ∧
    (move 2 table_stale (wpath "\\f:s") (wpath "\\f:s") true).map
        (fun res => (res.2, find res.1 (wpath "\\f:s"),
          list_folder res.1 (parent_path (wpath "\\f:s")))) =
      some (STATUS_SUCCESS, none, [4]) := by
  have ht := reachable_tidy 0 scenario_heap table_stale table_stale_reachable
  refine ⟨exact_of_tidy 0 table_stale ht, ?_, ht.1, by decide, by decide, by decide, by decide,
    by decide⟩
  intro k hk hne
  cases hm : table_stale._filenodes k with
  | none => rw [hm] at hk; cases hk
  | some m =>
    have hroot : m ≠ 0 := by
      intro e
      have h1 := ht.1 k m hm
      rw [e, ht.2.2.2.1] at h1
      exact hne h1.symm
    obtain ⟨l, hl, _⟩ := ht.2.1 k m hm hroot
    rw [hl]
    rfl

/-! ### Termination of the cascade of `move` -/

/-- A move of a directory with an empty child set to the name `b` below itself
never returns: the directory becomes its own child and is moved again, one
level deeper each time. -/
theorem move_below_itself_diverges (b : WString) (hb : plain_name b = true) :
    ∀ (fuel : Nat) (s : fs_filenodes) (cs : List WString) (a : NodeId),
      plain_names cs = true → cs ≠ [] →
      s._filenodes (path_of cs) = some a → (s.nodes a).is_directory = true →
      s._directoryPaths (path_of cs) = some [] →
      (∀ j, 1 ≤ j → s._filenodes (path_of (cs ++ List.replicate j b)) = none ∧
        s._directoryPaths (path_of (cs ++ List.replicate j b)) = none) →
      ∀ flag, move fuel s (path_of cs) (path_of (cs ++ [b])) flag = none := by
  intro fuel
  induction fuel with
  | zero => intro s cs a _ _ _ _ _ _ flag; rfl
  | succ k ih =>
    intro s cs a hcs hne hmap hdir hbucket hfree flag
    have hq : plain_names (cs ++ [b]) = true := plain_names_child cs b hcs hb
    have hrep : ∀ j, plain_names (List.replicate j b) = true := by
      intro j
      induction j with
      | zero => rfl
      | succ j ihj =>
        rw [List.replicate_succ]
        exact (plain_names_cons _ _).2 ⟨hb, ihj⟩
    have hf1 := hfree 1 (Nat.le_refl 1)
    simp only [List.replicate_one] at hf1
    obtain ⟨s3map, s3dirs⟩ := rename_and_add_free s a cs b [] hq hf1.2 hbucket
    have hpar : parent_path (path_of (cs ++ [b])) = path_of cs := parent_path_child cs b hcs hb
    have hne1 : path_of cs ≠ path_of (cs ++ [b]) := by
      intro e
      have := congrArg List.length (path_of_inj _ _ hcs hq e)
      simp at this
    rw [move_to_free_path k s _ _ flag a hmap hf1.1 (by rw [hpar, hbucket]; simp), if_pos hdir]
    have hlist : list_folder (rename_and_add s a (path_of (cs ++ [b]))) (path_of cs) = [a] := by
      unfold list_folder
      rw [s3dirs, if_pos rfl]
      rfl
    have hname : ((rename_and_add s a (path_of (cs ++ [b]))).nodes a).filename =
        path_of (cs ++ [b]) := rename_and_add_filename s a _
    have hinner : move k (rename_and_add s a (path_of (cs ++ [b])))
        ((rename_and_add s a (path_of (cs ++ [b]))).nodes a).filename
        (path_append (path_of (cs ++ [b]))
          (filename ((rename_and_add s a (path_of (cs ++ [b]))).nodes a).filename)) flag = none := by
      rw [hname, filename_child cs b hcs hb, path_append_child (cs ++ [b]) b hq hb]
      refine ih _ (cs ++ [b]) a hq (by simp) ?_ ?_ ?_ ?_ flag
      · rw [s3map, if_pos rfl]
      · rw [rename_and_add_is_directory]; exact hdir
      · rw [s3dirs, if_neg (Ne.symm hne1), if_pos rfl, hdir]
        rfl
      · intro j hj
        have hkey : cs ++ [b] ++ List.replicate j b = cs ++ List.replicate (j + 1) b := by
          rw [List.replicate_succ]
          simp
        rw [hkey]
        have hplain : plain_names (cs ++ List.replicate (j + 1) b) = true :=
          (plain_names_append _ _).2 ⟨hcs, hrep (j + 1)⟩
        have n1 : path_of (cs ++ List.replicate (j + 1) b) ≠ path_of (cs ++ [b]) := by
          intro e
          have := congrArg List.length (path_of_inj _ _ hplain hq e)
          simp at this
          omega
        have n2 : path_of (cs ++ List.replicate (j + 1) b) ≠ path_of cs := by
          intro e
          have := congrArg List.length (path_of_inj _ _ hplain hcs e)
          simp at this
        rw [s3map, s3dirs, if_neg n1, if_neg n2, if_neg n1]
        exact hfree (j + 1) (by omega)
    rw [hlist]
    simp only [for_each_status]
    rw [hinner]

theorem table_a_map (k : WString) : table_a._filenodes k =
    if k = wpath "\\a" then some 1 else if k = root_path then some 0 else none := by
  rfl

theorem table_a_eq : table_a = insert_node (assign_fileindex table0 1) 1 (wpath "\\a") root_path := by
  rfl

theorem table_a_dirs (k : WString) : table_a._directoryPaths k =
    if k = root_path then some [1] else if k = wpath "\\a" then some [] else none := by
  rw [table_a_eq]
  have h1 : ((assign_fileindex table0 1).nodes 1).is_directory = true := by decide
  have h2 : ((assign_fileindex table0 1)._directoryPaths (wpath "\\a")).isNone = true := by decide
  simp only [insert_node, h1, h2, Bool.and_self, if_true, upd]
  by_cases e : k = root_path
  · subst e; rfl
  · rw [if_neg e, if_neg e]
    have h3 : (assign_fileindex table0 1)._directoryPaths k = none := by
      show (if k = root_path then _ else _) = _
      rw [if_neg e]
    rw [h3]

/-- C19 (counterexample): in the table that holds the root and the directory
`\a` alone, `\a\b` holds no node and its parent path `\a` is a key of the
directory index, yet `move("\a", "\a\b", false)` does not return, whatever the fuel:
the directory becomes its own child and the loop moves it again, one level
deeper each time. -/
theorem move_below_itself_never_returns :
    built_plain 0 scenario_heap table_a ∧
    find table_a (wpath "\\a") = some 1 ∧ (table_a.nodes 1).is_directory = true ∧
    find table_a (wpath "\\a\\b") = none ∧
    table_a._directoryPaths (parent_path (wpath "\\a\\b")) = some [] ∧
    ∀ fuel, move fuel table_a (wpath "\\a") (wpath "\\a\\b") false = none := by
  refine ⟨⟨scenario_heap_fresh,
    reachable_by.step _ (call.add 1) _ reachable_by.start
      ⟨⟨by decide, ⟨rfl, rfl, rfl⟩, by decide, by decide⟩,
        [wpath "a"], by decide, by decide⟩ rfl⟩, by decide, by decide, by decide, by decide, ?_⟩
  intro fuel
  refine move_below_itself_diverges (wpath "b") (by decide) fuel table_a [wpath "a"] 1
    (by decide) (by decide) (by decide) (by decide) (by decide) ?_ false
  intro j hj
  have hplain : plain_names ([wpath "a"] ++ List.replicate j (wpath "b")) = true := by
    refine (plain_names_append _ _).2 ⟨by decide, ?_⟩
    clear hj
    induction j with
    | zero => rfl
    | succ j ihj =>
      rw [List.replicate_succ]
      exact (plain_names_cons _ _).2 ⟨by decide, ihj⟩
  have n1 : path_of ([wpath "a"] ++ List.replicate j (wpath "b")) ≠ wpath "\\a" := by
    intro e
    have e2 : path_of ([wpath "a"] ++ List.replicate j (wpath "b")) = path_of [wpath "a"] := e
    have := congrArg List.length (path_of_inj _ _ hplain (by decide) e2)
    simp at this
    omega
  have n2 : path_of ([wpath "a"] ++ List.replicate j (wpath "b")) ≠ root_path := by
    intro e
    have e2 : path_of ([wpath "a"] ++ List.replicate j (wpath "b")) = path_of [] := e
    have := congrArg List.length (path_of_inj _ _ hplain (by decide) e2)
    simp at this
  rw [table_a_map, table_a_dirs, if_neg n1, if_neg n2, if_neg n2, if_neg n1]
  exact ⟨rfl, rfl⟩

/-- C19 (amended): in a state built from the bootstrap state by successful `add`
calls of fresh nodes at paths made of plain names, `move(oldPath, newPath,
replaceIfExisting)` returns a status after finitely many recursive calls (with
any fuel from some bound on), for every `oldPath`, `newPath` and flag, provided
that, when `oldPath` holds a directory and `newPath` holds no node, `newPath` is
a path made of plain names that does not lie below `oldPath`. -/
theorem move_cascade_returns (root : NodeId) (heap : NodeId → filenode) (st : fs_filenodes)
    (o n : WString) (r : Bool) (hb : built_plain root heap st)
    (hdir : ∀ d, find st o = some d → (st.nodes d).is_directory = true → find st n = none →
      (∃ q, plain_names q = true ∧ n = path_of q) ∧ ¬ below o n) :
    ∃ N, ∀ fuel, N ≤ fuel → ∃ res, move fuel st o n r = some res := by
  obtain ⟨B, hinv⟩ := built_plain_inv root heap st hb
  refine ⟨B + 2, fun fuel hfuel => ?_⟩
  obtain ⟨k, rfl⟩ : ∃ k, fuel = k + 1 := ⟨fuel - 1, by omega⟩
  have hk : B + 1 ≤ k := by omega
  cases hf : find st o with
  | none => exact ⟨_, move_name_not_found k st o n r hf⟩
  | some f =>
    cases hg : find st n with
    | some g =>
      cases r with
      | false => exact ⟨_, move_name_collision k st o n f g hf hg⟩
      | true =>
        by_cases hden : dest_readonly st g ∨ (st.nodes g).is_directory = true ∨
            (st.nodes f).is_directory = true
        · exact ⟨_, move_access_denied k st o n f g hf hg hden⟩
        · have hpass : dest_passes st f n true := by
            refine Or.inr ⟨rfl, fun g2 hg2 => ?_⟩
            rw [hg] at hg2
            cases hg2
            refine ⟨fun h => hden (Or.inl h), ?_, ?_⟩
            · cases e : (st.nodes g).is_directory
              · rfl
              · exact absurd (Or.inr (Or.inl e)) hden
            · cases e : (st.nodes f).is_directory
              · rfl
              · exact absurd (Or.inr (Or.inr e)) hden
          by_cases hpar : st._directoryPaths (parent_path n) = none
          · exact ⟨_, move_path_not_found k st o n true f hf hpass hpar⟩
          · have hfile : (st.nodes f).is_directory = false := by
              cases e : (st.nodes f).is_directory
              · rfl
              · exact absurd (Or.inr (Or.inr e)) hden
            have hkey : (st.nodes g).filename = n := hinv.1.1.1 n g hg
            obtain ⟨st1, hrm, _⟩ := remove_cascade B root k st (some g) hinv.1.1 (by
              intro c hc
              cases hc
              refine Or.inl ⟨?_, by omega⟩
              rw [hkey]
              exact hg)
            rw [← hg] at hrm
            exact ⟨_, move_file_success k st st1 o n true f hf hpass
              (by cases e : st._directoryPaths (parent_path n) with
                  | none => exact absurd e hpar
                  | some l => rfl) hfile hrm⟩
    | none =>
      have hpass : dest_passes st f n r := Or.inl hg
      by_cases hpar : st._directoryPaths (parent_path n) = none
      · exact ⟨_, move_path_not_found k st o n r f hf hpass hpar⟩
      · cases hd : (st.nodes f).is_directory with
        | false =>
          obtain ⟨st1, hrm, _⟩ := remove_cascade B root k st none hinv.1.1 (by
            intro c hc
            cases hc)
          rw [← hg] at hrm
          exact ⟨_, move_file_success k st st1 o n r f hf hpass
            (by cases e : st._directoryPaths (parent_path n) with
                | none => exact absurd e hpar
                | some l => rfl) hd hrm⟩
        | true =>
          obtain ⟨⟨q, hq, rfl⟩, hbelow⟩ := hdir f hf hd hg
          obtain ⟨p, hp, rfl⟩ := hinv.2.1 o f hf
          have hq0 : q ≠ [] := by
            intro e
            have : find st root_path = none := by rw [e] at hg; exact hg
            unfold find at this
            rw [hinv.1.2.1] at this
            cases this
          have hp0 : p ≠ [] := by
            intro e
            subst e
            apply hbelow
            refine ⟨q.length, List.length_pos.2 hq0, ?_⟩
            have := iterate_parent_path [] rfl q hq
            simpa using this
          obtain ⟨p1, lp, rfl⟩ : ∃ p1 lp, p = p1 ++ [lp] := by
            rcases List.eq_nil_or_concat p with e | ⟨L, b, e⟩
            · exact absurd e hp0
            · exact ⟨L, b, by simpa using e⟩
          obtain ⟨q1, lq, rfl⟩ : ∃ q1 lq, q = q1 ++ [lq] := by
            rcases List.eq_nil_or_concat q with e | ⟨L, b, e⟩
            · exact absurd e hq0
            · exact ⟨L, b, by simpa using e⟩
          obtain ⟨hq1, hlq⟩ := (plain_names_append _ _).1 hq
          have hlq1 : plain_name lq = true := by simpa [plain_names] using hlq
          rw [parent_path_child q1 lq hq1 hlq1] at hpar
          have hne : path_of (q1 ++ [lq]) ≠ path_of (p1 ++ [lp]) := by
            intro e
            rw [e, hf] at hg
            cases hg
          have hsub := subtree_of_plain B root st hinv (B + 1) (p1 ++ [lp]) f hp hf (by omega)
          have hap := apart_of_not_below B root st hinv _ _ hp hq f hf hg hne hbelow
          obtain ⟨s, hmv, _⟩ := move_subtree (B + 1) st p1 q1 lp lq f r hsub hp hq hap
            (free_below B root st hinv _ hq hg) hpar hinv.2.2.2
          exact ⟨_, move_fuel_le _ _ st _ _ r _ (by omega) hmv⟩

/-- C19 (amended) at a concrete table: the directory `\a` with the file
`\a\b.txt` is moved to the free path `\c`, replacement asked for. -/
theorem move_cascade_returns_witness :
    built_plain 0 scenario_heap table_ab ∧
    (∀ d, find table_ab (wpath "\\a") = some d → (table_ab.nodes d).is_directory = true →
      find table_ab (wpath "\\c") = none →
      (∃ q, plain_names q = true ∧ wpath "\\c" = path_of q) ∧
        ¬ below (wpath "\\a") (wpath "\\c")) ∧
    ∃ N, ∀ fuel, N ≤ fuel → ∃ res, move fuel table_ab (wpath "\\a") (wpath "\\c") true = some res :=
  have h : ∀ d, find table_ab (wpath "\\a") = some d → (table_ab.nodes d).is_directory = true →
      find table_ab (wpath "\\c") = none →
      (∃ q, plain_names q = true ∧ wpath "\\c" = path_of q) ∧
        ¬ below (wpath "\\a") (wpath "\\c") :=
    fun _ _ _ _ => ⟨⟨[wpath "c"], by decide, by decide⟩,
      not_below_of_top _ _ (by decide) (by decide)⟩
  ⟨table_ab_built_plain, h,
    move_cascade_returns 0 scenario_heap table_ab (wpath "\\a") (wpath "\\c") true
      table_ab_built_plain h⟩

theorem table_loop_map (k : WString) : table_loop._filenodes k =
    if k = wpath "\\a\\b:s" then some 1 else if k = wpath "\\ab" then some 2
    else if k = wpath "\\a" then some 1 else if k = root_path then some 0 else none := by
  rfl

theorem table_loop_dirs (k : WString) : table_loop._directoryPaths k =
    if k = wpath "\\a" then some [1] else if k = wpath "\\a\\b:s" then some []
    else if k = root_path then some [1, 2] else if k = root_path then some [1]
    else if k = wpath "\\a" then some [] else if k = root_path then some [] else none := by
  rfl

theorem path_of_no_colon (cs : List WString) (h : plain_names cs = true) :
    ':' ∉ path_of cs := by
  have hj : ∀ cs : List WString, plain_names cs = true → ':' ∉ join_names cs := by
    intro cs
    induction cs with
    | nil => intro _; simp [join_names]
    | cons c cs ih =>
      intro h
      obtain ⟨hc, hcs⟩ := (plain_names_cons c cs).1 h
      intro hm
      have hm2 : ':' = preferred_separator ∨ ':' ∈ c ∨ ':' ∈ join_names cs := by
        simpa [join_names] using hm
      rcases hm2 with hm | hm | hm
      · revert hm; decide
      · exact ((plain_name_chars c hc).2 _ hm).2.1 rfl
      · exact ih hcs hm
  unfold path_of
  split
  · decide
  · exact hj cs h

/-- A reachable state in which a move to a free path that is not below the
source does not return either: after `move("\a", "\a\b:s", false)` has returned
`STATUS_OBJECT_PATH_NOT_FOUND` part-way, the directory held at `\a` is a member
of the child set of `\a`, and `move("\a", "\c", false)` moves it below itself
again and again, whatever the fuel. -/
theorem move_diverges_after_failed_move :
    reachable_by any_call (bootstrap 0 loop_heap) table_loop ∧
    find table_loop (wpath "\\a") = some 1 ∧ (table_loop.nodes 1).is_directory = true ∧
    find table_loop (wpath "\\c") = none ∧
    table_loop._directoryPaths (parent_path (wpath "\\c")) ≠ none ∧
    ¬ below (wpath "\\a") (wpath "\\c") ∧
    ∀ fuel, move fuel table_loop (wpath "\\a") (wpath "\\c") false = none := by
  refine ⟨?_, by decide, by decide, by decide, by decide,
    not_below_of_top _ _ (by decide) (by decide), ?_⟩
  · exact reachable_by.step _ (call.move (wpath "\\a") (wpath "\\a\\b:s") false) _
      (reachable_by.step _ (call.add 2) _
        (reachable_by.step _ (call.add 1) _ reachable_by.start trivial rfl) trivial rfl)
      trivial ⟨3, STATUS_OBJECT_PATH_NOT_FOUND, rfl⟩
  · intro fuel
    cases fuel with
    | zero => rfl
    | succ k =>
      obtain ⟨hmap, hdirs⟩ := rename_and_add_free table_loop 1 [] (wpath "c") [1, 2]
        (by decide) (by decide) (by decide)
      rw [move_to_free_path k table_loop _ _ false 1 (by decide) (by decide) (by decide),
        if_pos (by decide)]
      have hlist : list_folder (rename_and_add table_loop 1 (wpath "\\c")) (wpath "\\a") =
          [1] := by decide
      have hinner : move k (rename_and_add table_loop 1 (wpath "\\c"))
          (path_of [wpath "c"]) (path_of ([wpath "c"] ++ [wpath "c"])) false = none := by
        refine move_below_itself_diverges (wpath "c") (by decide) k _ [wpath "c"] 1
          (by decide) (by decide) (by decide) (by decide) (by decide) ?_ false
        intro j hj
        have hplain : plain_names ([wpath "c"] ++ List.replicate j (wpath "c")) = true := by
          refine (plain_names_append _ _).2 ⟨by decide, ?_⟩
          clear hj
          induction j with
          | zero => rfl
          | succ j ihj =>
            rw [List.replicate_succ]
            exact (plain_names_cons _ _).2 ⟨by decide, ihj⟩
        have hlen : ∀ cs, plain_names cs = true → cs.length ≤ 1 →
            path_of ([wpath "c"] ++ List.replicate j (wpath "c")) ≠ path_of cs := by
          intro cs hcs hl e
          have := congrArg List.length (path_of_inj _ _ hplain hcs e)
          simp at this
          omega
        have n0 : path_of ([wpath "c"] ++ List.replicate j (wpath "c")) ≠ root_path :=
          hlen [] (by decide) (by decide)
        have n1 : path_of ([wpath "c"] ++ List.replicate j (wpath "c")) ≠ wpath "\\a" :=
          hlen [wpath "a"] (by decide) (by decide)
        have n2 : path_of ([wpath "c"] ++ List.replicate j (wpath "c")) ≠ wpath "\\ab" :=
          hlen [wpath "ab"] (by decide) (by decide)
        have n3 : path_of ([wpath "c"] ++ List.replicate j (wpath "c")) ≠ wpath "\\c" :=
          hlen [wpath "c"] (by decide) (by decide)
        have n4 : path_of ([wpath "c"] ++ List.replicate j (wpath "c")) ≠ wpath "\\a\\b:s" := by
          intro e
          apply path_of_no_colon _ hplain
          rw [e]
          decide
        have e0 : path_of ([] ++ [wpath "c"]) = wpath "\\c" := by decide
        have e1 : path_of ([] : List WString) = root_path := rfl
        rw [e0] at hmap hdirs
        rw [e1] at hdirs
        rw [hmap, hdirs, if_neg n3, if_neg n0, if_neg n3, table_loop_map, table_loop_dirs,
          if_neg n4, if_neg n2, if_neg n1, if_neg n0, if_neg n1, if_neg n4, if_neg n0,
          if_neg n0, if_neg n1, if_neg n0]
        exact ⟨rfl, rfl⟩
      rw [hlist]
      simp only [for_each_status]
      have hname : ((rename_and_add table_loop 1 (wpath "\\c")).nodes 1).filename =
          wpath "\\c" := rename_and_add_filename _ _ _
      rw [hname]
      have e2 : path_append (wpath "\\c") (filename (wpath "\\c")) =
          path_of ([wpath "c"] ++ [wpath "c"]) := by decide
      have e3 : wpath "\\c" = path_of [wpath "c"] := by decide
      rw [e2]
      nth_rewrite 2 [e3]
      rw [hinner]

/-! ### The stream linkage -/

theorem streams_set_mem_self (l : List (WString × NodeId)) (key : WString) (v : NodeId) :
    (key, v) ∈ streams_set l key v := by
  unfold streams_set
  split
  · rename_i h
    obtain ⟨kv, hkv, hk⟩ := List.any_eq_true.1 h
    exact List.mem_map.2 ⟨kv, hkv, by simp [hk]⟩
  · simp

theorem streams_set_mem_other (l : List (WString × NodeId)) (key : WString) (v : NodeId)
    (kv : WString × NodeId) (h : kv ∈ l) (hne : kv.1 ≠ key) : kv ∈ streams_set l key v := by
  unfold streams_set
  split
  · exact List.mem_map.2 ⟨kv, h, by simp [hne]⟩
  · exact List.mem_append_left _ h

theorem streams_erase_mem (l : List (WString × NodeId)) (key : WString)
    (kv : WString × NodeId) (h : kv ∈ l) (hne : kv.1 ≠ key) : kv ∈ streams_erase l key := by
  unfold streams_erase
  exact List.mem_filter.2 ⟨h, by simp [hne]⟩

theorem link_stream_main (s : fs_filenodes) (mf f m : NodeId) :
    ((link_stream s mf f).nodes m).main_stream =
      if m = f then some mf else (s.nodes m).main_stream := by
  simp only [link_stream, upd]
  by_cases h1 : m = f <;> by_cases h2 : m = mf <;> by_cases h3 : f = mf <;> simp_all

theorem insert_node_nodes (s : fs_filenodes) (f : NodeId) (name parent : WString) :
    (insert_node s f name parent).nodes = s.nodes := rfl

theorem insert_node_map (s : fs_filenodes) (f : NodeId) (name parent k : WString) :
    (insert_node s f name parent)._filenodes k = if k = name then some f else s._filenodes k :=
  rfl

theorem link_stream_map (s : fs_filenodes) (mf f : NodeId) :
    (link_stream s mf f)._filenodes = s._filenodes := rfl

/-- What `add` does to the path map, the main streams and the stream sets. -/
theorem add_linkage_step (s : fs_filenodes) (f : NodeId) :
    ((add s f).2 = STATUS_OBJECT_PATH_NOT_FOUND ∧ (add s f).1 = assign_fileindex s f) ∨
    ((add s f).2 = STATUS_SUCCESS ∧
      (∀ k, (add s f).1._filenodes k =
        if k = (s.nodes f).filename then some f else s._filenodes k) ∧
      (∀ m, m ≠ f → ((add s f).1.nodes m).main_stream = (s.nodes m).main_stream) ∧
      (∀ m kv, kv ∈ (s.nodes m).streams → kv.1 ≠ (s.nodes f).filename →
        kv ∈ ((add s f).1.nodes m).streams) ∧
      (((get_stream_names (s.nodes f).filename).2 = [] ∧
          ((add s f).1.nodes f).main_stream = (s.nodes f).main_stream) ∨
        ((get_stream_names (s.nodes f).filename).2 ≠ [] ∧
          ∃ g, ((add s f).1.nodes f).main_stream = some g ∧
            ((s.nodes f).filename, f) ∈ ((add s f).1.nodes g).streams))) := by
  rcases add_status_cases s f with hs | hs
  swap
  · exact Or.inl ⟨hs, add_failure_state s f hs⟩
  · right
    refine ⟨hs, ?_⟩
    unfold add at hs ⊢
    simp only [assign_fileindex_filename, assign_fileindex_dirs] at hs ⊢
    by_cases hd : (s._directoryPaths (parent_path (s.nodes f).filename)).isNone = true
    · simp [hd] at hs
    · have hd2 : (s._directoryPaths (parent_path (s.nodes f).filename)).isNone = false := by
        cases e : s._directoryPaths (parent_path (s.nodes f).filename) with
        | none => rw [e] at hd; exact absurd rfl hd
        | some l => rfl
      simp only [hd2, Bool.false_eq_true, if_false] at hs ⊢
      by_cases hsuf : (get_stream_names (s.nodes f).filename).2 = []
      · simp only [hsuf, ne_eq, not_true_eq_false, if_false]
        refine ⟨fun k => ?_, fun m _ => ?_, fun m kv hkv _ => ?_, Or.inl ⟨trivial, ?_⟩⟩
        · rw [insert_node_map, assign_fileindex_map]
        · rw [insert_node_nodes]; exact (assign_fileindex_frame s f m).1
        · rw [insert_node_nodes, (assign_fileindex_frame s f m).2.1]; exact hkv
        · rw [insert_node_nodes]; exact (assign_fileindex_frame s f f).1
      · simp only [hsuf, ne_eq, not_false_eq_true, if_true] at hs ⊢
        cases hm : find (assign_fileindex s f)
            (parent_path (s.nodes f).filename ++ (get_stream_names (s.nodes f).filename).1) with
        | none => simp [hm] at hs
        | some g =>
          simp only [hm]
          have hname : ((assign_fileindex s f).nodes f).filename = (s.nodes f).filename :=
            assign_fileindex_filename s f f
          refine ⟨fun k => ?_, fun m hmf => ?_, fun m kv hkv hne => ?_,
            Or.inr ⟨trivial, g, ?_, ?_⟩⟩
          · rw [insert_node_map, link_stream_map, assign_fileindex_map]
          · rw [insert_node_nodes, link_stream_main, if_neg hmf]
            exact (assign_fileindex_frame s f m).1
          · rw [insert_node_nodes, link_stream_streams]
            split
            · rename_i e
              subst e
              apply streams_set_mem_other
              · rw [(assign_fileindex_frame s f m).2.1]; exact hkv
              · rw [hname]; exact hne
            · rw [(assign_fileindex_frame s f m).2.1]; exact hkv
          · rw [insert_node_nodes, link_stream_main, if_pos rfl]
          · rw [insert_node_nodes, link_stream_streams, if_pos rfl, hname]
            exact streams_set_mem_self _ _ _

theorem linked_assign_fileindex (s : fs_filenodes) (f n : NodeId) (h : linked s n) :
    linked (assign_fileindex s f) n := by
  unfold linked at h ⊢
  rw [(assign_fileindex_frame s f n).1, assign_fileindex_filename]
  refine ⟨h.1, fun g hg => ?_⟩
  rw [(assign_fileindex_frame s f g).2.1]
  exact h.2 g hg

/-- The step of `add` for the stream linkage, with the keys in `E` excused: the
nodes held under their own file name keep their linkage, and the added node
gets its own when its main stream was unset or its path has a stream name. -/
theorem add_linkage (s : fs_filenodes) (f : NodeId) (E : WString → Prop)
    (hoth : ∀ k n, s._filenodes k = some n → ¬ E k → (s.nodes n).filename = k ∧ linked s n)
    (hf : (s.nodes f).main_stream = none ∨ (get_stream_names (s.nodes f).filename).2 ≠ []) :
    ∀ k n, (add s f).1._filenodes k = some n → ¬ E k →
      ((add s f).1.nodes n).filename = k ∧ linked (add s f).1 n := by
  intro k n hkn hE
  rcases add_linkage_step s f with ⟨_, hst⟩ | ⟨_, hmap, hmain, hstr, hself⟩
  · rw [hst] at hkn ⊢
    rw [assign_fileindex_map] at hkn
    obtain ⟨h1, h2⟩ := hoth k n hkn hE
    exact ⟨by rw [assign_fileindex_filename]; exact h1, linked_assign_fileindex s f n h2⟩
  · rw [hmap] at hkn
    by_cases hk : k = (s.nodes f).filename
    · rw [if_pos hk] at hkn
      cases hkn
      refine ⟨by rw [(add_kind s f f).1]; exact hk.symm, ?_⟩
      unfold linked
      rw [(add_kind s f f).1]
      rcases hself with ⟨hs0, hm0⟩ | ⟨hs1, g, hg, hmem⟩
      · have hnone : (s.nodes f).main_stream = none := by
          rcases hf with h | h
          · exact h
          · exact absurd hs0 h
        rw [hm0, hnone]
        refine ⟨⟨fun h => absurd rfl h, fun h => absurd hs0 h⟩, fun g hg => ?_⟩
        cases hg
      · rw [hg]
        refine ⟨⟨fun _ => hs1, fun _ => by simp⟩, fun g2 hg2 => ?_⟩
        cases hg2
        exact hmem
    · rw [if_neg hk] at hkn
      obtain ⟨h1, h2⟩ := hoth k n hkn hE
      have hnf : n ≠ f := by
        intro e
        rw [e] at h1
        exact hk h1.symm
      refine ⟨by rw [(add_kind s f n).1]; exact h1, ?_⟩
      unfold linked at h2 ⊢
      rw [(add_kind s f n).1, hmain n hnf]
      refine ⟨h2.1, fun g hg => ?_⟩
      exact hstr g _ (h2.2 g hg) (by rw [h1]; exact hk)

/-- The stream linkage after `add` of a node whose main stream is unset. -/
theorem add_keeps_linkage (s : fs_filenodes) (f : NodeId) (hk : key_consistent s)
    (hl : stream_linkage s) (hf : (s.nodes f).main_stream = none) :
    key_consistent (add s f).1 ∧ stream_linkage (add s f).1 := by
  have h := add_linkage s f (fun _ => False)
    (fun k n hkn _ => ⟨hk k n hkn, hl k n hkn⟩) (Or.inl hf)
  exact ⟨fun k n hkn => (h k n hkn (fun e => e)).1, fun k n hkn => (h k n hkn (fun e => e)).2⟩

theorem cascade_kept_refl (s : fs_filenodes) : cascade_kept s s :=
  ⟨fun _ => Or.inr rfl, fun _ => rfl, fun _ _ h => Or.inl h⟩

theorem cascade_kept_trans (a b c : fs_filenodes) (hab : cascade_kept a b)
    (hbc : cascade_kept b c) : cascade_kept a c := by
  refine ⟨fun k => ?_, fun m => (hbc.2.1 m).trans (hab.2.1 m), fun m kv h => ?_⟩
  · rcases hbc.1 k with h0 | h0
    · exact Or.inl h0
    · rw [h0]; exact hab.1 k
  · rcases hab.2.2 m kv h with h1 | h1
    · exact hbc.2.2 m kv h1
    · right
      rcases hbc.1 kv.1 with h2 | h2
      · exact h2
      · rw [h2]; exact h1

/-- A cascade of removals erases from the stream sets only entries whose key the
path map no longer holds. -/
theorem remove_cascade_kept :
    ∀ (fuel : Nat) (st : fs_filenodes) (x : Option NodeId) (r : fs_filenodes),
      remove fuel st x = some r → cascade_kept st r := by
  intro fuel
  induction fuel with
  | zero =>
    intro st x r h
    cases x with
    | none =>
      simp only [remove_none, Option.some.injEq] at h; subst h
      exact cascade_kept_refl _
    | some f => simp [remove] at h
  | succ n ih =>
    intro st x r h
    cases x with
    | none =>
      simp only [remove_none, Option.some.injEq] at h; subst h
      exact cascade_kept_refl _
    | some f =>
      rw [remove_some_succ, remove_body_iff] at h
      obtain ⟨st2, hdir, hstr⟩ := h
      have hun : cascade_kept st (unlink_node st f (st.nodes f).filename) := by
        refine ⟨fun k => ?_, fun _ => rfl, fun _ _ h => Or.inl h⟩
        simp only [unlink_node, upd]
        split
        · exact Or.inl rfl
        · exact Or.inr rfl
      have hunmap : (unlink_node st f (st.nodes f).filename)._filenodes (st.nodes f).filename
          = none := by simp [unlink_node, upd]
      have h2 : cascade_kept st st2 ∧ st2._filenodes (st.nodes f).filename = none := by
        rcases hdir with ⟨_, s, hs, rfl⟩ | ⟨_, rfl⟩
        · have hl := for_each_rel cascade_kept cascade_kept_refl cascade_kept_trans
            (fun s file => remove n s (some file)) (fun s x b hb => ih s _ b hb) _ _ _ hs
          have he : cascade_kept s (erase_directory s (st.nodes f).filename) :=
            ⟨fun _ => Or.inr rfl, fun _ => rfl, fun _ _ h => Or.inl h⟩
          refine ⟨cascade_kept_trans _ _ _ hun (cascade_kept_trans _ _ _ hl he), ?_⟩
          show s._filenodes (st.nodes f).filename = none
          rcases hl.1 (st.nodes f).filename with h0 | h0
          · exact h0
          · rw [h0]; exact hunmap
        · exact ⟨hun, hunmap⟩
      rcases hstr with ⟨m, _, rfl⟩ | ⟨_, hs⟩
      · refine cascade_kept_trans _ _ _ h2.1 ⟨fun _ => Or.inr rfl,
          fun k => remove_stream_filename st2 m f k, fun x kv hkv => ?_⟩
        by_cases hkey : kv.1 = (st2.nodes f).filename
        · right
          show st2._filenodes kv.1 = none
          rw [hkey, h2.1.2.1 f]
          exact h2.2
        · left
          simp only [remove_stream, upd]
          split
          · rename_i e
            subst e
            exact streams_erase_mem _ _ _ hkv hkey
          · exact hkv
      · exact cascade_kept_trans _ _ _ h2.1
          (for_each_rel cascade_kept cascade_kept_refl cascade_kept_trans
            (fun s (stream : WString × NodeId) => remove n s (find s stream.1))
            (fun s x b hb => ih s _ b hb) _ _ _ hs)

/-- The stream linkage after a cascade of removals. -/
theorem remove_keeps_linkage (fuel : Nat) (st : fs_filenodes) (x : Option NodeId)
    (r : fs_filenodes) (hk : key_consistent st) (hl : stream_linkage st)
    (h : remove fuel st x = some r) : key_consistent r ∧ stream_linkage r := by
  have hkr : key_consistent r :=
    (remove_inv fuel st x r hk (fun _ _ _ hX => absurd trivial hX) h).1
  obtain ⟨hsh, _, hkept⟩ := remove_cascade_kept fuel st x r h
  have hid := (remove_frame fuel st x r h).1
  refine ⟨hkr, fun k n hkn => ?_⟩
  have hst : st._filenodes k = some n := by
    rcases hsh k with h0 | h0
    · rw [h0] at hkn; cases hkn
    · rw [← h0]; exact hkn
  obtain ⟨hA, hB⟩ := hl k n hst
  unfold linked
  rw [(hid n).1, (hid n).2.2.2.2]
  refine ⟨hA, fun g hg => ?_⟩
  rcases hkept g _ (hB g hg) with h1 | h1
  · exact h1
  · exfalso
    rw [hk k n hst, hkn] at h1
    cases h1

/-- The stream linkage after a move of a node that is no directory and whose
main stream is unset or whose new path has a stream name. -/
theorem move_file_keeps_linkage (fuel : Nat) (st st2 : fs_filenodes) (o n : WString)
    (r : Bool) (c : NTSTATUS) (f : NodeId) (hk : key_consistent st) (hl : stream_linkage st)
    (hf : find st o = some f) (hfile : (st.nodes f).is_directory = false)
    (hmain : (st.nodes f).main_stream = none ∨ (get_stream_names n).2 ≠ [])
    (h : move fuel st o n r = some (st2, c)) :
    key_consistent st2 ∧ stream_linkage st2 := by
  cases fuel with
  | zero => simp [move] at h
  | succ fuel =>
    rcases move_file_cases fuel st st2 o n r f c hf hfile h with ⟨rfl, _⟩ | ⟨st1, hrm, rfl, _⟩
    · exact ⟨hk, hl⟩
    · obtain ⟨hk1, hl1⟩ := remove_keeps_linkage fuel st _ st1 hk hl hrm
      have hid := (remove_frame fuel st _ st1 hrm).1
      have hname : (st1.nodes f).filename = o := by
        rw [(hid f).1]
        exact hk o f hf
      have hstep := add_linkage (set_filename st1 f n) f (fun k => k = o)
        (by
          intro k m hkm hko
          have hkm1 : st1._filenodes k = some m := hkm
          have hmf : m ≠ f := by
            intro e
            rw [e] at hkm1
            exact hko ((hk1 k f hkm1).symm.trans hname)
          have hnode : (set_filename st1 f n).nodes m = st1.nodes m := by
            simp [set_filename, upd, hmf]
          have hstreams : ∀ g, ((set_filename st1 f n).nodes g).streams = (st1.nodes g).streams := by
            intro g
            simp only [set_filename, upd]
            split
            · rename_i e; subst e; rfl
            · rfl
          refine ⟨by rw [hnode]; exact hk1 k m hkm1, ?_⟩
          obtain ⟨hA, hB⟩ := hl1 k m hkm1
          unfold linked
          rw [hnode]
          refine ⟨hA, fun g hg => ?_⟩
          rw [hstreams g]
          exact hB g hg)
        (by
          have e1 : ((set_filename st1 f n).nodes f).main_stream = (st.nodes f).main_stream := by
            simp only [set_filename, upd, if_true]
            exact (hid f).2.2.2.2
          have e2 : ((set_filename st1 f n).nodes f).filename = n := by
            simp [set_filename, upd]
          rw [e1, e2]
          exact hmain)
      have hres : ∀ k m, (moved_file_state st1 f o n)._filenodes k = some m →
          ((moved_file_state st1 f o n).nodes m).filename = k ∧
            linked (moved_file_state st1 f o n) m := by
        intro k m hkm
        unfold moved_file_state at hkm ⊢
        rw [move_finish_map] at hkm
        by_cases hko : k = o
        · rw [if_pos hko] at hkm; cases hkm
        · rw [if_neg hko] at hkm
          have := hstep k m hkm hko
          unfold linked at this ⊢
          rw [move_finish_nodes]
          exact this
      exact ⟨fun k m hkm => (hres k m hkm).1, fun k m hkm => (hres k m hkm).2⟩

theorem bootstrap_linkage (root : NodeId) (heap : NodeId → filenode) :
    stream_linkage (bootstrap root heap) := by
  intro k n hkn
  simp only [bootstrap, upd] at hkn
  split at hkn
  · cases hkn
    unfold linked
    have e : (bootstrap root heap).nodes root = filenode.create root_path true FILE_ATTRIBUTE_DIRECTORY := by
      simp [bootstrap, upd]
    rw [e]
    refine ⟨⟨fun h => absurd rfl h, fun h => absurd (by decide) h⟩, fun g hg => ?_⟩
    cases hg
  · cases hkn

/-- The invariant behind the stream linkage, in every state the allowed calls
reach. -/
theorem reachable_linkage (root : NodeId) (heap : NodeId → filenode) (st : fs_filenodes)
    (h : reachable_by linkage_call (bootstrap root heap) st) :
    key_consistent st ∧ stream_linkage st := by
  induction h with
  | start => exact ⟨(bootstrap_inv root heap).1, bootstrap_linkage root heap⟩
  | step s c s2 _ hall hret ih =>
    obtain ⟨hk, hl⟩ := ih
    cases c with
    | add n =>
      have e : s2 = (add s n).1 := hret
      rw [e]
      exact add_keeps_linkage s n hk hl hall
    | remove name =>
      obtain ⟨fuel, hr⟩ := hret
      exact remove_keeps_linkage fuel s _ s2 hk hl hr
    | move o n r =>
      obtain ⟨fuel, status, hm⟩ := hret
      cases hf : find s o with
      | none =>
        cases fuel with
        | zero => simp [move] at hm
        | succ fuel =>
          rw [move_name_not_found fuel s o n r hf] at hm
          cases hm
          exact ⟨hk, hl⟩
      | some f =>
        obtain ⟨h1, h2⟩ := hall f hf
        exact move_file_keeps_linkage fuel s s2 o n r status f hk hl hf h1 h2 hm

/-- C12 (amended): in every state reachable from the bootstrap state by `add`
calls of nodes whose main stream is unset, by `remove` calls, and by `move`
calls of nodes that are no directory and whose main stream is unset or whose
new path has a stream name, every node `n` the path map holds is held under its
own path, its main stream is set if and only if the leaf name of its path has a
non-empty stream name after its first colon, and whenever its main stream is
set, `n` is in the stream set of its main node, under its own path. -/
theorem stream_linkage_invariant (root : NodeId) (heap : NodeId → filenode)
    (st : fs_filenodes) (h : reachable_by linkage_call (bootstrap root heap) st)
    (k : WString) (n : NodeId) (hn : find st k = some n) :
    (st.nodes n).filename = k ∧
    ((st.nodes n).main_stream ≠ none ↔ (get_stream_names (st.nodes n).filename).2 ≠ []) ∧
    ∀ g, (st.nodes n).main_stream = some g →
      ((st.nodes n).filename, n) ∈ (st.nodes g).streams :=
  ⟨(reachable_linkage root heap st h).1 k n hn,
    ((reachable_linkage root heap st h).2 k n hn).1,
    ((reachable_linkage root heap st h).2 k n hn).2⟩

/-- C12 (amended) at a concrete table: after the file `\f` and its stream `\f:s`
have been added, the node held at `\f:s` has `\f` as its main stream and is in
the stream set of `\f`. -/
theorem stream_linkage_invariant_witness :
    reachable_by linkage_call (bootstrap 0 scenario_heap) (add_all table0 [4, 5]) ∧
    find (add_all table0 [4, 5]) (wpath "\\f:s") = some 5 ∧
    (((add_all table0 [4, 5]).nodes 5).filename = wpath "\\f:s" ∧
    (((add_all table0 [4, 5]).nodes 5).main_stream ≠ none ↔
      (get_stream_names ((add_all table0 [4, 5]).nodes 5).filename).2 ≠ []) ∧
    ∀ g, ((add_all table0 [4, 5]).nodes 5).main_stream = some g →
      (((add_all table0 [4, 5]).nodes 5).filename, 5) ∈
        ((add_all table0 [4, 5]).nodes g).streams) :=
  have hr : reachable_by linkage_call (bootstrap 0 scenario_heap) (add_all table0 [4, 5]) :=
    reachable_by.step _ (call.add 5) _
      (reachable_by.step _ (call.add 4) _ reachable_by.start rfl rfl) rfl rfl
  ⟨hr, by decide,
    stream_linkage_invariant 0 scenario_heap (add_all table0 [4, 5]) hr (wpath "\\f:s") 5
      (by decide)⟩

/-- C12 as stated fails: the file `\f:`, handed to `add` with its main stream
unset, is held by the path map with a leaf name that contains the stream
separator, and its main stream is unset: the stream name after the colon is
empty, and `add` links a node only when that name is not empty. -/
theorem add_trailing_colon_unlinked :
    reachable_by linkage_call (bootstrap 0 colon_heap) table_colon ∧
    (add (bootstrap 0 colon_heap) 1).2 = STATUS_SUCCESS ∧
    find table_colon (wpath "\\f:") = some 1 ∧
    (table_colon.nodes 1).filename = wpath "\\f:" ∧
    ':' ∈ filename (table_colon.nodes 1).filename ∧
    (table_colon.nodes 1).main_stream = none :=
  ⟨reachable_by.step _ (call.add 1) _ reachable_by.start rfl rfl,
    by decide, by decide, by decide, by decide, by decide⟩

/-- A stream that is renamed to a path without a stream name keeps its main
stream: after `move("\f:s", "\h", false)` the node held at `\h` still has `\f`
as its main stream. -/
theorem move_stream_to_plain_keeps_main :
    find (add_all table0 [4, 5]) (wpath "\\f:s") = some 5 ∧
    (move 1 (add_all table0 [4, 5]) (wpath "\\f:s") (wpath "\\h") false).map
        (fun res => (res.2, find res.1 (wpath "\\h"), (res.1.nodes 5).filename,
          (res.1.nodes 5).main_stream, (get_stream_names (res.1.nodes 5).filename).2)) =
      some (STATUS_SUCCESS, some 5, wpath "\\h", some 4, []) := by
  decide

/-- A move of a directory that fails part-way leaves the directory in the path
map under its old key with its new path: after `move("\a", "\c:s", false)`,
which answers `STATUS_OBJECT_PATH_NOT_FOUND`, the node held at `\a` has the path
`\c:s`, whose stream name is `s`, and no main stream. -/
theorem move_directory_part_way_unlinked :
    (move 2 table_ab (wpath "\\a") (wpath "\\c:s") false).map
        (fun res => (res.2, find res.1 (wpath "\\a"), (res.1.nodes 1).filename,
          (res.1.nodes 1).main_stream, (get_stream_names (res.1.nodes 1).filename).2)) =
      some (STATUS_OBJECT_PATH_NOT_FOUND, some 1, wpath "\\c:s", none, wpath "s") := by
  decide

/-! ### The status of `move` when all checks pass -/

/-- A directory that is the first member of the child set of its own path is
never removed: `remove` erases it from the child set of its parent path and
then meets it again in the loop over its children. -/
theorem remove_own_child_diverges :
    ∀ (fuel : Nat) (s : fs_filenodes) (d : NodeId) (rest : List NodeId),
      (s.nodes d).is_directory = true →
      parent_path (s.nodes d).filename ≠ (s.nodes d).filename →
      s._directoryPaths (s.nodes d).filename = some (d :: rest) →
      remove fuel s (some d) = none := by
  intro fuel
  induction fuel with
  | zero => intro s d rest _ _ _; rfl
  | succ n ih =>
    intro s d rest hdir hpar hb
    have hb1 : (unlink_node s d (s.nodes d).filename)._directoryPaths (s.nodes d).filename =
        some (d :: rest) := by
      simp only [unlink_node, upd]
      rw [if_neg (Ne.symm hpar)]
      exact hb
    have hrec : remove n (unlink_node s d (s.nodes d).filename) (some d) = none :=
      ih (unlink_node s d (s.nodes d).filename) d rest hdir hpar hb1
    cases h : remove (n + 1) s (some d) with
    | none => rfl
    | some r =>
      exfalso
      rw [remove_some_succ, remove_body_iff] at h
      obtain ⟨st2, hd, _⟩ := h
      rcases hd with ⟨_, s2, hs2, _⟩ | ⟨hfile, _⟩
      · have hl : list_folder (unlink_node s d (s.nodes d).filename) (s.nodes d).filename =
            d :: rest := by
          unfold list_folder
          rw [hb1]
          rfl
        rw [hl] at hs2
        simp only [for_each, hrec] at hs2
        cases hs2
      · rw [hdir] at hfile
        cases hfile

/-- C5 as stated fails in its last sentence: in a state reached by calls that
all returned (seven `add` calls, `remove("\m:p")`, and
`move("\m:p\d", "\m:p", false)`, which answered `STATUS_OBJECT_NAME_COLLISION`
part-way), `\z` and `\m` hold files, `\m` is not read-only, and the parent path
of `\m` is a key of the directory index, so none of the four conditions holds
for `move("\z", "\m", true)` and the source is no directory; yet the call does
not return, whatever the fuel: the removal of the destination `\m` removes its
stream `\m:p`, a directory that is a member of its own child set. -/
theorem move_replace_never_returns :
    reachable_by any_call (bootstrap 0 cycle_heap) table_cycle ∧
    (remove_path 1 table_seven (wpath "\\m:p")).isSome = true ∧
    (move 2 table_six (wpath "\\m:p\\d") (wpath "\\m:p") false).map Prod.snd =
      some STATUS_OBJECT_NAME_COLLISION ∧
    find table_cycle (wpath "\\z") = some 7 ∧ (table_cycle.nodes 7).is_directory = false ∧
    find table_cycle (wpath "\\m") = some 1 ∧ ¬ dest_readonly table_cycle 1 ∧
    (table_cycle.nodes 1).is_directory = false ∧
    (table_cycle._directoryPaths (parent_path (wpath "\\m"))).isSome = true ∧
    ∀ fuel, move fuel table_cycle (wpath "\\z") (wpath "\\m") true = none := by
  have hro : ¬ dest_readonly table_cycle 1 := by unfold dest_readonly; decide
  refine ⟨reachable_run_call _ _ _ _ (reachable_run_call _ _ _ _
      (reachable_add_all _ _ _ reachable_by.start)),
    by decide, by decide, by decide, by decide, by decide, hro, by decide, by decide, ?_⟩
  intro fuel
  cases fuel with
  | zero => rfl
  | succ k =>
    have hrm : remove k table_cycle (find table_cycle (wpath "\\m")) = none := by
      have e : find table_cycle (wpath "\\m") = some 1 := by decide
      rw [e]
      cases k with
      | zero => rfl
      | succ j =>
        cases h : remove (j + 1) table_cycle (some 1) with
        | none => rfl
        | some r =>
          exfalso
          rw [remove_some_succ, remove_body_iff] at h
          obtain ⟨st2, hd, hs⟩ := h
          rcases hd with ⟨hdir, _⟩ | ⟨_, rfl⟩
          · revert hdir; decide
          · rcases hs with ⟨m, hm, _⟩ | ⟨_, hloop⟩
            · have e0 : ((unlink_node table_cycle 1 (table_cycle.nodes 1).filename).nodes 1).main_stream
                  = none := by decide
              rw [e0] at hm
              cases hm
            · have e1 : ((unlink_node table_cycle 1 (table_cycle.nodes 1).filename).nodes 1).streams =
                  [(wpath "\\m:p", 3)] := by decide
              have e2 : find (unlink_node table_cycle 1 (table_cycle.nodes 1).filename)
                  (wpath "\\m:p") = some 3 := by decide
              have e3 := remove_own_child_diverges j
                (unlink_node table_cycle 1 (table_cycle.nodes 1).filename) 3 [5]
                (by decide) (by decide) (by decide)
              rw [e1] at hloop
              simp only [for_each, e2, e3] at hloop
              cases hloop
    rw [move_succ, move_checks_pass _ _ _ _ _ _ 7 (by decide)
      (Or.inr ⟨rfl, fun g hg => by
        have e : find table_cycle (wpath "\\m") = some 1 := by decide
        rw [e] at hg
        cases hg
        exact ⟨hro, by decide, by decide⟩⟩)]
    rw [if_neg (by decide), hrm]

/-- C5 (amended): the status of `move`, in the order of the checks, for every
state and all arguments. No node at the old path:
`STATUS_OBJECT_NAME_NOT_FOUND`. Otherwise a node at the new path without the
replace flag: `STATUS_OBJECT_NAME_COLLISION`. Otherwise a node at the new path
that is read-only or a directory, or that meets a source directory:
`STATUS_ACCESS_DENIED`. Otherwise a new parent path that is no key of the
directory index: `STATUS_OBJECT_PATH_NOT_FOUND`. When all checks pass and the
source is no directory, `move` returns `STATUS_SUCCESS` in each of these cases:
there is no node at the new path; the node at the new path is itself a stream
or has no streams of its own; the state was built from the bootstrap state by
successful `add` calls of fresh nodes at free paths (with any fuel from some
bound on, whatever streams the destination has). -/
theorem move_status_decision (fuel : Nat) (st : fs_filenodes) (o n : WString) (r : Bool) :
    (find st o = none →
      (move (fuel + 1) st o n r).map Prod.snd = some STATUS_OBJECT_NAME_NOT_FOUND) ∧
    (∀ f g, find st o = some f → find st n = some g → r = false →
      (move (fuel + 1) st o n r).map Prod.snd = some STATUS_OBJECT_NAME_COLLISION) ∧
    (∀ f g, find st o = some f → find st n = some g → r = true →
      (dest_readonly st g ∨ (st.nodes g).is_directory = true ∨ (st.nodes f).is_directory = true) →
      (move (fuel + 1) st o n r).map Prod.snd = some STATUS_ACCESS_DENIED) ∧
    (∀ f, find st o = some f → dest_passes st f n r →
      st._directoryPaths (parent_path n) = none →
      (move (fuel + 1) st o n r).map Prod.snd = some STATUS_OBJECT_PATH_NOT_FOUND) ∧
    (∀ f, find st o = some f → dest_passes st f n r →
      (st._directoryPaths (parent_path n)).isSome = true → (st.nodes f).is_directory = false →
      (find st n = none → (move (fuel + 1) st o n r).map Prod.snd = some STATUS_SUCCESS) ∧
      (∀ g, find st n = some g →
        ((st.nodes g).main_stream.isSome = true ∨ (st.nodes g).streams = []) →
        (move (fuel + 2) st o n r).map Prod.snd = some STATUS_SUCCESS) ∧
      (∀ root heap, built root heap st →
        ∃ N, ∀ k, N ≤ k → (move k st o n r).map Prod.snd = some STATUS_SUCCESS)) := by
  refine ⟨?_, ?_, ?_, ?_, ?_⟩
  · intro h
    rw [move_name_not_found fuel st o n r h]; rfl
  · intro f g hf hg hr
    subst hr
    rw [move_name_collision fuel st o n f g hf hg]; rfl
  · intro f g hf hg hr h
    subst hr
    rw [move_access_denied fuel st o n f g hf hg h]; rfl
  · intro f hf hp hd
    rw [move_path_not_found fuel st o n r f hf hp hd]; rfl
  · intro f hf hp hd hfile
    refine ⟨?_, ?_, ?_⟩
    · intro hn
      rw [move_file_success fuel st st o n r f hf hp hd hfile (by rw [hn]; exact remove_none _ _)]
      rfl
    · intro g hg hs
      have hgfile : (st.nodes g).is_directory = false := by
        rcases hp with h | ⟨_, h⟩
        · rw [hg] at h; cases h
        · exact (h g hg).2.1
      obtain ⟨st1, h1⟩ := remove_plain_file fuel st g hgfile hs
      rw [move_file_success (fuel + 1) st st1 o n r f hf hp hd hfile (by rw [hg]; exact h1)]
      rfl
    · intro root heap hb
      obtain ⟨B, hinv⟩ := built_has_inv root heap st hb
      refine ⟨B + 2, fun k hk => ?_⟩
      obtain ⟨j, rfl⟩ : ∃ j, k = j + 1 := ⟨k - 1, by omega⟩
      obtain ⟨st1, hrm, _⟩ := remove_cascade B root j st (find st n) hinv.1 (by
        intro c hc
        refine Or.inl ⟨?_, by omega⟩
        rw [hinv.1.1 n c hc]
        exact hc)
      rw [move_file_success j st st1 o n r f hf hp hd hfile hrm]
      rfl

/-- C5 (amended) at concrete tables: moving the file `\f` to the free path `\h`
in the table holding the root and `\f` answers `STATUS_SUCCESS`; and in the
table built by adding the file `\f`, its stream `\f:s` and the file `\a`, the
replacing move of `\a` onto `\f`, a destination with a stream of its own,
answers `STATUS_SUCCESS` with any fuel from some bound on. -/
theorem move_status_decision_witness :
    (move 1 table_f (wpath "\\f") (wpath "\\h") false).map Prod.snd = some STATUS_SUCCESS ∧
    built 0 scenario_heap (add_all table0 [4, 5, 10]) ∧
    ((add_all table0 [4, 5, 10]).nodes 4).streams ≠ [] ∧
    ∃ N, ∀ k, N ≤ k →
      (move k (add_all table0 [4, 5, 10]) (wpath "\\a") (wpath "\\f") true).map Prod.snd =
        some STATUS_SUCCESS :=
  have hb : built 0 scenario_heap (add_all table0 [4, 5, 10]) :=
    ⟨scenario_heap_fresh,
      reachable_by.step _ (call.add 10) _
        (reachable_by.step _ (call.add 5) _
          (reachable_by.step _ (call.add 4) _ reachable_by.start
            ⟨by decide, ⟨rfl, rfl, rfl⟩, by decide, by decide⟩ rfl)
          ⟨by decide, ⟨by decide, by decide, by decide⟩, by decide, by decide⟩ rfl)
        ⟨by decide, ⟨by decide, by decide, by decide⟩, by decide, by decide⟩ rfl⟩
  have hro : ¬ dest_readonly (add_all table0 [4, 5, 10]) 4 := by unfold dest_readonly; decide
  ⟨((move_status_decision 0 table_f (wpath "\\f") (wpath "\\h") false).2.2.2.2 4
      (by decide) (Or.inl (by decide)) (by decide) (by decide)).1 (by decide),
    hb, by decide,
    ((move_status_decision 0 (add_all table0 [4, 5, 10]) (wpath "\\a") (wpath "\\f") true).2.2.2.2
      10 (by decide)
      (Or.inr ⟨rfl, fun g hg => by
        have e : find (add_all table0 [4, 5, 10]) (wpath "\\f") = some 4 := by decide
        rw [e] at hg
        cases hg
        exact ⟨hro, by decide, by decide⟩⟩)
      (by decide) (by decide)).2.2 0 scenario_heap hb⟩

end memfs
